import Mathlib

/-! # Type compatibility and class layout of the code generator (P4)

A shallow embedding of `ast.cc`, `ast_type.{h,cc}` and `ast_decl.{h,cc}` of the
code-generation project.

* AST nodes are values.  A pointer to a declaration (`Identifier::cache`) is an
  index into a `Heap`, the table of top-level declarations, so that an `extends`
  chain may be cyclic or dangling exactly as a pointer graph may be.
* Functions that walk pointers take a step budget (`fuel`) and return
  `Except Fault`; `Fault.fuel` means the budget ran out, `Fault.assertion` that an
  `Assert` failed, `Fault.nullDeref` that a member function was called through
  `NULL`, `Fault.outOfRange` that `vector::at` or `vector::back` had no element
  to return.
* Sizes and offsets are `Int`.  The products `n * 4 + 4` stay far below `2^31`
  for any class a parser can build, so no wrap-around is modelled.
-/

namespace P4

/-! ## Data model -/

/-- Reasons for which a call does not return a value. -/
inductive Fault
  | assertion
  | nullDeref
  | fuel
  | outOfRange
  deriving DecidableEq, Repr

/-- Address of a declaration node. -/
abbrev Ptr := Nat

/-- The class `Identifier` (ast.h): the name and the resolved declaration `cache`. -/
structure Identifier where
  name : String
  cache : Option Ptr := none
  deriving DecidableEq, Repr

/-- The seven objects of the base class `Type` (ast_type.cc:18-24). -/
inductive Builtin
  | intType
  | doubleType
  | voidType
  | boolType
  | nullType
  | stringType
  | errorType
  deriving DecidableEq, Repr

/-- The class `NamedType` (ast_type.h): `type_of_expr` records whether
`ReturnType()` is non-NULL. -/
structure NamedType where
  id : Identifier
  type_of_expr : Bool := true
  deriving DecidableEq, Repr

/-- The class `Type` with its two subclasses.  A `base` value is one of the seven
shared objects, so two `base` values denote the same object exactly when their
`Builtin` tags agree; `type_of_expr` is the state of the node's field. -/
inductive Ty
  | base (b : Builtin) (type_of_expr : Bool)
  | named (n : NamedType)
  | array (elemType : Ty) (type_of_expr : Bool)
  deriving DecidableEq, Repr

/-- Modelled from the spec: the enumeration `Segment` of tac.h, which is not among
the sources; a location is relative to the frame pointer or the global pointer. -/
inductive Segment
  | fpRelative
  | gpRelative
  deriving DecidableEq, Repr

/-- Modelled from the spec: the TAC operand `Location` of tac.h, which is not among
the sources, as built by `Location(segment, offset, name)` and
`Location(segment, offset, name, base)`; a non-null `base` denotes an indirection
through that base. -/
inductive Location
  | plain (segment : Segment) (offset : Int) (name : String)
  | based (segment : Segment) (offset : Int) (name : String) (base : Location)
  deriving DecidableEq, Repr

/-- The class `VarDecl` (ast_decl.h). -/
structure VarDecl where
  id : Identifier
  type : Ty
  type_of_expr : Bool := true
  class_member_offset : Int := -1
  emit_loc : Option Location := none
  deriving DecidableEq, Repr

/-- The class `FnDecl` (ast_decl.h), without the body. -/
structure FnDecl where
  id : Identifier
  returnType : Ty
  formals : List VarDecl
  type_of_expr : Bool := true
  vtable_ofst : Int := -1
  deriving DecidableEq, Repr

/-- An element of `ClassDecl::members` (`List<Decl *>`): the grammar puts
variables and functions there; `other` stands for any other `Decl`. -/
inductive Member
  | var (v : VarDecl)
  | fn (f : FnDecl)
  | other (id : Identifier)
  deriving DecidableEq, Repr

/-- The class `ClassDecl` (ast_decl.h).  The constructor sets `inst_size = 4`,
`vtable_size = 0`; the two member lists are allocated by `OffsetAssign`. -/
structure ClassDecl where
  id : Identifier
  extends_ : Option NamedType
  implements : List NamedType
  members : List Member
  inst_size : Int := 4
  vtable_size : Int := 0
  var_members : List VarDecl := []
  fn_members : List FnDecl := []
  deriving DecidableEq, Repr

/-- The class `InterfaceDecl` (ast_decl.h). -/
structure InterfaceDecl where
  id : Identifier
  members : List Member
  deriving DecidableEq, Repr

/-- The class `Decl` with its four subclasses. -/
inductive Decl
  | var (v : VarDecl)
  | fn (f : FnDecl)
  | cls (c : ClassDecl)
  | iface (i : InterfaceDecl)
  deriving DecidableEq, Repr

/-- The declaration nodes, by address. -/
abbrev Heap := List Decl

/-- The call `Identifier::ReturnCache()` followed through the heap; `none` is `NULL`. -/
def Identifier.ReturnCache (heap : Heap) (this : Identifier) : Option Decl :=
  match this.cache with
  | none => none
  | some p => heap[p]?

/-- The method `Identifier::Equivalent` (ast.cc:72-78): `strcmp` of the two names. -/
def Identifier.Equivalent (this other : Identifier) : Bool :=
  this.name == other.name

/-- The accessor `Decl::GetId()` on a class member. -/
def Member.GetId : Member → Identifier
  | .var v => v.id
  | .fn f => f.id
  | .other id => id

/-- The accessor `Decl::GetId()`. -/
def Decl.GetId : Decl → Identifier
  | .var v => v.id
  | .fn f => f.id
  | .cls c => c.id
  | .iface i => i.id

/-- The test `Decl::IsClassDecl()` (ast_decl.h:38, 93). -/
def Decl.IsClassDecl : Decl → Bool
  | .cls _ => true
  | _ => false

/-- The test `Decl::IsInterfaceDecl()` (ast_decl.h:39, 117). -/
def Decl.IsInterfaceDecl : Decl → Bool
  | .iface _ => true
  | _ => false

/-- The cast `dynamic_cast<ClassDecl *>(d)`: `none` for `NULL` and for any other node. -/
def castClassDecl : Option Decl → Option ClassDecl
  | some (.cls c) => some c
  | _ => none

/-! ## Types: `Equivalent` and `IsCompatibleWith` -/

/-- The call `Node::ReturnType()` on a type node: is `type_of_expr` set. -/
def Ty.ReturnType : Ty → Bool
  | .base _ t => t
  | .named n => n.type_of_expr
  | .array _ t => t

/-- The test `Type::Type_NamedType()` (ast_type.h:44, 72). -/
def Ty.Type_NamedType : Ty → Bool
  | .named _ => true
  | _ => false

/-- The test `Type::Type_ArrayType()` (ast_type.h:45, 95). -/
def Ty.Type_ArrayType : Ty → Bool
  | .array _ _ => true
  | _ => false

/-- Pointer comparison `this == other` where `this` is the shared object `b`. -/
def Ty.isBuiltin (b : Builtin) : Ty → Bool
  | .base b2 _ => b == b2
  | _ => false

/-- The methods `Type::Equivalent` (ast_type.h:37), `NamedType::Equivalent`
(ast_type.cc:106-116) and `ArrayType::Equivalent` (ast_type.cc:185-195). -/
def Ty.Equivalent : Ty → Ty → Except Fault Bool
  | .base b _, other => .ok (other.isBuiltin b)
  | .named n, other =>
    if !(n.type_of_expr && other.ReturnType) then .error .assertion
    else
      match other with
      | .named nt => .ok (n.id.Equivalent nt.id)
      | _ => .ok false
  | .array elemType t, other =>
    if !(t && other.ReturnType) then .error .assertion
    else
      match other with
      | .array elemType2 _ => elemType.Equivalent elemType2
      | _ => .ok false

/-- The method `ClassDecl::IsChildOf` (ast_decl.cc:282-325).  One unit of `fuel` is spent
per activation; the cast of an unresolved `extends` yields `NULL`, through
which the recursive call is made. -/
def ClassDecl.IsChildOf (heap : Heap) : Nat → ClassDecl → Decl → Except Fault Bool
  | 0, _, _ => .error .fuel
  | fuel + 1, this, other =>
    if other.IsClassDecl then
      if this.id.Equivalent other.GetId then .ok true
      else
        match this.extends_ with
        | none => .ok false
        | some ext =>
          match castClassDecl (ext.id.ReturnCache heap) with
          | none => .error .nullDeref
          | some d => ClassDecl.IsChildOf heap fuel d other
    else if other.IsInterfaceDecl then
      if this.implements.any (fun t => t.id.Equivalent other.GetId) then .ok true
      else
        match this.extends_ with
        | none => .ok false
        | some ext =>
          match castClassDecl (ext.id.ReturnCache heap) with
          | none => .error .nullDeref
          | some d => ClassDecl.IsChildOf heap fuel d other
    else .ok false

/-- The last branch of `NamedType::IsCompatibleWith` (ast_type.cc:134-147):
both caches are asserted, then `cdecl2->IsChildOf(decl1)`. -/
def NamedType.childCheck (heap : Heap) (fuel : Nat) (this nt : NamedType) :
    Except Fault Bool :=
  match this.id.ReturnCache heap, nt.id.ReturnCache heap with
  | some decl1, some decl2 =>
    match decl2 with
    | .cls cdecl2 => cdecl2.IsChildOf heap fuel decl1
    | _ => .ok false
  | _, _ => .error .assertion

/-- The methods `Type::IsCompatibleWith` (ast_type.h:38), `NamedType::IsCompatibleWith`
(ast_type.cc:118-148) and `ArrayType::IsCompatibleWith` (ast_type.cc:197-209). -/
def Ty.IsCompatibleWith (heap : Heap) (fuel : Nat) : Ty → Ty → Except Fault Bool
  | .base b _, other => .ok (other.isBuiltin b)
  | .named n, other =>
    if !(n.type_of_expr && other.ReturnType) then .error .assertion
    else if other.isBuiltin .nullType then .ok true
    else
      match other with
      | .named nt =>
        match (Ty.named n).Equivalent (.named nt) with
        | .error e => .error e
        | .ok true => .ok true
        | .ok false => n.childCheck heap fuel nt
      | _ => .ok false
  | .array elemType t, other =>
    if !(t && other.ReturnType) then .error .assertion
    else if other.isBuiltin .nullType then elemType.IsCompatibleWith heap fuel other
    else (Ty.array elemType t).Equivalent other

/-- The built-in type object `b` once `SetSelfType` has run (ast_type.cc:42-55). -/
def Ty.builtin (b : Builtin) : Ty := .base b true

/-- Every node of the type has its `type_of_expr` set. -/
def Ty.resolved : Ty → Bool
  | .base _ t => t
  | .named n => n.type_of_expr
  | .array elemType t => t && elemType.resolved

/-! ## Class layout: `ClassDecl::OffsetAssign` -/

/-- Modelled from the spec: `List<T>::InsertAt(elem, index)` of list.h, which is not
among the sources; the element is placed at `index` and the later elements move
up by one. -/
def InsertAt {α : Type} (elem : α) (index : Nat) (l : List α) : List α :=
  l.take index ++ elem :: l.drop index

/-- Modelled from the spec: `List<T>::RemoveAt(index)` of list.h, which is not among
the sources; the element at `index` is dropped and the later elements move down
by one. -/
def RemoveAt {α : Type} (index : Nat) (l : List α) : List α :=
  l.take index ++ l.drop (index + 1)

/-- The loop of `ClassDecl::MembersForList` (ast_decl.cc:327-337).  `loop i` runs the
iterations `i - 1, ..., 0` of the downward `for`. -/
def MembersForList.loop (members : List Member) :
    Nat → List VarDecl × List FnDecl → List VarDecl × List FnDecl
  | 0, acc => acc
  | i + 1, (vars, fns) =>
    match members[i]? with
    | some (.var v) => MembersForList.loop members i (InsertAt v 0 vars, fns)
    | some (.fn f) => MembersForList.loop members i (vars, InsertAt f 0 fns)
    | _ => MembersForList.loop members i (vars, fns)

/-- The method `ClassDecl::MembersForList` (ast_decl.cc:327-337). -/
def ClassDecl.MembersForList (this : ClassDecl) (vars : List VarDecl) (fns : List FnDecl) :
    List VarDecl × List FnDecl :=
  MembersForList.loop this.members this.members.length (vars, fns)

/-- The `while (class_dec)` loop of `OffsetAssign` (ast_decl.cc:343-351): one
unit of `fuel` per class visited; a cache that is not a class ends the loop. -/
def collectMembers (heap : Heap) :
    Nat → ClassDecl → List VarDecl → List FnDecl → Except Fault (List VarDecl × List FnDecl)
  | 0, _, _, _ => .error .fuel
  | fuel + 1, class_dec, var_members, fn_members =>
    match class_dec.MembersForList var_members fn_members with
    | (vars, fns) =>
      match class_dec.extends_ with
      | none => .ok (vars, fns)
      | some type =>
        match castClassDecl (type.id.ReturnCache heap) with
        | none => .ok (vars, fns)
        | some next => collectMembers heap fuel next vars fns

/-- The inner `for (j = i + 1; ...)` loop (ast_decl.cc:356-366).  A step either
advances `j` or shortens the list, so `fuel` at least the length of the list
is never used up. -/
def dedupInner (func1 : FnDecl) (i : Nat) : Nat → Nat → List FnDecl → List FnDecl
  | 0, _, fn_members => fn_members
  | fuel + 1, j, fn_members =>
    match fn_members[j]? with
    | none => fn_members
    | some func2 =>
      if func1.id.name == func2.id.name then
        dedupInner func1 i fuel j (RemoveAt j (InsertAt func2 i (RemoveAt i fn_members)))
      else
        dedupInner func1 i fuel (j + 1) fn_members

/-- The outer `for (i = 0; ...)` loop (ast_decl.cc:353-367).  Each step advances
`i` and the list never grows, so `fuel` equal to the length of the list is
never used up (`dedupOuter_eq`). -/
def dedupOuter : Nat → Nat → List FnDecl → List FnDecl
  | 0, _, fn_members => fn_members
  | fuel + 1, i, fn_members =>
    match fn_members[i]? with
    | none => fn_members
    | some func1 =>
      dedupOuter fuel (i + 1) (dedupInner func1 i fn_members.length (i + 1) fn_members)

/-- The operand `CodeGenerator::ptrThis` (codegen.cc:13). -/
def ptrThis : Location := .plain .fpRelative 4 "this"

/-- The method `VarDecl::OffsetForMember` (ast_decl.cc:83-87). -/
def VarDecl.OffsetForMember (this : VarDecl) (_inClass : Bool) (offset : Int) : VarDecl :=
  { this with
    class_member_offset := offset
    emit_loc := some (.based .fpRelative offset this.id.name ptrThis) }

/-- The method `FnDecl::OffsetForMember` (ast_decl.cc:609-612). -/
def FnDecl.OffsetForMember (this : FnDecl) (_inClass : Bool) (offset : Int) : FnDecl :=
  { this with vtable_ofst := offset }

/-- The loop over `fn_members` for one method `dec` (ast_decl.cc:383-388);
`i` is the index of the head of the list still to visit. -/
def vtableLoop : Nat → List FnDecl → FnDecl → FnDecl
  | _, [], dec => dec
  | i, func1 :: rest, dec =>
    if func1.id.name == dec.id.name then
      vtableLoop (i + 1) rest (dec.OffsetForMember true ((i : Int) * 4))
    else
      vtableLoop (i + 1) rest dec

/-- The downward loop over `members` (ast_decl.cc:372-390).  The members after
the head are visited first; the result carries the members as written and the
final value of `temp`. -/
def assignMembers (fn_members : List FnDecl) : List Member → Int → List Member × Int
  | [], temp => ([], temp)
  | dec :: rest, temp =>
    match assignMembers fn_members rest temp with
    | (rest2, temp2) =>
      match dec with
      | .var v => (.var (v.OffsetForMember true (temp2 - 4)) :: rest2, temp2 - 4)
      | .fn f => (.fn (vtableLoop 0 fn_members f) :: rest2, temp2)
      | .other id => (.other id :: rest2, temp2)

/-- The method `ClassDecl::OffsetAssign` (ast_decl.cc:339-391): the class node
after the call.  `var_members` and `fn_members` list the nodes as they were
collected; what `OffsetForMember` wrote into the class's own members shows in
`members`. -/
def ClassDecl.OffsetAssign (heap : Heap) (fuel : Nat) (this : ClassDecl) :
    Except Fault ClassDecl :=
  match collectMembers heap fuel this [] [] with
  | .error e => .error e
  | .ok (var_members, fns) =>
    let fn_members := dedupOuter fns.length 0 fns
    let inst_size : Int := (var_members.length : Int) * 4 + 4
    let vtable_size : Int := (fn_members.length : Int) * 4
    .ok { this with
          var_members := var_members
          fn_members := fn_members
          inst_size := inst_size
          vtable_size := vtable_size
          members := (assignMembers fn_members this.members inst_size).1 }

/-! ## Notions used to state the properties -/

/-- The classes the `extends` pointers lead through, the class itself first,
following the cast used by the code; `Fault.fuel` if the walk does not end
within `fuel` classes (in particular on a cycle). -/
def extendsChain (heap : Heap) : Nat → ClassDecl → Except Fault (List ClassDecl)
  | 0, _ => .error .fuel
  | fuel + 1, c =>
    match c.extends_ with
    | none => .ok [c]
    | some type =>
      match castClassDecl (type.id.ReturnCache heap) with
      | none => .ok [c]
      | some next =>
        match extendsChain heap fuel next with
        | .error e => .error e
        | .ok chain => .ok (c :: chain)

/-- Every `extends` of the class points to a class declaration. -/
def ClassDecl.extendsResolved (heap : Heap) (c : ClassDecl) : Bool :=
  match c.extends_ with
  | none => true
  | some type => (castClassDecl (type.id.ReturnCache heap)).isSome

/-- The variables among a member list, in declaration order. -/
def ownVars : List Member → List VarDecl
  | [] => []
  | .var v :: rest => v :: ownVars rest
  | _ :: rest => ownVars rest

/-- The functions among a member list, in declaration order. -/
def ownFns : List Member → List FnDecl
  | [] => []
  | .fn f :: rest => f :: ownFns rest
  | _ :: rest => ownFns rest

/-- Variables of a chain (class first, root last), root's variables first. -/
def chainVars : List ClassDecl → List VarDecl
  | [] => []
  | c :: rest => chainVars rest ++ ownVars c.members

/-- Functions of a chain (class first, root last), root's functions first. -/
def chainFns : List ClassDecl → List FnDecl
  | [] => []
  | c :: rest => chainFns rest ++ ownFns c.members

/-- The names of a list of functions, in order. -/
def fnNames (l : List FnDecl) : List String := l.map (fun f => f.id.name)

/-- The last function of the list with the given name. -/
def lastFnNamed (name : String) : List FnDecl → Option FnDecl
  | [] => none
  | f :: rest =>
    match lastFnNamed name rest with
    | some g => some g
    | none => if f.id.name == name then some f else none

/-- The function named `name` that ends up in the slot whose occupant is `g`
after the functions of the list have been visited: the last one of that name,
or `g` if there is none. -/
def lastMatch (name : String) (g : FnDecl) : List FnDecl → FnDecl
  | [] => g
  | h :: t => if name == h.id.name then lastMatch name h t else lastMatch name g t

/-- The list the two nested loops leave: for each name one slot, in the order
of first occurrence, holding the last function of that name. -/
def layoutFns : List FnDecl → List FnDecl
  | [] => []
  | f :: rest =>
    lastMatch f.id.name f rest ::
      layoutFns (rest.filter (fun h => !(f.id.name == h.id.name)))
termination_by l => l.length
decreasing_by
  simp_wf
  exact Nat.lt_succ_of_le (List.length_filter_le _ _)

/-- What the downward loop writes into the member at position `p`. -/
def writtenMember (fn_members : List FnDecl) (ms : List Member) (temp : Int) (p : Nat) :
    Member → Member
  | .var v => .var (v.OffsetForMember true (temp - 4 * ((ownVars (ms.drop p)).length : Int)))
  | .fn f => .fn (vtableLoop 0 fn_members f)
  | .other id => .other id

/-! ## The fields `OffsetAssign` writes

`OffsetAssign` reads identifiers, `extends` links and member lists; it writes
`inst_size`, `vtable_size`, `var_members`, `fn_members` and, through
`OffsetForMember`, `class_member_offset`, `emit_loc` and `vtable_ofst`.  The
functions below reset the written fields, so that two states of the program
taken before and after some of the layout calls have the same image. -/

/-- The variable with the fields written by `OffsetForMember` reset. -/
def VarDecl.eraseLayout (v : VarDecl) : VarDecl :=
  { v with class_member_offset := -1, emit_loc := none }

/-- The function with the field written by `OffsetForMember` reset. -/
def FnDecl.eraseLayout (f : FnDecl) : FnDecl :=
  { f with vtable_ofst := -1 }

/-- The member with its layout fields reset. -/
def Member.eraseLayout : Member → Member
  | .var v => .var v.eraseLayout
  | .fn f => .fn f.eraseLayout
  | .other id => .other id

/-- The class with every field written by `OffsetAssign` reset. -/
def ClassDecl.eraseLayout (c : ClassDecl) : ClassDecl :=
  { c with
    members := c.members.map Member.eraseLayout
    inst_size := 4
    vtable_size := 0
    var_members := []
    fn_members := [] }

/-- The declaration with its layout fields reset. -/
def Decl.eraseLayout : Decl → Decl
  | .var v => .var v.eraseLayout
  | .cls c => .cls c.eraseLayout
  | d => d

/-- The offset `OffsetForMember` left in a member. -/
def Member.writtenOffset : Member → Option Int
  | .var v => some v.class_member_offset
  | .fn f => some f.vtable_ofst
  | .other _ => none

/-! ## Concrete programs used by the witnesses -/

/-- The class `class A {}`. -/
def exA : ClassDecl :=
  { id := { name := "A", cache := some 0 }, extends_ := none, implements := [], members := [] }
/-- The class `class B extends A implements I {}`. -/
def exB : ClassDecl :=
  { id := { name := "B", cache := some 1 }, extends_ := some { id := { name := "A", cache := some 0 } },
    implements := [{ id := { name := "I", cache := some 2 } }], members := [] }
/-- The interface `interface I {}`. -/
def exI : InterfaceDecl := { id := { name := "I", cache := some 2 }, members := [] }
/-- The declarations of the program, `A` at address 0, `B` at 1, `I` at 2. -/
def exHeap : Heap := [.cls exA, .cls exB, .iface exI]

/-- A method `void name(int arg)`. -/
def exF (name arg : String) : FnDecl :=
  { id := { name := name }, returnType := .base .voidType true,
    formals := [{ id := { name := arg }, type := .base .intType true }] }

/-- A field `int name`. -/
def exV (name : String) : VarDecl := { id := { name := name }, type := .base .intType true }

/-- The class `class P { int x; void f(int a); void g(int a); }`. -/
def exP : ClassDecl :=
  { id := { name := "P", cache := some 0 }, extends_ := none, implements := [],
    members := [.var (exV "x"), .fn (exF "f" "a"), .fn (exF "g" "a")] }

/-- The class `class Q extends P { int y; void h(int b); int z; void g(int b); }`. -/
def exQ : ClassDecl :=
  { id := { name := "Q", cache := some 1 },
    extends_ := some { id := { name := "P", cache := some 0 } }, implements := [],
    members := [.var (exV "y"), .fn (exF "h" "b"), .var (exV "z"), .fn (exF "g" "b")] }

/-- The declarations of the program, `P` at address 0 and `Q` at address 1. -/
def exHeap2 : Heap := [.cls exP, .cls exQ]

/-- The class `P` after its layout: one field at offset 4, `f` in slot 0, `g`
in slot 1. -/
def exPlaid : ClassDecl :=
  { exP with
    inst_size := 8
    vtable_size := 8
    var_members := [exV "x"]
    fn_members := [exF "f" "a", exF "g" "a"]
    members := [.var ((exV "x").OffsetForMember true 4),
      .fn ((exF "f" "a").OffsetForMember true 0), .fn ((exF "g" "a").OffsetForMember true 4)] }

/-- The program after the layout of `P` and before the layout of `Q`. -/
def exHeap3 : Heap := [.cls exPlaid, .cls exQ]

/-! ## Symbol table (scope.h, scope.cc) -/

/-- Modelled from the spec: the template `Hashtable<Decl *>` of hashtable.h, which
is not among the sources; `Enter` binds a key to a declaration, replacing an
earlier binding of the key, and `Lookup` returns the declaration bound to the
key or `NULL`. -/
structure Hashtable where
  entries : List (String × Decl)
  deriving DecidableEq, Repr

/-- The search of `Hashtable::Lookup` through the entries. -/
def Hashtable.lookupIn (key : String) : List (String × Decl) → Option Decl
  | [] => none
  | (k, d) :: rest => if k == key then some d else Hashtable.lookupIn key rest

/-- The call `Hashtable::Lookup(key)`; `none` is `NULL`. -/
def Hashtable.Lookup (ht : Hashtable) (key : String) : Option Decl :=
  Hashtable.lookupIn key ht.entries

/-- The call `Hashtable::Enter(key, value)`. -/
def Hashtable.Enter (ht : Hashtable) (key : String) (value : Decl) : Hashtable :=
  { entries := (key, value) :: ht.entries.filter (fun e => !(e.1 == key)) }

/-- The class `Scope` (scope.h:17-50); the constructor leaves `ht`, `parent` and
`owner` `NULL` and the interface list empty. -/
structure Scope where
  ht : Option Hashtable := none
  parent : Option String := none
  interface : List String := []
  owner : Option String := none
  deriving DecidableEq, Repr

/-- The constructor `Scope::Scope()` (scope.h:26-33). -/
def Scope.new : Scope := { ht := none, parent := none, interface := [], owner := none }

/-- The test `Scope::HasParent()`. -/
def Scope.HasParent (s : Scope) : Bool := s.parent.isSome

/-- The test `Scope::HasOwner()`. -/
def Scope.HasOwner (s : Scope) : Bool := s.owner.isSome

/-- The test `Scope::HasInterface()`. -/
def Scope.HasInterface (s : Scope) : Bool := !s.interface.isEmpty

/-- The statement `if (s->ContainsHT()) dec = s->GetHT()->Lookup(key);` run with
`dec == NULL`: the declaration the scope binds to the key. -/
def Scope.find (s : Scope) (key : String) : Option Decl :=
  match s.ht with
  | none => none
  | some ht => ht.Lookup key

/-- The class `STable` (scope.h:52-80).  The two vectors are lists, front
first; the indices are natural numbers, `-1` of `SearchScopeOwner` is `none`. -/
structure STable where
  scopes : List Scope
  act_scopes : List Nat
  cur_scopes : Nat
  scope_count : Nat
  id_count : Nat
  deriving DecidableEq, Repr

/-- The constructor `STable::STable()` (scope.cc:15-27). -/
def STable.new : STable :=
  { scopes := [Scope.new], act_scopes := [0], cur_scopes := 0, scope_count := 0, id_count := 0 }

/-- The method `STable::ResetSymbolTable` (scope.cc:29-37). -/
def STable.ResetSymbolTable (st : STable) : STable :=
  { st with act_scopes := [0], cur_scopes := 0, scope_count := 0, id_count := 0 }

/-- The method `STable::GenerateScope()` (scope.cc:39-46). -/
def STable.GenerateScope (st : STable) : STable :=
  { st with
    scope_count := st.scope_count + 1
    scopes := st.scopes ++ [Scope.new]
    act_scopes := st.act_scopes ++ [st.scope_count + 1]
    cur_scopes := st.scope_count + 1 }

/-- The method `STable::GenerateScope(const char *key)` (scope.cc:48-56): the
owner is set on the scope at index `scope_count`. -/
def STable.GenerateScopeKey (st : STable) (key : String) : Except Fault STable :=
  match (st.scopes ++ [Scope.new])[st.scope_count + 1]? with
  | none => .error .outOfRange
  | some s =>
    .ok { st with
          scope_count := st.scope_count + 1
          scopes := (st.scopes ++ [Scope.new]).set (st.scope_count + 1) { s with owner := some key }
          act_scopes := st.act_scopes ++ [st.scope_count + 1]
          cur_scopes := st.scope_count + 1 }

/-- The method `STable::EnterScope` (scope.cc:58-64). -/
def STable.EnterScope (st : STable) : STable :=
  { st with
    scope_count := st.scope_count + 1
    act_scopes := st.act_scopes ++ [st.scope_count + 1]
    cur_scopes := st.scope_count + 1 }

/-- The method `STable::ExitScope` (scope.cc:312-317): `pop_back`, then `back`. -/
def STable.ExitScope (st : STable) : Except Fault STable :=
  match st.act_scopes with
  | [] => .error .outOfRange
  | _ :: _ =>
    match st.act_scopes.dropLast.getLast? with
    | none => .error .outOfRange
    | some b => .ok { st with act_scopes := st.act_scopes.dropLast, cur_scopes := b }

/-- The method `STable::SetScopeParent` (scope.cc:319-322). -/
def STable.SetScopeParent (st : STable) (key : String) : Except Fault STable :=
  match st.scopes[st.cur_scopes]? with
  | none => .error .outOfRange
  | some s => .ok { st with scopes := st.scopes.set st.cur_scopes { s with parent := some key } }

/-- The method `STable::SetInterface` (scope.cc:324-327). -/
def STable.SetInterface (st : STable) (key : String) : Except Fault STable :=
  match st.scopes[st.cur_scopes]? with
  | none => .error .outOfRange
  | some s =>
    .ok { st with
          scopes := st.scopes.set st.cur_scopes { s with interface := s.interface ++ [key] } }

/-- The loop of `STable::SearchScopeOwner` (scope.cc:70-81); `i` is the index of
the head of the scopes still to visit. -/
def SearchScopeOwner.loop (key : String) : Nat → List Scope → Option Nat
  | _, [] => none
  | i, s :: rest =>
    if s.owner == some key then some i else SearchScopeOwner.loop key (i + 1) rest

/-- The method `STable::SearchScopeOwner` (scope.cc:66-85). -/
def STable.SearchScopeOwner (st : STable) (key : String) : Option Nat :=
  SearchScopeOwner.loop key 0 st.scopes

/-- The `while (s->HasParent())` loop of `STable::Lookup` (scope.cc:107-132) and
of `STable::LookForField` (scope.cc:227-253), entered with no declaration found
yet; one unit of `fuel` per turn of the loop. -/
def STable.parentWalk (st : STable) (key : String) : Nat → Scope → Except Fault (Option Decl)
  | 0, s => if s.HasParent then .error .fuel else .ok none
  | fuel + 1, s =>
    match s.parent with
    | none => .ok none
    | some parent =>
      match st.SearchScopeOwner parent with
      | none => .ok none
      | some scope =>
        if scope == st.cur_scopes then .ok none
        else
          match st.scopes[scope]? with
          | none => .error .outOfRange
          | some s2 =>
            match s2.find key with
            | some dec => .ok (some dec)
            | none => st.parentWalk key fuel s2

/-- The `for` loop of `STable::Lookup` (scope.cc:94-135); `loop i` runs the
iterations `i, ..., 1`. -/
def STable.Lookup.loop (st : STable) (key : String) (fuel : Nat) :
    Nat → Except Fault (Option Decl)
  | 0 => .ok none
  | i + 1 =>
    match st.act_scopes[i]? with
    | none => .error .outOfRange
    | some scope =>
      match st.scopes[scope]? with
      | none => .error .outOfRange
      | some s =>
        match s.find key with
        | some dec => .ok (some dec)
        | none =>
          match st.parentWalk key fuel s with
          | .error e => .error e
          | .ok (some dec) => .ok (some dec)
          | .ok none => STable.Lookup.loop st key fuel i

/-- The method `STable::Lookup` (scope.cc:87-138). -/
def STable.Lookup (st : STable) (fuel : Nat) (key : String) : Except Fault (Option Decl) :=
  STable.Lookup.loop st key fuel st.act_scopes.length

/-- The `while (s->HasParent())` loop of `STable::FindParent` (scope.cc:148-170).
When the parent names no scope the loop has no `break`: it tests the same scope
again. -/
def STable.FindParent.loop (st : STable) (key : String) :
    Nat → Scope → Except Fault (Option Decl)
  | 0, s => if s.HasParent then .error .fuel else .ok none
  | fuel + 1, s =>
    match s.parent with
    | none => .ok none
    | some parent =>
      match st.SearchScopeOwner parent with
      | some scope =>
        if scope == st.cur_scopes then .ok none
        else
          match st.scopes[scope]? with
          | none => .error .outOfRange
          | some s2 =>
            match s2.find key with
            | some d => .ok (some d)
            | none => STable.FindParent.loop st key fuel s2
      | none => STable.FindParent.loop st key fuel s

/-- The method `STable::FindParent` (scope.cc:140-173). -/
def STable.FindParent (st : STable) (fuel : Nat) (key : String) : Except Fault (Option Decl) :=
  match st.scopes[st.cur_scopes]? with
  | none => .error .outOfRange
  | some s => STable.FindParent.loop st key fuel s

/-- The loop over the interface names in `STable::FindInterface`
(scope.cc:188-203). -/
def STable.FindInterface.loop (st : STable) (key : String) :
    List String → Except Fault (Option Decl)
  | [] => .ok none
  | it :: rest =>
    match st.SearchScopeOwner it with
    | none => STable.FindInterface.loop st key rest
    | some scope =>
      match st.scopes[scope]? with
      | none => .error .outOfRange
      | some sc =>
        match sc.find key with
        | some d => .ok (some d)
        | none => STable.FindInterface.loop st key rest

/-- The method `STable::FindInterface` (scope.cc:175-206). -/
def STable.FindInterface (st : STable) (key : String) : Except Fault (Option Decl) :=
  match st.scopes[st.cur_scopes]? with
  | none => .error .outOfRange
  | some s => if s.HasInterface then STable.FindInterface.loop st key s.interface else .ok none

/-- The method `STable::LookForField` (scope.cc:208-255). -/
def STable.LookForField (st : STable) (fuel : Nat) (base field : String) :
    Except Fault (Option Decl) :=
  match st.SearchScopeOwner base with
  | none => .ok none
  | some scope =>
    match st.scopes[scope]? with
    | none => .error .outOfRange
    | some s =>
      match s.find field with
      | some d => .ok (some d)
      | none => st.parentWalk field fuel s

/-- The `for` loop of `STable::FindThis` (scope.cc:261-278); `loop i` runs the
iterations `i, ..., 1`. -/
def STable.FindThis.loop (st : STable) : Nat → Except Fault (Option Decl)
  | 0 => .ok none
  | i + 1 =>
    match st.act_scopes[i]? with
    | none => .error .outOfRange
    | some scope =>
      match st.scopes[scope]? with
      | none => .error .outOfRange
      | some s =>
        match s.owner with
        | none => STable.FindThis.loop st i
        | some owner =>
          match st.scopes[0]? with
          | none => .error .outOfRange
          | some s0 =>
            match s0.find owner with
            | some d => .ok (some d)
            | none => STable.FindThis.loop st i

/-- The method `STable::FindThis` (scope.cc:257-280). -/
def STable.FindThis (st : STable) : Except Fault (Option Decl) :=
  STable.FindThis.loop st st.act_scopes.length

/-- The method `STable::InsertSymbol` (scope.cc:282-295): the table after the
call and the returned index. -/
def STable.InsertSymbol (st : STable) (decl : Decl) : Except Fault (STable × Nat) :=
  match st.scopes[st.cur_scopes]? with
  | none => .error .outOfRange
  | some s =>
    let ht : Hashtable := match s.ht with
      | none => { entries := [] }
      | some ht => ht
    .ok ({ st with
           scopes := st.scopes.set st.cur_scopes { s with ht := some (ht.Enter decl.GetId.name decl) }
           id_count := st.id_count + 1 }, st.id_count)

/-- The method `STable::LocalLookup` (scope.cc:297-310). -/
def STable.LocalLookup (st : STable) (key : String) : Except Fault Bool :=
  match st.scopes[st.cur_scopes]? with
  | none => .error .outOfRange
  | some s => .ok (s.find key).isSome


/-! ## Notions used to state the properties of the symbol table -/

/-- The declaration the scope at index `a` binds to the key, if any. -/
def STable.binding (st : STable) (key : String) (a : Nat) : Option Decl :=
  match st.scopes[a]? with
  | none => none
  | some s => s.find key

/-- The declaration bound to the key in the first scope of the list that binds
it. -/
def STable.firstBinding (st : STable) (key : String) : List Nat → Option Decl
  | [] => none
  | a :: rest =>
    match st.binding key a with
    | some d => some d
    | none => st.firstBinding key rest

/-- The scopes reached from the scope at index `a` along its parent-owner
chain, nearest first: the parent names an owner, `SearchScopeOwner` gives the
scope.  `Fault.fuel` if the chain does not end within `fuel` steps (in
particular on a cycle). -/
def STable.parentChain (st : STable) : Nat → Nat → Except Fault (List Nat)
  | 0, a =>
    match st.scopes[a]? with
    | none => .error .outOfRange
    | some s => if s.HasParent then .error .fuel else .ok []
  | fuel + 1, a =>
    match st.scopes[a]? with
    | none => .error .outOfRange
    | some s =>
      match s.parent with
      | none => .ok []
      | some parent =>
        match st.SearchScopeOwner parent with
        | none => .ok []
        | some scope =>
          match st.parentChain fuel scope with
          | .error e => .error e
          | .ok chain => .ok (scope :: chain)

/-- Each scope of the list followed by its parent-owner chain. -/
def STable.orderFrom (st : STable) (fuel : Nat) : List Nat → Except Fault (List Nat)
  | [] => .ok []
  | a :: rest =>
    match st.parentChain fuel a with
    | .error e => .error e
    | .ok chain =>
      match st.orderFrom fuel rest with
      | .error e => .error e
      | .ok order => .ok (a :: chain ++ order)

/-- The search order of a lookup: each active scope from the innermost to the
outermost, each followed by its parent-owner chain. -/
def STable.searchOrder (st : STable) (fuel : Nat) : Except Fault (List Nat) :=
  st.orderFrom fuel st.act_scopes.reverse

/-- The search of `Lookup` over a list of scopes, innermost first. -/
def STable.lookupList (st : STable) (key : String) (fuel : Nat) :
    List Nat → Except Fault (Option Decl)
  | [] => .ok none
  | scope :: rest =>
    match st.scopes[scope]? with
    | none => .error .outOfRange
    | some s =>
      match s.find key with
      | some dec => .ok (some dec)
      | none =>
        match st.parentWalk key fuel s with
        | .error e => .error e
        | .ok (some dec) => .ok (some dec)
        | .ok none => st.lookupList key fuel rest

/-- A call of the scope interface made by a traversal. -/
inductive ScopeOp
  | generate
  | generateKey (key : String)
  | exit
  deriving DecidableEq, Repr

/-- The call as the build pass makes it. -/
def STable.buildStep (st : STable) : ScopeOp → Except Fault STable
  | .generate => .ok st.GenerateScope
  | .generateKey key => st.GenerateScopeKey key
  | .exit => st.ExitScope

/-- The call as a later pass makes it: `EnterScope` in place of `GenerateScope`. -/
def STable.checkStep (st : STable) : ScopeOp → Except Fault STable
  | .generate => .ok st.EnterScope
  | .generateKey _ => .ok st.EnterScope
  | .exit => st.ExitScope

/-- A sequence of calls run from a state. -/
def runOps (step : STable → ScopeOp → Except Fault STable) :
    List ScopeOp → STable → Except Fault STable
  | [], st => .ok st
  | op :: rest, st =>
    match step st op with
    | .error e => .error e
    | .ok st2 => runOps step rest st2

/-- The sequence is balanced from nesting depth `depth`: no `exit` without an
open scope, and every scope is closed at the end. -/
def balanced : Nat → List ScopeOp → Bool
  | depth, [] => depth == 0
  | depth, .generate :: rest => balanced (depth + 1) rest
  | depth, .generateKey _ :: rest => balanced (depth + 1) rest
  | 0, .exit :: _ => false
  | depth + 1, .exit :: rest => balanced depth rest

/-- The state of a build pass at nesting depth `depth`: the active stack holds
`depth + 1` scopes and `scope_count` is the index of the last scope created. -/
def buildInv (st : STable) (depth : Nat) : Prop :=
  st.act_scopes.length = depth + 1 ∧ st.scope_count + 1 = st.scopes.length

/-- The state `t` of a later pass follows the state `s` of the build pass. -/
def follows (s t : STable) : Prop :=
  t.act_scopes = s.act_scopes ∧ t.cur_scopes = s.cur_scopes ∧ t.scope_count = s.scope_count

/-! ## Concrete symbol tables -/

/-- The global `int x`. -/
def exGlobalX : Decl := .var { id := { name := "x" }, type := .base .intType true }

/-- The field `bool x` of class `P`. -/
def exFieldX : Decl := .var { id := { name := "x" }, type := .base .boolType true }

/-- The table of `int x; class P { bool x; } class C extends P { void f() { } }`
inside the body of `f`: scope 0 is global, 1 belongs to `P`, 2 to `C`, 3 to `f`. -/
def exTable : STable :=
  { scopes := [
      { ht := some { entries := [("x", exGlobalX)] } },
      { ht := some { entries := [("x", exFieldX)] }, owner := some "P" },
      { owner := some "C", parent := some "P" },
      { } ],
    act_scopes := [0, 2, 3], cur_scopes := 3, scope_count := 3, id_count := 2 }

/-- The table of `class P { bool x; } class C extends P { }` with the scope of
`P` entered: scope 1 belongs to `P`, scope 2 to `C`. -/
def exTableInP : STable :=
  { scopes := [
      { },
      { ht := some { entries := [("x", exFieldX)] }, owner := some "P" },
      { owner := some "C", parent := some "P" } ],
    act_scopes := [0, 1], cur_scopes := 1, scope_count := 1, id_count := 1 }

/-- The table of `class A extends A { } void main() { }` inside the body of
`main`: scope 1 belongs to `A` and names `A` as its parent. -/
def exTableCyclic : STable :=
  { scopes := [{ }, { owner := some "A", parent := some "A" }, { }],
    act_scopes := [0, 2], cur_scopes := 2, scope_count := 2, id_count := 2 }


/-! ## Signature equivalence: `FnDecl::Equivalent` -/

/-- The call `Node::ReturnType()` on a function declaration: `type_of_expr`, which
`FnDecl::CheckDecl` sets to the return type (ast_decl.cc:542). -/
def FnDecl.ReturnType (f : FnDecl) : Option Ty :=
  if f.type_of_expr then some f.returnType else none

/-- The call `ReturnType()` on a declaration: `VarDecl::ReturnType` is the
declared type (ast_decl.h:64); a function gives its `type_of_expr`; for a class
and an interface it is the named type that the declaration check made from the
identifier (ast_decl.cc:167-168, 452-453). -/
def Decl.ReturnType : Decl → Option Ty
  | .var v => some v.type
  | .fn f => f.ReturnType
  | .cls c => some (.named { id := c.id, type_of_expr := true })
  | .iface i => some (.named { id := i.id, type_of_expr := true })

/-- The test `Decl::FnIsDecl()` (ast_decl.h:40, 143). -/
def Decl.FnIsDecl : Decl → Bool
  | .fn _ => true
  | _ => false

/-- The test `Decl::IsVarDecl()` (ast_decl.h:37, 65). -/
def Decl.IsVarDecl : Decl → Bool
  | .var _ => true
  | _ => false

/-- The loop over the formals in `FnDecl::Equivalent` (ast_decl.cc:580-590), run
on two lists of the same length. -/
def FnDecl.Equivalent.loop : List VarDecl → List VarDecl → Except Fault Bool
  | v1 :: rest1, v2 :: rest2 =>
    match v1.type.Equivalent v2.type with
    | .error e => .error e
    | .ok false => .ok false
    | .ok true => FnDecl.Equivalent.loop rest1 rest2
  | _, _ => .ok true

/-- The method `FnDecl::Equivalent` (ast_decl.cc:563-592). -/
def FnDecl.Equivalent (this : FnDecl) (other : Decl) : Except Fault Bool :=
  match this.ReturnType, other.ReturnType with
  | some _, some otherType =>
    match other with
    | .fn fn =>
      match this.returnType.Equivalent otherType with
      | .error e => .error e
      | .ok false => .ok false
      | .ok true =>
        if this.formals.length != fn.formals.length then .ok false
        else FnDecl.Equivalent.loop this.formals fn.formals
    | _ => .ok false
  | _, _ => .error .assertion

/-- Type equivalence as the specification words it: primitives by identity,
named types by equality of their names, arrays element-wise. -/
def Ty.equiv : Ty → Ty → Bool
  | .base b _, .base b2 _ => b == b2
  | .named n, .named n2 => n.id.name == n2.id.name
  | .array e _, .array e2 _ => e.equiv e2
  | _, _ => false

/-- Element-wise equivalence of the types of two lists of formals of the same
length. -/
def formalsEquiv : List VarDecl → List VarDecl → Bool
  | v1 :: rest1, v2 :: rest2 => v1.type.equiv v2.type && formalsEquiv rest1 rest2
  | _, _ => true

/-- Signature equivalence as the specification words it: same return type,
same formal count, element-wise equivalent formal types. -/
def sigEquiv (f g : FnDecl) : Bool :=
  f.returnType.equiv g.returnType && f.formals.length == g.formals.length &&
    formalsEquiv f.formals g.formals

/-- A function declaration the declaration check has passed: its type is set
and its return type and the types of its formals are resolved. -/
def FnDecl.checked (f : FnDecl) : Bool :=
  f.type_of_expr && f.returnType.resolved && f.formals.all (fun v => v.type.resolved)

/-- The function `int f(int x)`. -/
def exFnInt : FnDecl :=
  { id := { name := "f" }, returnType := .base .intType true,
    formals := [{ id := { name := "x" }, type := .base .intType true }] }

/-- The function `bool f(int x)`. -/
def exFnBool : FnDecl :=
  { id := { name := "f" }, returnType := .base .boolType true,
    formals := [{ id := { name := "x" }, type := .base .intType true }] }


/-! ## The error sink -/

/-- The enumeration `reasonT` of errors.h. -/
inductive reasonT
  | LookingForType
  | LookingForClass
  | LookingForInterface
  | LookingForVariable
  | LookingForFunction
  deriving DecidableEq, Repr

/-- Modelled from the spec: the reports of `ReportError` (errors.h, which is not
among the sources), each an error kind with the arguments of the call; the
sink is the list of the reports made so far.  A statement or expression
argument gives the report its source position only and is left out:
`BreakOutsideLoop` has none, `ArgMismatch` keeps the position of the actual. -/
inductive ErrorMsg
  | DeclConflict (newDecl : Decl) (prevDecl : Option Decl)
  | OverrideMismatch (fnDecl : Decl)
  | InterfaceNotImplemented (classDecl : Decl) (intfType : NamedType)
  | FieldNotFoundInBase (field : Identifier) (base : Ty)
  | InaccessibleField (field : Identifier) (base : Ty)
  | IdentifierNotDeclared (ident : Identifier) (reason : reasonT)
  | IncompatibleOperands (op : String) (lhs rhs : Ty)
  | NumArgsMismatch (fnIdent : Identifier) (numExpected numGiven : Nat)
  | ArgMismatch (argIndex : Nat) (given expected : Ty)
  | BreakOutsideLoop
  | NoMainFound
  deriving DecidableEq, Repr

/-! ## Declaration pass: `GenerateST` -/

/-- The statement that opens `VarDecl::GenerateST` (ast_decl.cc:42-51),
`ClassDecl::GenerateST` (129-138), `InterfaceDecl::GenerateST` (432-441) and
`FnDecl::GenerateST` (502-511): the table and the reports after it.  The
back-links `idx` and `id->SetCache(this)` are writes into the node and leave
the table as it is. -/
def Decl.declare (this : Decl) (fuel : Nat) (st : STable) (errs : List ErrorMsg) :
    Except Fault (STable × List ErrorMsg) :=
  match st.LocalLookup this.GetId.name with
  | .error e => .error e
  | .ok true =>
    match st.Lookup fuel this.GetId.name with
    | .error e => .error e
    | .ok d => .ok (st, errs ++ [.DeclConflict this d])
  | .ok false =>
    match st.InsertSymbol this with
    | .error e => .error e
    | .ok (st2, _) => .ok (st2, errs)

/-- The method `VarDecl::GenerateST` (ast_decl.cc:40-52). -/
def VarDecl.GenerateST (this : VarDecl) (fuel : Nat) (st : STable) (errs : List ErrorMsg) :
    Except Fault (STable × List ErrorMsg) :=
  (Decl.var this).declare fuel st errs

/-- The call `formals->DeclareAll()`. -/
def DeclareAll.formals (fuel : Nat) :
    List VarDecl → STable → List ErrorMsg → Except Fault (STable × List ErrorMsg)
  | [], st, errs => .ok (st, errs)
  | v :: rest, st, errs =>
    match v.GenerateST fuel st errs with
    | .error e => .error e
    | .ok (st2, errs2) => DeclareAll.formals fuel rest st2 errs2

/-- The method `FnDecl::GenerateST` (ast_decl.cc:500-517).  A function of this
model has no body, so the branch `if (body)` is not taken. -/
def FnDecl.GenerateST (this : FnDecl) (fuel : Nat) (st : STable) (errs : List ErrorMsg) :
    Except Fault (STable × List ErrorMsg) :=
  match (Decl.fn this).declare fuel st errs with
  | .error e => .error e
  | .ok (st1, errs1) =>
    match DeclareAll.formals fuel this.formals st1.GenerateScope errs1 with
    | .error e => .error e
    | .ok (st2, errs2) =>
      match st2.ExitScope with
      | .error e => .error e
      | .ok st3 => .ok (st3, errs2)

/-- The call `members->DeclareAll()`.  The grammar puts variables and functions
in a member list; past any other member the pass is not followed. -/
def DeclareAll.members (fuel : Nat) :
    List Member → STable → List ErrorMsg → Except Fault (STable × List ErrorMsg)
  | [], st, errs => .ok (st, errs)
  | .var v :: rest, st, errs =>
    match v.GenerateST fuel st errs with
    | .error e => .error e
    | .ok (st2, errs2) => DeclareAll.members fuel rest st2 errs2
  | .fn f :: rest, st, errs =>
    match f.GenerateST fuel st errs with
    | .error e => .error e
    | .ok (st2, errs2) => DeclareAll.members fuel rest st2 errs2
  | .other _ :: rest, st, errs => DeclareAll.members fuel rest st errs

/-- The loop over `implements` in `ClassDecl::GenerateST` (ast_decl.cc:144-147). -/
def SetInterface.loop : List NamedType → STable → Except Fault STable
  | [], st => .ok st
  | t :: rest, st =>
    match st.SetInterface t.id.name with
    | .error e => .error e
    | .ok st2 => SetInterface.loop rest st2

/-- The method `ClassDecl::GenerateST` (ast_decl.cc:127-150). -/
def ClassDecl.GenerateST (this : ClassDecl) (fuel : Nat) (st : STable) (errs : List ErrorMsg) :
    Except Fault (STable × List ErrorMsg) :=
  match (Decl.cls this).declare fuel st errs with
  | .error e => .error e
  | .ok (st1, errs1) =>
    match st1.GenerateScopeKey this.id.name with
    | .error e => .error e
    | .ok st2 =>
      match (match this.extends_ with
             | none => Except.ok st2
             | some ext => st2.SetScopeParent ext.id.name) with
      | .error e => .error e
      | .ok st3 =>
        match SetInterface.loop this.implements st3 with
        | .error e => .error e
        | .ok st4 =>
          match DeclareAll.members fuel this.members st4 errs1 with
          | .error e => .error e
          | .ok (st5, errs5) =>
            match st5.ExitScope with
            | .error e => .error e
            | .ok st6 => .ok (st6, errs5)

/-- The method `InterfaceDecl::GenerateST` (ast_decl.cc:430-445). -/
def InterfaceDecl.GenerateST (this : InterfaceDecl) (fuel : Nat) (st : STable)
    (errs : List ErrorMsg) : Except Fault (STable × List ErrorMsg) :=
  match (Decl.iface this).declare fuel st errs with
  | .error e => .error e
  | .ok (st1, errs1) =>
    match st1.GenerateScopeKey this.id.name with
    | .error e => .error e
    | .ok st2 =>
      match DeclareAll.members fuel this.members st2 errs1 with
      | .error e => .error e
      | .ok (st3, errs3) =>
        match st3.ExitScope with
        | .error e => .error e
        | .ok st4 => .ok (st4, errs3)

/-- The virtual call `decl->GenerateST()` on a top-level declaration. -/
def Decl.GenerateST (this : Decl) (fuel : Nat) (st : STable) (errs : List ErrorMsg) :
    Except Fault (STable × List ErrorMsg) :=
  match this with
  | .var v => v.GenerateST fuel st errs
  | .fn f => f.GenerateST fuel st errs
  | .cls c => c.GenerateST fuel st errs
  | .iface i => i.GenerateST fuel st errs

/-- The call `decls->DeclareAll()` of `Program::GenerateST`. -/
def DeclareAll.decls (fuel : Nat) :
    List Decl → STable → List ErrorMsg → Except Fault (STable × List ErrorMsg)
  | [], st, errs => .ok (st, errs)
  | d :: rest, st, errs =>
    match d.GenerateST fuel st errs with
    | .error e => .error e
    | .ok (st2, errs2) => DeclareAll.decls fuel rest st2 errs2

/-- The method `Program::GenerateST` (ast_stmt.cc:22-39): a new table, then
every declaration. -/
def Program.GenerateST (fuel : Nat) (decls : List Decl) : Except Fault (STable × List ErrorMsg) :=
  DeclareAll.decls fuel decls STable.new []

/-! ## Inheritance check: `ClassDecl::CheckInherit`

The functions below run in the table with the scope of the class entered
(ast_decl.cc:173) and give the reports made.  The call
`d->Check(enum_InheritCheck)` (ast_decl.cc:224) reports nothing and returns with
the active stack, the current scope and the scopes as they were; it is not
followed. -/

/-- The comparison of a function member with what `FindParent` returned
(ast_decl.cc:198-213). -/
def CheckInherit.compareParent (d : FnDecl) (t : Option Decl) (errs : List ErrorMsg) :
    Except Fault (List ErrorMsg) :=
  match t with
  | none => .ok errs
  | some t =>
    if !t.FnIsDecl then .ok (errs ++ [.DeclConflict (.fn d) (some t)])
    else
      match d.ReturnType, t.ReturnType with
      | some _, some _ =>
        match d.Equivalent t with
        | .error e => .error e
        | .ok true => .ok errs
        | .ok false => .ok (errs ++ [.OverrideMismatch (.fn d)])
      | _, _ => .ok errs

/-- The comparison of a function member with what `FindInterface` returned
(ast_decl.cc:215-223); the cast of a declaration that is no function yields
`NULL`, through which `ReturnType` is called. -/
def CheckInherit.compareInterface (d : FnDecl) (t : Option Decl) (errs : List ErrorMsg) :
    Except Fault (List ErrorMsg) :=
  match t with
  | none => .ok errs
  | some t =>
    match d.ReturnType with
    | none => .ok errs
    | some _ =>
      match t with
      | .fn fn2 =>
        match fn2.ReturnType with
        | none => .ok errs
        | some _ =>
          match d.Equivalent (.fn fn2) with
          | .error e => .error e
          | .ok true => .ok errs
          | .ok false => .ok (errs ++ [.OverrideMismatch (.fn d)])
      | _ => .error .nullDeref

/-- The first half of the branch for a function member (ast_decl.cc:197-213):
`FindParent` and the comparison with what it returned. -/
def CheckInherit.fnParent (st : STable) (fuel : Nat) (d : FnDecl) (errs : List ErrorMsg) :
    Except Fault (List ErrorMsg) :=
  match st.FindParent fuel d.id.name with
  | .error e => .error e
  | .ok t => CheckInherit.compareParent d t errs

/-- The second half of the branch for a function member (ast_decl.cc:214-223):
`FindInterface` and the comparison with what it returned. -/
def CheckInherit.fnInterface (st : STable) (d : FnDecl) (errs : List ErrorMsg) :
    Except Fault (List ErrorMsg) :=
  match st.FindInterface d.id.name with
  | .error e => .error e
  | .ok t => CheckInherit.compareInterface d t errs

/-- The body of the loop over the members (ast_decl.cc:177-225) for one member. -/
def CheckInherit.member (st : STable) (fuel : Nat) (d : Member) (errs : List ErrorMsg) :
    Except Fault (List ErrorMsg) :=
  match d with
  | .var v =>
    match st.FindParent fuel v.id.name with
    | .error e => .error e
    | .ok t =>
      let errs1 := match t with
        | none => errs
        | some t => errs ++ [.DeclConflict (.var v) (some t)]
      match st.FindInterface v.id.name with
      | .error e => .error e
      | .ok none => .ok errs1
      | .ok (some t2) => .ok (errs1 ++ [.DeclConflict (.var v) (some t2)])
  | .fn f =>
    match CheckInherit.fnParent st fuel f errs with
    | .error e => .error e
    | .ok errs1 => CheckInherit.fnInterface st f errs1
  | .other _ => .ok errs

/-- The loop over the members (ast_decl.cc:175-226). -/
def CheckInherit.members (st : STable) (fuel : Nat) :
    List Member → List ErrorMsg → Except Fault (List ErrorMsg)
  | [], errs => .ok errs
  | d :: rest, errs =>
    match CheckInherit.member st fuel d errs with
    | .error e => .error e
    | .ok errs1 => CheckInherit.members st fuel rest errs1

/-- The loop over the methods of one interface (ast_decl.cc:234-255): `true`
when `InterfaceNotImplemented` is reported, after which the loop is left. -/
def CheckInherit.interfaceMembers (st : STable) (fuel : Nat) (this : ClassDecl) :
    List Member → Except Fault Bool
  | [] => .ok false
  | m :: rest =>
    match st.LookForField fuel this.id.name m.GetId.name with
    | .error e => .error e
    | .ok none => .ok true
    | .ok (some t) =>
      match m, t with
      | .fn fn1, .fn fn2 =>
        match fn1.ReturnType, fn2.ReturnType with
        | some _, some _ =>
          match fn1.Equivalent (.fn fn2) with
          | .error e => .error e
          | .ok false => .ok true
          | .ok true => CheckInherit.interfaceMembers st fuel this rest
        | _, _ => .ok true
      | _, _ => .ok true

/-- The body of the loop over `implements` (ast_decl.cc:230-256) for one entry;
the cast of a cache that is no interface yields `NULL`, through which
`GetMembers` is called. -/
def CheckInherit.interfaceEntry (st : STable) (heap : Heap) (fuel : Nat) (this : ClassDecl)
    (intf : NamedType) (errs : List ErrorMsg) : Except Fault (List ErrorMsg) :=
  match intf.id.ReturnCache heap with
  | none => .ok errs
  | some (.iface i) =>
    match CheckInherit.interfaceMembers st fuel this i.members with
    | .error e => .error e
    | .ok true => .ok (errs ++ [.InterfaceNotImplemented (.cls this) intf])
    | .ok false => .ok errs
  | some _ => .error .nullDeref

/-- The loop over `implements` (ast_decl.cc:228-257). -/
def CheckInherit.implements (st : STable) (heap : Heap) (fuel : Nat) (this : ClassDecl) :
    List NamedType → List ErrorMsg → Except Fault (List ErrorMsg)
  | [], errs => .ok errs
  | intf :: rest, errs =>
    match CheckInherit.interfaceEntry st heap fuel this intf errs with
    | .error e => .error e
    | .ok errs1 => CheckInherit.implements st heap fuel this rest errs1

/-- The method `ClassDecl::CheckInherit` (ast_decl.cc:171-259), in the table with
the scope of the class entered: the reports after the call. -/
def ClassDecl.CheckInherit (this : ClassDecl) (st : STable) (heap : Heap) (fuel : Nat)
    (errs : List ErrorMsg) : Except Fault (List ErrorMsg) :=
  match CheckInherit.members st fuel this.members errs with
  | .error e => .error e
  | .ok errs1 => CheckInherit.implements st heap fuel this this.implements errs1

/-- A method of an interface is implemented by the class: `LookForField` on
the name of the class finds a function of the same name with an equivalent
signature. -/
def implementedBy (st : STable) (fuel : Nat) (C : ClassDecl) : Member → Bool
  | .fn f1 =>
    match st.LookForField fuel C.id.name f1.id.name with
    | .ok (some (.fn f2)) => sigEquiv f1 f2
    | _ => false
  | _ => false

/-! ## Field access: `FieldAccess::ConfirmType` -/

/-- What `FieldAccess::ConfirmType` leaves: the reports, the type of the
expression and the cache of the field identifier. -/
structure FieldAccessResult where
  errs : List ErrorMsg
  type_of_expr : Option Ty
  cache : Option Decl
  deriving DecidableEq, Repr

/-- The method `FieldAccess::ConfirmType` (ast_expr.cc:697-763).  `base` is
`none` when the access has no base; otherwise it holds `base->ReturnType()`
after `base->Check(enum_TypeCheck)`, whose own reports are in `errs`.  The type
of the enclosing class is the named type that `ClassDecl::CheckDecl` made from
its identifier. -/
def FieldAccess.ConfirmType (st : STable) (heap : Heap) (fuel : Nat) (base : Option (Option Ty))
    (field : Identifier) (errs : List ErrorMsg) : Except Fault FieldAccessResult :=
  match base with
  | none =>
    match field.ReturnCache heap with
    | none => .ok { errs := errs, type_of_expr := none, cache := field.ReturnCache heap }
    | some d =>
      if d.IsVarDecl then
        .ok { errs := errs, type_of_expr := d.ReturnType, cache := some d }
      else
        .ok { errs := errs ++ [.IdentifierNotDeclared field .LookingForVariable],
              type_of_expr := none, cache := some d }
  | some none => .ok { errs := errs, type_of_expr := none, cache := none }
  | some (some base_t) =>
    match base_t with
    | .named bn =>
      match st.LookForField fuel bn.id.name field.name with
      | .error e => .error e
      | .ok (some (.var _)) =>
        match st.FindThis with
        | .error e => .error e
        | .ok (some (.cls cur_class)) =>
          let cur_n : NamedType := { id := cur_class.id, type_of_expr := true }
          match st.LookForField fuel cur_n.id.name field.name with
          | .error e => .error e
          | .ok (some (.var v)) =>
            match (Ty.named cur_n).IsCompatibleWith heap fuel base_t with
            | .error e => .error e
            | .ok true =>
              .ok { errs := errs, type_of_expr := some v.type, cache := some (.var v) }
            | .ok false =>
              match base_t.IsCompatibleWith heap fuel (.named cur_n) with
              | .error e => .error e
              | .ok true =>
                .ok { errs := errs, type_of_expr := some v.type, cache := some (.var v) }
              | .ok false =>
                .ok { errs := errs ++ [.InaccessibleField field base_t],
                      type_of_expr := none, cache := none }
          | .ok _ =>
            .ok { errs := errs ++ [.FieldNotFoundInBase field (.named cur_n)],
                  type_of_expr := none, cache := none }
        | .ok _ =>
          .ok { errs := errs ++ [.InaccessibleField field base_t],
                type_of_expr := none, cache := none }
      | .ok _ =>
        .ok { errs := errs ++ [.FieldNotFoundInBase field base_t],
              type_of_expr := none, cache := none }
    | _ =>
      .ok { errs := errs ++ [.FieldNotFoundInBase field base_t],
            type_of_expr := none, cache := none }

/-! ## Concrete programs for the checks -/

/-- The class `class A { int y; }`, a second declaration of the name `A`. -/
def exA2 : ClassDecl :=
  { id := { name := "A", cache := none }, extends_ := none, implements := [],
    members := [.var (exV "y")] }

/-- The table after `class A {}` has been declared. -/
def exTableAfterA : STable :=
  { scopes := [{ ht := some { entries := [("A", .cls exA)] } }, { owner := some "A" }],
    act_scopes := [0], cur_scopes := 0, scope_count := 1, id_count := 1 }

/-- The class `class A { int f(int x); }` at address 0. -/
def exBaseA : ClassDecl :=
  { id := { name := "A", cache := some 0 }, extends_ := none, implements := [],
    members := [.fn exFnInt] }

/-- The class `class B extends A { bool f(int x); }` at address 1. -/
def exDerivedB : ClassDecl :=
  { id := { name := "B", cache := some 1 }, extends_ := some { id := { name := "A", cache := some 0 } },
    implements := [], members := [.fn exFnBool] }

/-- The table of `exBaseA`, `exDerivedB` in the inheritance check of `B`, the
scope of `B` entered: scope 1 belongs to `A`, 2 to `A.f`, 3 to `B`, 4 to `B.f`. -/
def exTableInB : STable :=
  { scopes := [
      { ht := some { entries := [("B", .cls exDerivedB), ("A", .cls exBaseA)] } },
      { ht := some { entries := [("f", .fn exFnInt)] }, owner := some "A" },
      { ht := some { entries := [("x", .var { id := { name := "x" }, type := .base .intType true })] } },
      { ht := some { entries := [("f", .fn exFnBool)] }, owner := some "B", parent := some "A" },
      { ht := some { entries := [("x", .var { id := { name := "x" }, type := .base .intType true })] } } ],
    act_scopes := [0, 3], cur_scopes := 3, scope_count := 3, id_count := 0 }

/-- The method `void m()`. -/
def exFnM : FnDecl := { id := { name := "m" }, returnType := .base .voidType true, formals := [] }

/-- The interface `interface I { void m(); }` at address 0. -/
def exIfaceM : InterfaceDecl := { id := { name := "I", cache := some 0 }, members := [.fn exFnM] }

/-- The named type `I` in an implements list, resolved to `exIfaceM`. -/
def exTypeI : NamedType := { id := { name := "I", cache := some 0 } }

/-- The class `class C implements I { }` at address 1. -/
def exImplC : ClassDecl :=
  { id := { name := "C", cache := some 1 }, extends_ := none, implements := [exTypeI],
    members := [] }

/-- The class `class G implements I { void m(); }` at address 2. -/
def exImplG : ClassDecl :=
  { id := { name := "G", cache := some 2 }, extends_ := none, implements := [exTypeI],
    members := [.fn exFnM] }

/-- The declarations `exIfaceM`, `exImplC`, `exImplG` by address. -/
def exHeapImpl : Heap := [.iface exIfaceM, .cls exImplC, .cls exImplG]

/-- The table of `exHeapImpl` in the inheritance check of `C`, the scope of `C`
entered: scope 1 belongs to `I`, 2 to `I.m`, 3 to `C`, 4 to `G`, 5 to `G.m`. -/
def exTableInC : STable :=
  { scopes := [
      { ht := some { entries := [("G", .cls exImplG), ("C", .cls exImplC), ("I", .iface exIfaceM)] } },
      { ht := some { entries := [("m", .fn exFnM)] }, owner := some "I" },
      { },
      { owner := some "C", interface := ["I"] },
      { ht := some { entries := [("m", .fn exFnM)] }, owner := some "G", interface := ["I"] },
      { } ],
    act_scopes := [0, 3], cur_scopes := 3, scope_count := 3, id_count := 0 }

/-- The same table in the inheritance check of `G`, the scope of `G` entered. -/
def exTableInG : STable :=
  { exTableInC with act_scopes := [0, 4], cur_scopes := 4, scope_count := 4 }

/-- The class `class E { int w; void m() { D d; d.x; d.w; } }` at address 0; the body
of `m` is not part of the declaration. -/
def exEnclE : ClassDecl :=
  { id := { name := "E", cache := some 0 }, extends_ := none, implements := [],
    members := [.var (exV "w"), .fn exFnM] }

/-- The class `class D extends E { int x; }` at address 1. -/
def exSubD : ClassDecl :=
  { id := { name := "D", cache := some 1 }, extends_ := some { id := { name := "E", cache := some 0 } },
    implements := [], members := [.var (exV "x")] }

/-- The declarations `exEnclE`, `exSubD` by address. -/
def exHeapField : Heap := [.cls exEnclE, .cls exSubD]

/-- The type `D` of the local `d`, resolved to `exSubD`. -/
def exTypeD : Ty := .named { id := { name := "D", cache := some 1 } }

/-- The table of `exHeapField` inside the body of `E.m`: scope 1 belongs to `E`,
2 to `m`, 3 is the body of `m` with the local `d`, 4 belongs to `D`. -/
def exTableInM : STable :=
  { scopes := [
      { ht := some { entries := [("D", .cls exSubD), ("E", .cls exEnclE)] } },
      { ht := some { entries := [("m", .fn exFnM), ("w", .var (exV "w"))] }, owner := some "E" },
      { },
      { ht := some { entries := [("d", .var { id := { name := "d" }, type := exTypeD })] } },
      { ht := some { entries := [("x", .var (exV "x"))] }, owner := some "D", parent := some "E" } ],
    act_scopes := [0, 1, 2, 3], cur_scopes := 3, scope_count := 3, id_count := 0 }

/-- The same table inside the body of a global function: no active scope has
an owner. -/
def exTableGlobalFn : STable :=
  { exTableInM with act_scopes := [0, 2, 3] }

/-! ## The code generator (codegen.cc) -/

/-- Modelled from the spec: the constant `VarSize` of codegen.h, which is not
among the sources: the size of a word. -/
def VarSize : Int := 4

/-- Modelled from the spec: the constant `OffsetToFirstLocal` of codegen.h, which
is not among the sources (codegen.cc:23: "local starts at -8"). -/
def OffsetToFirstLocal : Int := -8

/-- Modelled from the spec: the constant `OffsetToFirstParam` of codegen.h, which
is not among the sources (codegen.cc:26: "parameters start at 4"). -/
def OffsetToFirstParam : Int := 4

/-- Modelled from the spec: the constant `OffsetToFirstGlobal` of codegen.h, which
is not among the sources (codegen.cc:20: "global starts at 0"). -/
def OffsetToFirstGlobal : Int := 0

/-- Modelled from the spec: the enumeration `BuiltIn` of codegen.h, which is not
among the sources, in the order of the table `builtins` (codegen.cc:192-200). -/
inductive BuiltIn
  | Alloc
  | ReadLine
  | ReadInteger
  | StringEqual
  | PrintInt
  | PrintString
  | PrintBool
  | Halt
  deriving DecidableEq, Repr

/-- The column `label` of the table `builtins` (codegen.cc:192-200). -/
def BuiltIn.label : BuiltIn → String
  | .Alloc => "_Alloc"
  | .ReadLine => "_ReadLine"
  | .ReadInteger => "_ReadInteger"
  | .StringEqual => "_StringEqual"
  | .PrintInt => "_PrintInt"
  | .PrintString => "_PrintString"
  | .PrintBool => "_PrintBool"
  | .Halt => "_Halt"

/-- The column `numArgs` of the table `builtins` (codegen.cc:192-200). -/
def BuiltIn.numArgs : BuiltIn → Nat
  | .Alloc => 1
  | .ReadLine => 0
  | .ReadInteger => 0
  | .StringEqual => 2
  | .PrintInt => 1
  | .PrintString => 1
  | .PrintBool => 1
  | .Halt => 0

/-- The column `hasReturn` of the table `builtins` (codegen.cc:192-200). -/
def BuiltIn.hasReturn : BuiltIn → Bool
  | .Alloc => true
  | .ReadLine => true
  | .ReadInteger => true
  | .StringEqual => true
  | .PrintInt => false
  | .PrintString => false
  | .PrintBool => false
  | .Halt => false

/-- Modelled from the spec: the instruction classes of tac.h, which is not among
the sources, each with the arguments of its constructor as codegen.cc calls
it.  An operand is `none` where the caller passes `NULL`; the operator of a
`BinaryOp` is kept by its name; the frame size of a `BeginFunc` is `none` until
`SetFrameSize` is called on it. -/
inductive Instr
  | LoadConstant (dst : Location) (value : Int)
  | LoadStringConstant (dst : Location) (s : String)
  | LoadLabel (dst : Location) (label : String)
  | Assign (dst src : Option Location)
  | Load (dst : Location) (ref : Option Location) (offset : Int)
  | Store (dst src : Option Location) (offset : Int)
  | BinaryOp (opName : String) (dst : Location) (op1 op2 : Option Location)
  | Label (label : String)
  | IfZ (test : Option Location) (label : String)
  | Goto (label : String)
  | Return (val : Option Location)
  | BeginFunc (frameSize : Option Int)
  | EndFunc
  | PushParam (param : Option Location)
  | PopParams (numBytesOfParams : Int)
  | LCall (label : String) (result : Option Location)
  | ACall (fnAddr : Option Location) (result : Option Location)
  | VTable (className : String) (methodLabels : List String)
  deriving DecidableEq, Repr

/-- The class `CodeGenerator` (codegen.cc) with the two function-local static
counters of `NewLabel` and `GenTempVar`. -/
structure CodeGenerator where
  code : List Instr
  globalLocation : Int
  localLocation : Int
  paramLocation : Int
  nextLabelNum : Nat
  nextTempNum : Nat
  deriving DecidableEq, Repr

/-- The constructor `CodeGenerator::CodeGenerator` (codegen.cc:15-27), the static
counters at their initial value. -/
def CodeGenerator.new : CodeGenerator :=
  { code := [], globalLocation := OffsetToFirstGlobal, localLocation := OffsetToFirstLocal,
    paramLocation := OffsetToFirstParam, nextLabelNum := 0, nextTempNum := 0 }

/-- The method `CodeGenerator::GetNextGlobal` (codegen.cc:29-34). -/
def CodeGenerator.GetNextGlobal (cg : CodeGenerator) : Int × CodeGenerator :=
  (cg.globalLocation, { cg with globalLocation := cg.globalLocation + VarSize })

/-- The method `CodeGenerator::GetNextLocal` (codegen.cc:36-41). -/
def CodeGenerator.GetNextLocal (cg : CodeGenerator) : Int × CodeGenerator :=
  (cg.localLocation, { cg with localLocation := cg.localLocation - VarSize })

/-- The method `CodeGenerator::GetNextParam` (codegen.cc:43-48). -/
def CodeGenerator.GetNextParam (cg : CodeGenerator) : Int × CodeGenerator :=
  (cg.paramLocation, { cg with paramLocation := cg.paramLocation + VarSize })

/-- The method `CodeGenerator::GetFrameSize` (codegen.cc:50-53). -/
def CodeGenerator.GetFrameSize (cg : CodeGenerator) : Int :=
  OffsetToFirstLocal - cg.localLocation

/-- The method `CodeGenerator::ResetFrame` (codegen.cc:55-59). -/
def CodeGenerator.ResetFrame (cg : CodeGenerator) : CodeGenerator :=
  { cg with localLocation := OffsetToFirstLocal, paramLocation := OffsetToFirstParam }

/-- The method `CodeGenerator::NewLabel` (codegen.cc:61-67). -/
def CodeGenerator.NewLabel (cg : CodeGenerator) : String × CodeGenerator :=
  ("_L" ++ toString cg.nextLabelNum, { cg with nextLabelNum := cg.nextLabelNum + 1 })

/-- The method `CodeGenerator::GenTempVar` (codegen.cc:69-78). -/
def CodeGenerator.GenTempVar (cg : CodeGenerator) : Location × CodeGenerator :=
  (.plain .fpRelative cg.localLocation ("_tmp" ++ toString cg.nextTempNum),
    { cg with nextTempNum := cg.nextTempNum + 1, localLocation := cg.localLocation - VarSize })

/-- The statement `code.push_back(instr)`. -/
def CodeGenerator.push (cg : CodeGenerator) (instr : Instr) : CodeGenerator :=
  { cg with code := cg.code ++ [instr] }

/-- The method `CodeGenerator::GenLoadConstant(int)` (codegen.cc:80-85). -/
def CodeGenerator.GenLoadConstant (cg : CodeGenerator) (value : Int) :
    Location × CodeGenerator :=
  match cg.GenTempVar with
  | (result, cg1) => (result, cg1.push (.LoadConstant result value))

/-- The method `CodeGenerator::GenLoadConstant(const char *)` (codegen.cc:87-92). -/
def CodeGenerator.GenLoadStringConstant (cg : CodeGenerator) (s : String) :
    Location × CodeGenerator :=
  match cg.GenTempVar with
  | (result, cg1) => (result, cg1.push (.LoadStringConstant result s))

/-- The method `CodeGenerator::GenLoadLabel` (codegen.cc:94-99). -/
def CodeGenerator.GenLoadLabel (cg : CodeGenerator) (label : String) :
    Location × CodeGenerator :=
  match cg.GenTempVar with
  | (result, cg1) => (result, cg1.push (.LoadLabel result label))

/-- The method `CodeGenerator::GenAssign` (codegen.cc:101-104). -/
def CodeGenerator.GenAssign (cg : CodeGenerator) (dst src : Option Location) : CodeGenerator :=
  cg.push (.Assign dst src)

/-- The method `CodeGenerator::GenLoad` (codegen.cc:106-111). -/
def CodeGenerator.GenLoad (cg : CodeGenerator) (ref : Option Location) (offset : Int) :
    Location × CodeGenerator :=
  match cg.GenTempVar with
  | (result, cg1) => (result, cg1.push (.Load result ref offset))

/-- The method `CodeGenerator::GenStore` (codegen.cc:113-116); the caller that
passes two arguments gets the offset 0. -/
def CodeGenerator.GenStore (cg : CodeGenerator) (dst src : Option Location) (offset : Int) :
    CodeGenerator :=
  cg.push (.Store dst src offset)

/-- The method `CodeGenerator::GenBinaryOp` (codegen.cc:118-124). -/
def CodeGenerator.GenBinaryOp (cg : CodeGenerator) (opName : String)
    (op1 op2 : Option Location) : Location × CodeGenerator :=
  match cg.GenTempVar with
  | (result, cg1) => (result, cg1.push (.BinaryOp opName result op1 op2))

/-- The method `CodeGenerator::GenLabel` (codegen.cc:126-129). -/
def CodeGenerator.GenLabel (cg : CodeGenerator) (label : String) : CodeGenerator :=
  cg.push (.Label label)

/-- The method `CodeGenerator::GenIfZ` (codegen.cc:131-134). -/
def CodeGenerator.GenIfZ (cg : CodeGenerator) (test : Option Location) (label : String) :
    CodeGenerator :=
  cg.push (.IfZ test label)

/-- The method `CodeGenerator::GenGoto` (codegen.cc:136-139). -/
def CodeGenerator.GenGoto (cg : CodeGenerator) (label : String) : CodeGenerator :=
  cg.push (.Goto label)

/-- The method `CodeGenerator::GenReturn` (codegen.cc:141-144). -/
def CodeGenerator.GenReturn (cg : CodeGenerator) (val : Option Location) : CodeGenerator :=
  cg.push (.Return val)

/-- The method `CodeGenerator::GenBeginFunc` (codegen.cc:146-152): the index of
the new `BeginFunc` in the code and the generator after the call. -/
def CodeGenerator.GenBeginFunc (cg : CodeGenerator) : Nat × CodeGenerator :=
  (cg.code.length, cg.ResetFrame.push (.BeginFunc none))

/-- The call `func->SetFrameSize(size)` on the `BeginFunc` at index `func`. -/
def CodeGenerator.SetFrameSize (cg : CodeGenerator) (func : Nat) (size : Int) : CodeGenerator :=
  match cg.code[func]? with
  | some (.BeginFunc _) => { cg with code := cg.code.set func (.BeginFunc (some size)) }
  | _ => cg

/-- The method `CodeGenerator::GenEndFunc` (codegen.cc:154-157). -/
def CodeGenerator.GenEndFunc (cg : CodeGenerator) : CodeGenerator :=
  cg.push .EndFunc

/-- The method `CodeGenerator::GenPushParam` (codegen.cc:159-162). -/
def CodeGenerator.GenPushParam (cg : CodeGenerator) (param : Option Location) : CodeGenerator :=
  cg.push (.PushParam param)

/-- The method `CodeGenerator::GenPopParams` (codegen.cc:164-169). -/
def CodeGenerator.GenPopParams (cg : CodeGenerator) (numBytesOfParams : Int) :
    Except Fault CodeGenerator :=
  if !(decide (numBytesOfParams ≥ 0) && numBytesOfParams % VarSize == 0) then .error .assertion
  else if numBytesOfParams > 0 then .ok (cg.push (.PopParams numBytesOfParams))
  else .ok cg

/-- The method `CodeGenerator::GenLCall` (codegen.cc:171-176). -/
def CodeGenerator.GenLCall (cg : CodeGenerator) (label : String) (fnHasReturnValue : Bool) :
    Option Location × CodeGenerator :=
  if fnHasReturnValue then
    match cg.GenTempVar with
    | (result, cg1) => (some result, cg1.push (.LCall label (some result)))
  else (none, cg.push (.LCall label none))

/-- The method `CodeGenerator::GenACall` (codegen.cc:178-183). -/
def CodeGenerator.GenACall (cg : CodeGenerator) (fnAddr : Option Location)
    (fnHasReturnValue : Bool) : Option Location × CodeGenerator :=
  if fnHasReturnValue then
    match cg.GenTempVar with
    | (result, cg1) => (some result, cg1.push (.ACall fnAddr (some result)))
  else (none, cg.push (.ACall fnAddr none))

/-- The method `CodeGenerator::GenBuiltInCall` (codegen.cc:202-221); an argument
left out is `NULL`. -/
def CodeGenerator.GenBuiltInCall (cg : CodeGenerator) (bn : BuiltIn)
    (arg1 arg2 : Option Location) : Except Fault (Option Location × CodeGenerator) :=
  let r : Option Location × CodeGenerator :=
    if bn.hasReturn then
      match cg.GenTempVar with
      | (result, cg1) => (some result, cg1)
    else (none, cg)
  if !((bn.numArgs == 0 && arg1.isNone && arg2.isNone) ||
       (bn.numArgs == 1 && arg1.isSome && arg2.isNone) ||
       (bn.numArgs == 2 && arg1.isSome && arg2.isSome)) then .error .assertion
  else
    let cg2 := if arg2.isSome then r.2.push (.PushParam arg2) else r.2
    let cg3 := if arg1.isSome then cg2.push (.PushParam arg1) else cg2
    match (cg3.push (.LCall bn.label r.1)).GenPopParams (VarSize * (bn.numArgs : Int)) with
    | .error e => .error e
    | .ok cg4 => .ok (r.1, cg4)

/-- The method `CodeGenerator::GenVTable` (codegen.cc:223-227). -/
def CodeGenerator.GenVTable (cg : CodeGenerator) (className : String)
    (methodLabels : List String) : CodeGenerator :=
  cg.push (.VTable className methodLabels)


/-! ## Expressions (ast_expr.h, ast_expr.cc) -/

/-- The expression classes of ast_expr.h.  Every node carries its field
`type_of_expr` as the checks left it (`none` is `NULL`); an operator is kept
by its token string; a child that may be `NULL` is optional.  The value of a
`DoubleConstant` is not kept. -/
inductive Expr
  | EmptyExpr (type_of_expr : Option Ty)
  | IntConstant (type_of_expr : Option Ty) (value : Int)
  | DoubleConstant (type_of_expr : Option Ty)
  | BoolConstant (type_of_expr : Option Ty) (value : Bool)
  | StringConstant (type_of_expr : Option Ty) (value : String)
  | NullConstant (type_of_expr : Option Ty)
  | ArithmeticExpr (type_of_expr : Option Ty) (left : Option Expr) (op : String) (right : Expr)
  | RelationalExpr (type_of_expr : Option Ty) (left : Expr) (op : String) (right : Expr)
  | EqualityExpr (type_of_expr : Option Ty) (left : Expr) (op : String) (right : Expr)
  | LogicalExpr (type_of_expr : Option Ty) (left : Option Expr) (op : String) (right : Expr)
  | AssignExpr (type_of_expr : Option Ty) (left : Expr) (op : String) (right : Expr)
  | This (type_of_expr : Option Ty)
  | ArrayAccess (type_of_expr : Option Ty) (base subscript : Expr)
  | FieldAccess (type_of_expr : Option Ty) (base : Option Expr) (field : Identifier)
  | Call (type_of_expr : Option Ty) (base : Option Expr) (field : Identifier)
      (actuals : List Expr)
  | NewExpr (type_of_expr : Option Ty) (cType : NamedType)
  | NewArrayExpr (type_of_expr : Option Ty) (size : Expr) (elemType : Ty)
  | ReadIntegerExpr (type_of_expr : Option Ty)
  | ReadLineExpr (type_of_expr : Option Ty)
  deriving Repr

/-- The call `Node::ReturnType()` on an expression (ast.h:58). -/
def Expr.ReturnType : Expr → Option Ty
  | .EmptyExpr t => t
  | .IntConstant t _ => t
  | .DoubleConstant t => t
  | .BoolConstant t _ => t
  | .StringConstant t _ => t
  | .NullConstant t => t
  | .ArithmeticExpr t _ _ _ => t
  | .RelationalExpr t _ _ _ => t
  | .EqualityExpr t _ _ _ => t
  | .LogicalExpr t _ _ _ => t
  | .AssignExpr t _ _ _ => t
  | .This t => t
  | .ArrayAccess t _ _ => t
  | .FieldAccess t _ _ => t
  | .Call t _ _ _ => t
  | .NewExpr t _ => t
  | .NewArrayExpr t _ _ => t
  | .ReadIntegerExpr t => t
  | .ReadLineExpr t => t

/-- The test `Expr::AccessibleArray()` (ast_expr.h:27, 241). -/
def Expr.AccessibleArray : Expr → Bool
  | .ArrayAccess _ _ _ => true
  | _ => false

/-- The method `Type::ReturnTypeSize` (ast_type.h:50). -/
def Ty.ReturnTypeSize (_this : Ty) : Int := 4

/-! ## Type checks of expressions -/

/-- The method `EqualityExpr::ConfirmType` (ast_expr.cc:336-358) once the checks
of the two operands have run: `tl` and `tr` are what `ReturnType()` gives on
the operands, `errs` the reports so far.  The result is the reports and the
`type_of_expr` of the node. -/
def EqualityExpr.ConfirmType (heap : Heap) (fuel : Nat) (op : String) (tl tr : Option Ty)
    (errs : List ErrorMsg) : Except Fault (List ErrorMsg × Option Ty) :=
  match tl, tr with
  | some tl, some tr =>
    match tr.IsCompatibleWith heap fuel tl with
    | .error e => .error e
    | .ok true => .ok (errs, some (Ty.builtin .boolType))
    | .ok false =>
      match tl.IsCompatibleWith heap fuel tr with
      | .error e => .error e
      | .ok true => .ok (errs, some (Ty.builtin .boolType))
      | .ok false => .ok (errs ++ [.IncompatibleOperands op tl tr], some (Ty.builtin .boolType))
  | _, _ => .ok (errs, some (Ty.builtin .boolType))

/-- The loop of `Call::CheckFuncArgs` (ast_expr.cc:910-919) from index `i`, on the
actuals and formals still to visit. -/
def CheckFuncArgs.loop (heap : Heap) (fuel : Nat) :
    Nat → List Expr → List VarDecl → List ErrorMsg → Except Fault (List ErrorMsg)
  | i, a :: actuals, f :: formals, errs =>
    match a.ReturnType with
    | none => CheckFuncArgs.loop heap fuel (i + 1) actuals formals errs
    | some t_a =>
      match f.type.IsCompatibleWith heap fuel t_a with
      | .error e => .error e
      | .ok true => CheckFuncArgs.loop heap fuel (i + 1) actuals formals errs
      | .ok false =>
        CheckFuncArgs.loop heap fuel (i + 1) actuals formals
          (errs ++ [.ArgMismatch (i + 1) t_a f.type])
  | _, _, _, errs => .ok errs

/-- The method `Call::CheckFuncArgs` (ast_expr.cc:894-921). -/
def Call.CheckFuncArgs (heap : Heap) (fuel : Nat) (field : Identifier) (actuals : List Expr)
    (errs : List ErrorMsg) : Except Fault (List ErrorMsg) :=
  match field.ReturnCache heap with
  | some (.fn fn) =>
    if actuals.length != fn.formals.length then
      .ok (errs ++ [.NumArgsMismatch field fn.formals.length actuals.length])
    else CheckFuncArgs.loop heap fuel 0 actuals fn.formals errs
  | _ => .ok errs

/-- The type of the formal is not compatible with the type of the actual:
the test returns false. -/
def notCompatible (heap : Heap) (fuel : Nat) (t_f t_a : Ty) : Bool :=
  match t_f.IsCompatibleWith heap fuel t_a with
  | .ok false => true
  | _ => false

/-- The mismatching positions as the specification words them: `ArgMismatch`
with position `i + 1` for the indices `i`, from `i` on, at which the type of
the actual is known and the type of the formal is not compatible with it. -/
def argMismatches (heap : Heap) (fuel : Nat) : Nat → List Expr → List VarDecl → List ErrorMsg
  | i, a :: actuals, f :: formals =>
    match a.ReturnType with
    | none => argMismatches heap fuel (i + 1) actuals formals
    | some t_a =>
      if notCompatible heap fuel f.type t_a then
        .ArgMismatch (i + 1) t_a f.type :: argMismatches heap fuel (i + 1) actuals formals
      else argMismatches heap fuel (i + 1) actuals formals
  | _, _, _ => []

/-- The position an `ArgMismatch` report carries; 0 for any other report. -/
def ErrorMsg.argIndex : ErrorMsg → Nat
  | .ArgMismatch k _ _ => k
  | _ => 0

/-! ## Emission of expressions -/

/-- The field `Node::parent` of the declaration nodes, by address: the address of
the parent when it is a declaration node, `none` otherwise. -/
abbrev Parents := List (Option Ptr)

/-- The test `FnDecl::MemberOfClass()` (ast_decl.h:145-149) on the function node
at address `p`. -/
def MemberOfClass (heap : Heap) (parents : Parents) (p : Ptr) : Bool :=
  match parents[p]? with
  | some (some q) =>
    match heap[q]? with
    | some d => d.IsClassDecl
    | none => false
  | _ => false

/-- The accessor `Location::GetBase()`; `none` is `NULL`. -/
def Location.GetBase : Location → Option Location
  | .plain _ _ _ => none
  | .based _ _ _ base => some base

/-- The accessor `Location::GetOffset()`. -/
def Location.GetOffset : Location → Int
  | .plain _ offset _ => offset
  | .based _ offset _ _ => offset

/-- The accessor `Location::GetName()`. -/
def Location.GetName : Location → String
  | .plain _ _ name => name
  | .based _ _ name _ => name

/-- The constructor `Location(segment, offset, name, base)` with a base that may
be `NULL`. -/
def Location.withBase (segment : Segment) (offset : Int) (name : String) :
    Option Location → Location
  | none => .plain segment offset name
  | some base => .based segment offset name base

/-- The accessor `Node::GetEmitLoc()` on a declaration: only `VarDecl` nodes are
given a location. -/
def Decl.GetEmitLoc : Decl → Option Location
  | .var v => v.emit_loc
  | _ => none

/-- The method `Identifier::Emit` (ast.cc:80-84): the `emit_loc` of the
identifier after the call. -/
def Identifier.Emit (heap : Heap) (this : Identifier) : Option Location :=
  match this.ReturnCache heap with
  | none => none
  | some d => d.GetEmitLoc

/-- The method `Identifier::SetPrefix` (ast.cc:86-91). -/
def Identifier.SetPrefix (this : Identifier) (pre : String) : Identifier :=
  { this with name := pre ++ this.name }

/-- Modelled from the spec: the message `err_arr_out_of_bounds` of errors.h, which
is not among the sources. -/
def err_arr_out_of_bounds : String := "Decaf runtime error: Array subscript out of bounds\n"

/-- Modelled from the spec: the message `err_arr_bad_size` of errors.h, which is
not among the sources. -/
def err_arr_bad_size : String := "Decaf runtime error: Array size is <= 0\n"

/-- The virtual method `ReturnEmitLocD` on a node whose `emit_loc` is given:
`Expr::ReturnEmitLocD` (ast_expr.h:26), `ArrayAccess::ReturnEmitLocD`
(ast_expr.cc:649-653) and `FieldAccess::ReturnEmitLocD` (ast_expr.cc:789-798). -/
def Expr.ReturnEmitLocD (this : Expr) (emit_loc : Option Location) (cg : CodeGenerator) :
    Except Fault (Option Location × CodeGenerator) :=
  match this with
  | .ArrayAccess _ _ _ =>
    match cg.GenLoad emit_loc 0 with
    | (t, cg1) => .ok (some t, cg1)
  | .FieldAccess _ _ _ =>
    match emit_loc with
    | none => .error .nullDeref
    | some t =>
      match t.GetBase with
      | some base =>
        match cg.GenLoad (some base) t.GetOffset with
        | (t2, cg1) => .ok (some t2, cg1)
      | none => .ok (some t, cg)
  | _ => .ok (emit_loc, cg)

/-- The end of `ArithmeticExpr::Emit` with a left operand (ast_expr.cc:281-286):
`loc = left->ReturnEmitLocD()` is a statement of its own, made before the call
`GenBinaryOp(op, loc, right->ReturnEmitLocD())`. -/
def ArithmeticExpr.EmitTail (opName : String) (left : Expr) (ll : Option Location)
    (right : Expr) (rl : Option Location) (cg : CodeGenerator) :
    Except Fault (Option Location × CodeGenerator) :=
  match left.ReturnEmitLocD ll cg with
  | .error e => .error e
  | .ok (l, cg1) =>
    match right.ReturnEmitLocD rl cg1 with
    | .error e => .error e
    | .ok (r, cg2) =>
      match cg2.GenBinaryOp opName l r with
      | (res, cg3) => .ok (some res, cg3)

/-- The call `GenBinaryOp(op, left->ReturnEmitLocD(), right->ReturnEmitLocD())`
(ast_expr.cc:333, 397, 463).  The language leaves the order of the two argument
calls open; the built program makes the calls from the last argument to the
first, so `right->ReturnEmitLocD()` comes first. -/
def Expr.binaryTail (opName : String) (left : Expr) (ll : Option Location) (right : Expr)
    (rl : Option Location) (cg : CodeGenerator) :
    Except Fault (Option Location × CodeGenerator) :=
  match right.ReturnEmitLocD rl cg with
  | .error e => .error e
  | .ok (r, cg1) =>
    match left.ReturnEmitLocD ll cg1 with
    | .error e => .error e
    | .ok (l, cg2) =>
      match cg2.GenBinaryOp opName l r with
      | (res, cg3) => .ok (some res, cg3)

/-- The pointer comparison `t == Type::b` on a type that may be `NULL`. -/
def isType (b : Builtin) : Option Ty → Bool
  | some t => t.isBuiltin b
  | none => false

/-- The method `EqualityExpr::Emit` (ast_expr.cc:374-396) after the two operands
have been emitted.  In the call `GenBuiltInCall(StringEqual,
left->ReturnEmitLocD(), right->ReturnEmitLocD())` the argument calls are made
from the last to the first, as in `Expr.binaryTail`. -/
def EqualityExpr.EmitTail (op : String) (left : Expr) (ll : Option Location) (right : Expr)
    (rl : Option Location) (cg : CodeGenerator) :
    Except Fault (Option Location × CodeGenerator) :=
  if isType .stringType left.ReturnType && isType .stringType right.ReturnType then
    match right.ReturnEmitLocD rl cg with
    | .error e => .error e
    | .ok (r, cg1) =>
      match left.ReturnEmitLocD ll cg1 with
      | .error e => .error e
      | .ok (l, cg2) =>
        match cg2.GenBuiltInCall .StringEqual l r with
        | .error e => .error e
        | .ok (res, cg3) =>
          if op == "!=" then
            match cg3.GenLoadConstant 0 with
            | (zero, cg4) =>
              match cg4.GenBinaryOp "==" (some zero) res with
              | (res2, cg5) => .ok (some res2, cg5)
          else .ok (res, cg3)
  else Expr.binaryTail op left ll right rl cg

/-- The method `AssignExpr::Emit` (ast_expr.cc:501-523) after the two operands
have been emitted, right first: `rl` and `ll` are their `emit_loc`. -/
def AssignExpr.EmitTail (left : Expr) (ll : Option Location) (right : Expr)
    (rl : Option Location) (cg : CodeGenerator) :
    Except Fault (Option Location × CodeGenerator) :=
  match right.ReturnEmitLocD rl cg with
  | .error e => .error e
  | .ok (rightLoc, cg1) =>
    match rightLoc, ll with
    | some rightLoc, some leftLoc =>
      let cg2 :=
        match leftLoc.GetBase with
        | some base => cg1.GenStore (some base) (some rightLoc) leftLoc.GetOffset
        | none =>
          if left.AccessibleArray then cg1.GenStore (some leftLoc) (some rightLoc) 0
          else cg1.GenAssign (some leftLoc) (some rightLoc)
      left.ReturnEmitLocD ll cg2
    | _, _ => .ok (none, cg1)

/-- The lines 632-646 of `ArrayAccess::Emit`: from the load of the length to
the address of the element. -/
def ArrayAccess.EmitBounds (type_of_expr : Option Ty) (t0 : Option Location)
    (t1 t2 : Location) (t3 : Option Location) (cg : CodeGenerator) :
    Except Fault (Option Location × CodeGenerator) :=
  match cg.GenLoad t3 (-4) with
  | (t4, cg1) =>
    match cg1.GenBinaryOp "<" t0 (some t4) with
    | (t5, cg2) =>
      match cg2.GenBinaryOp "==" (some t5) (some t1) with
      | (t6, cg3) =>
        match cg3.GenBinaryOp "||" (some t2) (some t6) with
        | (t7, cg4) =>
          match cg4.NewLabel with
          | (l, cg5) =>
            match (cg5.GenIfZ (some t7) l).GenLoadStringConstant err_arr_out_of_bounds with
            | (t8, cg6) =>
              match cg6.GenBuiltInCall .PrintString (some t8) none with
              | .error e => .error e
              | .ok (_, cg7) =>
                match cg7.GenBuiltInCall .Halt none none with
                | .error e => .error e
                | .ok (_, cg8) =>
                  match type_of_expr with
                  | none => .error .nullDeref
                  | some t =>
                    match (cg8.GenLabel l).GenLoadConstant t.ReturnTypeSize with
                    | (t9, cg9) =>
                      match cg9.GenBinaryOp "*" (some t9) t0 with
                      | (t10, cg10) =>
                        match cg10.GenBinaryOp "+" t3 (some t10) with
                        | (t11, cg11) => .ok (some t11, cg11)

/-- The method `ArrayAccess::Emit` (ast_expr.cc:624-647) after base and subscript
have been emitted: `bl` and `sl` are their `emit_loc`. -/
def ArrayAccess.EmitTail (type_of_expr : Option Ty) (base : Expr) (bl : Option Location)
    (subscript : Expr) (sl : Option Location) (cg : CodeGenerator) :
    Except Fault (Option Location × CodeGenerator) :=
  match subscript.ReturnEmitLocD sl cg with
  | .error e => .error e
  | .ok (t0, cg1) =>
    match cg1.GenLoadConstant 0 with
    | (t1, cg2) =>
      match cg2.GenBinaryOp "<" t0 (some t1) with
      | (t2, cg3) =>
        match base.ReturnEmitLocD bl cg3 with
        | .error e => .error e
        | .ok (t3, cg4) => ArrayAccess.EmitBounds type_of_expr t0 t1 t2 t3 cg4

/-- The method `NewArrayExpr::Emit` (ast_expr.cc:1102-1123) after the size has
been emitted: `sl` is its `emit_loc`. -/
def NewArrayExpr.EmitTail (size : Expr) (sl : Option Location) (elemType : Ty)
    (cg : CodeGenerator) : Except Fault (Option Location × CodeGenerator) :=
  match size.ReturnEmitLocD sl cg with
  | .error e => .error e
  | .ok (t0, cg1) =>
    match cg1.GenLoadConstant 0 with
    | (t1, cg2) =>
      match cg2.GenBinaryOp "<=" t0 (some t1) with
      | (t2, cg3) =>
        match cg3.NewLabel with
        | (label, cg4) =>
          match (cg4.GenIfZ (some t2) label).GenLoadStringConstant err_arr_bad_size with
          | (t3, cg5) =>
            match cg5.GenBuiltInCall .PrintString (some t3) none with
            | .error e => .error e
            | .ok (_, cg6) =>
              match cg6.GenBuiltInCall .Halt none none with
              | .error e => .error e
              | .ok (_, cg7) =>
                match (cg7.GenLabel label).GenLoadConstant 1 with
                | (t4, cg8) =>
                  match cg8.GenBinaryOp "+" (some t4) t0 with
                  | (t5, cg9) =>
                    match cg9.GenLoadConstant elemType.ReturnTypeSize with
                    | (t6, cg10) =>
                      match cg10.GenBinaryOp "*" (some t5) (some t6) with
                      | (t7, cg11) =>
                        match cg11.GenBuiltInCall .Alloc (some t7) none with
                        | .error e => .error e
                        | .ok (t8, cg12) =>
                          match (cg12.GenStore t8 t0 0).GenBinaryOp "+" t8 (some t6) with
                          | (t9, cg13) => .ok (some t9, cg13)

/-- The method `NewExpr::Emit` (ast_expr.cc:1033-1043). -/
def NewExpr.Emit (heap : Heap) (cType : NamedType) (cg : CodeGenerator) :
    Except Fault (Option Location × CodeGenerator) :=
  match castClassDecl (cType.id.ReturnCache heap) with
  | none => .error .assertion
  | some classdec =>
    match cg.GenLoadConstant classdec.inst_size with
    | (t, cg1) =>
      match cg1.GenBuiltInCall .Alloc (some t) none with
      | .error e => .error e
      | .ok (emit_loc, cg2) =>
        match cg2.GenLoadLabel classdec.id.name with
        | (loc, cg3) => .ok (emit_loc, cg3.GenStore emit_loc (some loc) 0)

/-- The loop that pushes the actuals in `Call::Emit` (ast_expr.cc:957-961), on the
actuals in the order of the loop, last actual first, each with its
`emit_loc`. -/
def Call.pushParams : List (Expr × Option Location) → CodeGenerator → Except Fault CodeGenerator
  | [], cg => .ok cg
  | (a, al) :: rest, cg =>
    match a.ReturnEmitLocD al cg with
    | .error e => .error e
    | .ok (loc, cg1) => Call.pushParams rest (cg1.GenPushParam loc)

/-- The test of the `length` branch of `Call::Emit` (ast_expr.cc:945); the
type of the base is read through `ReturnType()`, which may be `NULL`. -/
def Call.isLength (base : Option Expr) (field : Identifier) : Except Fault Bool :=
  match base with
  | none => .ok false
  | some b =>
    match b.ReturnType with
    | none => .error .nullDeref
    | some t => .ok (t.Type_ArrayType && field.name == "length")

/-- The method `Call::Emit` (ast_expr.cc:937-987) after the base and the actuals
have been emitted: `base` holds the base with its `emit_loc` when there is
one, `actuals` the actuals with their `emit_loc`. -/
def Call.EmitTail (heap : Heap) (parents : Parents) (type_of_expr : Option Ty)
    (base : Option (Expr × Option Location)) (field : Identifier)
    (actuals : List (Expr × Option Location)) (cg : CodeGenerator) :
    Except Fault (Option Location × CodeGenerator) :=
  match Call.isLength (base.map Prod.fst) field with
  | .error e => .error e
  | .ok true =>
    match base with
    | none => .ok (none, cg)
    | some (b, bl) =>
      match b.ReturnEmitLocD bl cg with
      | .error e => .error e
      | .ok (t0, cg1) =>
        match cg1.GenLoad t0 (-4) with
        | (t1, cg2) => .ok (some t1, cg2)
  | .ok false =>
    match field.cache with
    | none => .error .assertion
    | some p =>
      match heap[p]? with
      | some (.fn func) =>
        let isCall := base.isSome || MemberOfClass heap parents p
        match (match base with
               | some (b, bl) => b.ReturnEmitLocD bl cg
               | none =>
                 if MemberOfClass heap parents p then Except.ok (some ptrThis, cg)
                 else Except.ok (none, cg)) with
        | .error e => .error e
        | .ok (current_loc, cg1) =>
          if isCall then
            match cg1.GenLoad current_loc 0 with
            | (t, cg2) =>
              match cg2.GenLoad (some t) func.vtable_ofst with
              | (t2, cg3) =>
                match Call.pushParams actuals.reverse cg3 with
                | .error e => .error e
                | .ok cg4 =>
                  match (cg4.GenPushParam current_loc).GenACall (some t2)
                      (!(func.returnType.isBuiltin .voidType)) with
                  | (emit_loc, cg5) =>
                    match cg5.GenPopParams ((actuals.length : Int) * 4 + 4) with
                    | .error e => .error e
                    | .ok cg6 => .ok (emit_loc, cg6)
          else
            match Call.pushParams actuals.reverse cg1 with
            | .error e => .error e
            | .ok cg4 =>
              match cg4.GenLCall (field.SetPrefix "_").name
                  (!(isType .voidType type_of_expr)) with
              | (emit_loc, cg5) =>
                match cg5.GenPopParams ((actuals.length : Int) * 4) with
                | .error e => .error e
                | .ok cg6 => .ok (emit_loc, cg6)
      | _ => .error .assertion

mutual
/-- The virtual method `Emit` on an expression: the `emit_loc` of the node and
the generator after the call.  A node class without an `Emit` of its own has
the empty `Node::Emit` (ast.h:61). -/
def Expr.Emit (heap : Heap) (parents : Parents) :
    Expr → CodeGenerator → Except Fault (Option Location × CodeGenerator)
  | .EmptyExpr _, cg => .ok (none, cg)
  | .IntConstant _ value, cg =>
    match cg.GenLoadConstant value with
    | (t, cg1) => .ok (some t, cg1)
  | .DoubleConstant _, _ => .error .assertion
  | .BoolConstant _ value, cg =>
    match cg.GenLoadConstant (if value then 1 else 0) with
    | (t, cg1) => .ok (some t, cg1)
  | .StringConstant _ value, cg =>
    match cg.GenLoadStringConstant value with
    | (t, cg1) => .ok (some t, cg1)
  | .NullConstant _, cg =>
    match cg.GenLoadConstant 0 with
    | (t, cg1) => .ok (some t, cg1)
  | .ArithmeticExpr _ none op right, cg =>
    match Expr.Emit heap parents right cg with
    | .error e => .error e
    | .ok (rl, cg1) =>
      match cg1.GenLoadConstant 0 with
      | (loc, cg2) =>
        match right.ReturnEmitLocD rl cg2 with
        | .error e => .error e
        | .ok (r, cg3) =>
          match cg3.GenBinaryOp op (some loc) r with
          | (res, cg4) => .ok (some res, cg4)
  | .ArithmeticExpr _ (some left) op right, cg =>
    match Expr.Emit heap parents left cg with
    | .error e => .error e
    | .ok (ll, cg1) =>
      match Expr.Emit heap parents right cg1 with
      | .error e => .error e
      | .ok (rl, cg2) => ArithmeticExpr.EmitTail op left ll right rl cg2
  | .RelationalExpr _ left op right, cg =>
    match Expr.Emit heap parents left cg with
    | .error e => .error e
    | .ok (ll, cg1) =>
      match Expr.Emit heap parents right cg1 with
      | .error e => .error e
      | .ok (rl, cg2) => Expr.binaryTail op left ll right rl cg2
  | .EqualityExpr _ left op right, cg =>
    match Expr.Emit heap parents left cg with
    | .error e => .error e
    | .ok (ll, cg1) =>
      match Expr.Emit heap parents right cg1 with
      | .error e => .error e
      | .ok (rl, cg2) => EqualityExpr.EmitTail op left ll right rl cg2
  | .LogicalExpr _ none _ right, cg =>
    match Expr.Emit heap parents right cg with
    | .error e => .error e
    | .ok (rl, cg1) =>
      match right.ReturnEmitLocD rl cg1 with
      | .error e => .error e
      | .ok (r, cg2) =>
        match cg2.GenLoadConstant 0 with
        | (zero, cg3) =>
          match cg3.GenBinaryOp "==" (some zero) r with
          | (res, cg4) => .ok (some res, cg4)
  | .LogicalExpr _ (some left) op right, cg =>
    match Expr.Emit heap parents left cg with
    | .error e => .error e
    | .ok (ll, cg1) =>
      match Expr.Emit heap parents right cg1 with
      | .error e => .error e
      | .ok (rl, cg2) => Expr.binaryTail op left ll right rl cg2
  | .AssignExpr _ left _ right, cg =>
    match Expr.Emit heap parents right cg with
    | .error e => .error e
    | .ok (rl, cg1) =>
      match Expr.Emit heap parents left cg1 with
      | .error e => .error e
      | .ok (ll, cg2) => AssignExpr.EmitTail left ll right rl cg2
  | .This _, cg => .ok (some ptrThis, cg)
  | .ArrayAccess t base subscript, cg =>
    match Expr.Emit heap parents base cg with
    | .error e => .error e
    | .ok (bl, cg1) =>
      match Expr.Emit heap parents subscript cg1 with
      | .error e => .error e
      | .ok (sl, cg2) => ArrayAccess.EmitTail t base bl subscript sl cg2
  | .FieldAccess _ none field, cg => .ok (field.Emit heap, cg)
  | .FieldAccess _ (some base) field, cg =>
    match Expr.Emit heap parents base cg with
    | .error e => .error e
    | .ok (bl, cg1) =>
      match field.Emit heap with
      | none => .error .nullDeref
      | some fl =>
        match base.ReturnEmitLocD bl cg1 with
        | .error e => .error e
        | .ok (b, cg2) => .ok (some (Location.withBase .fpRelative fl.GetOffset fl.GetName b), cg2)
  | .Call t none field actuals, cg =>
    match Expr.EmitAll heap parents actuals cg with
    | .error e => .error e
    | .ok (als, cg1) => Call.EmitTail heap parents t none field (actuals.zip als) cg1
  | .Call t (some base) field actuals, cg =>
    match Expr.Emit heap parents base cg with
    | .error e => .error e
    | .ok (bl, cg1) =>
      match Expr.EmitAll heap parents actuals cg1 with
      | .error e => .error e
      | .ok (als, cg2) =>
        Call.EmitTail heap parents t (some (base, bl)) field (actuals.zip als) cg2
  | .NewExpr _ cType, cg => NewExpr.Emit heap cType cg
  | .NewArrayExpr _ size elemType, cg =>
    match Expr.Emit heap parents size cg with
    | .error e => .error e
    | .ok (sl, cg1) => NewArrayExpr.EmitTail size sl elemType cg1
  | .ReadIntegerExpr _, cg => cg.GenBuiltInCall .ReadInteger none none
  | .ReadLineExpr _, cg => cg.GenBuiltInCall .ReadLine none none
/-- The call `actuals->EmitAll()`: the `emit_loc` of every element and the
generator after the call. -/
def Expr.EmitAll (heap : Heap) (parents : Parents) :
    List Expr → CodeGenerator → Except Fault (List (Option Location) × CodeGenerator)
  | [], cg => .ok ([], cg)
  | a :: rest, cg =>
    match Expr.Emit heap parents a cg with
    | .error e => .error e
    | .ok (al, cg1) =>
      match Expr.EmitAll heap parents rest cg1 with
      | .error e => .error e
      | .ok (als, cg2) => .ok (al :: als, cg2)
end


/-! ## The break statement (ast_stmt.cc) -/

/-- Modelled from the spec: the enumeration `checkT` of the passes, declared in
a header that is not among the sources, with the three values the sources
use. -/
inductive checkT
  | enum_DeclCheck
  | enum_InheritCheck
  | enum_TypeCheck
  deriving DecidableEq, Repr

/-- The class of a node of the tree, as far as the walk up the tree tells
nodes apart. -/
inductive NodeKind
  | Program
  | ClassDecl
  | InterfaceDecl
  | FnDecl
  | StmtBlock
  | ForStmt
  | WhileStmt
  | IfStmt
  | BreakStmt
  | ReturnStmt
  | PrintStmt
  | Expr
  deriving DecidableEq, Repr

/-- The virtual test `IsLoop()`: `Node::IsLoop` (ast.h:59) returns false,
`LoopStmt::IsLoop` (ast_stmt.h:76), inherited by `ForStmt` and `WhileStmt`,
returns true. -/
def NodeKind.IsLoop : NodeKind → Bool
  | .ForStmt => true
  | .WhileStmt => true
  | _ => false

/-- The loop of `BreakStmt::Check` (ast_stmt.cc:368-374) at the node `n` whose
chain of parents, nearest first, is the list: `true` when the loop is left
without a `return`, so that `BreakOutsideLoop` is reported. -/
def BreakStmt.Check.walk : NodeKind → List NodeKind → Bool
  | _, [] => true
  | n, parent :: rest => if n.IsLoop then false else BreakStmt.Check.walk parent rest

/-- The method `BreakStmt::Check` (ast_stmt.cc:364-377) on a break statement
whose chain of parents, nearest first and ending in the root of the tree, is
`ancestors`: the reports after the call. -/
def BreakStmt.Check (c : checkT) (ancestors : List NodeKind) (errs : List ErrorMsg) :
    List ErrorMsg :=
  if c == .enum_TypeCheck then
    if BreakStmt.Check.walk .BreakStmt ancestors then errs ++ [.BreakOutsideLoop] else errs
  else errs

/-! ## Labels of functions: `PrefixForMember` -/

/-- The test `dec && dec->IsClassDecl()` on the parent of a node cast to a
declaration (ast_decl.cc:596-597, 616, 621): `parent` is the parent when it is a
declaration node, `none` otherwise. -/
def parentIsClass : Option Decl → Bool
  | some dec => dec.IsClassDecl
  | none => false

/-- The method `FnDecl::PrefixForMember` (ast_decl.cc:594-607); `parent` is the
parent of the node when that is a declaration node, `none` otherwise. -/
def FnDecl.PrefixForMember (parent : Option Decl) (this : FnDecl) : FnDecl :=
  if parentIsClass parent then
    match parent with
    | some dec =>
      { this with id := ((this.id.SetPrefix ".").SetPrefix dec.GetId.name).SetPrefix "_" }
    | none => this
  else if this.id.name != "main" then { this with id := this.id.SetPrefix "_" }
  else this

/-- The call `members->Nth(i)->PrefixForMember()` on a member of the declaration
`parent`: a variable has the empty `Decl::PrefixForMember` (ast_decl.h:43).  The
grammar puts variables and functions in a member list; any other member is
left as it is. -/
def Member.PrefixForMember (parent : Decl) : Member → Member
  | .fn f => .fn (f.PrefixForMember (some parent))
  | m => m

/-- The method `ClassDecl::PrefixForMember` (ast_decl.cc:393-397). -/
def ClassDecl.PrefixForMember (this : ClassDecl) : ClassDecl :=
  { this with members := this.members.map (Member.PrefixForMember (.cls this)) }

/-- The virtual call `PrefixForMember()` on a top-level declaration, whose
parent is the program. -/
def Decl.PrefixForMember : Decl → Decl
  | .fn f => .fn (f.PrefixForMember none)
  | .cls c => .cls c.PrefixForMember
  | d => d

/-! ## Emission of declarations -/

/-- The call `body->Emit()` on the body of a function, as a function of the
generator. -/
abbrev BodyEmit := CodeGenerator → Except Fault CodeGenerator

/-- The method `VarDecl::OffsetAssign` (ast_decl.cc:75-81) on a top-level
variable, for which `IsGlobalVar()` holds. -/
def VarDecl.OffsetAssign (this : VarDecl) (cg : CodeGenerator) : VarDecl × CodeGenerator :=
  match cg.GetNextGlobal with
  | (g, cg1) => ({ this with emit_loc := some (.plain .gpRelative g this.id.name) }, cg1)

/-- The method `VarDecl::Emit` (ast_decl.cc:89-98). -/
def VarDecl.Emit (this : VarDecl) (cg : CodeGenerator) : Except Fault (VarDecl × CodeGenerator) :=
  if this.type.isBuiltin .doubleType then .error .assertion
  else
    match this.emit_loc with
    | some _ => .ok (this, cg)
    | none =>
      match cg.GetNextLocal with
      | (l, cg1) => .ok ({ this with emit_loc := some (.plain .fpRelative l this.id.name) }, cg1)

/-- The loop over the formals in `FnDecl::Emit` (ast_decl.cc:626-632). -/
def FnDecl.EmitFormals : List VarDecl → CodeGenerator → List VarDecl × CodeGenerator
  | [], cg => ([], cg)
  | v :: rest, cg =>
    match cg.GetNextParam with
    | (p, cg1) =>
      match FnDecl.EmitFormals rest cg1 with
      | (rest2, cg2) =>
        ({ v with emit_loc := some (.plain .fpRelative p v.id.name) } :: rest2, cg2)

/-- The method `FnDecl::Emit` (ast_decl.cc:614-640): the node and the generator
after the call.  `parent` is the parent of the node when that is a declaration
node; `body` is the emission of the body, `none` when the function has no
body. -/
def FnDecl.Emit (parent : Option Decl) (body : Option BodyEmit) (this : FnDecl)
    (cg : CodeGenerator) : Except Fault (FnDecl × CodeGenerator) :=
  match (cg.GenLabel this.id.name).GenBeginFunc with
  | (func, cg1) =>
    let cg2 := if parentIsClass parent then cg1.GetNextParam.2 else cg1
    match FnDecl.EmitFormals this.formals cg2 with
    | (formals, cg3) =>
      match (match body with
             | none => Except.ok cg3
             | some b => b cg3) with
      | .error e => .error e
      | .ok cg4 =>
        .ok ({ this with formals := formals },
          (cg4.SetFrameSize func cg4.GetFrameSize).GenEndFunc)

/-- The call `members->EmitAll()` of `ClassDecl::Emit` on the members of the
class `parent`; `bodies` gives the emission of the body of a function node.
The grammar puts variables and functions in a member list; any other member
is left as it is. -/
def ClassDecl.EmitMembers (bodies : FnDecl → Option BodyEmit) (parent : Decl) :
    List Member → CodeGenerator → Except Fault (List Member × CodeGenerator)
  | [], cg => .ok ([], cg)
  | .var v :: rest, cg =>
    match v.Emit cg with
    | .error e => .error e
    | .ok (v2, cg1) =>
      match ClassDecl.EmitMembers bodies parent rest cg1 with
      | .error e => .error e
      | .ok (rest2, cg2) => .ok (.var v2 :: rest2, cg2)
  | .fn f :: rest, cg =>
    match f.Emit (some parent) (bodies f) cg with
    | .error e => .error e
    | .ok (f2, cg1) =>
      match ClassDecl.EmitMembers bodies parent rest cg1 with
      | .error e => .error e
      | .ok (rest2, cg2) => .ok (.fn f2 :: rest2, cg2)
  | .other id :: rest, cg =>
    match ClassDecl.EmitMembers bodies parent rest cg with
    | .error e => .error e
    | .ok (rest2, cg2) => .ok (.other id :: rest2, cg2)

/-- The function node of the class `c` that the entry `func` of a list
`fn_members` points to, if `c` holds it and `PrefixForMember` has run on it.
`MembersForList` stores in `fn_members` the function nodes of the member lists
themselves (ast_decl.cc:327-337), where the model keeps the copy `func` taken
when the list was made; the node is found again by its name, which is the name
of the copy with the prefix that `PrefixForMember` has put before it. -/
def ClassDecl.nodeOf (func : FnDecl) (c : ClassDecl) : Option FnDecl :=
  (ownFns c.members).find? (fun g =>
    g.id.name == (func.PrefixForMember (some (.cls c))).id.name)

/-- The name that `func->GetId()->ReturnIdenName()` reads on an entry of
`fn_members` (ast_decl.cc:405-406): the name the node has now.  The entry for
a name is the method of the nearest class on the `extends` chain that declares
one (`OffsetAssign` puts the last function of the name into the slot); `chain`
holds the classes from the class up, as they are now.  When no class of the
chain holds a renamed node for the entry, `PrefixForMember` has not run and
the node has the name of the copy. -/
def ClassDecl.nodeName (chain : List ClassDecl) (func : FnDecl) : String :=
  match chain.findSome? (ClassDecl.nodeOf func) with
  | some g => g.id.name
  | none => func.id.name

/-- The method `ClassDecl::Emit` (ast_decl.cc:399-410).  The labels of the table
are read from the nodes that `fn_members` lists: `heap` holds the declarations
as they are when the emission starts (ast_stmt.cc:102), and the `extends`
chain is followed in it as `OffsetAssign` followed it, one unit of `fuel` per
class. -/
def ClassDecl.Emit (heap : Heap) (fuel : Nat) (bodies : FnDecl → Option BodyEmit)
    (this : ClassDecl) (cg : CodeGenerator) : Except Fault (ClassDecl × CodeGenerator) :=
  match ClassDecl.EmitMembers bodies (.cls this) this.members cg with
  | .error e => .error e
  | .ok (members, cg1) =>
    match extendsChain heap fuel this with
    | .error e => .error e
    | .ok chain =>
      .ok ({ this with members := members },
        cg1.GenVTable this.id.name (this.fn_members.map (ClassDecl.nodeName chain)))

/-- The virtual call `Emit()` on a top-level declaration, whose parent is the
program; `InterfaceDecl::Emit` (ast_decl.cc:461-466) fails its assertion. -/
def Decl.Emit (heap : Heap) (fuel : Nat) (bodies : FnDecl → Option BodyEmit) (this : Decl)
    (cg : CodeGenerator) : Except Fault (Decl × CodeGenerator) :=
  match this with
  | .var v =>
    match v.Emit cg with
    | .error e => .error e
    | .ok (v2, cg1) => .ok (.var v2, cg1)
  | .fn f =>
    match f.Emit none (bodies f) cg with
    | .error e => .error e
    | .ok (f2, cg1) => .ok (.fn f2, cg1)
  | .cls c =>
    match c.Emit heap fuel bodies cg with
    | .error e => .error e
    | .ok (c2, cg1) => .ok (.cls c2, cg1)
  | .iface _ => .error .assertion

/-! ## The program: `Program::Emit` -/

/-- The state `Program::Emit` works on: the top-level declarations, which are
the nodes of the heap in the order of the program, the code generator and the
reports. -/
structure EmitState where
  decls : Heap
  cg : CodeGenerator
  errs : List ErrorMsg
  deriving DecidableEq, Repr

/-- The loop of `Program::Emit` that looks for `main` (ast_stmt.cc:68-80): the
final value of `main_exists`. -/
def Program.main_exists : List Decl → Bool
  | [] => false
  | d :: rest =>
    if d.FnIsDecl then
      if d.GetId.name == "main" then true else Program.main_exists rest
    else Program.main_exists rest

/-- The virtual call `OffsetAssign()` on the top-level declaration `d`, the
declarations being `decls`: `Decl::OffsetAssign` (ast_decl.h:41) is empty. -/
def Decl.OffsetAssign (decls : Heap) (fuel : Nat) (d : Decl) (cg : CodeGenerator) :
    Except Fault (Decl × CodeGenerator) :=
  match d with
  | .var v =>
    match v.OffsetAssign cg with
    | (v2, cg1) => .ok (.var v2, cg1)
  | .cls c =>
    match c.OffsetAssign decls fuel with
    | .error e => .error e
    | .ok c2 => .ok (.cls c2, cg)
  | d => .ok (d, cg)

/-- The first loop over the declarations in `Program::Emit` (ast_stmt.cc:88-91),
from index `i`, with `n` declarations still to visit. -/
def Program.offsetLoop (fuel : Nat) : Nat → Nat → Heap → CodeGenerator →
    Except Fault (Heap × CodeGenerator)
  | 0, _, decls, cg => .ok (decls, cg)
  | n + 1, i, decls, cg =>
    match decls[i]? with
    | none => .error .outOfRange
    | some d =>
      match d.OffsetAssign decls fuel cg with
      | .error e => .error e
      | .ok (d2, cg1) => Program.offsetLoop fuel n (i + 1) (decls.set i d2) cg1

/-- The call `decls->EmitAll()` of `Program::Emit` (ast_stmt.cc:102); `heap`
holds the declarations as they are when the call starts. -/
def Program.EmitAll (heap : Heap) (fuel : Nat) (bodies : FnDecl → Option BodyEmit) :
    List Decl → CodeGenerator → Except Fault (List Decl × CodeGenerator)
  | [], cg => .ok ([], cg)
  | d :: rest, cg =>
    match d.Emit heap fuel bodies cg with
    | .error e => .error e
    | .ok (d2, cg1) =>
      match Program.EmitAll heap fuel bodies rest cg1 with
      | .error e => .error e
      | .ok (rest2, cg2) => .ok (d2 :: rest2, cg2)

/-- The part of `Program::Emit` after the test for `main` (ast_stmt.cc:87-108):
the layout of every declaration, the prefixing of every declaration, the
emission of every declaration.  The final call `DoFinalCodeGen` prints the
instructions and changes nothing of the state. -/
def Program.EmitPhases (bodies : FnDecl → Option BodyEmit) (fuel : Nat) (st : EmitState) :
    Except Fault EmitState :=
  match Program.offsetLoop fuel st.decls.length 0 st.decls st.cg with
  | .error e => .error e
  | .ok (decls1, cg1) =>
    match Program.EmitAll (decls1.map Decl.PrefixForMember) fuel bodies
        (decls1.map Decl.PrefixForMember) cg1 with
    | .error e => .error e
    | .ok (decls2, cg2) => .ok { st with decls := decls2, cg := cg2 }

/-- The method `Program::Emit` (ast_stmt.cc:66-109). -/
def Program.Emit (bodies : FnDecl → Option BodyEmit) (fuel : Nat) (st : EmitState) :
    Except Fault EmitState :=
  if !Program.main_exists st.decls then .ok { st with errs := st.errs ++ [.NoMainFound] }
  else Program.EmitPhases bodies fuel st

/-- The program `void main();` with nothing emitted yet. -/
def exProgramMain : EmitState :=
  { decls := [.fn { id := { name := "main" }, returnType := .base .voidType true, formals := [] }],
    cg := CodeGenerator.new, errs := [] }

/-- The program `class A { void main(); }` with nothing emitted yet: its only
`main` is a method. -/
def exProgramNoMain : EmitState :=
  { decls := [.cls { id := { name := "A", cache := some 0 }, extends_ := none, implements := [],
                     members := [.fn { id := { name := "main" },
                                       returnType := .base .voidType true, formals := [] }] }],
    cg := CodeGenerator.new, errs := [] }


/-! ## Meaning of the instructions -/

/-- The accessor `Location::GetSegment()`. -/
def Location.GetSegment : Location → Segment
  | .plain segment _ _ => segment
  | .based segment _ _ _ => segment

/-- Modelled from the spec: the state in which instructions run (tac.cc and
mips.cc are not among the sources).  `vars` is the word held at an offset of a
segment, `mem` the word at an address of the heap, `brk` the first address not
yet allocated, `strings` the string constants loaded so far (the address of a
string is its index), `params` the words pushed and not yet popped, last
pushed first, `out` what has been printed. -/
structure Machine where
  vars : Segment → Int → Int
  mem : Int → Int
  brk : Int
  strings : List String
  params : List Int
  out : List String
  halted : Bool
  pc : Nat

/-- Modelled from the spec: the word an operand holds; an operand that is
`NULL` or has a base holds none. -/
def Machine.get (m : Machine) : Option Location → Option Int
  | some (.plain segment offset _) => some (m.vars segment offset)
  | _ => none

/-- Modelled from the spec: the state after a word is written to the location
and the instruction is left. -/
def Machine.set (m : Machine) (dst : Location) (v : Int) : Machine :=
  { m with
    vars := fun segment offset =>
      if segment = dst.GetSegment ∧ offset = dst.GetOffset then v else m.vars segment offset
    pc := m.pc + 1 }

/-- Modelled from the spec: the operators of `BinaryOp` by name, on words;
a comparison and a logical operator yield 1 or 0. -/
def binop (opName : String) (x y : Int) : Option Int :=
  if opName == "+" then some (x + y)
  else if opName == "-" then some (x - y)
  else if opName == "*" then some (x * y)
  else if opName == "/" then some (x / y)
  else if opName == "%" then some (x % y)
  else if opName == "==" then some (if x = y then 1 else 0)
  else if opName == "!=" then some (if x = y then 0 else 1)
  else if opName == "<" then some (if x < y then 1 else 0)
  else if opName == "<=" then some (if x ≤ y then 1 else 0)
  else if opName == ">" then some (if y < x then 1 else 0)
  else if opName == ">=" then some (if y ≤ x then 1 else 0)
  else if opName == "&&" then some (if x ≠ 0 ∧ y ≠ 0 then 1 else 0)
  else if opName == "||" then some (if x ≠ 0 ∨ y ≠ 0 then 1 else 0)
  else none

/-- The index of the instruction `Label label` in the code. -/
def findLabel (label : String) : List Instr → Option Nat
  | [] => none
  | .Label l :: rest =>
    if l == label then some 0 else (findLabel label rest).map (fun i => i + 1)
  | _ :: rest => (findLabel label rest).map (fun i => i + 1)

/-- Modelled from the spec: a call of a library routine with the words pushed:
`_Alloc` returns the first free address and moves it on by the number of bytes
asked for, `_PrintString` prints the string at the address, `_PrintInt` and
`_PrintBool` print the word, `_Halt` stops the run. -/
def Machine.call (m : Machine) (label : String) (result : Option Location) : Option Machine :=
  if label == "_Halt" then some { m with halted := true, pc := m.pc + 1 }
  else
    match m.params with
    | [] => none
    | arg :: _ =>
      if label == "_PrintString" then
        some { m with out := m.out ++ [m.strings.getD arg.toNat ""], pc := m.pc + 1 }
      else if label == "_PrintInt" then
        some { m with out := m.out ++ [toString arg], pc := m.pc + 1 }
      else if label == "_PrintBool" then
        some { m with out := m.out ++ [if arg = 0 then "false" else "true"], pc := m.pc + 1 }
      else if label == "_Alloc" then
        match result with
        | some dst => some ({ m with brk := m.brk + arg }.set dst m.brk)
        | none => none
      else none

/-- Modelled from the spec: one instruction run in a state; `none` for an
instruction outside the part that is given a meaning here (calls of
functions, returns, frames, tables). -/
def Machine.exec (code : List Instr) (m : Machine) : Instr → Option Machine
  | .LoadConstant dst value => some (m.set dst value)
  | .LoadStringConstant dst s =>
    some ({ m with strings := m.strings ++ [s] }.set dst m.strings.length)
  | .Assign (some dst) src =>
    match m.get src with
    | some v => some (m.set dst v)
    | none => none
  | .Load dst ref offset =>
    match m.get ref with
    | some a => some (m.set dst (m.mem (a + offset)))
    | none => none
  | .Store dst src offset =>
    match m.get dst, m.get src with
    | some a, some v =>
      some { m with
             mem := fun addr => if addr = a + offset then v else m.mem addr
             pc := m.pc + 1 }
    | _, _ => none
  | .BinaryOp opName dst op1 op2 =>
    match m.get op1, m.get op2 with
    | some x, some y =>
      match binop opName x y with
      | some v => some (m.set dst v)
      | none => none
    | _, _ => none
  | .Label _ => some { m with pc := m.pc + 1 }
  | .Goto label =>
    match findLabel label code with
    | some i => some { m with pc := i }
    | none => none
  | .IfZ test label =>
    match m.get test with
    | some v =>
      if v = 0 then
        match findLabel label code with
        | some i => some { m with pc := i }
        | none => none
      else some { m with pc := m.pc + 1 }
    | none => none
  | .PushParam param =>
    match m.get param with
    | some v => some { m with params := v :: m.params, pc := m.pc + 1 }
    | none => none
  | .PopParams numBytesOfParams =>
    some { m with params := m.params.drop (numBytesOfParams / 4).toNat, pc := m.pc + 1 }
  | .LCall label result => m.call label result
  | _ => none

/-- Modelled from the spec: the run of the code from a state, at most `fuel`
instructions: it ends when the state is halted or the end of the code is
reached; `none` when an instruction has no meaning here. -/
def Machine.run (code : List Instr) : Nat → Machine → Option Machine
  | 0, m => some m
  | fuel + 1, m =>
    if m.halted then some m
    else
      match code[m.pc]? with
      | none => some m
      | some instr =>
        match m.exec code instr with
        | none => none
        | some m2 => Machine.run code fuel m2


/-! ## Notions used to state the properties of the emitted code -/

/-- The generator `cg2` holds the code of `cg` followed by further
instructions. -/
def CodeGenerator.growsTo (cg cg2 : CodeGenerator) : Prop :=
  ∃ ext, cg2.code = cg.code ++ ext

/-- The instructions are none or one `Load`: what a call of `ReturnEmitLocD`
emits. -/
def isLoads (ext : List Instr) : Prop :=
  ext = [] ∨ ∃ dst ref offset, ext = [.Load dst ref offset]

/-- The writing instruction of an assignment as the specification words it:
`Store(base, rhs, offset)` if the location of the left operand has a base;
otherwise `Store(addr, rhs)` with offset 0 if the left operand is an array
access; otherwise `Assign(lhs, rhs)`. -/
def writeInstr (left : Expr) (leftLoc rightLoc : Location) : Instr :=
  match leftLoc with
  | .based _ offset _ base => .Store (some base) (some rightLoc) offset
  | .plain _ _ _ =>
    if left.AccessibleArray then .Store (some leftLoc) (some rightLoc) 0
    else .Assign (some leftLoc) (some rightLoc)

/-- The instruction takes part in the calling sequence: `PushParam`,
`PopParams`, `LCall` or `ACall`. -/
def Instr.isCallPart : Instr → Bool
  | .PushParam _ => true
  | .PopParams _ => true
  | .LCall _ _ => true
  | .ACall _ _ => true
  | _ => false

/-- The instruction is a `PushParam`. -/
def Instr.isPushParam : Instr → Bool
  | .PushParam _ => true
  | _ => false

/-- The number of bytes the `PopParams` instructions of the list pop. -/
def poppedBytes : List Instr → Int
  | [] => 0
  | .PopParams n :: rest => n + poppedBytes rest
  | _ :: rest => poppedBytes rest

/-- The location was given out before the generator reached its state: it is
not in the frame at or below the next local offset, so no temporary made
from now on is the same word. -/
def settled (cg : CodeGenerator) (loc : Location) : Prop :=
  ∃ segment offset name, loc = .plain segment offset name ∧
    (segment = .fpRelative → cg.localLocation < offset)

/-- The temporary that the `k`-th call of `GenTempVar` from the generator `cg`
makes, counting from 0. -/
def tempAt (cg : CodeGenerator) (k : Nat) : Location :=
  .plain .fpRelative (cg.localLocation - 4 * (k : Int)) ("_tmp" ++ toString (cg.nextTempNum + k))

/-- The bounds check as the specification lists it, for a subscript held in
`t0` and an array whose address is held in `t3`: `subscript < 0`, the length
loaded from offset -4 of the array, `subscript < length`, the two combined,
`IfZ` over the failure path, the failure path (print the message, halt), the
success label, and the address of the element. -/
def boundsCheckCode (cg : CodeGenerator) (t0 t3 : Location) : List Instr :=
  [ .LoadConstant (tempAt cg 0) 0,
    .BinaryOp "<" (tempAt cg 1) (some t0) (some (tempAt cg 0)),
    .Load (tempAt cg 2) (some t3) (-4),
    .BinaryOp "<" (tempAt cg 3) (some t0) (some (tempAt cg 2)),
    .BinaryOp "==" (tempAt cg 4) (some (tempAt cg 3)) (some (tempAt cg 0)),
    .BinaryOp "||" (tempAt cg 5) (some (tempAt cg 1)) (some (tempAt cg 4)),
    .IfZ (some (tempAt cg 5)) ("_L" ++ toString cg.nextLabelNum),
    .LoadStringConstant (tempAt cg 6) err_arr_out_of_bounds,
    .PushParam (some (tempAt cg 6)),
    .LCall "_PrintString" none,
    .PopParams 4,
    .LCall "_Halt" none,
    .Label ("_L" ++ toString cg.nextLabelNum),
    .LoadConstant (tempAt cg 7) 4,
    .BinaryOp "*" (tempAt cg 8) (some (tempAt cg 7)) (some t0),
    .BinaryOp "+" (tempAt cg 9) (some t3) (some (tempAt cg 8)) ]

/-- The allocation of an array as the specification lists it, for a size held
in `t0`: the test `size <= 0`, `IfZ` over the failure path, the failure path
(print the message, halt), the success label, the allocation of
`(size + 1) * 4` bytes, the store of the size at offset 0 of the block, and
the address of the block plus 4. -/
def newArrayCode (cg : CodeGenerator) (t0 : Location) : List Instr :=
  [ .LoadConstant (tempAt cg 0) 0,
    .BinaryOp "<=" (tempAt cg 1) (some t0) (some (tempAt cg 0)),
    .IfZ (some (tempAt cg 1)) ("_L" ++ toString cg.nextLabelNum),
    .LoadStringConstant (tempAt cg 2) err_arr_bad_size,
    .PushParam (some (tempAt cg 2)),
    .LCall "_PrintString" none,
    .PopParams 4,
    .LCall "_Halt" none,
    .Label ("_L" ++ toString cg.nextLabelNum),
    .LoadConstant (tempAt cg 3) 1,
    .BinaryOp "+" (tempAt cg 4) (some (tempAt cg 3)) (some t0),
    .LoadConstant (tempAt cg 5) 4,
    .BinaryOp "*" (tempAt cg 6) (some (tempAt cg 4)) (some (tempAt cg 5)),
    .PushParam (some (tempAt cg 6)),
    .LCall "_Alloc" (some (tempAt cg 7)),
    .PopParams 4,
    .Store (some (tempAt cg 7)) (some t0) 0,
    .BinaryOp "+" (tempAt cg 8) (some (tempAt cg 7)) (some (tempAt cg 5)) ]

/-! ## Concrete expressions -/

/-- The heap `exHeap` followed by the globals `A a; B b; int[] v; int i;` at the
addresses 3 to 6, a method `int f(int x)` at address 7 and a top-level function
`int f(int x)` at address 8. -/
def exHeapVars : Heap :=
  exHeap ++ [
    .var { id := { name := "a" }, type := .named { id := exA.id },
           emit_loc := some (.plain .gpRelative 0 "a") },
    .var { id := { name := "b" }, type := .named { id := exB.id },
           emit_loc := some (.plain .gpRelative 4 "b") },
    .var { id := { name := "v" }, type := .array (.base .intType true) true,
           emit_loc := some (.plain .gpRelative 8 "v") },
    .var { id := { name := "i" }, type := .base .intType true,
           emit_loc := some (.plain .gpRelative 12 "i") },
    .fn { exFnInt with vtable_ofst := 0 },
    .fn exFnInt ]

/-- The parents of the nodes of `exHeapVars`: the function at address 7 is a
method of the class at address 0. -/
def exParents : Parents := [none, none, none, none, none, none, none, some 0, none]

/-- The variable `a`. -/
def exVarA : Expr := .FieldAccess (some (.named { id := exA.id })) none { name := "a", cache := some 3 }

/-- The variable `b`. -/
def exVarB : Expr := .FieldAccess (some (.named { id := exB.id })) none { name := "b", cache := some 4 }

/-- The variable `v`. -/
def exVarV : Expr :=
  .FieldAccess (some (.array (.base .intType true) true)) none { name := "v", cache := some 5 }

/-- The variable `i`. -/
def exVarI : Expr := .FieldAccess (some (.base .intType true)) none { name := "i", cache := some 6 }

/-- A state of the machine in which the global `v` holds the address 1000 of
an array of length 3 and the global `i` holds 5; the heap is free from the
address 2000 on. -/
def exMachine : Machine where
  vars := fun segment offset =>
    if segment = .gpRelative ∧ offset = 8 then 1000
    else if segment = .gpRelative ∧ offset = 12 then 5
    else 0
  mem := fun addr => if addr = 996 then 3 else 0
  brk := 2000
  strings := []
  params := []
  out := []
  halted := false
  pc := 0

/-! ## A class that extends an undeclared class -/

/-- The table of `class C extends U { int x; }`, `U` not declared, with the
scope of `C` entered, as `ClassDecl::CheckInherit` has it: scope 0 is global,
scope 1 belongs to `C` and names `U` as its parent. -/
def exTableOrphan : STable :=
  { scopes := [
      { },
      { ht := some { entries := [("x", exGlobalX)] }, owner := some "C", parent := some "U" } ],
    act_scopes := [0, 1], cur_scopes := 1, scope_count := 1, id_count := 1 }


/-! ## The semantic analyzer of P3: type equivalence

The sources of `P3-Semantic-Analysis` have their own type and declaration
classes; they are modelled in the namespace `P3`.  The seven objects of the
base class `Type` are the same seven names (P3 ast_type.cc:19-25), and a call
that does not return is reported by the same `Fault`. -/

namespace P3

/-- The classes `Type`, `NamedType` and `ArrayType` of P3 (ast_type.h); a named
type is its identifier's name. -/
inductive Ty
  | base (b : Builtin)
  | named (id : String)
  | array (elemType : Ty)
  deriving DecidableEq, Repr

/-- The class `VarDecl` of P3 (ast_decl.h:52-64). -/
structure VarDecl where
  id : String
  type : Ty
  deriving DecidableEq, Repr

/-- The class `FnDecl` of P3 (ast_decl.h:127-150); the body plays no part in
equivalence. -/
structure FnDecl where
  id : String
  returnType : Ty
  formals : List VarDecl
  deriving DecidableEq, Repr

/-- The class `ClassDecl` of P3 (ast_decl.h:66-104), `extends` and `implements`
by name; the members play no part in type equivalence. -/
structure ClassDecl where
  id : String
  extends_ : Option String := none
  implements : List String := []
  deriving DecidableEq, Repr

/-- The declarations of P3; an interface is its name. -/
inductive Decl
  | var (v : VarDecl)
  | fn (f : FnDecl)
  | cls (c : ClassDecl)
  | iface (id : String)
  deriving DecidableEq, Repr

/-- Modelled from the spec: the table `Program::globalScp->hashTable`
(hashtable.h and the scope class of P3 are not among the sources): the
declarations bound to names, the binding found first wins. -/
abbrev GlobalScp := List (String × Decl)

/-- The call `Program::globalScp->hashTable->Lookup(name)`; `none` is `NULL`. -/
def GlobalScp.Lookup (globalScp : GlobalScp) (name : String) : Option Decl :=
  match globalScp with
  | [] => none
  | (k, d) :: rest => if k == name then some d else GlobalScp.Lookup rest name

/-- The methods `Type::IsEqual` (ast_type.h:40-43, identity of the shared
objects), `NamedType::IsEqual` (ast_type.cc:53-61; the comparison `==` of
identifiers, declared in the absent ast.h, is modelled from the spec as
equality of the names) and `ArrayType::IsEqual` (ast_type.cc:115-123). -/
def Ty.IsEqual : Ty → Ty → Bool
  | .base b, t =>
    match t with
    | .base b2 => b == b2
    | _ => false
  | .named id, t =>
    match t with
    | .named id2 => id2 == id
    | _ => false
  | .array elemType, t =>
    match t with
    | .array elemType2 => elemType.IsEqual elemType2
    | _ => false

/-- The cast `dynamic_cast<NamedType *>(other)` tested for non-NULL. -/
def Ty.isNamed : Ty → Bool
  | .named _ => true
  | _ => false

/-- The `while` loop of `NamedType::IsEquivalentTo` (ast_type.cc:71-95), entered
with the name of `nt`; one unit of `fuel` per turn. -/
def NamedType.IsEquivalentTo.loop (globalScp : GlobalScp) (t : Ty) :
    Nat → String → Except Fault Bool
  | 0, nt =>
    match globalScp.Lookup nt with
    | none => .ok false
    | some _ => .error .fuel
  | fuel + 1, nt =>
    match globalScp.Lookup nt with
    | none => .ok false
    | some dec =>
      match dec with
      | .cls cl =>
        if cl.implements.any (fun imp => (Ty.named imp).IsEqual t) then .ok true
        else
          match cl.extends_ with
          | none => .ok false
          | some ext =>
            if (Ty.named ext).IsEqual t then .ok true
            else NamedType.IsEquivalentTo.loop globalScp t fuel ext
      | _ => .ok false

/-- The methods `Type::IsEquivalentTo` (ast_type.cc:33-44),
`NamedType::IsEquivalentTo` (ast_type.cc:63-97) and `ArrayType::IsEquivalentTo`
(ast_type.cc:125-133). -/
def Ty.IsEquivalentTo (globalScp : GlobalScp) (fuel : Nat) : Ty → Ty → Except Fault Bool
  | .base b, other =>
    if (Ty.base b).IsEqual (.base .errorType) || other.IsEqual (.base .errorType) then .ok true
    else if (Ty.base b).IsEqual (.base .nullType) && other.isNamed then .ok true
    else .ok ((Ty.base b).IsEqual other)
  | .named id, t =>
    if (Ty.named id).IsEqual t then .ok true
    else NamedType.IsEquivalentTo.loop globalScp t fuel id
  | .array elemType, t =>
    match t with
    | .array elemType2 => elemType.IsEquivalentTo globalScp fuel elemType2
    | _ => .ok false

/-- The method `VarDecl::IsEquivalentTo` (ast_decl.cc:52-60). -/
def VarDecl.IsEquivalentTo (globalScp : GlobalScp) (fuel : Nat) (this : VarDecl) (d : Decl) :
    Except Fault Bool :=
  match d with
  | .var var => this.type.IsEquivalentTo globalScp fuel var.type
  | _ => .ok false

/-- The loop over the formals in `FnDecl::IsEquivalentTo` (ast_decl.cc:311-317),
entered when the two lists have the same length. -/
def FnDecl.IsEquivalentTo.loop (globalScp : GlobalScp) (fuel : Nat) :
    List VarDecl → List VarDecl → Except Fault Bool
  | [], _ => .ok true
  | _ :: _, [] => .error .outOfRange
  | v :: rest, w :: rest2 =>
    match v.IsEquivalentTo globalScp fuel (.var w) with
    | .error e => .error e
    | .ok false => .ok false
    | .ok true => FnDecl.IsEquivalentTo.loop globalScp fuel rest rest2

/-- The method `FnDecl::IsEquivalentTo` (ast_decl.cc:296-319). -/
def FnDecl.IsEquivalentTo (globalScp : GlobalScp) (fuel : Nat) (this : FnDecl) (d : Decl) :
    Except Fault Bool :=
  match d with
  | .fn fn =>
    match this.returnType.IsEquivalentTo globalScp fuel fn.returnType with
    | .error e => .error e
    | .ok false => .ok false
    | .ok true =>
      if this.formals.length != fn.formals.length then .ok false
      else FnDecl.IsEquivalentTo.loop globalScp fuel this.formals fn.formals
  | _ => .ok false

/-! ### Notions used to state the properties -/

/-- No node of the type is the object `Type::errorType`, which no declaration
carries. -/
def Ty.noError : Ty → Bool
  | .base b => b != .errorType
  | .named _ => true
  | .array elemType => elemType.noError

/-- The type is built from the types `int`, `double`, `bool`, `string`, `void`
and arrays of them: no class or interface occurs in it. -/
def Ty.primitive : Ty → Bool
  | .base b => b != .errorType && b != .nullType
  | .named _ => false
  | .array elemType => elemType.primitive

/-- No type of the signature holds the object `Type::errorType`. -/
def FnDecl.noError (f : FnDecl) : Bool :=
  f.returnType.noError && f.formals.all (fun v => v.type.noError)

/-- The return type and the types of the formals are built from primitive
types and arrays of them. -/
def FnDecl.primitive (f : FnDecl) : Bool :=
  f.returnType.primitive && f.formals.all (fun v => v.type.primitive)

/-- No name in the `implements` list of a class of the program is bound to a
class (`ClassDecl::CheckImplements` reports such a name). -/
def GlobalScp.implementsNoClass (globalScp : GlobalScp) : Prop :=
  ∀ (name : String) (cl : ClassDecl), globalScp.Lookup name = some (.cls cl) →
    ∀ imp ∈ cl.implements, ∀ c2 : ClassDecl, globalScp.Lookup imp ≠ some (.cls c2)

/-! ### Concrete declarations -/

/-- The program `class A {} class B extends A {} class C extends B implements I {}
interface I {}`. -/
def exScp : GlobalScp :=
  [("A", .cls { id := "A" }), ("B", .cls { id := "B", extends_ := some "A" }),
    ("C", .cls { id := "C", extends_ := some "B", implements := ["I"] }), ("I", .iface "I")]

/-- The function `C f(C x)`. -/
def exFnC : FnDecl := { id := "f", returnType := .named "C", formals := [{ id := "x", type := .named "C" }] }

/-- The function `B f(B x)`. -/
def exFnB : FnDecl := { id := "f", returnType := .named "B", formals := [{ id := "x", type := .named "B" }] }

/-- The function `A f(A x)`. -/
def exFnA : FnDecl := { id := "f", returnType := .named "A", formals := [{ id := "x", type := .named "A" }] }

/-- The function `int[] g(bool b)`. -/
def exFnPrim : FnDecl :=
  { id := "g", returnType := .array (.base .intType), formals := [{ id := "b", type := .base .boolType }] }

/-- The function `int[] h(bool c)`. -/
def exFnPrim2 : FnDecl :=
  { id := "h", returnType := .array (.base .intType), formals := [{ id := "c", type := .base .boolType }] }

end P3


/-! ## Emission of statements (ast_stmt.cc) -/

/-- A node on the chain of parents of a statement, as the walk of
`BreakStmt::Emit` reads it: its class and, for a loop, the field `LoopEndLabel`
(ast_stmt.h:73), which the `Emit` of the loop assigns before it emits the
body; `none` is the field not yet assigned. -/
structure Ancestor where
  kind : NodeKind
  LoopEndLabel : Option String := none
  deriving DecidableEq, Repr

/-- The statement classes of ast_stmt.h; an expression is a statement too
(ast_expr.h:20).  The declarations of a block are the variable nodes at the
given addresses. -/
inductive Stmt
  | StmtBlock (decls : List Ptr) (stmts : List Stmt)
  | ForStmt (init test step : Expr) (body : Stmt)
  | WhileStmt (test : Expr) (body : Stmt)
  | IfStmt (test : Expr) (body : Stmt) (elseBody : Option Stmt)
  | BreakStmt
  | ReturnStmt (expr : Expr)
  | PrintStmt (args : List Expr)
  | Expr (e : Expr)

/-- The virtual test `ExprIsEmpty()` (ast_expr.h:28, 38). -/
def Expr.ExprIsEmpty : Expr → Bool
  | .EmptyExpr _ => true
  | _ => false

/-- The call `decls->EmitAll()` of `StmtBlock::Emit` (ast_stmt.cc:141):
`VarDecl::Emit` on the variable node at each address, which writes the
`emit_loc` of the node. -/
def StmtBlock.EmitDecls : List Ptr → Heap × CodeGenerator → Except Fault (Heap × CodeGenerator)
  | [], st => .ok st
  | p :: rest, (heap, cg) =>
    match heap[p]? with
    | some (.var v) =>
      match v.Emit cg with
      | .error e => .error e
      | .ok (v2, cg1) => StmtBlock.EmitDecls rest (heap.set p (.var v2), cg1)
    | _ => .error .outOfRange

/-- The loop of `BreakStmt::Emit` (ast_stmt.cc:381-391) at the node `node` whose
chain of parents, nearest first, is the list.  The label of a loop that has
not assigned its field is not read by any emission: `ForStmt::Emit` and
`WhileStmt::Emit` assign it before the body. -/
def BreakStmt.Emit.walk : Ancestor → List Ancestor → CodeGenerator → Except Fault CodeGenerator
  | _, [], cg => .ok cg
  | node, parent :: rest, cg =>
    if node.kind.IsLoop then
      match node.LoopEndLabel with
      | some label => .ok (cg.GenGoto label)
      | none => .error .nullDeref
    else BreakStmt.Emit.walk parent rest cg

/-- The method `BreakStmt::Emit` (ast_stmt.cc:379-392) on a break statement whose
chain of parents, nearest first and ending in the root of the tree, is
`ancestors`. -/
def BreakStmt.Emit (ancestors : List Ancestor) (cg : CodeGenerator) : Except Fault CodeGenerator :=
  BreakStmt.Emit.walk { kind := .BreakStmt } ancestors cg

/-- The choice of the library routine in `PrintStmt::Emit` (ast_stmt.cc:469-477);
in the last branch the code compares instead of assigning, and `func` is
left without a value. -/
def PrintStmt.func (type : Option Ty) : Option BuiltIn :=
  if isType .intType type then some .PrintInt
  else if isType .boolType type then some .PrintBool
  else if isType .stringType type then some .PrintString
  else none

/-- The method `PrintStmt::Emit` (ast_stmt.cc:463-482) on the arguments still to
print.  A call of `GenBuiltInCall` with `func` left without a value is
undefined; it is taken as a failed assertion (the type check reports such an
argument). -/
def PrintStmt.Emit (heap : Heap) (parents : Parents) :
    List Expr → CodeGenerator → Except Fault CodeGenerator
  | [], cg => .ok cg
  | a :: rest, cg =>
    match a.Emit heap parents cg with
    | .error e => .error e
    | .ok (al, cg1) =>
      match a.ReturnEmitLocD al cg1 with
      | .error e => .error e
      | .ok (loc, cg2) =>
        if loc.isNone then .error .assertion
        else
          match PrintStmt.func a.ReturnType with
          | none => .error .assertion
          | some func =>
            match cg2.GenBuiltInCall func loc none with
            | .error e => .error e
            | .ok (_, cg3) => PrintStmt.Emit heap parents rest cg3

mutual
/-- The virtual method `Emit` on a statement whose chain of parents, nearest
first, is `ancestors`: `StmtBlock::Emit` (ast_stmt.cc:139-143), `ForStmt::Emit`
(206-220), `WhileStmt::Emit` (262-277), `IfStmt::Emit` (347-362),
`BreakStmt::Emit` (379-392), `ReturnStmt::Emit` (432-443), `PrintStmt::Emit`
(463-482) and the `Emit` of an expression.  The state is the declarations and
the generator. -/
def Stmt.Emit (parents : Parents) :
    List Ancestor → Stmt → Heap × CodeGenerator → Except Fault (Heap × CodeGenerator)
  | ancestors, .StmtBlock decls stmts, st =>
    match StmtBlock.EmitDecls decls st with
    | .error e => .error e
    | .ok st1 => Stmt.EmitAll parents ({ kind := .StmtBlock } :: ancestors) stmts st1
  | ancestors, .ForStmt init test step body, (heap, cg) =>
    match init.Emit heap parents cg with
    | .error e => .error e
    | .ok (_, cg1) =>
      match cg1.NewLabel with
      | (label0, cg2) =>
        match test.Emit heap parents (cg2.GenLabel label0) with
        | .error e => .error e
        | .ok (tl, cg3) =>
          match test.ReturnEmitLocD tl cg3 with
          | .error e => .error e
          | .ok (loc, cg4) =>
            match cg4.NewLabel with
            | (label1, cg5) =>
              match Stmt.Emit parents
                  ({ kind := .ForStmt, LoopEndLabel := some label1 } :: ancestors) body
                  (heap, cg5.GenIfZ loc label1) with
              | .error e => .error e
              | .ok (heap2, cg6) =>
                match step.Emit heap2 parents cg6 with
                | .error e => .error e
                | .ok (_, cg7) => .ok (heap2, (cg7.GenGoto label0).GenLabel label1)
  | ancestors, .WhileStmt test body, (heap, cg) =>
    match cg.NewLabel with
    | (label0, cg1) =>
      match test.Emit heap parents (cg1.GenLabel label0) with
      | .error e => .error e
      | .ok (tl, cg2) =>
        match test.ReturnEmitLocD tl cg2 with
        | .error e => .error e
        | .ok (loc, cg3) =>
          match cg3.NewLabel with
          | (label1, cg4) =>
            match Stmt.Emit parents
                ({ kind := .WhileStmt, LoopEndLabel := some label1 } :: ancestors) body
                (heap, cg4.GenIfZ loc label1) with
            | .error e => .error e
            | .ok (heap2, cg5) => .ok (heap2, (cg5.GenGoto label0).GenLabel label1)
  | ancestors, .IfStmt test body none, (heap, cg) =>
    match test.Emit heap parents cg with
    | .error e => .error e
    | .ok (tl, cg1) =>
      match test.ReturnEmitLocD tl cg1 with
      | .error e => .error e
      | .ok (loc, cg2) =>
        match cg2.NewLabel with
        | (label0, cg3) =>
          match Stmt.Emit parents ({ kind := .IfStmt } :: ancestors) body
              (heap, cg3.GenIfZ loc label0) with
          | .error e => .error e
          | .ok (heap2, cg4) =>
            match cg4.NewLabel with
            | (label1, cg5) =>
              .ok (heap2, ((cg5.GenGoto label1).GenLabel label0).GenLabel label1)
  | ancestors, .IfStmt test body (some elseBody), (heap, cg) =>
    match test.Emit heap parents cg with
    | .error e => .error e
    | .ok (tl, cg1) =>
      match test.ReturnEmitLocD tl cg1 with
      | .error e => .error e
      | .ok (loc, cg2) =>
        match cg2.NewLabel with
        | (label0, cg3) =>
          match Stmt.Emit parents ({ kind := .IfStmt } :: ancestors) body
              (heap, cg3.GenIfZ loc label0) with
          | .error e => .error e
          | .ok (heap2, cg4) =>
            match cg4.NewLabel with
            | (label1, cg5) =>
              match Stmt.Emit parents ({ kind := .IfStmt } :: ancestors) elseBody
                  (heap2, (cg5.GenGoto label1).GenLabel label0) with
              | .error e => .error e
              | .ok (heap3, cg6) => .ok (heap3, cg6.GenLabel label1)
  | ancestors, .BreakStmt, (heap, cg) =>
    match BreakStmt.Emit ancestors cg with
    | .error e => .error e
    | .ok cg1 => .ok (heap, cg1)
  | _, .ReturnStmt expr, (heap, cg) =>
    if expr.ExprIsEmpty then .ok (heap, cg.GenReturn none)
    else
      match expr.Emit heap parents cg with
      | .error e => .error e
      | .ok (el, cg1) =>
        match expr.ReturnEmitLocD el cg1 with
        | .error e => .error e
        | .ok (loc, cg2) => .ok (heap, cg2.GenReturn loc)
  | _, .PrintStmt args, (heap, cg) =>
    match PrintStmt.Emit heap parents args cg with
    | .error e => .error e
    | .ok cg1 => .ok (heap, cg1)
  | _, .Expr e, (heap, cg) =>
    match e.Emit heap parents cg with
    | .error err => .error err
    | .ok (_, cg1) => .ok (heap, cg1)
/-- The call `stmts->EmitAll()` on the statements of a block. -/
def Stmt.EmitAll (parents : Parents) :
    List Ancestor → List Stmt → Heap × CodeGenerator → Except Fault (Heap × CodeGenerator)
  | _, [], st => .ok st
  | ancestors, s :: rest, st =>
    match Stmt.Emit parents ancestors s st with
    | .error e => .error e
    | .ok st1 => Stmt.EmitAll parents ancestors rest st1
end

/-- The call `body->Emit()` of `FnDecl::Emit` on a body that is the statement
`body`, in the state `heap` of the declarations; the chain of parents of the
body is the function and what lies above it. -/
def Stmt.asBody (parents : Parents) (ancestors : List Ancestor) (heap : Heap) (body : Stmt) :
    BodyEmit :=
  fun cg =>
    match Stmt.Emit parents ancestors body (heap, cg) with
    | .error e => .error e
    | .ok (_, cg1) => .ok cg1

/-! ### Notions used to state the properties of labels -/

/-- No label has been taken back: the counter of `NewLabel` in the second
generator is at least that of the first. -/
def CodeGenerator.labelLe (cg cg2 : CodeGenerator) : Prop :=
  cg.nextLabelNum ≤ cg2.nextLabelNum

/-- The label is one that `NewLabel` handed out before the generator reached
its state. -/
def issuedBefore (cg : CodeGenerator) (label : String) : Prop :=
  ∃ j, j < cg.nextLabelNum ∧ label = "_L" ++ toString j

/-- The end labels of the loops on the chain of parents were handed out
before the generator reached its state. -/
def labelsIssued (cg : CodeGenerator) (ancestors : List Ancestor) : Prop :=
  ∀ a ∈ ancestors, ∀ label, a.LoopEndLabel = some label → issuedBefore cg label

/-! ### Concrete statements -/

/-- The constant `true`. -/
def exTrue : Expr := .BoolConstant (some (.base .boolType true)) true

/-- The loop `while (true) { break; }`. -/
def exInnerLoop : Stmt := .WhileStmt exTrue (.StmtBlock [] [.BreakStmt])

/-- The loop `while (true) { while (true) { break; } if (true) break; }`. -/
def exOuterLoop : Stmt :=
  .WhileStmt exTrue (.StmtBlock [] [exInnerLoop, .IfStmt exTrue .BreakStmt none])


/-! ## The frame of a function -/

/-- A call of a method of the code generator (codegen.cc) made while the body
of a function is emitted, with the arguments passed.  `GenBeginFunc`,
`ResetFrame`, `GetNextParam`, `GenEndFunc` are called by `FnDecl::Emit` itself,
`GetNextGlobal` and `GenVTable` by the layout and by `ClassDecl::Emit`: they
are not among the calls of a body. -/
inductive GenCall
  | GetNextLocal
  | NewLabel
  | GenTempVar
  | GenLoadConstant (value : Int)
  | GenLoadStringConstant (s : String)
  | GenLoadLabel (label : String)
  | GenAssign (dst src : Option Location)
  | GenLoad (ref : Option Location) (offset : Int)
  | GenStore (dst src : Option Location) (offset : Int)
  | GenBinaryOp (opName : String) (op1 op2 : Option Location)
  | GenLabel (label : String)
  | GenIfZ (test : Option Location) (label : String)
  | GenGoto (label : String)
  | GenReturn (val : Option Location)
  | GenPushParam (param : Option Location)
  | GenPopParams (numBytesOfParams : Int)
  | GenLCall (label : String) (fnHasReturnValue : Bool)
  | GenACall (fnAddr : Option Location) (fnHasReturnValue : Bool)
  | GenBuiltInCall (bn : BuiltIn) (arg1 arg2 : Option Location)
  deriving DecidableEq, Repr

/-- The generator after the call; what the call returns is dropped. -/
def GenCall.run (c : GenCall) (cg : CodeGenerator) : Except Fault CodeGenerator :=
  match c with
  | .GetNextLocal => .ok cg.GetNextLocal.2
  | .NewLabel => .ok cg.NewLabel.2
  | .GenTempVar => .ok cg.GenTempVar.2
  | .GenLoadConstant value => .ok (cg.GenLoadConstant value).2
  | .GenLoadStringConstant s => .ok (cg.GenLoadStringConstant s).2
  | .GenLoadLabel label => .ok (cg.GenLoadLabel label).2
  | .GenAssign dst src => .ok (cg.GenAssign dst src)
  | .GenLoad ref offset => .ok (cg.GenLoad ref offset).2
  | .GenStore dst src offset => .ok (cg.GenStore dst src offset)
  | .GenBinaryOp opName op1 op2 => .ok (cg.GenBinaryOp opName op1 op2).2
  | .GenLabel label => .ok (cg.GenLabel label)
  | .GenIfZ test label => .ok (cg.GenIfZ test label)
  | .GenGoto label => .ok (cg.GenGoto label)
  | .GenReturn val => .ok (cg.GenReturn val)
  | .GenPushParam param => .ok (cg.GenPushParam param)
  | .GenPopParams numBytesOfParams => cg.GenPopParams numBytesOfParams
  | .GenLCall label fnHasReturnValue => .ok (cg.GenLCall label fnHasReturnValue).2
  | .GenACall fnAddr fnHasReturnValue => .ok (cg.GenACall fnAddr fnHasReturnValue).2
  | .GenBuiltInCall bn arg1 arg2 =>
    match cg.GenBuiltInCall bn arg1 arg2 with
    | .error e => .error e
    | .ok (_, cg1) => .ok cg1

/-- Does the method reach `GetNextLocal`: `GetNextLocal` itself, `GenTempVar`,
the methods that start with `GenTempVar()` (codegen.cc:82, 89, 96, 108, 121),
and the three calls when they have a result (codegen.cc:173, 180, 207-208). -/
def GenCall.takesSlot : GenCall → Bool
  | .GetNextLocal => true
  | .GenTempVar => true
  | .GenLoadConstant _ => true
  | .GenLoadStringConstant _ => true
  | .GenLoadLabel _ => true
  | .GenLoad _ _ => true
  | .GenBinaryOp _ _ _ => true
  | .GenLCall _ fnHasReturnValue => fnHasReturnValue
  | .GenACall _ fnHasReturnValue => fnHasReturnValue
  | .GenBuiltInCall bn _ _ => bn.hasReturn
  | _ => false

/-- The offsets that `GetNextLocal` returns during the call in the state `cg`:
no method reaches it twice. -/
def GenCall.slots (c : GenCall) (cg : CodeGenerator) : List Int :=
  if c.takesSlot then [cg.GetNextLocal.1] else []

/-- The calls made one after the other: the offsets `GetNextLocal` returned, in
the order of the calls, and the generator after the last call. -/
def GenCall.runAll : List GenCall → CodeGenerator → Except Fault (List Int × CodeGenerator)
  | [], cg => .ok ([], cg)
  | c :: rest, cg =>
    match c.run cg with
    | .error e => .error e
    | .ok cg1 =>
      match GenCall.runAll rest cg1 with
      | .error e => .error e
      | .ok (slots, cg2) => .ok (c.slots cg ++ slots, cg2)

/-- The call `body->Emit()` of `FnDecl::Emit` on a body whose emission makes the
given calls of the generator. -/
def GenCall.asBody (calls : List GenCall) : BodyEmit :=
  fun cg =>
    match GenCall.runAll calls cg with
    | .error e => .error e
    | .ok (_, cg1) => .ok cg1

/-- The generator at the call `body->Emit()` of `FnDecl::Emit`
(ast_decl.cc:614-632): after the label, the `BeginFunc`, the `this` parameter
of a method and the formals. -/
def FnDecl.atBody (parent : Option Decl) (this : FnDecl) (cg : CodeGenerator) : CodeGenerator :=
  match (cg.GenLabel this.id.name).GenBeginFunc with
  | (_, cg1) =>
    let cg2 := if parentIsClass parent then cg1.GetNextParam.2 else cg1
    (FnDecl.EmitFormals this.formals cg2).2

/-- The calls that the body `{ int x; x = 1 + 2; Print(x); }` makes: the local,
two constants, the sum, the assignment and the call of `_PrintInt`. -/
def exCallsAdd : List GenCall :=
  [.GetNextLocal, .GenLoadConstant 1, .GenLoadConstant 2,
   .GenBinaryOp "+" (some (.plain .fpRelative (-12) "_tmp1"))
     (some (.plain .fpRelative (-16) "_tmp2")),
   .GenAssign (some (.plain .fpRelative (-8) "x")) (some (.plain .fpRelative (-20) "_tmp3")),
   .GenBuiltInCall .PrintInt (some (.plain .fpRelative (-8) "x")) none]

/-- A generator in which an earlier function `_f` has taken three slots, the
first for the temporary `_tmp0`. -/
def exCgLater : CodeGenerator :=
  ((CodeGenerator.new.GenLabel "_f").GenBeginFunc.2.GenLoadConstant 7).2.GetNextLocal.2.GetNextLocal.2

/-! ## Programs with `double`, and a call of `main` -/

/-- The function `void f(double x) { }`. -/
def exFnDoubleFormal : FnDecl :=
  { id := { name := "f" }, returnType := .base .voidType true,
    formals := [{ id := { name := "x" }, type := .base .doubleType true }] }

/-- The function `double g() { }`. -/
def exFnDoubleReturn : FnDecl :=
  { id := { name := "g" }, returnType := .base .doubleType true, formals := [] }

/-- The function `void main() { }`. -/
def exFnMain : FnDecl := { id := { name := "main" }, returnType := .base .voidType true, formals := [] }

/-- The variable `double d`. -/
def exVarDouble : VarDecl := { id := { name := "d" }, type := .base .doubleType true }

/-- The chain of parents of the body of a top-level function. -/
def exFnAncestors : List Ancestor := [{ kind := .FnDecl }, { kind := .Program }]

/-- Every function of the program has the body `{ }`. -/
def exEmptyBodies (heap : Heap) : FnDecl → Option BodyEmit :=
  fun _ => some (Stmt.asBody [] exFnAncestors heap (.StmtBlock [] []))

/-- The program `void f(double x) { } double g() { } void main() { }` with
nothing emitted yet. -/
def exProgramDoubleFormal : EmitState :=
  { decls := [.fn exFnDoubleFormal, .fn exFnDoubleReturn, .fn exFnMain],
    cg := CodeGenerator.new, errs := [] }

/-- The program `double d; void main() { }` with nothing emitted yet. -/
def exProgramDoubleGlobal : EmitState :=
  { decls := [.var exVarDouble, .fn exFnMain], cg := CodeGenerator.new, errs := [] }

/-- The body `{ double d; }`, the variable being the node at address 0. -/
def exBlockDoubleLocal : Stmt := .StmtBlock [0] []

/-- The call `main()` in a program whose function `main` is the node at
address 0. -/
def exCallMain : Expr := .Call (some (.base .voidType true)) none { name := "main", cache := some 0 } []

/-- The call `f()` in a program whose function `f` is the node at address 1. -/
def exCallF : Expr := .Call (some (.base .voidType true)) none { name := "f", cache := some 1 } []

/-- The program `void main() { main(); f(); } void f() { }`: the declarations. -/
def exHeapMain : Heap :=
  [.fn exFnMain, .fn { id := { name := "f" }, returnType := .base .voidType true, formals := [] }]

/-- The bodies of the program `void main() { main(); f(); } void f() { }`. -/
def exBodiesMain : FnDecl → Option BodyEmit :=
  fun fn =>
    if fn.id.name = "main" then
      some (Stmt.asBody [none, none] exFnAncestors exHeapMain
        (.StmtBlock [] [.Expr exCallMain, .Expr exCallF]))
    else some (Stmt.asBody [none, none] exFnAncestors exHeapMain (.StmtBlock [] []))

/-- The program `void main() { main(); f(); } void f() { }` with nothing
emitted yet. -/
def exProgramCallMain : EmitState := { decls := exHeapMain, cg := CodeGenerator.new, errs := [] }

/-- The labels that the instructions define. -/
def definedLabels (code : List Instr) : List String :=
  code.filterMap (fun i => match i with
    | .Label label => some label
    | _ => none)

/-- The labels that the `LCall` instructions jump to. -/
def calledLabels (code : List Instr) : List String :=
  code.filterMap (fun i => match i with
    | .LCall label _ => some label
    | _ => none)


/-! ## Notions used to state the transitivity of `IsCompatibleWith` -/

/-- The declaration is a class or an interface. -/
def Decl.isTypeDecl (d : Decl) : Bool :=
  d.IsClassDecl || d.IsInterfaceDecl

/-- The cache of a named type points to the class or interface of its name;
`IsCompatibleWith` consults no cache below the top of a type. -/
def Ty.cacheResolved (heap : Heap) : Ty → Bool
  | .named n =>
    match n.id.ReturnCache heap with
    | some d => d.isTypeDecl && d.GetId.name == n.id.name
    | none => false
  | _ => true

/-- No two classes or interfaces of the program have the same name. -/
def uniqueTypeNames (heap : Heap) : Prop :=
  ∀ d1 ∈ heap, ∀ d2 ∈ heap, d1.isTypeDecl = true → d2.isTypeDecl = true →
    d1.GetId.name = d2.GetId.name → d1 = d2

/-- The class `class C extends B {}`. -/
def exC : ClassDecl :=
  { id := { name := "C", cache := some 3 },
    extends_ := some { id := { name := "B", cache := some 1 } }, implements := [], members := [] }

/-- The declarations of the program, `A` at address 0, `B` at 1, `I` at 2 and
`C` at 3. -/
def exHeapABC : Heap := [.cls exA, .cls exB, .iface exI, .cls exC]

/-! ## Notions used to state the result of `Program::Emit`

The relations below follow the wording of the specification (layout, then
prefix and emission, declaration by declaration); they are written without
the loops of the model, which are compared with them. -/

/-- The elements of a list are handled by `step` one after the other, each in
the generator that the one before left: `outs` lists what they became, in
order, and `cg2` is the generator after the last. -/
def inTurn {α : Type} (step : α → CodeGenerator → α → CodeGenerator → Prop) :
    List α → CodeGenerator → List α → CodeGenerator → Prop
  | [], cg, outs, cg2 => outs = [] ∧ cg2 = cg
  | a :: rest, cg, outs, cg2 =>
    ∃ b cg1 outs1, step a cg b cg1 ∧ outs = b :: outs1 ∧ inTurn step rest cg1 outs1 cg2

/-- The layout of one top-level declaration, `heap` being the declarations of
the program at that time: a variable gets the next global offset, a class is
laid out by `OffsetAssign`, a function or an interface is left as it is. -/
def layoutStep (heap : Heap) (fuel : Nat) (d : Decl) (cg : CodeGenerator) (d1 : Decl)
    (cg1 : CodeGenerator) : Prop :=
  match d with
  | .var v =>
    d1 = .var { v with emit_loc := some (.plain .gpRelative cg.globalLocation v.id.name) } ∧
    cg1 = { cg with globalLocation := cg.globalLocation + 4 }
  | .cls c => ∃ c1, c.OffsetAssign heap fuel = .ok c1 ∧ d1 = .cls c1 ∧ cg1 = cg
  | .fn f => d1 = .fn f ∧ cg1 = cg
  | .iface i => d1 = .iface i ∧ cg1 = cg

/-- The layout of the declarations `todo` in order; `done` holds the
declarations before them, as their layout left them, so that each declaration
is laid out in the program as it stands when its turn comes. -/
def layoutInTurn (fuel : Nat) :
    List Decl → List Decl → CodeGenerator → List Decl → CodeGenerator → Prop
  | _, [], cg, outs, cg2 => outs = [] ∧ cg2 = cg
  | done, d :: rest, cg, outs, cg2 =>
    ∃ d1 cg1 outs1, layoutStep (done ++ d :: rest) fuel d cg d1 cg1 ∧ outs = d1 :: outs1 ∧
      layoutInTurn fuel (done ++ [d1]) rest cg1 outs1 cg2

/-- The label in the table of a class for the entry `f` of `fn_members`:
`_D.m`, where `m` is the name of `f` and `D` the nearest class on the chain
(the class first) that declares a method `m`. -/
def slotLabel (chain : List ClassDecl) (f : FnDecl) (label : String) : Prop :=
  ∃ (pre : List ClassDecl) (D : ClassDecl) (post : List ClassDecl),
    chain = pre ++ D :: post ∧
    (∀ c ∈ pre, f.id.name ∉ fnNames (ownFns c.members)) ∧
    f.id.name ∈ fnNames (ownFns D.members) ∧
    label = "_" ++ D.id.name ++ "." ++ f.id.name

/-- The prefixing and emission of one member of the laid-out class `c`: a field
emits nothing and is refused when it is a double; a method is renamed `_c.m`
and emitted as a function whose parent is the class. -/
def memberStep (bodies : FnDecl → Option BodyEmit) (c : ClassDecl) (m : Member)
    (cg : CodeGenerator) (m2 : Member) (cg2 : CodeGenerator) : Prop :=
  match m with
  | .var v => v.type.isBuiltin .doubleType = false ∧ m2 = .var v ∧ cg2 = cg
  | .fn f =>
    ∃ f2, (f.PrefixForMember (some (.cls c))).Emit (some (.cls c))
        (bodies (f.PrefixForMember (some (.cls c)))) cg = .ok (f2, cg2) ∧ m2 = .fn f2
  | .other id => m2 = .other id ∧ cg2 = cg

/-- The prefixing and emission of one top-level declaration, `heap` being the
laid-out declarations of the program: a global variable emits nothing and is
refused when it is a double; a function is renamed (`_f`, or `main`) and
emitted; a class has its members prefixed and emitted in order, followed by
its table, which lists the label of every entry of `fn_members`; an interface
is refused. -/
def emitStep (heap : Heap) (fuel : Nat) (bodies : FnDecl → Option BodyEmit) (d : Decl)
    (cg : CodeGenerator) (d2 : Decl) (cg2 : CodeGenerator) : Prop :=
  match d with
  | .var v => v.type.isBuiltin .doubleType = false ∧ d2 = .var v ∧ cg2 = cg
  | .fn f =>
    ∃ f2, (f.PrefixForMember none).Emit none (bodies (f.PrefixForMember none)) cg =
        .ok (f2, cg2) ∧ d2 = .fn f2
  | .cls c =>
    ∃ (members2 : List Member) (cgm : CodeGenerator) (chain : List ClassDecl)
      (labels : List String),
      inTurn (memberStep bodies c) c.members cg members2 cgm ∧
      extendsChain heap fuel c = .ok chain ∧
      List.Forall₂ (slotLabel chain) c.fn_members labels ∧
      cg2 = cgm.push (.VTable c.id.name labels) ∧
      d2 = .cls { c with members := members2 }
  | .iface _ => False

/-- The class `class P { int x; void f(int a); void g(int a); }` at address 1. -/
def exClsP : ClassDecl :=
  { id := { name := "P", cache := some 1 }, extends_ := none, implements := [],
    members := [.var (exV "x"), .fn (exF "f" "a"), .fn (exF "g" "a")] }

/-- The class `class Q extends P { void g(int b); void h(int b); }` at
address 2. -/
def exClsQ : ClassDecl :=
  { id := { name := "Q", cache := some 2 },
    extends_ := some { id := { name := "P", cache := some 1 } }, implements := [],
    members := [.fn (exF "g" "b"), .fn (exF "h" "b")] }

/-- The program `int n; class P ... class Q extends P ... void main(); int k;`
with nothing emitted yet. -/
def exProgramClasses : EmitState :=
  { decls := [.var (exV "n"), .cls exClsP, .cls exClsQ, .fn exFnMain, .var (exV "k")],
    cg := CodeGenerator.new, errs := [] }

/-! ## Notions used to state the code of a call

The relation below follows the wording of the specification (the actuals are
pushed one by one); it is written without the loop of the model, which is
compared with it. -/

/-- The code that the loop over the actuals of `Call::Emit` appends
(ast_expr.cc:969-973) from the generator `cg` on: for each actual in the order
given, the load that `ReturnEmitLocD` makes on it in the generator reached, if
it makes one, followed by the `PushParam` of the location it returned; `cg2`
is the generator after the last push. -/
def pushRun :
    List (Expr × Option Location) → CodeGenerator → List Instr → CodeGenerator → Prop
  | [], cg, code, cg2 => code = [] ∧ cg2 = cg
  | (a, al) :: rest, cg, code, cg2 =>
    ∃ (d : Option Location) (cg1 : CodeGenerator) (loads code1 : List Instr),
      a.ReturnEmitLocD al cg = .ok (d, cg1) ∧ cg1.code = cg.code ++ loads ∧ isLoads loads ∧
      code = loads ++ .PushParam d :: code1 ∧
      pushRun rest (cg1.push (.PushParam d)) code1 cg2

/-! ## Declarations that name an undeclared type

No class or interface `Foo` is declared.  `NamedType::CheckDecl`
(ast_type.cc:72-92) then reports `IdentifierNotDeclared` and leaves the
`type_of_expr` of the type node `NULL`; `VarDecl::CheckDecl` (ast_decl.cc:54-60)
copies that `NULL` into the variable.  The nodes below are in the state the
declaration check leaves them in. -/

/-- The type `Foo` of a declaration, not resolved. -/
def exTypeFoo : Ty := .named { id := { name := "Foo" }, type_of_expr := false }

/-- The variable of `Foo x;`. -/
def exVarFooX : VarDecl := { id := { name := "x" }, type := exTypeFoo, type_of_expr := false }

/-- The function `void f(Foo a) { }`. -/
def exFnFooArg : FnDecl :=
  { id := { name := "f" }, returnType := .base .voidType true,
    formals := [{ id := { name := "a" }, type := exTypeFoo, type_of_expr := false }] }

/-- The declarations of `Foo x; void f(Foo a) { }` by address. -/
def exHeapFoo : Heap := [.var exVarFooX, .fn exFnFooArg]

/-- The method `void m(Foo a)`. -/
def exFnMFoo : FnDecl :=
  { id := { name := "m" }, returnType := .base .voidType true,
    formals := [{ id := { name := "a" }, type := exTypeFoo, type_of_expr := false }] }

/-- The method `void n()`. -/
def exFnN : FnDecl := { id := { name := "n" }, returnType := .base .voidType true, formals := [] }

/-- The interface `interface I { void m(Foo a); void n(); }` at address 0. -/
def exIfaceFoo : InterfaceDecl :=
  { id := { name := "I", cache := some 0 }, members := [.fn exFnMFoo, .fn exFnN] }

/-- The class `class C implements I { void m(Foo a) { } }` at address 1. -/
def exImplOwn : ClassDecl :=
  { id := { name := "C", cache := some 1 }, extends_ := none, implements := [exTypeI],
    members := [.fn exFnMFoo] }

/-- The declarations `exIfaceFoo`, `exImplOwn` by address. -/
def exHeapOwn : Heap := [.iface exIfaceFoo, .cls exImplOwn]

/-- The table of `exHeapOwn` in the inheritance check of `C`, the scope of `C`
entered: scope 1 belongs to `I`, 2 to `I.m`, 3 to `I.n`, 4 to `C`, 5 to `C.m`. -/
def exTableOwn : STable :=
  { scopes := [
      { ht := some { entries := [("C", .cls exImplOwn), ("I", .iface exIfaceFoo)] } },
      { ht := some { entries := [("n", .fn exFnN), ("m", .fn exFnMFoo)] }, owner := some "I" },
      { ht := some { entries := [("a", .var { id := { name := "a" }, type := exTypeFoo,
                                               type_of_expr := false })] } },
      { },
      { ht := some { entries := [("m", .fn exFnMFoo)] }, owner := some "C", interface := ["I"] },
      { ht := some { entries := [("a", .var { id := { name := "a" }, type := exTypeFoo,
                                               type_of_expr := false })] } } ],
    act_scopes := [0, 4], cur_scopes := 4, scope_count := 4, id_count := 0 }

/-- The class `class C extends P implements I { }` at address 1. -/
def exImplInherited : ClassDecl :=
  { id := { name := "C", cache := some 1 },
    extends_ := some { id := { name := "P", cache := some 2 } }, implements := [exTypeI],
    members := [] }

/-- The class `class P { void m(Foo a) { } }` at address 2. -/
def exBaseFoo : ClassDecl :=
  { id := { name := "P", cache := some 2 }, extends_ := none, implements := [],
    members := [.fn exFnMFoo] }

/-- The declarations `exIfaceFoo`, `exImplInherited`, `exBaseFoo` by address. -/
def exHeapInherited : Heap := [.iface exIfaceFoo, .cls exImplInherited, .cls exBaseFoo]

/-- The table of `exHeapInherited` in the inheritance check of `C`, the scope
of `C` entered: scope 1 belongs to `I`, 2 to `I.m`, 3 to `I.n`, 4 to `C`, 5 to
`P`, 6 to `P.m`. -/
def exTableInherited : STable :=
  { scopes := [
      { ht := some { entries := [("P", .cls exBaseFoo), ("C", .cls exImplInherited),
                                 ("I", .iface exIfaceFoo)] } },
      { ht := some { entries := [("n", .fn exFnN), ("m", .fn exFnMFoo)] }, owner := some "I" },
      { ht := some { entries := [("a", .var { id := { name := "a" }, type := exTypeFoo,
                                               type_of_expr := false })] } },
      { },
      { owner := some "C", parent := some "P", interface := ["I"] },
      { ht := some { entries := [("m", .fn exFnMFoo)] }, owner := some "P" },
      { ht := some { entries := [("a", .var { id := { name := "a" }, type := exTypeFoo,
                                               type_of_expr := false })] } } ],
    act_scopes := [0, 4], cur_scopes := 4, scope_count := 4, id_count := 0 }

/-! # Theorems -/

/-! ## Lemmas on types -/

theorem Ty.Equivalent_self (T : Ty) (h : T.resolved = true) : T.Equivalent T = .ok true := by
  induction T with
  | base b t => simp [Ty.Equivalent, Ty.isBuiltin]
  | named n =>
    simp only [Ty.resolved] at h
    simp [Ty.Equivalent, Ty.ReturnType, h, Identifier.Equivalent]
  | array e t ih =>
    simp only [Ty.resolved, Bool.and_eq_true] at h
    simp [Ty.Equivalent, Ty.ReturnType, h.1, ih h.2]

/-- C7. `IsCompatibleWith` is reflexive: every type all of whose nodes are
resolved (a built-in type, void included, a named type, an array of any depth)
is compatible with itself, whatever the heap and the step budget. -/
theorem IsCompatibleWith_refl (heap : Heap) (fuel : Nat) (T : Ty)
    (h : T.resolved = true) : T.IsCompatibleWith heap fuel T = .ok true := by
  cases T with
  | base b t => simp [Ty.IsCompatibleWith, Ty.isBuiltin]
  | named n =>
    simp only [Ty.resolved] at h
    simp [Ty.IsCompatibleWith, Ty.Equivalent, Ty.ReturnType, Ty.isBuiltin, h,
      Identifier.Equivalent]
  | array e t =>
    have he := Ty.Equivalent_self (.array e t) h
    simp only [Ty.resolved, Bool.and_eq_true] at h
    obtain ⟨rfl, _⟩ := h
    simp [Ty.IsCompatibleWith, Ty.ReturnType, Ty.isBuiltin, he]

theorem IsCompatibleWith_refl_witness :
    (Ty.array (.array (.named { id := { name := "A" } }) true) true).resolved = true ∧
    Ty.IsCompatibleWith [] 0 (.array (.array (.named { id := { name := "A" } }) true) true)
      (.array (.array (.named { id := { name := "A" } }) true) true) = .ok true :=
  ⟨rfl, IsCompatibleWith_refl [] 0 _ rfl⟩

/-- C10. `null` is not compatible with a primitive: for `int`, `double`,
`bool`, `string` and `void`, `P.IsCompatibleWith(nullType)` returns false. -/
theorem null_not_compatible_with_primitive (heap : Heap) (fuel : Nat) (t s : Bool) :
    Ty.IsCompatibleWith heap fuel (.base .intType t) (.base .nullType s) = .ok false ∧
    Ty.IsCompatibleWith heap fuel (.base .doubleType t) (.base .nullType s) = .ok false ∧
    Ty.IsCompatibleWith heap fuel (.base .boolType t) (.base .nullType s) = .ok false ∧
    Ty.IsCompatibleWith heap fuel (.base .stringType t) (.base .nullType s) = .ok false ∧
    Ty.IsCompatibleWith heap fuel (.base .voidType t) (.base .nullType s) = .ok false := by
  simp [Ty.IsCompatibleWith, Ty.isBuiltin]

/-! ## Lemmas on `IsChildOf` -/

theorem extendsChain_head (heap : Heap) (fuel : Nat) (c : ClassDecl) (chain : List ClassDecl)
    (h : extendsChain heap fuel c = .ok chain) : ∃ rest, chain = c :: rest := by
  cases fuel with
  | zero => simp [extendsChain] at h
  | succ n =>
    simp only [extendsChain] at h
    split at h
    · exact ⟨[], by simpa using h.symm⟩
    · split at h
      · exact ⟨[], by simpa using h.symm⟩
      · split at h
        · simp at h
        · rename_i ch _
          exact ⟨ch, by simpa using h.symm⟩

theorem IsChildOf_of_chain (heap : Heap) (other : Decl) (p : ClassDecl → Bool)
    (hstep : ∀ fuel (c : ClassDecl), c.IsChildOf heap (fuel + 1) other =
      if p c then .ok true else
        match c.extends_ with
        | none => .ok false
        | some ext =>
          match castClassDecl (ext.id.ReturnCache heap) with
          | none => .error .nullDeref
          | some d => d.IsChildOf heap fuel other) :
    ∀ (fuel : Nat) (c : ClassDecl) (chain : List ClassDecl),
      extendsChain heap fuel c = .ok chain →
      chain.all (fun c => c.extendsResolved heap) = true →
      c.IsChildOf heap fuel other = .ok (chain.any p) := by
  intro fuel
  induction fuel with
  | zero => intro c chain h; simp [extendsChain] at h
  | succ n ih =>
    intro c chain h hres
    rw [hstep]
    simp only [extendsChain] at h
    cases hext : c.extends_ with
    | none =>
      simp only [hext] at h
      have hc : chain = [c] := by simpa using h.symm
      subst hc
      by_cases hp : p c <;> simp [hp, hext]
    | some ext =>
      simp only [hext] at h
      cases hcast : castClassDecl (ext.id.ReturnCache heap) with
      | none =>
        simp only [hcast] at h
        have hc : chain = [c] := by simpa using h.symm
        subst hc
        simp [ClassDecl.extendsResolved, hext, hcast] at hres
      | some d =>
        simp only [hcast] at h
        cases hrec : extendsChain heap n d with
        | error e => simp [hrec] at h
        | ok ch =>
          simp only [hrec] at h
          have hc : chain = c :: ch := by simpa using h.symm
          subst hc
          simp only [List.all_cons, Bool.and_eq_true] at hres
          have := ih d ch hrec hres.2
          by_cases hp : p c <;> simp [hp, this, hext, hcast]

/-- C6. `IsChildOf` on a class whose `extends` chain ends within the step
budget and is resolved to class declarations: for a class argument the result
is true iff some class of the chain (the receiver included) has the argument's
name; for an interface argument it is true iff some class of the chain lists
the argument's name in its `implements`; for any other declaration it is
false. -/
theorem IsChildOf_spec (heap : Heap) (fuel : Nat) (C : ClassDecl) (chain : List ClassDecl)
    (hchain : extendsChain heap fuel C = .ok chain)
    (hres : chain.all (fun c => c.extendsResolved heap) = true) :
    (∀ D : ClassDecl, C.IsChildOf heap fuel (.cls D) =
      .ok (chain.any (fun c => c.id.name == D.id.name))) ∧
    (∀ I : InterfaceDecl, C.IsChildOf heap fuel (.iface I) =
      .ok (chain.any (fun c => c.implements.any (fun t => t.id.name == I.id.name)))) ∧
    (∀ v : VarDecl, C.IsChildOf heap fuel (.var v) = .ok false) ∧
    (∀ f : FnDecl, C.IsChildOf heap fuel (.fn f) = .ok false) := by
  refine ⟨fun D => ?_, fun I => ?_, fun v => ?_, fun f => ?_⟩
  · refine IsChildOf_of_chain heap (.cls D) _ ?_ fuel C chain hchain hres
    intro n c
    simp only [ClassDecl.IsChildOf, Decl.IsClassDecl, Decl.GetId, Identifier.Equivalent]
    simp
  · refine IsChildOf_of_chain heap (.iface I) _ ?_ fuel C chain hchain hres
    intro n c
    simp only [ClassDecl.IsChildOf, Decl.IsClassDecl, Decl.IsInterfaceDecl, Decl.GetId,
      Identifier.Equivalent]
    simp
  · cases fuel with
    | zero => simp [extendsChain] at hchain
    | succ n => simp [ClassDecl.IsChildOf, Decl.IsClassDecl, Decl.IsInterfaceDecl]
  · cases fuel with
    | zero => simp [extendsChain] at hchain
    | succ n => simp [ClassDecl.IsChildOf, Decl.IsClassDecl, Decl.IsInterfaceDecl]

theorem IsChildOf_total (heap : Heap) (fuel : Nat) (C : ClassDecl) (chain : List ClassDecl)
    (hchain : extendsChain heap fuel C = .ok chain)
    (hres : chain.all (fun c => c.extendsResolved heap) = true) (other : Decl) :
    ∃ b, C.IsChildOf heap fuel other = .ok b := by
  cases other with
  | cls D =>
    refine ⟨_, IsChildOf_of_chain heap (.cls D) (fun c => c.id.name == D.id.name) ?_
      fuel C chain hchain hres⟩
    intro n c
    simp only [ClassDecl.IsChildOf, Decl.IsClassDecl, Decl.GetId, Identifier.Equivalent]
    simp
  | iface I =>
    refine ⟨_, IsChildOf_of_chain heap (.iface I)
      (fun c => c.implements.any (fun t => t.id.name == I.id.name)) ?_ fuel C chain hchain hres⟩
    intro n c
    simp only [ClassDecl.IsChildOf, Decl.IsClassDecl, Decl.IsInterfaceDecl, Decl.GetId,
      Identifier.Equivalent]
    simp
  | var v =>
    cases fuel with
    | zero => simp [extendsChain] at hchain
    | succ n => exact ⟨false, by simp [ClassDecl.IsChildOf, Decl.IsClassDecl, Decl.IsInterfaceDecl]⟩
  | fn f =>
    cases fuel with
    | zero => simp [extendsChain] at hchain
    | succ n => exact ⟨false, by simp [ClassDecl.IsChildOf, Decl.IsClassDecl, Decl.IsInterfaceDecl]⟩

theorem IsChildOf_spec_witness :
    extendsChain exHeap 2 exB = .ok [exB, exA] ∧
    exB.IsChildOf exHeap 2 (.cls exA) = .ok true ∧
    exB.IsChildOf exHeap 2 (.iface exI) = .ok true ∧
    exA.IsChildOf exHeap 2 (.cls exB) = .ok false :=
  ⟨rfl, (IsChildOf_spec exHeap 2 exB [exB, exA] rfl rfl).1 exA,
    (IsChildOf_spec exHeap 2 exB [exB, exA] rfl rfl).2.1 exI,
    (IsChildOf_spec exHeap 2 exA [exA] rfl rfl).1 exB⟩

/-- C5. For named types `L` and `R` that are resolved (type set, cache
pointing to a declaration), `L.IsCompatibleWith(R)` is true iff `R` has the
name of `L`, or `R` resolves to a class declaration `D` with
`D.IsChildOf(declaration of L)` true.  The call returns a value whenever the
`extends` chain of `D` is resolved and ends within the step budget. -/
theorem NamedType_IsCompatibleWith_spec (heap : Heap) (fuel : Nat) (L R : NamedType)
    (declL declR : Decl)
    (hL : L.type_of_expr = true) (hR : R.type_of_expr = true)
    (hdL : L.id.ReturnCache heap = some declL) (hdR : R.id.ReturnCache heap = some declR) :
    (Ty.IsCompatibleWith heap fuel (.named L) (.named R) = .ok true ↔
      (R.id.name = L.id.name ∨
        ∃ D : ClassDecl, declR = .cls D ∧ D.IsChildOf heap fuel declL = .ok true)) ∧
    (∀ (D : ClassDecl) (chain : List ClassDecl), declR = .cls D →
      extendsChain heap fuel D = .ok chain →
      chain.all (fun c => c.extendsResolved heap) = true →
      ∃ b, Ty.IsCompatibleWith heap fuel (.named L) (.named R) = .ok b) ∧
    ((∀ D : ClassDecl, declR ≠ .cls D) →
      Ty.IsCompatibleWith heap fuel (.named L) (.named R) = .ok (L.id.name == R.id.name)) := by
  have key : Ty.IsCompatibleWith heap fuel (.named L) (.named R) =
      if L.id.name = R.id.name then .ok true else
        match declR with
        | .cls D => D.IsChildOf heap fuel declL
        | _ => .ok false := by
    simp only [Ty.IsCompatibleWith, Ty.Equivalent, Ty.ReturnType, Ty.isBuiltin, hL, hR,
      Identifier.Equivalent, NamedType.childCheck, hdL, hdR]
    by_cases hn : L.id.name = R.id.name
    · simp only [hn]
      simp
    · have hb : (L.id.name == R.id.name) = false := by simpa using hn
      simp only [hb, hn]
      simp
      cases declR <;> rfl
  refine ⟨?_, ?_, ?_⟩
  · rw [key]
    by_cases hn : L.id.name = R.id.name
    · simp [hn]
    · have hn2 : ¬ R.id.name = L.id.name := fun h => hn h.symm
      cases declR <;> simp [hn, hn2]
  · intro D chain hD hch hres
    rw [key]
    subst hD
    by_cases hn : L.id.name = R.id.name
    · exact ⟨true, by simp [hn]⟩
    · obtain ⟨b, hb⟩ := IsChildOf_total heap fuel D chain hch hres declL
      exact ⟨b, by simp [hn, hb]⟩
  · intro hD
    rw [key]
    by_cases hn : L.id.name = R.id.name
    · simp [hn]
    · cases declR with
      | cls D => exact absurd rfl (hD D)
      | _ => simp [hn]

theorem NamedType_IsCompatibleWith_spec_witness :
    (Ty.IsCompatibleWith exHeap 2 (.named { id := exA.id }) (.named { id := exB.id }) = .ok true ↔
      (exB.id.name = exA.id.name ∨
        ∃ D : ClassDecl, Decl.cls exB = .cls D ∧ D.IsChildOf exHeap 2 (.cls exA) = .ok true)) :=
  (NamedType_IsCompatibleWith_spec exHeap 2 { id := exA.id } { id := exB.id } (.cls exA) (.cls exB)
    rfl rfl rfl rfl).1

/-- C8 (as the code has it).  `null` is compatible with every named type
whose entry assertion holds.  For an array type the answer is that of its
element type: `A.IsCompatibleWith(nullType)` equals
`elemType.IsCompatibleWith(nullType)`, so it is true for an array of a named
type and false for an array of `int`, `double`, `bool`, `string` or `void`. -/
theorem null_compatibility (heap : Heap) (fuel : Nat) :
    (∀ id : Identifier,
      Ty.IsCompatibleWith heap fuel (.named ⟨id, true⟩) (.builtin .nullType) = .ok true) ∧
    (∀ e : Ty, Ty.IsCompatibleWith heap fuel (.array e true) (.builtin .nullType) =
      e.IsCompatibleWith heap fuel (.builtin .nullType)) ∧
    (∀ id : Identifier,
      Ty.IsCompatibleWith heap fuel (.array (.named ⟨id, true⟩) true) (.builtin .nullType) =
        .ok true) ∧
    (∀ (b : Builtin) (t : Bool),
      Ty.IsCompatibleWith heap fuel (.array (.base b t) true) (.builtin .nullType) =
        .ok (b == .nullType)) := by
  refine ⟨fun id => ?_, fun e => ?_, fun id => ?_, fun b t => ?_⟩
  · simp [Ty.IsCompatibleWith, Ty.builtin, Ty.ReturnType, Ty.isBuiltin]
  · simp [Ty.IsCompatibleWith, Ty.builtin, Ty.ReturnType, Ty.isBuiltin]
  · simp [Ty.IsCompatibleWith, Ty.builtin, Ty.ReturnType, Ty.isBuiltin]
  · simp [Ty.IsCompatibleWith, Ty.builtin, Ty.ReturnType, Ty.isBuiltin]

/-- C8, counterexample: `int[]` is not compatible with `null`. -/
theorem null_int_array_counterexample :
    Ty.IsCompatibleWith [] 0 (.array (.builtin .intType) true) (.builtin .nullType) =
      .ok false := rfl

/-- C9 (as the code has it).  The error type is an ordinary built-in type
object: `errorType.IsCompatibleWith(T)` is true exactly when `T` is the error
type itself, and `T.IsCompatibleWith(errorType)` is true exactly when `T` is
the error type itself. -/
theorem errorType_compatibility (heap : Heap) (fuel : Nat) (T : Ty) (s : Bool) :
    Ty.IsCompatibleWith heap fuel (.base .errorType s) T = .ok (T.isBuiltin .errorType) ∧
    (Ty.IsCompatibleWith heap fuel T (.base .errorType s) = .ok true ↔
      T.isBuiltin .errorType = true) := by
  refine ⟨by simp [Ty.IsCompatibleWith], ?_⟩
  cases T with
  | base b t =>
    simp [Ty.IsCompatibleWith, Ty.isBuiltin]
    constructor <;> intro h <;> exact h.symm
  | named n =>
    by_cases h : n.type_of_expr = true ∧ s = true
    · simp [Ty.IsCompatibleWith, Ty.ReturnType, Ty.isBuiltin, h.1, h.2]
    · simp only [Ty.IsCompatibleWith, Ty.ReturnType, Ty.isBuiltin]
      have : (!(n.type_of_expr && s)) = true := by
        cases hn : n.type_of_expr <;> cases s <;> simp_all
      simp [this]
  | array e t =>
    by_cases h : t = true ∧ s = true
    · simp [Ty.IsCompatibleWith, Ty.Equivalent, Ty.ReturnType, Ty.isBuiltin, h.1, h.2]
    · simp only [Ty.IsCompatibleWith, Ty.ReturnType, Ty.isBuiltin]
      have : (!(t && s)) = true := by
        cases t <;> cases s <;> simp_all
      simp [this]

/-- C9, counterexample: the error type is not compatible with `int`, in
either direction. -/
theorem errorType_int_counterexample :
    Ty.IsCompatibleWith [] 0 (.builtin .errorType) (.builtin .intType) = .ok false ∧
    Ty.IsCompatibleWith [] 0 (.builtin .intType) (.builtin .errorType) = .ok false :=
  ⟨rfl, rfl⟩

/-! ## Lemmas on the list operations -/

theorem RemoveAt_append_cons {α : Type} (pre : List α) (a : α) (s : List α) (i : Nat)
    (hi : i = pre.length) : RemoveAt i (pre ++ a :: s) = pre ++ s := by
  subst hi
  simp [RemoveAt]

theorem InsertAt_append {α : Type} (pre : List α) (x : α) (s : List α) (i : Nat)
    (hi : i = pre.length) : InsertAt x i (pre ++ s) = pre ++ x :: s := by
  subst hi
  simp [InsertAt]

theorem getElem?_append_cons {α : Type} (pre : List α) (a : α) (s : List α) (i : Nat)
    (hi : i = pre.length) : (pre ++ a :: s)[i]? = some a := by
  subst hi
  rw [List.getElem?_append_right (Nat.le_refl _)]
  simp

theorem ownVars_append (a b : List Member) : ownVars (a ++ b) = ownVars a ++ ownVars b := by
  induction a with
  | nil => rfl
  | cons m a ih => cases m <;> simp [ownVars, ih]

theorem ownFns_append (a b : List Member) : ownFns (a ++ b) = ownFns a ++ ownFns b := by
  induction a with
  | nil => rfl
  | cons m a ih => cases m <;> simp [ownFns, ih]

theorem MembersForList_loop_eq (members : List Member) :
    ∀ (i : Nat) (vars : List VarDecl) (fns : List FnDecl), i ≤ members.length →
      MembersForList.loop members i (vars, fns) =
        (ownVars (members.take i) ++ vars, ownFns (members.take i) ++ fns) := by
  intro i
  induction i with
  | zero => intro vars fns _; simp [MembersForList.loop, ownVars, ownFns]
  | succ n ih =>
    intro vars fns hn
    have hlt : n < members.length := hn
    have htake : members.take (n + 1) = members.take n ++ [members[n]] := by
      rw [List.take_succ, List.getElem?_eq_getElem hlt]; rfl
    have hget : members[n]? = some members[n] := List.getElem?_eq_getElem hlt
    rw [MembersForList.loop, hget, htake, ownVars_append, ownFns_append]
    cases hm : members[n] with
    | var v => simp [ih _ _ (Nat.le_of_lt hlt), InsertAt, ownVars, ownFns]
    | fn f => simp [ih _ _ (Nat.le_of_lt hlt), InsertAt, ownVars, ownFns]
    | other id => simp [ih _ _ (Nat.le_of_lt hlt), ownVars, ownFns]

theorem MembersForList_eq (c : ClassDecl) (vars : List VarDecl) (fns : List FnDecl) :
    c.MembersForList vars fns = (ownVars c.members ++ vars, ownFns c.members ++ fns) := by
  simp [ClassDecl.MembersForList, MembersForList_loop_eq c.members _ vars fns (Nat.le_refl _)]

theorem collectMembers_eq (heap : Heap) :
    ∀ (fuel : Nat) (c : ClassDecl) (chain : List ClassDecl) (vars : List VarDecl)
      (fns : List FnDecl), extendsChain heap fuel c = .ok chain →
      collectMembers heap fuel c vars fns = .ok (chainVars chain ++ vars, chainFns chain ++ fns) := by
  intro fuel
  induction fuel with
  | zero => intro c chain vars fns h; simp [extendsChain] at h
  | succ n ih =>
    intro c chain vars fns h
    simp only [extendsChain] at h
    simp only [collectMembers, MembersForList_eq]
    cases hext : c.extends_ with
    | none =>
      simp only [hext] at h
      have hc : chain = [c] := by simpa using h.symm
      subst hc
      simp [chainVars, chainFns]
    | some ext =>
      simp only [hext] at h
      cases hcast : castClassDecl (ext.id.ReturnCache heap) with
      | none =>
        simp only [hcast] at h
        have hc : chain = [c] := by simpa using h.symm
        subst hc
        simp [chainVars, chainFns, hcast]
      | some d =>
        simp only [hcast] at h
        cases hrec : extendsChain heap n d with
        | error e => simp [hrec] at h
        | ok ch =>
          simp only [hrec] at h
          have hc : chain = c :: ch := by simpa using h.symm
          subst hc
          simp [ih d ch _ _ hrec, chainVars, chainFns, hcast]


theorem dedupInner_eq (func1 : FnDecl) (pre : List FnDecl) :
    ∀ (rest : List FnDecl) (fuel : Nat) (g : FnDecl) (mid : List FnDecl) (j : Nat),
      rest.length ≤ fuel → j = pre.length + 1 + mid.length →
      dedupInner func1 pre.length fuel j (pre ++ g :: (mid ++ rest)) =
        pre ++ lastMatch func1.id.name g rest ::
          (mid ++ rest.filter (fun h => !(func1.id.name == h.id.name))) := by
  intro rest
  induction rest with
  | nil =>
    intro fuel g mid j _ hj
    have hnone : (pre ++ g :: (mid ++ []))[j]? = none := by
      apply List.getElem?_eq_none
      simp
      omega
    cases fuel with
    | zero => simp [dedupInner, lastMatch]
    | succ n => simp only [dedupInner, hnone]; simp [lastMatch]
  | cons h t ih =>
    intro fuel g mid j hfuel hj
    cases fuel with
    | zero => simp at hfuel
    | succ n =>
      have hn : t.length ≤ n := by simpa using hfuel
      have hsplit : pre ++ g :: (mid ++ h :: t) = (pre ++ g :: mid) ++ h :: t := by simp
      have hlen : j = (pre ++ g :: mid).length := by simp; omega
      have hget : (pre ++ g :: (mid ++ h :: t))[j]? = some h := by
        rw [hsplit]; exact getElem?_append_cons _ _ _ _ hlen
      simp only [dedupInner, hget]
      by_cases hname : (func1.id.name == h.id.name) = true
      · simp only [hname, if_true]
        rw [RemoveAt_append_cons pre g _ _ rfl, InsertAt_append pre h _ _ rfl]
        have hsplit2 : pre ++ h :: (mid ++ h :: t) = (pre ++ h :: mid) ++ h :: t := by simp
        have hlen2 : j = (pre ++ h :: mid).length := by simp; omega
        rw [hsplit2, RemoveAt_append_cons _ h t j hlen2]
        have := ih n h mid j hn hj
        simp only [List.append_assoc, List.cons_append] at this ⊢
        rw [this]
        simp [lastMatch, hname]
      · have hname2 : (func1.id.name == h.id.name) = false := by simpa using hname
        simp only [hname2, Bool.false_eq_true, if_false]
        have := ih n g (mid ++ [h]) (j + 1) hn (by simp; omega)
        simp only [List.append_assoc, List.cons_append, List.nil_append,
          List.singleton_append] at this ⊢
        rw [this]
        simp [lastMatch, hname2]

theorem layoutFns_nil : layoutFns [] = [] := by
  rw [layoutFns]

theorem layoutFns_cons (f : FnDecl) (rest : List FnDecl) :
    layoutFns (f :: rest) = lastMatch f.id.name f rest ::
      layoutFns (rest.filter (fun h => !(f.id.name == h.id.name))) := by
  rw [layoutFns]

theorem dedupOuter_eq :
    ∀ (fuel : Nat) (pre suf : List FnDecl), suf.length ≤ fuel →
      dedupOuter fuel pre.length (pre ++ suf) = pre ++ layoutFns suf := by
  intro fuel
  induction fuel with
  | zero =>
    intro pre suf h
    have : suf = [] := List.eq_nil_of_length_eq_zero (Nat.le_zero.mp h)
    subst this
    simp [dedupOuter, layoutFns_nil]
  | succ n ih =>
    intro pre suf h
    cases suf with
    | nil => simp [dedupOuter, layoutFns_nil]
    | cons f rest =>
      have hget : (pre ++ f :: rest)[pre.length]? = some f :=
        getElem?_append_cons _ _ _ _ rfl
      simp only [dedupOuter, hget]
      have hin := dedupInner_eq f pre rest (pre ++ f :: rest).length f [] (pre.length + 1)
        (by simp; omega) (by simp)
      simp only [List.nil_append] at hin
      rw [hin, layoutFns_cons]
      have hrest : (rest.filter (fun h => !(f.id.name == h.id.name))).length ≤ n :=
        Nat.le_trans (List.length_filter_le _ _) (by simpa using h)
      have := ih (pre ++ [lastMatch f.id.name f rest]) _ hrest
      simp only [List.length_append, List.length_singleton, List.append_assoc,
        List.singleton_append] at this
      exact this

theorem dedupOuter_layoutFns (l : List FnDecl) : dedupOuter l.length 0 l = layoutFns l := by
  have := dedupOuter_eq l.length [] l (Nat.le_refl _)
  simpa using this


/-! ## Lemmas on the de-duplicated list -/

theorem lastMatch_name (name : String) :
    ∀ (rest : List FnDecl) (g : FnDecl), g.id.name = name →
      (lastMatch name g rest).id.name = name := by
  intro rest
  induction rest with
  | nil => intro g hg; simpa [lastMatch] using hg
  | cons h t ih =>
    intro g hg
    by_cases hn : (name == h.id.name) = true
    · have : h.id.name = name := by simpa using (beq_iff_eq.mp hn).symm
      simp [lastMatch, hn, ih h this]
    · have hn2 : (name == h.id.name) = false := by simpa using hn
      simp [lastMatch, hn2, ih g hg]

theorem lastMatch_eq_lastFnNamed (name : String) :
    ∀ (rest : List FnDecl) (g : FnDecl),
      lastMatch name g rest = (lastFnNamed name rest).getD g := by
  intro rest
  induction rest with
  | nil => intro g; simp [lastMatch, lastFnNamed]
  | cons h t ih =>
    intro g
    by_cases hn : name = h.id.name
    · have h1 : (name == h.id.name) = true := by simpa using hn
      have h2 : (h.id.name == name) = true := by simpa using hn.symm
      simp only [lastMatch, h1, if_true, lastFnNamed, h2, ih h]
      cases lastFnNamed name t <;> simp
    · have h1 : (name == h.id.name) = false := by simpa using hn
      have h2 : (h.id.name == name) = false := by simpa using fun e => hn e.symm
      simp only [lastMatch, h1, lastFnNamed, h2, ih g]
      cases lastFnNamed name t <;> simp

theorem lastFnNamed_cons_self (f : FnDecl) (rest : List FnDecl) :
    lastFnNamed f.id.name (f :: rest) = some (lastMatch f.id.name f rest) := by
  rw [lastMatch_eq_lastFnNamed]
  simp only [lastFnNamed]
  cases lastFnNamed f.id.name rest <;> simp

theorem lastFnNamed_cons_ne (n : String) (f : FnDecl) (rest : List FnDecl)
    (h : f.id.name ≠ n) : lastFnNamed n (f :: rest) = lastFnNamed n rest := by
  have h2 : (f.id.name == n) = false := by simpa using h
  simp only [lastFnNamed, h2]
  cases lastFnNamed n rest <;> simp

theorem lastFnNamed_filter_ne (n m : String) (hnm : n ≠ m) :
    ∀ l : List FnDecl,
      lastFnNamed n (l.filter (fun h => !(m == h.id.name))) = lastFnNamed n l := by
  intro l
  induction l with
  | nil => rfl
  | cons f rest ih =>
    by_cases hf : m = f.id.name
    · have h1 : (m == f.id.name) = true := by simpa using hf
      have : f.id.name ≠ n := fun e => hnm (by rw [hf, e])
      simp [List.filter, h1, ih, lastFnNamed_cons_ne n f rest this]
    · have h1 : (m == f.id.name) = false := by simpa using hf
      simp only [List.filter, h1, Bool.not_false]
      by_cases hfn : f.id.name = n
      · have h2 : (f.id.name == n) = true := by simpa using hfn
        simp only [lastFnNamed, ih, h2]
      · rw [lastFnNamed_cons_ne n f _ hfn, lastFnNamed_cons_ne n f _ hfn, ih]

theorem lastFnNamed_some_name (n : String) :
    ∀ (l : List FnDecl) (g : FnDecl), lastFnNamed n l = some g → g.id.name = n ∧ g ∈ l := by
  intro l
  induction l with
  | nil => intro g h; simp [lastFnNamed] at h
  | cons f rest ih =>
    intro g h
    simp only [lastFnNamed] at h
    cases hr : lastFnNamed n rest with
    | some x =>
      simp only [hr] at h
      have := ih x hr
      cases h
      exact ⟨this.1, List.mem_cons_of_mem _ this.2⟩
    | none =>
      simp only [hr] at h
      by_cases hf : (f.id.name == n) = true
      · simp only [hf, if_true] at h
        cases h
        exact ⟨by simpa using hf, List.mem_cons_self _ _⟩
      · have : (f.id.name == n) = false := by simpa using hf
        simp [this] at h

theorem lastFnNamed_append (n : String) (a b : List FnDecl) :
    lastFnNamed n (a ++ b) =
      match lastFnNamed n b with
      | some g => some g
      | none => lastFnNamed n a := by
  induction a with
  | nil => cases h : lastFnNamed n b <;> simp [lastFnNamed, h]
  | cons f rest ih =>
    have hstep : ∀ l : List FnDecl, lastFnNamed n (f :: l) =
        match lastFnNamed n l with
        | some g => some g
        | none => if f.id.name == n then some f else none := fun l => rfl
    rw [List.cons_append, hstep, hstep, ih]
    cases lastFnNamed n b <;> simp

theorem lastFnNamed_isSome_of_mem (n : String) :
    ∀ (l : List FnDecl) (f : FnDecl), f ∈ l → f.id.name = n → (lastFnNamed n l).isSome = true := by
  intro l
  induction l with
  | nil => intro f hf; simp at hf
  | cons g rest ih =>
    intro f hf hn
    simp only [lastFnNamed]
    cases hr : lastFnNamed n rest with
    | some x => simp
    | none =>
      rcases List.mem_cons.mp hf with rfl | hmem
      · have : (f.id.name == n) = true := by simpa using hn
        simp [this]
      · have := ih f hmem hn
        simp [hr] at this

theorem fnNames_layoutFns_cons (f : FnDecl) (rest : List FnDecl) :
    fnNames (layoutFns (f :: rest)) = f.id.name ::
      fnNames (layoutFns (rest.filter (fun h => !(f.id.name == h.id.name)))) := by
  rw [layoutFns_cons]
  simp [fnNames, lastMatch_name f.id.name rest f rfl]

theorem layoutFns_rec {P : List FnDecl → Prop} (hnil : P [])
    (hcons : ∀ f rest, P (rest.filter (fun h => !(f.id.name == h.id.name))) → P (f :: rest)) :
    ∀ l, P l := by
  have : ∀ n (l : List FnDecl), l.length ≤ n → P l := by
    intro n
    induction n with
    | zero =>
      intro l hl
      have : l = [] := List.eq_nil_of_length_eq_zero (Nat.le_zero.mp hl)
      subst this; exact hnil
    | succ n ih =>
      intro l hl
      cases l with
      | nil => exact hnil
      | cons f rest =>
        apply hcons
        apply ih
        exact Nat.le_trans (List.length_filter_le _ _) (by simpa using hl)
  intro l
  exact this l.length l (Nat.le_refl _)

theorem mem_fnNames_layoutFns (n : String) :
    ∀ l : List FnDecl, n ∈ fnNames (layoutFns l) ↔ n ∈ fnNames l := by
  apply layoutFns_rec
  · simp [layoutFns_nil]
  · intro f rest ih
    rw [fnNames_layoutFns_cons, List.mem_cons, ih]
    simp only [fnNames, List.mem_map, List.mem_filter, List.mem_cons]
    constructor
    · rintro (h | ⟨g, ⟨hg, _⟩, hgn⟩)
      · exact ⟨f, Or.inl rfl, h.symm⟩
      · exact ⟨g, Or.inr hg, hgn⟩
    · rintro ⟨g, (rfl | hg), hgn⟩
      · exact Or.inl hgn.symm
      · by_cases hfg : f.id.name = g.id.name
        · exact Or.inl (by rw [← hgn, hfg])
        · exact Or.inr ⟨g, ⟨hg, by simpa using hfg⟩, hgn⟩

theorem nodup_fnNames_layoutFns : ∀ l : List FnDecl, (fnNames (layoutFns l)).Nodup := by
  apply layoutFns_rec
  · simp [layoutFns_nil, fnNames]
  · intro f rest ih
    rw [fnNames_layoutFns_cons, List.nodup_cons]
    refine ⟨?_, ih⟩
    rw [mem_fnNames_layoutFns]
    simp only [fnNames, List.mem_map, List.mem_filter]
    rintro ⟨x, ⟨_, hx⟩, hxn⟩
    simp [hxn] at hx

theorem fnNames_layoutFns_append :
    ∀ p s : List FnDecl, ∃ t, fnNames (layoutFns (p ++ s)) = fnNames (layoutFns p) ++ t := by
  intro p
  revert p
  apply layoutFns_rec (P := fun p => ∀ s : List FnDecl,
    ∃ t, fnNames (layoutFns (p ++ s)) = fnNames (layoutFns p) ++ t)
  · intro s; exact ⟨fnNames (layoutFns s), by simp [layoutFns_nil, fnNames]⟩
  · intro f rest ih s
    obtain ⟨t, ht⟩ := ih (s.filter (fun h => !(f.id.name == h.id.name)))
    refine ⟨t, ?_⟩
    rw [List.cons_append, fnNames_layoutFns_cons, fnNames_layoutFns_cons, List.filter_append, ht]
    simp

theorem layoutFns_slot :
    ∀ (l : List FnDecl) (g : FnDecl), g ∈ layoutFns l → lastFnNamed g.id.name l = some g := by
  apply layoutFns_rec
  · intro g hg; simp [layoutFns_nil] at hg
  · intro f rest ih g hg
    rw [layoutFns_cons, List.mem_cons] at hg
    rcases hg with rfl | hg
    · rw [lastMatch_name f.id.name rest f rfl]
      exact lastFnNamed_cons_self f rest
    · have h1 := ih g hg
      have hmem : g.id.name ∈ fnNames (layoutFns (rest.filter (fun h => !(f.id.name == h.id.name)))) := by
        simp only [fnNames, List.mem_map]; exact ⟨g, hg, rfl⟩
      rw [mem_fnNames_layoutFns] at hmem
      have hne : f.id.name ≠ g.id.name := by
        simp only [fnNames, List.mem_map, List.mem_filter] at hmem
        obtain ⟨x, ⟨_, hx⟩, hxn⟩ := hmem
        rw [← hxn]; simpa using hx
      rw [lastFnNamed_cons_ne _ f rest hne, ← lastFnNamed_filter_ne _ f.id.name (Ne.symm hne)]
      exact h1


/-! ## Lemmas on the offset loops -/

theorem vtableLoop_no_match :
    ∀ (l : List FnDecl) (i : Nat) (dec : FnDecl), (∀ f ∈ l, f.id.name ≠ dec.id.name) →
      vtableLoop i l dec = dec := by
  intro l
  induction l with
  | nil => intro i dec _; rfl
  | cons a l ih =>
    intro i dec h
    have ha : (a.id.name == dec.id.name) = false := by
      simpa using h a (List.mem_cons_self _ _)
    simp only [vtableLoop, ha]
    exact ih (i + 1) dec (fun f hf => h f (List.mem_cons_of_mem _ hf))

theorem vtableLoop_nodup :
    ∀ (l : List FnDecl) (i k : Nat) (f dec : FnDecl), (fnNames l).Nodup → l[k]? = some f →
      f.id.name = dec.id.name →
      vtableLoop i l dec = dec.OffsetForMember true (((i + k : Nat) : Int) * 4) := by
  intro l
  induction l with
  | nil => intro i k f dec _ hk; simp at hk
  | cons a l ih =>
    intro i k f dec hnd hk hname
    have hnd2 : a.id.name ∉ fnNames l ∧ (fnNames l).Nodup := by
      simpa [fnNames] using hnd
    cases k with
    | zero =>
      have haf : a = f := by simpa using hk
      subst haf
      have ha : (a.id.name == dec.id.name) = true := by simpa using hname
      simp only [vtableLoop, ha, if_true]
      rw [vtableLoop_no_match]
      · simp
      · intro g hg hgn
        apply hnd2.1
        simp only [fnNames, List.mem_map]
        exact ⟨g, hg, by rw [hgn, hname]; rfl⟩
    | succ k =>
      have hk2 : l[k]? = some f := by simpa using hk
      have hmem : f.id.name ∈ fnNames l := by
        simp only [fnNames, List.mem_map]
        exact ⟨f, List.getElem?_mem hk2, rfl⟩
      have ha : (a.id.name == dec.id.name) = false := by
        have : a.id.name ≠ dec.id.name := fun e => hnd2.1 (by rw [e, ← hname]; exact hmem)
        simpa using this
      simp only [vtableLoop, ha]
      rw [ih (i + 1) k f dec hnd2.2 hk2 hname]
      have : i + 1 + k = i + (k + 1) := by omega
      rw [this]
      simp

theorem assignMembers_snd (fn_members : List FnDecl) :
    ∀ (ms : List Member) (temp : Int),
      (assignMembers fn_members ms temp).2 = temp - 4 * ((ownVars ms).length : Int) := by
  intro ms
  induction ms with
  | nil => intro temp; simp [assignMembers, ownVars]
  | cons m rest ih =>
    intro temp
    cases m with
    | var v => simp only [assignMembers, ih, ownVars, List.length_cons]; push_cast; ring
    | fn f => simp only [assignMembers, ih, ownVars]
    | other id => simp only [assignMembers, ih, ownVars]

theorem assignMembers_getElem? (fn_members : List FnDecl) :
    ∀ (ms : List Member) (temp : Int) (p : Nat),
      (assignMembers fn_members ms temp).1[p]? =
        (ms[p]?).map (writtenMember fn_members ms temp p) := by
  intro ms
  induction ms with
  | nil => intro temp p; simp [assignMembers]
  | cons m rest ih =>
    intro temp p
    cases p with
    | zero =>
      cases m with
      | var v =>
        simp only [assignMembers, assignMembers_snd, writtenMember, List.drop_zero, ownVars,
          List.length_cons, List.getElem?_cons_zero, Option.map_some']
        congr 3
        push_cast; ring
      | fn f => simp [assignMembers, writtenMember]
      | other id => simp [assignMembers, writtenMember]
    | succ p =>
      have hrec := ih temp p
      have hw : writtenMember fn_members (m :: rest) temp (p + 1) =
          writtenMember fn_members rest temp p := by
        funext x; cases x <;> simp [writtenMember]
      cases m <;> simp [assignMembers, hrec, hw]

theorem mem_ownFns (f : FnDecl) : ∀ ms : List Member, f ∈ ownFns ms ↔ Member.fn f ∈ ms := by
  intro ms
  induction ms with
  | nil => simp [ownFns]
  | cons m rest ih => cases m <;> simp [ownFns, ih]

theorem ownVars_take_drop (ms : List Member) (p : Nat) :
    (ownVars ms).length = (ownVars (ms.take p)).length + (ownVars (ms.drop p)).length := by
  conv_lhs => rw [← List.take_append_drop p ms]
  rw [ownVars_append, List.length_append]


/-! ## Lemmas on `OffsetAssign` as a whole -/

theorem OffsetAssign_eq (heap : Heap) (fuel : Nat) (C : ClassDecl) (chain : List ClassDecl)
    (h : extendsChain heap fuel C = .ok chain) :
    C.OffsetAssign heap fuel = .ok { C with
      var_members := chainVars chain
      fn_members := layoutFns (chainFns chain)
      inst_size := ((chainVars chain).length : Int) * 4 + 4
      vtable_size := ((layoutFns (chainFns chain)).length : Int) * 4
      members := (assignMembers (layoutFns (chainFns chain)) C.members
        (((chainVars chain).length : Int) * 4 + 4)).1 } := by
  simp only [ClassDecl.OffsetAssign, collectMembers_eq heap fuel C chain [] [] h,
    List.append_nil, dedupOuter_layoutFns]

theorem extendsChain_mono (heap : Heap) :
    ∀ (n : Nat) (c : ClassDecl) (ch : List ClassDecl),
      extendsChain heap n c = .ok ch → extendsChain heap (n + 1) c = .ok ch := by
  intro n
  induction n with
  | zero => intro c ch h; simp [extendsChain] at h
  | succ n ih =>
    intro c ch h
    rw [extendsChain]
    rw [extendsChain] at h
    cases hext : c.extends_ with
    | none => simpa [hext] using h
    | some ext =>
      simp only [hext] at h ⊢
      cases hcast : castClassDecl (ext.id.ReturnCache heap) with
      | none => simpa [hcast] using h
      | some d =>
        simp only [hcast] at h ⊢
        cases hrec : extendsChain heap n d with
        | error e => simp [hrec] at h
        | ok ch1 =>
          rw [ih d ch1 hrec]
          simpa [hrec] using h

theorem extendsChain_of_mem (heap : Heap) :
    ∀ (n : Nat) (c : ClassDecl) (ch : List ClassDecl) (A : ClassDecl),
      extendsChain heap n c = .ok ch → A ∈ ch →
      ∃ pre chA, extendsChain heap n A = .ok chA ∧ ch = pre ++ chA := by
  intro n
  induction n with
  | zero => intro c ch A h; simp [extendsChain] at h
  | succ n ih =>
    intro c ch A h hA
    have h0 := h
    rw [extendsChain] at h
    cases hext : c.extends_ with
    | none =>
      simp only [hext] at h
      have hc : ch = [c] := by simpa using h.symm
      subst hc
      have : A = c := by simpa using hA
      subst this
      exact ⟨[], [A], h0, rfl⟩
    | some ext =>
      simp only [hext] at h
      cases hcast : castClassDecl (ext.id.ReturnCache heap) with
      | none =>
        simp only [hcast] at h
        have hc : ch = [c] := by simpa using h.symm
        subst hc
        have : A = c := by simpa using hA
        subst this
        exact ⟨[], [A], h0, rfl⟩
      | some d =>
        simp only [hcast] at h
        cases hrec : extendsChain heap n d with
        | error e => simp [hrec] at h
        | ok ch1 =>
          simp only [hrec] at h
          have hc : ch = c :: ch1 := by simpa using h.symm
          subst hc
          rcases List.mem_cons.mp hA with rfl | hmem
          · exact ⟨[], A :: ch1, h0, rfl⟩
          · obtain ⟨pre, chA, h1, h2⟩ := ih d ch1 A hrec hmem
            exact ⟨c :: pre, chA, extendsChain_mono heap n A chA h1, by simp [h2]⟩

theorem chainFns_append (a b : List ClassDecl) : chainFns (a ++ b) = chainFns b ++ chainFns a := by
  induction a with
  | nil => simp [chainFns]
  | cons c a ih => simp [chainFns, ih]

theorem getElem?_split {α : Type} : ∀ (ms : List α) (p : Nat) (m : α), ms[p]? = some m →
    ms = ms.take p ++ m :: ms.drop (p + 1) := by
  intro ms
  induction ms with
  | nil => intro p m h; simp at h
  | cons a rest ih =>
    intro p m h
    cases p with
    | zero => simp at h; simp [h]
    | succ p =>
      have : rest[p]? = some m := by simpa using h
      simpa using ih p m this

theorem ownVars_getElem? (ms : List Member) (p : Nat) (v : VarDecl)
    (h : ms[p]? = some (.var v)) :
    (ownVars ms)[(ownVars (ms.take p)).length]? = some v ∧
    (ownVars (ms.drop p)).length = (ownVars (ms.drop (p + 1))).length + 1 := by
  have hs := getElem?_split ms p _ h
  have hlt : p < ms.length := (List.getElem?_eq_some.mp h).1
  have hv : ms[p] = .var v := (List.getElem?_eq_some.mp h).2
  constructor
  · have key : ownVars ms = ownVars (ms.take p) ++ v :: ownVars (ms.drop (p + 1)) := by
      conv_lhs => rw [hs]
      rw [ownVars_append]
      rfl
    rw [key]
    exact getElem?_append_cons _ _ _ _ rfl
  · rw [List.drop_eq_getElem_cons hlt, hv]
    simp [ownVars]


theorem ownVars_drop_le (ms : List Member) (p q : Nat) (h : p ≤ q) :
    (ownVars (ms.drop q)).length ≤ (ownVars (ms.drop p)).length := by
  have h1 : ms.drop q = (ms.drop p).drop (q - p) := by
    rw [List.drop_drop]; congr 1; omega
  rw [h1]
  have := ownVars_take_drop (ms.drop p) (q - p)
  omega

theorem lastFnNamed_of_nodup :
    ∀ (l : List FnDecl) (f : FnDecl), (fnNames l).Nodup → f ∈ l →
      lastFnNamed f.id.name l = some f := by
  intro l
  induction l with
  | nil => intro f _ hf; simp at hf
  | cons g rest ih =>
    intro f hnd hf
    have hnd2 : g.id.name ∉ fnNames rest ∧ (fnNames rest).Nodup := by
      simpa [fnNames] using hnd
    rcases List.mem_cons.mp hf with rfl | hmem
    · have hnone : lastFnNamed f.id.name rest = none := by
        cases hr : lastFnNamed f.id.name rest with
        | none => rfl
        | some x =>
          have := lastFnNamed_some_name _ rest x hr
          exact absurd (by simp only [fnNames, List.mem_map]; exact ⟨x, this.2, this.1⟩) hnd2.1
      simp [lastFnNamed, hnone]
    · have := ih f hnd2.2 hmem
      simp [lastFnNamed, this]

theorem written_var (fn_members : List FnDecl) (ms : List Member) (temp : Int) (p : Nat)
    (v : VarDecl)
    (h : (assignMembers fn_members ms temp).1[p]? = some (.var v)) :
    v.class_member_offset = temp - 4 * ((ownVars (ms.drop p)).length : Int) ∧
    ∃ v0, ms[p]? = some (.var v0) := by
  rw [assignMembers_getElem?] at h
  cases hm : ms[p]? with
  | none => simp [hm] at h
  | some m =>
    simp only [hm, Option.map_some', Option.some.injEq] at h
    cases m with
    | var v0 =>
      simp only [writtenMember, Member.var.injEq] at h
      subst h
      exact ⟨rfl, v0, rfl⟩
    | fn f => simp [writtenMember] at h
    | other id => simp [writtenMember] at h

/-- C4. After `OffsetAssign`, `inst_size = 4 + 4 * |var_members|`; and when
the `extends` chain ends within the step budget the call returns, with
`var_members` holding the variable members of every class of the chain, the
root's first and the class's own last. -/
theorem inst_size_spec (heap : Heap) (fuel : Nat) (C : ClassDecl) :
    (∀ C2 : ClassDecl, C.OffsetAssign heap fuel = .ok C2 →
      C2.inst_size = 4 + 4 * (C2.var_members.length : Int)) ∧
    (∀ chain : List ClassDecl, extendsChain heap fuel C = .ok chain →
      ∃ C2 : ClassDecl, C.OffsetAssign heap fuel = .ok C2 ∧
        C2.var_members = chainVars chain ∧
        C2.inst_size = 4 + 4 * ((chainVars chain).length : Int)) := by
  constructor
  · intro C2 h
    simp only [ClassDecl.OffsetAssign] at h
    cases hc : collectMembers heap fuel C [] [] with
    | error e => simp [hc] at h
    | ok r =>
      obtain ⟨vars, fns⟩ := r
      simp only [hc, Except.ok.injEq] at h
      subst h
      simp only
      ring
  · intro chain h
    refine ⟨_, OffsetAssign_eq heap fuel C chain h, rfl, ?_⟩
    simp only
    ring

theorem inst_size_spec_witness :
    ∃ C2 : ClassDecl, exQ.OffsetAssign exHeap2 2 = .ok C2 ∧
      C2.var_members = chainVars [exQ, exP] ∧
      C2.inst_size = 4 + 4 * ((chainVars [exQ, exP]).length : Int) :=
  (inst_size_spec exHeap2 2 exQ).2 [exQ, exP] rfl

/-- C2. When the `extends` chain of the class ends within the step budget,
`OffsetAssign` returns; `fn_members` then holds no two functions of the same
name, its length is the number of distinct function names declared in the
classes of the chain, and `vtable_size` is four times that number. -/
theorem fn_members_nodup_card (heap : Heap) (fuel : Nat) (C : ClassDecl)
    (chain : List ClassDecl) (hchain : extendsChain heap fuel C = .ok chain) :
    ∃ C2 : ClassDecl, C.OffsetAssign heap fuel = .ok C2 ∧
      (fnNames C2.fn_members).Nodup ∧
      C2.fn_members.length = (fnNames (chainFns chain)).toFinset.card ∧
      C2.vtable_size = 4 * ((fnNames (chainFns chain)).toFinset.card : Int) := by
  have hset : (fnNames (layoutFns (chainFns chain))).toFinset =
      (fnNames (chainFns chain)).toFinset := by
    ext n
    simp only [List.mem_toFinset]
    exact mem_fnNames_layoutFns n _
  have hcard : (layoutFns (chainFns chain)).length =
      (fnNames (chainFns chain)).toFinset.card := by
    rw [← hset, List.toFinset_card_of_nodup (nodup_fnNames_layoutFns _)]
    simp [fnNames]
  refine ⟨_, OffsetAssign_eq heap fuel C chain hchain, nodup_fnNames_layoutFns _, hcard, ?_⟩
  simp only
  rw [hcard]
  ring

theorem fn_members_nodup_card_witness :
    ∃ C2 : ClassDecl, exQ.OffsetAssign exHeap2 2 = .ok C2 ∧
      (fnNames C2.fn_members).Nodup ∧
      C2.fn_members.length = (fnNames (chainFns [exQ, exP])).toFinset.card ∧
      C2.vtable_size = 4 * ((fnNames (chainFns [exQ, exP])).toFinset.card : Int) :=
  fn_members_nodup_card exHeap2 2 exQ [exQ, exP] rfl


/-- C3. When the `extends` chain of the class ends within the step budget,
`OffsetAssign` returns and `var_members` is the inherited fields followed by
the class's own fields in declaration order.  A variable member at position
`p` of the class sits in `var_members` at index `j`, the number of inherited
fields plus the number of fields declared before it, and is given the offset
`4 + 4 * j` relative to `this`; that offset is at least
`4 + 4 * (number of inherited fields)` and below `inst_size`, and two
different variable members get different offsets. -/
theorem field_offsets_spec (heap : Heap) (fuel : Nat) (C : ClassDecl) (rest : List ClassDecl)
    (hchain : extendsChain heap fuel C = .ok (C :: rest)) :
    ∃ C2 : ClassDecl, C.OffsetAssign heap fuel = .ok C2 ∧
      C2.var_members = chainVars rest ++ ownVars C.members ∧
      (∀ (p : Nat) (v : VarDecl), C.members[p]? = some (.var v) →
        C2.var_members[(chainVars rest).length + (ownVars (C.members.take p)).length]? = some v ∧
        C2.members[p]? = some (.var (v.OffsetForMember true
          (4 + 4 * (((chainVars rest).length + (ownVars (C.members.take p)).length : Nat) : Int)))) ∧
        4 + 4 * ((chainVars rest).length : Int) ≤
          4 + 4 * (((chainVars rest).length + (ownVars (C.members.take p)).length : Nat) : Int) ∧
        4 + 4 * (((chainVars rest).length + (ownVars (C.members.take p)).length : Nat) : Int) <
          C2.inst_size) ∧
      (∀ (p q : Nat) (v w : VarDecl), p ≠ q → C2.members[p]? = some (.var v) →
        C2.members[q]? = some (.var w) → v.class_member_offset ≠ w.class_member_offset) := by
  refine ⟨_, OffsetAssign_eq heap fuel C _ hchain, rfl, ?_, ?_⟩
  · intro p v hp
    have hsplit := ownVars_take_drop C.members p
    have hget := ownVars_getElem? C.members p v hp
    have hlen : (chainVars (C :: rest)).length =
        (chainVars rest).length + (ownVars C.members).length := by
      simp [chainVars]
    refine ⟨?_, ?_, ?_, ?_⟩
    · simp only [chainVars]
      rw [List.getElem?_append_right (Nat.le_add_right _ _)]
      simpa using hget.1
    · simp only
      rw [assignMembers_getElem?, hp]
      simp only [Option.map_some', writtenMember, Option.some.injEq, Member.var.injEq]
      congr 1
      rw [hlen]
      push_cast
      have : ((ownVars C.members).length : Int) =
          ((ownVars (C.members.take p)).length : Int) + ((ownVars (C.members.drop p)).length : Int) := by
        exact_mod_cast hsplit
      rw [this]
      ring
    · push_cast; omega
    · simp only
      rw [hlen]
      push_cast
      have h1 := hget.2
      omega
  · intro p q v w hpq hv hw
    simp only at hv hw
    obtain ⟨hv1, v0, hv0⟩ := written_var _ _ _ _ _ hv
    obtain ⟨hw1, w0, hw0⟩ := written_var _ _ _ _ _ hw
    rw [hv1, hw1]
    have hvd := (ownVars_getElem? C.members p v0 hv0).2
    have hwd := (ownVars_getElem? C.members q w0 hw0).2
    rcases Nat.lt_or_gt_of_ne hpq with hlt | hgt
    · have := ownVars_drop_le C.members (p + 1) q hlt
      omega
    · have := ownVars_drop_le C.members (q + 1) p hgt
      omega

theorem field_offsets_spec_witness :
    ∃ C2 : ClassDecl, exQ.OffsetAssign exHeap2 2 = .ok C2 ∧
      C2.var_members = chainVars [exP] ++ ownVars exQ.members ∧
      (∀ (p : Nat) (v : VarDecl), exQ.members[p]? = some (.var v) →
        C2.var_members[(chainVars [exP]).length + (ownVars (exQ.members.take p)).length]? = some v ∧
        C2.members[p]? = some (.var (v.OffsetForMember true
          (4 + 4 * (((chainVars [exP]).length + (ownVars (exQ.members.take p)).length : Nat) : Int)))) ∧
        4 + 4 * ((chainVars [exP]).length : Int) ≤
          4 + 4 * (((chainVars [exP]).length + (ownVars (exQ.members.take p)).length : Nat) : Int) ∧
        4 + 4 * (((chainVars [exP]).length + (ownVars (exQ.members.take p)).length : Nat) : Int) <
          C2.inst_size) ∧
      (∀ (p q : Nat) (v w : VarDecl), p ≠ q → C2.members[p]? = some (.var v) →
        C2.members[q]? = some (.var w) → v.class_member_offset ≠ w.class_member_offset) :=
  field_offsets_spec exHeap2 2 exQ [exP] rfl

/-! ## The layout does not depend on layouts made before -/

theorem castClassDecl_erase (heap1 heap2 : Heap)
    (hheap : heap1.map Decl.eraseLayout = heap2.map Decl.eraseLayout) (id : Identifier) :
    (castClassDecl (id.ReturnCache heap1)).map ClassDecl.eraseLayout =
      (castClassDecl (id.ReturnCache heap2)).map ClassDecl.eraseLayout := by
  simp only [Identifier.ReturnCache]
  cases id.cache with
  | none => rfl
  | some p =>
    have hp : (heap1[p]?).map Decl.eraseLayout = (heap2[p]?).map Decl.eraseLayout := by
      rw [← List.getElem?_map, ← List.getElem?_map, hheap]
    simp only
    cases h1 : heap1[p]? with
    | none =>
      cases h2 : heap2[p]? with
      | none => rfl
      | some d2 => simp [h1, h2] at hp
    | some d1 =>
      cases h2 : heap2[p]? with
      | none => simp [h1, h2] at hp
      | some d2 =>
        simp only [h1, h2, Option.map_some', Option.some.injEq] at hp
        cases d1 <;> cases d2 <;> simp_all [Decl.eraseLayout, castClassDecl]

theorem extendsChain_erase (heap1 heap2 : Heap)
    (hheap : heap1.map Decl.eraseLayout = heap2.map Decl.eraseLayout) :
    ∀ (fuel : Nat) (C1 C2 : ClassDecl) (ch1 : List ClassDecl),
      C1.eraseLayout = C2.eraseLayout → extendsChain heap1 fuel C1 = .ok ch1 →
      ∃ ch2, extendsChain heap2 fuel C2 = .ok ch2 ∧
        ch1.map ClassDecl.eraseLayout = ch2.map ClassDecl.eraseLayout := by
  intro fuel
  induction fuel with
  | zero => intro C1 C2 ch1 _ h; simp [extendsChain] at h
  | succ n ih =>
    intro C1 C2 ch1 hC h
    have hext : C1.extends_ = C2.extends_ := by
      have := congrArg ClassDecl.extends_ hC
      simpa [ClassDecl.eraseLayout] using this
    rw [extendsChain] at h
    rw [extendsChain, ← hext]
    have hC2 : ClassDecl.eraseLayout C1 = ClassDecl.eraseLayout C2 := hC
    cases he : C1.extends_ with
    | none =>
      simp only [he] at h
      have hc : ch1 = [C1] := by simpa using h.symm
      subst hc
      exact ⟨[C2], rfl, by simp [hC]⟩
    | some ext =>
      simp only [he] at h
      have hcast := castClassDecl_erase heap1 heap2 hheap ext.id
      cases hc1 : castClassDecl (ext.id.ReturnCache heap1) with
      | none =>
        simp only [hc1] at h hcast
        have hc : ch1 = [C1] := by simpa using h.symm
        subst hc
        cases hc2 : castClassDecl (ext.id.ReturnCache heap2) with
        | none => exact ⟨[C2], by simp [he, hc2], by simp [hC]⟩
        | some d2 => simp [hc2] at hcast
      | some d1 =>
        simp only [hc1] at h hcast
        cases hc2 : castClassDecl (ext.id.ReturnCache heap2) with
        | none => simp [hc2] at hcast
        | some d2 =>
          simp only [hc2, Option.map_some', Option.some.injEq] at hcast
          cases hrec : extendsChain heap1 n d1 with
          | error e => simp [hrec] at h
          | ok t1 =>
            simp only [hrec] at h
            have hc : ch1 = C1 :: t1 := by simpa using h.symm
            subst hc
            obtain ⟨t2, ht2, hmap⟩ := ih d1 d2 t1 hcast hrec
            exact ⟨C2 :: t2, by simp [he, hc2, ht2], by simp [hC, hmap]⟩

theorem fnNames_ownFns_erase (ms : List Member) :
    fnNames (ownFns (ms.map Member.eraseLayout)) = fnNames (ownFns ms) := by
  induction ms with
  | nil => rfl
  | cons m rest ih =>
    cases m <;>
      simp_all [ownFns, fnNames, Member.eraseLayout, FnDecl.eraseLayout]

theorem length_ownVars_erase (ms : List Member) :
    (ownVars (ms.map Member.eraseLayout)).length = (ownVars ms).length := by
  induction ms with
  | nil => rfl
  | cons m rest ih => cases m <;> simp_all [ownVars, Member.eraseLayout]

theorem fnNames_append (a b : List FnDecl) : fnNames (a ++ b) = fnNames a ++ fnNames b := by
  simp [fnNames]

theorem chain_erase_names :
    ∀ ch1 ch2 : List ClassDecl,
      ch1.map ClassDecl.eraseLayout = ch2.map ClassDecl.eraseLayout →
      fnNames (chainFns ch1) = fnNames (chainFns ch2) ∧
      (chainVars ch1).length = (chainVars ch2).length := by
  intro ch1
  induction ch1 with
  | nil =>
    intro ch2 h
    cases ch2 with
    | nil => exact ⟨rfl, rfl⟩
    | cons c t => simp at h
  | cons c1 t1 ih =>
    intro ch2 h
    cases ch2 with
    | nil => simp at h
    | cons c2 t2 =>
      simp only [List.map_cons, List.cons.injEq] at h
      obtain ⟨h1, h2⟩ := ih t2 h.2
      have hm : c1.members.map Member.eraseLayout = c2.members.map Member.eraseLayout := by
        have := congrArg ClassDecl.members h.1
        simpa [ClassDecl.eraseLayout] using this
      constructor
      · simp only [chainFns, fnNames_append, h1]
        rw [← fnNames_ownFns_erase c1.members, ← fnNames_ownFns_erase c2.members, hm]
      · simp only [chainVars, List.length_append, h2]
        rw [← length_ownVars_erase c1.members, ← length_ownVars_erase c2.members, hm]

theorem fnNames_filter (n : String) (l : List FnDecl) :
    fnNames (l.filter (fun h => !(n == h.id.name))) = (fnNames l).filter (fun m => !(n == m)) := by
  induction l with
  | nil => rfl
  | cons f rest ih =>
    by_cases h : (n == f.id.name) = true
    · simp only [fnNames] at ih
      simp [fnNames, List.filter, h, ih]
    · have h2 : (n == f.id.name) = false := by simpa using h
      simp only [fnNames] at ih
      simp [fnNames, List.filter, h2, ih]

theorem fnNames_layoutFns_congr :
    ∀ l1 l2 : List FnDecl, fnNames l1 = fnNames l2 →
      fnNames (layoutFns l1) = fnNames (layoutFns l2) := by
  apply layoutFns_rec (P := fun l1 => ∀ l2 : List FnDecl, fnNames l1 = fnNames l2 →
      fnNames (layoutFns l1) = fnNames (layoutFns l2))
  · intro l2 h
    cases l2 with
    | nil => rfl
    | cons f t => simp [fnNames] at h
  · intro f rest ih l2 h
    cases l2 with
    | nil => simp [fnNames] at h
    | cons g t =>
      have hfg : f.id.name = g.id.name ∧ fnNames rest = fnNames t := by
        simpa [fnNames] using h
      rw [fnNames_layoutFns_cons, fnNames_layoutFns_cons, ← hfg.1]
      congr 1
      apply ih
      rw [fnNames_filter, fnNames_filter, hfg.2]

theorem vtableLoop_congr (l1 l2 : List FnDecl) (f1 f2 : FnDecl)
    (hl : fnNames l1 = fnNames l2) (hnd : (fnNames l1).Nodup)
    (hf : f1.id.name = f2.id.name) (hmem : f1.id.name ∈ fnNames l1) :
    (vtableLoop 0 l1 f1).vtable_ofst = (vtableLoop 0 l2 f2).vtable_ofst := by
  obtain ⟨k, hk⟩ := List.getElem?_of_mem hmem
  have entry : ∀ (l : List FnDecl), (fnNames l)[k]? = some f1.id.name →
      ∃ g, l[k]? = some g ∧ g.id.name = f1.id.name := by
    intro l h
    simp only [fnNames, List.getElem?_map] at h
    cases hg : l[k]? with
    | none => simp [hg] at h
    | some g => exact ⟨g, rfl, by simpa [hg] using h⟩
  obtain ⟨g1, hg1, hn1⟩ := entry l1 hk
  obtain ⟨g2, hg2, hn2⟩ := entry l2 (hl ▸ hk)
  rw [vtableLoop_nodup l1 0 k g1 f1 hnd hg1 hn1,
    vtableLoop_nodup l2 0 k g2 f2 (hl ▸ hnd) hg2 (hn2.trans hf)]
  rfl


theorem mem_fnNames_of_member (heap : Heap) (fuel : Nat) (C : ClassDecl) (ch : List ClassDecl)
    (hch : extendsChain heap fuel C = .ok ch) (p : Nat) (f : FnDecl)
    (hp : C.members[p]? = some (.fn f)) : f.id.name ∈ fnNames (layoutFns (chainFns ch)) := by
  obtain ⟨rest, hrest⟩ := extendsChain_head heap fuel C ch hch
  rw [mem_fnNames_layoutFns, hrest]
  simp only [chainFns, fnNames, List.mem_map, List.mem_append]
  exact ⟨f, Or.inr ((mem_ownFns f _).mpr (List.getElem?_mem hp)), rfl⟩

/-- The layout of a class is the same in two states of the program that
differ only in the fields the layout writes: the names in `fn_members`, the
two sizes and every offset written into a member agree. -/
theorem OffsetAssign_frame (heap1 heap2 : Heap) (fuel : Nat) (C1 C2 : ClassDecl)
    (ch1 : List ClassDecl)
    (hheap : heap1.map Decl.eraseLayout = heap2.map Decl.eraseLayout)
    (hC : C1.eraseLayout = C2.eraseLayout)
    (hch : extendsChain heap1 fuel C1 = .ok ch1) :
    ∃ D1 D2 : ClassDecl, C1.OffsetAssign heap1 fuel = .ok D1 ∧
      C2.OffsetAssign heap2 fuel = .ok D2 ∧
      fnNames D1.fn_members = fnNames D2.fn_members ∧
      D1.inst_size = D2.inst_size ∧ D1.vtable_size = D2.vtable_size ∧
      D1.members.map Member.writtenOffset = D2.members.map Member.writtenOffset := by
  obtain ⟨ch2, hch2, hmap⟩ := extendsChain_erase heap1 heap2 hheap fuel C1 C2 ch1 hC hch
  obtain ⟨hnames, hvars⟩ := chain_erase_names ch1 ch2 hmap
  have hlay := fnNames_layoutFns_congr _ _ hnames
  have hlen : (layoutFns (chainFns ch1)).length = (layoutFns (chainFns ch2)).length := by
    have := congrArg List.length hlay
    simpa [fnNames] using this
  have hmem : C1.members.map Member.eraseLayout = C2.members.map Member.eraseLayout := by
    have := congrArg ClassDecl.members hC
    simpa [ClassDecl.eraseLayout] using this
  refine ⟨_, _, OffsetAssign_eq heap1 fuel C1 ch1 hch, OffsetAssign_eq heap2 fuel C2 ch2 hch2,
    hlay, ?_, ?_, ?_⟩
  · simp only [hvars]
  · simp only [hlen]
  · simp only [hvars]
    apply List.ext_getElem?
    intro p
    simp only [List.getElem?_map, assignMembers_getElem?]
    have hp : (C1.members[p]?).map Member.eraseLayout = (C2.members[p]?).map Member.eraseLayout := by
      rw [← List.getElem?_map, ← List.getElem?_map, hmem]
    have hdrop : (ownVars (C1.members.drop p)).length = (ownVars (C2.members.drop p)).length := by
      rw [← length_ownVars_erase (C1.members.drop p), ← length_ownVars_erase (C2.members.drop p),
        List.map_drop, List.map_drop, hmem]
    cases h1 : C1.members[p]? with
    | none =>
      cases h2 : C2.members[p]? with
      | none => rfl
      | some m2 => simp [h1, h2] at hp
    | some m1 =>
      cases h2 : C2.members[p]? with
      | none => simp [h1, h2] at hp
      | some m2 =>
        simp only [h1, h2, Option.map_some', Option.some.injEq] at hp
        cases m1 with
        | var v1 =>
          cases m2 with
          | var v2 => simp [writtenMember, Member.writtenOffset, VarDecl.OffsetForMember, hdrop]
          | fn f2 => simp [Member.eraseLayout] at hp
          | other id2 => simp [Member.eraseLayout] at hp
        | fn f1 =>
          cases m2 with
          | var v2 => simp [Member.eraseLayout] at hp
          | fn f2 =>
            have hname : f1.id.name = f2.id.name := by
              simp only [Member.eraseLayout, Member.fn.injEq] at hp
              have := congrArg (fun f : FnDecl => f.id.name) hp
              simpa [FnDecl.eraseLayout] using this
            have := vtableLoop_congr _ _ f1 f2 hlay (nodup_fnNames_layoutFns _) hname
              (mem_fnNames_of_member heap1 fuel C1 ch1 hch p f1 h1)
            simp [writtenMember, Member.writtenOffset, this]
          | other id2 => simp [Member.eraseLayout] at hp
        | other id1 =>
          cases m2 with
          | var v2 => simp [Member.eraseLayout] at hp
          | fn f2 => simp [Member.eraseLayout] at hp
          | other id2 => simp [writtenMember, Member.writtenOffset]

theorem written_fn (heap : Heap) (fuel : Nat) (X : ClassDecl) (chX : List ClassDecl)
    (F : FnDecl) (k : Nat) (temp : Int)
    (hch : extendsChain heap fuel X = .ok chX) (hF : Member.fn F ∈ X.members)
    (hk : (fnNames (layoutFns (chainFns chX)))[k]? = some F.id.name) :
    (∀ p : Nat, X.members[p]? = some (.fn F) →
      (assignMembers (layoutFns (chainFns chX)) X.members temp).1[p]? =
        some (.fn (F.OffsetForMember true ((k : Int) * 4)))) ∧
    (layoutFns (chainFns chX))[k]? = lastFnNamed F.id.name (ownFns X.members) := by
  obtain ⟨rest, hrest⟩ := extendsChain_head heap fuel X chX hch
  have hk2 := hk
  simp only [fnNames, List.getElem?_map] at hk2
  cases hg : (layoutFns (chainFns chX))[k]? with
  | none => simp [hg] at hk2
  | some g =>
    have hgn : g.id.name = F.id.name := by simpa [hg] using hk2
    constructor
    · intro p hp
      rw [assignMembers_getElem?, hp]
      simp only [Option.map_some', writtenMember]
      rw [vtableLoop_nodup _ 0 k g F (nodup_fnNames_layoutFns _) hg hgn]
      simp
    · have h1 := layoutFns_slot _ g (List.getElem?_mem hg)
      rw [hgn, hrest] at h1
      simp only [chainFns] at h1
      rw [lastFnNamed_append] at h1
      have h2 := lastFnNamed_isSome_of_mem F.id.name _ F ((mem_ownFns F _).mpr hF) rfl
      cases hl : lastFnNamed F.id.name (ownFns X.members) with
      | none => simp [hl] at h2
      | some x => simpa [hl] using h1.symm

/-- C1. Let the `extends` chain of `C` end within the step budget, `A2` be a
class further up the chain, `M` a function of `C` and `M2` a function of that
ancestor with the same name.  The layout of the ancestor may have been made in
another state of the program (`heapA`, where the ancestor reads `A`), differing
from the present one only in the fields the layout writes.  Then
`OffsetAssign` returns on both classes and there is a slot `k` such that the
name sits at index `k` of the ancestor's `fn_members` and of `C.fn_members`,
`M2` gets the vtable offset `4 * k` from the layout of the ancestor, and `M`
gets the same offset `4 * k` from the layout of `C`.  The entry of
`C.fn_members` at `k` is the last function of that name declared in `C`: it is
`M` itself when `C` declares no two functions of the same name, and likewise
for `M2` in the ancestor. -/
theorem vtable_slot_spec (heapA heapC : Heap) (fuel : Nat) (C : ClassDecl)
    (rest : List ClassDecl) (A A2 : ClassDecl) (M M2 : FnDecl)
    (hheap : heapA.map Decl.eraseLayout = heapC.map Decl.eraseLayout)
    (hchain : extendsChain heapC fuel C = .ok (C :: rest)) (hA2 : A2 ∈ rest)
    (hA : A.eraseLayout = A2.eraseLayout)
    (hM : Member.fn M ∈ C.members) (hM2 : Member.fn M2 ∈ A.members)
    (hname : M.id.name = M2.id.name) :
    ∃ (CC CA : ClassDecl) (k : Nat),
      C.OffsetAssign heapC fuel = .ok CC ∧ A.OffsetAssign heapA fuel = .ok CA ∧
      (fnNames CA.fn_members)[k]? = some M2.id.name ∧
      (fnNames CC.fn_members)[k]? = some M.id.name ∧
      (∀ p : Nat, A.members[p]? = some (.fn M2) →
        CA.members[p]? = some (.fn (M2.OffsetForMember true ((k : Int) * 4)))) ∧
      (∀ p : Nat, C.members[p]? = some (.fn M) →
        CC.members[p]? = some (.fn (M.OffsetForMember true ((k : Int) * 4)))) ∧
      CC.fn_members[k]? = lastFnNamed M.id.name (ownFns C.members) ∧
      CA.fn_members[k]? = lastFnNamed M2.id.name (ownFns A.members) ∧
      ((fnNames (ownFns C.members)).Nodup → CC.fn_members[k]? = some M) ∧
      ((fnNames (ownFns A.members)).Nodup → CA.fn_members[k]? = some M2) := by
  -- the chain of the ancestor, in the present state and in the state of its layout
  obtain ⟨pre, chA2, hchA2, hsplit⟩ :=
    extendsChain_of_mem heapC fuel C (C :: rest) A2 hchain (List.mem_cons_of_mem _ hA2)
  obtain ⟨chA, hchA, hmap⟩ :=
    extendsChain_erase heapC heapA hheap.symm fuel A2 A chA2 hA.symm hchA2
  have hnamesA : fnNames (layoutFns (chainFns chA)) = fnNames (layoutFns (chainFns chA2)) :=
    fnNames_layoutFns_congr _ _ (chain_erase_names chA2 chA hmap).1.symm
  -- the functions of the chain of `C` extend those of the chain of the ancestor
  have hfns : chainFns (C :: rest) = chainFns chA2 ++ chainFns pre := by
    rw [hsplit, chainFns_append]
  obtain ⟨restA, hrestA⟩ := extendsChain_head heapA fuel A chA hchA
  have hM2mem : M2.id.name ∈ fnNames (layoutFns (chainFns chA)) := by
    rw [mem_fnNames_layoutFns, hrestA]
    simp only [chainFns, fnNames, List.mem_map, List.mem_append]
    exact ⟨M2, Or.inr ((mem_ownFns M2 _).mpr hM2), rfl⟩
  obtain ⟨k, hk⟩ := List.getElem?_of_mem hM2mem
  have hklt : k < (fnNames (layoutFns (chainFns chA2))).length := by
    rw [← hnamesA]; exact (List.getElem?_eq_some.mp hk).1
  obtain ⟨t, ht⟩ := fnNames_layoutFns_append (chainFns chA2) (chainFns pre)
  have hkC : (fnNames (layoutFns (chainFns (C :: rest))))[k]? = some M.id.name := by
    rw [hfns, ht, List.getElem?_append_left hklt, ← hnamesA, hk, hname]
  have hwA := written_fn heapA fuel A chA M2 k
    (((chainVars chA).length : Int) * 4 + 4) hchA hM2 hk
  have hwC := written_fn heapC fuel C (C :: rest) M k
    (((chainVars (C :: rest)).length : Int) * 4 + 4) hchain hM hkC
  refine ⟨_, _, k, OffsetAssign_eq heapC fuel C _ hchain, OffsetAssign_eq heapA fuel A _ hchA,
    hk, hkC, hwA.1, hwC.1, hwC.2, hwA.2, ?_, ?_⟩
  · intro hnd
    simp only
    rw [hwC.2]
    exact lastFnNamed_of_nodup _ M hnd ((mem_ownFns M _).mpr hM)
  · intro hnd
    simp only
    rw [hwA.2]
    exact lastFnNamed_of_nodup _ M2 hnd ((mem_ownFns M2 _).mpr hM2)

theorem vtable_slot_spec_witness :
    exP.OffsetAssign exHeap2 2 = .ok exPlaid ∧
    ∃ (CC CA : ClassDecl) (k : Nat),
      exQ.OffsetAssign exHeap3 2 = .ok CC ∧ exP.OffsetAssign exHeap2 2 = .ok CA ∧
      (fnNames CA.fn_members)[k]? = some (exF "g" "a").id.name ∧
      (fnNames CC.fn_members)[k]? = some (exF "g" "b").id.name ∧
      (∀ p : Nat, exP.members[p]? = some (.fn (exF "g" "a")) →
        CA.members[p]? = some (.fn ((exF "g" "a").OffsetForMember true ((k : Int) * 4)))) ∧
      (∀ p : Nat, exQ.members[p]? = some (.fn (exF "g" "b")) →
        CC.members[p]? = some (.fn ((exF "g" "b").OffsetForMember true ((k : Int) * 4)))) ∧
      CC.fn_members[k]? = lastFnNamed (exF "g" "b").id.name (ownFns exQ.members) ∧
      CA.fn_members[k]? = lastFnNamed (exF "g" "a").id.name (ownFns exP.members) ∧
      ((fnNames (ownFns exQ.members)).Nodup → CC.fn_members[k]? = some (exF "g" "b")) ∧
      ((fnNames (ownFns exP.members)).Nodup → CA.fn_members[k]? = some (exF "g" "a")) :=
  ⟨rfl, vtable_slot_spec exHeap2 exHeap3 2 exQ [exPlaid] exP exPlaid (exF "g" "b") (exF "g" "a")
    rfl rfl (by simp) rfl (by simp [exQ]) (by simp [exP]) rfl⟩

/-! ## Lemmas on the parent-owner chain -/

theorem firstBinding_cons (st : STable) (key : String) (a : Nat) (l : List Nat) :
    st.firstBinding key (a :: l) =
      match st.binding key a with
      | some d => some d
      | none => st.firstBinding key l := rfl

theorem binding_eq (st : STable) (key : String) (a : Nat) (s : Scope)
    (hs : st.scopes[a]? = some s) : st.binding key a = s.find key := by
  simp [STable.binding, hs]

theorem firstBinding_append (st : STable) (key : String) (x y : List Nat) :
    st.firstBinding key (x ++ y) =
      match st.firstBinding key x with
      | some d => some d
      | none => st.firstBinding key y := by
  induction x with
  | nil => simp [STable.firstBinding]
  | cons a x ih =>
    simp only [List.cons_append, STable.firstBinding]
    cases st.binding key a with
    | some d => rfl
    | none => simpa using ih

theorem firstBinding_eq_none (st : STable) (key : String) (l : List Nat) :
    st.firstBinding key l = none ↔ ∀ a ∈ l, st.binding key a = none := by
  induction l with
  | nil => simp [STable.firstBinding]
  | cons a l ih =>
    simp only [STable.firstBinding, List.mem_cons, forall_eq_or_imp]
    cases h : st.binding key a with
    | some d => simp
    | none => simpa using ih

theorem parentChain_mono (st : STable) :
    ∀ (fuel a : Nat) (l : List Nat), st.parentChain fuel a = .ok l →
      st.parentChain (fuel + 1) a = .ok l := by
  intro fuel
  induction fuel with
  | zero =>
    intro a l h
    simp only [STable.parentChain] at h ⊢
    cases hs : st.scopes[a]? with
    | none => simp [hs] at h
    | some s =>
      simp only [hs] at h ⊢
      cases hp : s.parent with
      | none => simpa [Scope.HasParent, hp] using h
      | some p => simp [Scope.HasParent, hp] at h
  | succ n ih =>
    intro a l h
    rw [STable.parentChain] at h
    rw [STable.parentChain]
    cases hs : st.scopes[a]? with
    | none => simp [hs] at h
    | some s =>
      simp only [hs] at h ⊢
      cases hp : s.parent with
      | none => simpa [hp] using h
      | some p =>
        simp only [hp] at h ⊢
        cases ho : st.SearchScopeOwner p with
        | none => simpa [ho] using h
        | some sc =>
          simp only [ho] at h ⊢
          cases hrec : st.parentChain n sc with
          | error e => simp [hrec] at h
          | ok l2 =>
            rw [ih sc l2 hrec]
            simpa [hrec] using h

theorem parentChain_suffix (st : STable) :
    ∀ (fuel a c : Nat) (pre suf : List Nat), st.parentChain fuel a = .ok (pre ++ c :: suf) →
      st.parentChain fuel c = .ok suf := by
  intro fuel
  induction fuel with
  | zero =>
    intro a c pre suf h
    simp only [STable.parentChain] at h
    cases hs : st.scopes[a]? with
    | none => simp [hs] at h
    | some s =>
      simp only [hs] at h
      split at h <;> simp at h
  | succ n ih =>
    intro a c pre suf h
    rw [STable.parentChain] at h
    cases hs : st.scopes[a]? with
    | none => simp [hs] at h
    | some s =>
      simp only [hs] at h
      cases hp : s.parent with
      | none => simp [hp] at h
      | some p =>
        simp only [hp] at h
        cases ho : st.SearchScopeOwner p with
        | none => simp [ho] at h
        | some sc =>
          simp only [ho] at h
          cases hrec : st.parentChain n sc with
          | error e => simp [hrec] at h
          | ok l2 =>
            simp only [hrec, Except.ok.injEq] at h
            cases pre with
            | nil =>
              simp only [List.nil_append, List.cons.injEq] at h
              obtain ⟨h1, h2⟩ := h
              subst h1; subst h2
              exact parentChain_mono st n sc l2 hrec
            | cons x pre =>
              simp only [List.cons_append, List.cons.injEq] at h
              obtain ⟨_, h2⟩ := h
              subst h2
              exact parentChain_mono st n c suf (ih sc c pre suf hrec)

theorem parentChain_acyclic (st : STable) (fuel c : Nat) (ch : List Nat)
    (h : st.parentChain fuel c = .ok ch) : c ∉ ch := by
  intro hmem
  obtain ⟨pre, suf, hsplit⟩ := List.append_of_mem hmem
  have h2 := parentChain_suffix st fuel c c pre suf (hsplit ▸ h)
  rw [h] at h2
  have h3 : ch = suf := by simpa using h2
  have hl := congrArg List.length hsplit
  rw [h3] at hl
  simp at hl
  omega

theorem parentWalk_eq (st : STable) (key : String) :
    ∀ (fuel a : Nat) (s : Scope) (ch : List Nat), st.scopes[a]? = some s →
      st.parentChain fuel a = .ok ch →
      st.parentWalk key fuel s =
        .ok (st.firstBinding key (ch.takeWhile (fun b => !(b == st.cur_scopes)))) := by
  intro fuel
  induction fuel with
  | zero =>
    intro a s ch hs h
    simp only [STable.parentChain, hs] at h
    simp only [STable.parentWalk]
    cases hp : s.HasParent with
    | true => simp [hp] at h
    | false =>
      simp only [hp] at h
      have : ch = [] := by simpa using h.symm
      subst this
      simp [STable.firstBinding]
  | succ n ih =>
    intro a s ch hs h
    rw [STable.parentChain] at h
    simp only [hs] at h
    rw [STable.parentWalk]
    cases hp : s.parent with
    | none =>
      simp only [hp] at h
      have : ch = [] := by simpa using h.symm
      subst this
      simp [STable.firstBinding]
    | some p =>
      simp only [hp] at h ⊢
      cases ho : st.SearchScopeOwner p with
      | none =>
        simp only [ho] at h
        have : ch = [] := by simpa using h.symm
        subst this
        simp [STable.firstBinding]
      | some sc =>
        simp only [ho] at h ⊢
        cases hrec : st.parentChain n sc with
        | error e => simp [hrec] at h
        | ok l2 =>
          simp only [hrec] at h
          have : ch = sc :: l2 := by simpa using h.symm
          subst this
          by_cases hcur : sc = st.cur_scopes
          · simp [hcur, STable.firstBinding]
          · have hb : (sc == st.cur_scopes) = false := by simpa using hcur
            simp only [hb, Bool.false_eq_true, if_false, List.takeWhile, Bool.not_false]
            cases hs2 : st.scopes[sc]? with
            | none =>
              cases n with
              | zero => simp [STable.parentChain, hs2] at hrec
              | succ m => simp [STable.parentChain, hs2] at hrec
            | some s2 =>
              simp only [STable.firstBinding, STable.binding, hs2]
              cases hf : s2.find key with
              | some dec => rfl
              | none => exact ih sc s2 l2 hs2 hrec

theorem takeWhile_ne_of_not_mem (c : Nat) (l : List Nat) (h : c ∉ l) :
    l.takeWhile (fun b => !(b == c)) = l := by
  induction l with
  | nil => rfl
  | cons a l ih =>
    have ha : a ≠ c := fun e => h (by simp [e])
    have hl : c ∉ l := fun e => h (List.mem_cons_of_mem _ e)
    have hb : (a == c) = false := by simpa using ha
    simp [List.takeWhile, hb, ih hl]

theorem takeWhile_ne_split (c : Nat) (l : List Nat) (h : c ∈ l) :
    ∃ suf, l = l.takeWhile (fun b => !(b == c)) ++ c :: suf := by
  induction l with
  | nil => simp at h
  | cons a l ih =>
    by_cases ha : a = c
    · subst ha
      exact ⟨l, by simp [List.takeWhile]⟩
    · have hb : (a == c) = false := by simpa using ha
      have hl : c ∈ l := by
        rcases List.mem_cons.mp h with e | e
        · exact absurd e.symm ha
        · exact e
      obtain ⟨suf, hsuf⟩ := ih hl
      refine ⟨suf, ?_⟩
      simp only [List.takeWhile, hb, Bool.not_false, List.cons_append]
      rw [← hsuf]

/-- Cutting the chain of an outer scope at the current scope loses no binding
when the current scope and its own chain bind nothing. -/
theorem firstBinding_cut (st : STable) (key : String) (fuel a : Nat) (ch chcur : List Nat)
    (ha : st.parentChain fuel a = .ok ch)
    (hcur : st.parentChain fuel st.cur_scopes = .ok chcur)
    (hnone : st.firstBinding key (st.cur_scopes :: chcur) = none) :
    st.firstBinding key (ch.takeWhile (fun b => !(b == st.cur_scopes))) =
      st.firstBinding key ch := by
  by_cases hmem : st.cur_scopes ∈ ch
  · obtain ⟨suf, hsuf⟩ := takeWhile_ne_split st.cur_scopes ch hmem
    have hs := parentChain_suffix st fuel a st.cur_scopes _ suf (hsuf ▸ ha)
    rw [hcur] at hs
    have : chcur = suf := by simpa using hs
    subst this
    conv_rhs => rw [hsuf]
    rw [firstBinding_append, hnone]
    cases st.firstBinding key (ch.takeWhile (fun b => !(b == st.cur_scopes))) <;> rfl
  · rw [takeWhile_ne_of_not_mem _ _ hmem]

theorem lookupList_outer (st : STable) (key : String) (fuel : Nat) (chcur : List Nat)
    (hcur : st.parentChain fuel st.cur_scopes = .ok chcur)
    (hnone : st.firstBinding key (st.cur_scopes :: chcur) = none) :
    ∀ (l order : List Nat), st.orderFrom fuel l = .ok order →
      st.lookupList key fuel l = .ok (st.firstBinding key order) := by
  intro l
  induction l with
  | nil =>
    intro order h
    have : order = [] := by simpa [STable.orderFrom] using h.symm
    subst this
    rfl
  | cons a rest ih =>
    intro order h
    simp only [STable.orderFrom] at h
    cases hch : st.parentChain fuel a with
    | error e => simp [hch] at h
    | ok ch =>
      simp only [hch] at h
      cases ho : st.orderFrom fuel rest with
      | error e => simp [ho] at h
      | ok o =>
        simp only [ho] at h
        have : order = a :: ch ++ o := by simpa using h.symm
        subst this
        cases hs : st.scopes[a]? with
        | none =>
          cases fuel with
          | zero => simp [STable.parentChain, hs] at hch
          | succ m => simp [STable.parentChain, hs] at hch
        | some s =>
          have hsplit : a :: ch ++ o = a :: (ch ++ o) := rfl
          rw [hsplit, firstBinding_cons, binding_eq st key a s hs, STable.lookupList]
          simp only [hs]
          cases hf : s.find key with
          | some dec => rfl
          | none =>
            simp only
            rw [parentWalk_eq st key fuel a s ch hs hch,
              firstBinding_cut st key fuel a ch chcur hch hcur hnone, firstBinding_append]
            cases hfb : st.firstBinding key ch with
            | some d => rfl
            | none => exact ih o ho

theorem lookupList_spec (st : STable) (key : String) (fuel : Nat) (outer order : List Nat)
    (h : st.orderFrom fuel (st.cur_scopes :: outer) = .ok order) :
    st.lookupList key fuel (st.cur_scopes :: outer) = .ok (st.firstBinding key order) := by
  simp only [STable.orderFrom] at h
  cases hch : st.parentChain fuel st.cur_scopes with
  | error e => simp [hch] at h
  | ok chcur =>
    simp only [hch] at h
    cases ho : st.orderFrom fuel outer with
    | error e => simp [ho] at h
    | ok o =>
      simp only [ho] at h
      have : order = st.cur_scopes :: chcur ++ o := by simpa using h.symm
      subst this
      cases hs : st.scopes[st.cur_scopes]? with
      | none =>
        cases fuel with
        | zero => simp [STable.parentChain, hs] at hch
        | succ m => simp [STable.parentChain, hs] at hch
      | some s =>
        have hfull : st.firstBinding key (st.cur_scopes :: chcur ++ o) =
            match st.firstBinding key (st.cur_scopes :: chcur) with
            | some d => some d
            | none => st.firstBinding key o := by
          simpa using firstBinding_append st key (st.cur_scopes :: chcur) o
        rw [hfull, firstBinding_cons, binding_eq st key _ s hs, STable.lookupList]
        simp only [hs]
        cases hf : s.find key with
        | some dec => rfl
        | none =>
          simp only
          rw [parentWalk_eq st key fuel st.cur_scopes s chcur hs hch,
            takeWhile_ne_of_not_mem _ _ (parentChain_acyclic st fuel _ chcur hch)]
          cases hfb : st.firstBinding key chcur with
          | some d => rfl
          | none =>
            simp only
            apply lookupList_outer st key fuel chcur hch _ outer o ho
            rw [firstBinding_cons, binding_eq st key _ s hs, hf]
            exact hfb

theorem Lookup_loop_eq (st : STable) (key : String) (fuel : Nat) :
    ∀ i : Nat, i ≤ st.act_scopes.length →
      STable.Lookup.loop st key fuel i = st.lookupList key fuel (st.act_scopes.take i).reverse := by
  intro i
  induction i with
  | zero => intro _; simp [STable.Lookup.loop, STable.lookupList]
  | succ n ih =>
    intro hn
    have hlt : n < st.act_scopes.length := hn
    have hget : st.act_scopes[n]? = some st.act_scopes[n] := List.getElem?_eq_getElem hlt
    have htake : (st.act_scopes.take (n + 1)).reverse =
        st.act_scopes[n] :: (st.act_scopes.take n).reverse := by
      rw [List.take_succ, hget]; simp
    rw [STable.Lookup.loop, hget, htake, STable.lookupList]
    simp only
    cases st.scopes[st.act_scopes[n]]? with
    | none => rfl
    | some s =>
      simp only
      cases s.find key with
      | some dec => rfl
      | none =>
        simp only
        cases st.parentWalk key fuel s with
        | error e => rfl
        | ok r =>
          cases r with
          | some dec => rfl
          | none => exact ih (Nat.le_of_lt hlt)

/-- C13. In a table whose current scope is the innermost active scope and whose
parent-owner chains end within the step budget, `Lookup` returns the
declaration bound to the name in the first scope that binds it in the search
order: each active scope from the innermost to the outermost, each followed by
the scopes of its parent-owner chain.  It returns none iff no scope of that
order binds the name; and a scope that binds the name, with no binding before
it in the order, is the one whose declaration is returned. -/
theorem Lookup_spec (st : STable) (fuel : Nat) (key : String) (order : List Nat)
    (hcur : st.act_scopes.getLast? = some st.cur_scopes)
    (horder : st.searchOrder fuel = .ok order) :
    st.Lookup fuel key = .ok (st.firstBinding key order) ∧
    (st.Lookup fuel key = .ok none ↔ ∀ a ∈ order, st.binding key a = none) ∧
    (∀ (pre post : List Nat) (a : Nat) (d : Decl), order = pre ++ a :: post →
      (∀ b ∈ pre, st.binding key b = none) → st.binding key a = some d →
      st.Lookup fuel key = .ok (some d)) := by
  have hrev : ∃ outer, st.act_scopes.reverse = st.cur_scopes :: outer := by
    cases hr : st.act_scopes.reverse with
    | nil =>
      have : st.act_scopes = [] := by simpa using hr
      simp [this] at hcur
    | cons a outer =>
      have hl : st.act_scopes.getLast? = some a := by
        rw [List.getLast?_eq_head?_reverse, hr]; rfl
      rw [hl] at hcur
      exact ⟨outer, by simp at hcur; rw [hcur]⟩
  obtain ⟨outer, houter⟩ := hrev
  have hmain : st.Lookup fuel key = .ok (st.firstBinding key order) := by
    have h1 := Lookup_loop_eq st key fuel st.act_scopes.length (Nat.le_refl _)
    rw [List.take_length, houter] at h1
    rw [STable.Lookup, h1]
    apply lookupList_spec
    simpa [STable.searchOrder, houter] using horder
  refine ⟨hmain, ?_, ?_⟩
  · rw [hmain]
    simp only [Except.ok.injEq]
    exact firstBinding_eq_none st key order
  · intro pre post a d hsplit hpre ha
    rw [hmain, hsplit, firstBinding_append, (firstBinding_eq_none st key pre).mpr hpre]
    simp [STable.firstBinding, ha]

theorem Lookup_spec_witness :
    exTable.searchOrder 1 = .ok [3, 2, 1, 0] ∧
    exTable.binding "x" 1 = some exFieldX ∧ exTable.binding "x" 0 = some exGlobalX ∧
    exTable.Lookup 1 "x" = .ok (some exFieldX) :=
  ⟨rfl, rfl, rfl,
    (Lookup_spec exTable 1 "x" [3, 2, 1, 0] rfl rfl).2.2 [3, 2] [0] 1 exFieldX rfl
      (by decide) rfl⟩


/-! ## `LookForField`, `ResetSymbolTable` and scope re-entry -/

theorem SearchScopeOwner_loop_lt (key : String) :
    ∀ (l : List Scope) (i sc : Nat), SearchScopeOwner.loop key i l = some sc →
      i ≤ sc ∧ sc < i + l.length := by
  intro l
  induction l with
  | nil => intro i sc h; simp [SearchScopeOwner.loop] at h
  | cons s rest ih =>
    intro i sc h
    simp only [SearchScopeOwner.loop] at h
    split at h
    · have : i = sc := by simpa using h
      subst this
      simp
    · have := ih (i + 1) sc h
      simp only [List.length_cons]
      omega

/-- C14 (as the code has it).  If no scope is owned by `base` the result is
none.  Otherwise, when the parent-owner chain of the scope owned by `base` ends
within the step budget, the result is the declaration of `field` in the first
scope that binds it among that scope followed by the scopes of its chain up to,
and not including, the first one that is the current scope; it is none iff
none of these scopes binds `field`.  When the current scope is not on the
chain this is the first binding along the whole chain. -/
theorem LookForField_spec (st : STable) (fuel : Nat) (base field : String) :
    (st.SearchScopeOwner base = none → st.LookForField fuel base field = .ok none) ∧
    (∀ (b0 : Nat) (ch : List Nat), st.SearchScopeOwner base = some b0 →
      st.parentChain fuel b0 = .ok ch →
      st.LookForField fuel base field =
        .ok (st.firstBinding field (b0 :: ch.takeWhile (fun b => !(b == st.cur_scopes)))) ∧
      (st.LookForField fuel base field = .ok none ↔
        ∀ a ∈ b0 :: ch.takeWhile (fun b => !(b == st.cur_scopes)), st.binding field a = none) ∧
      (st.cur_scopes ∉ ch →
        st.LookForField fuel base field = .ok (st.firstBinding field (b0 :: ch)))) := by
  constructor
  · intro h
    simp [STable.LookForField, h]
  · intro b0 ch hb hch
    have hmain : st.LookForField fuel base field =
        .ok (st.firstBinding field (b0 :: ch.takeWhile (fun b => !(b == st.cur_scopes)))) := by
      simp only [STable.LookForField, hb]
      cases hs : st.scopes[b0]? with
      | none =>
        cases fuel with
        | zero => simp [STable.parentChain, hs] at hch
        | succ m => simp [STable.parentChain, hs] at hch
      | some s =>
        rw [firstBinding_cons, binding_eq st field b0 s hs]
        simp only
        cases hf : s.find field with
        | some d => rfl
        | none => exact parentWalk_eq st field fuel b0 s ch hs hch
    refine ⟨hmain, ?_, ?_⟩
    · rw [hmain]
      simp only [Except.ok.injEq]
      exact firstBinding_eq_none st field _
    · intro hnot
      rw [hmain, takeWhile_ne_of_not_mem _ _ hnot]

theorem LookForField_spec_witness :
    exTable.SearchScopeOwner "C" = some 2 ∧ exTable.parentChain 1 2 = .ok [1] ∧
    exTable.LookForField 1 "C" "x" = .ok (exTable.firstBinding "x" [2, 1]) :=
  ⟨rfl, rfl, ((LookForField_spec exTable 1 "C" "x").2 2 [1] rfl rfl).2.2 (by decide)⟩

theorem parentWalk_cyclic (key : String) :
    ∀ fuel : Nat, exTableCyclic.parentWalk key fuel
      { owner := some "A", parent := some "A" } = .error .fuel := by
  intro fuel
  induction fuel with
  | zero => rfl
  | succ n ih =>
    rw [STable.parentWalk]
    have h1 : exTableCyclic.SearchScopeOwner "A" = some 1 := rfl
    have h2 : exTableCyclic.scopes[1]? = some { owner := some "A", parent := some "A" } := rfl
    have h3 : exTableCyclic.cur_scopes = 2 := rfl
    simp only [h1, h2, h3]
    exact ih

/-- C14, counterexample.  With the scope of `P` as the current scope, a field
of `P` is not found through `C`, although `C` extends `P` and the scope of `P`
binds the field; and on the table of `class A extends A` the call does not
return within any step budget. -/
theorem LookForField_counterexample :
    (exTableInP.SearchScopeOwner "C" = some 2 ∧ exTableInP.parentChain 1 2 = .ok [1] ∧
      exTableInP.binding "x" 1 = some exFieldX ∧
      exTableInP.LookForField 1 "C" "x" = .ok none) ∧
    (∀ fuel : Nat, exTableCyclic.LookForField fuel "A" "f" = .error .fuel) := by
  refine ⟨⟨rfl, rfl, rfl, rfl⟩, ?_⟩
  intro fuel
  have h1 : exTableCyclic.SearchScopeOwner "A" = some 1 := rfl
  have h2 : exTableCyclic.scopes[1]? = some { owner := some "A", parent := some "A" } := rfl
  simp only [STable.LookForField, h1, h2]
  exact parentWalk_cyclic "f" fuel

/-- C15. After `ResetSymbolTable` the active stack is `[0]`, the current scope
and the scope counter are 0, and the vector of scopes, with every binding,
owner, parent-owner and interface-owner, is the one before the call. -/
theorem ResetSymbolTable_spec (st : STable) :
    st.ResetSymbolTable.act_scopes = [0] ∧ st.ResetSymbolTable.cur_scopes = 0 ∧
    st.ResetSymbolTable.scope_count = 0 ∧ st.ResetSymbolTable.scopes = st.scopes :=
  ⟨rfl, rfl, rfl, rfl⟩

theorem runOps_append (step : STable → ScopeOp → Except Fault STable) :
    ∀ (pre suf : List ScopeOp) (st : STable),
      runOps step (pre ++ suf) st =
        match runOps step pre st with
        | .error e => .error e
        | .ok st2 => runOps step suf st2 := by
  intro pre
  induction pre with
  | nil => intro suf st; rfl
  | cons op pre ih =>
    intro suf st
    simp only [List.cons_append, runOps]
    cases step st op with
    | error e => rfl
    | ok st2 => exact ih suf st2

theorem buildStep_inv (st : STable) (depth : Nat) (h : buildInv st depth) :
    (∃ st2, st.buildStep .generate = .ok st2 ∧ buildInv st2 (depth + 1)) ∧
    (∀ key, ∃ st2, st.buildStep (.generateKey key) = .ok st2 ∧ buildInv st2 (depth + 1)) ∧
    (∀ d, depth = d + 1 → ∃ st2, st.buildStep .exit = .ok st2 ∧ buildInv st2 d) := by
  obtain ⟨h1, h2⟩ := h
  refine ⟨?_, ?_, ?_⟩
  · exact ⟨_, rfl, by simp [buildInv, STable.GenerateScope, h1, h2]⟩
  · intro key
    have hget : (st.scopes ++ [Scope.new])[st.scope_count + 1]? = some Scope.new := by
      rw [h2, List.getElem?_append_right (Nat.le_refl _)]
      simp
    refine ⟨_, by simp only [STable.buildStep, STable.GenerateScopeKey, hget]; rfl, ?_⟩
    simp [buildInv, h1, h2]
  · intro d hd
    subst hd
    have hne : st.act_scopes ≠ [] := by
      intro e; simp [e] at h1
    have hlen : st.act_scopes.dropLast.length = d + 1 := by simp [h1]
    have hne2 : st.act_scopes.dropLast ≠ [] := by
      intro e; simp [e] at hlen
    obtain ⟨b, hb⟩ : ∃ b, st.act_scopes.dropLast.getLast? = some b := by
      cases hg : st.act_scopes.dropLast.getLast? with
      | none => exact absurd (List.getLast?_eq_none_iff.mp hg) hne2
      | some b => exact ⟨b, rfl⟩
    cases ha : st.act_scopes with
    | nil => exact absurd ha hne
    | cons x xs =>
      refine ⟨{ st with act_scopes := st.act_scopes.dropLast, cur_scopes := b }, ?_, ?_⟩
      · simp only [STable.buildStep, STable.ExitScope, ha]
        rw [ha] at hb
        simp only [hb]
      · exact ⟨hlen, h2⟩

theorem runBuild_ok :
    ∀ (ops : List ScopeOp) (st : STable) (depth : Nat), buildInv st depth →
      balanced depth ops = true → ∃ st2, runOps STable.buildStep ops st = .ok st2 := by
  intro ops
  induction ops with
  | nil => intro st depth _ _; exact ⟨st, rfl⟩
  | cons op rest ih =>
    intro st depth hinv hbal
    have hstep := buildStep_inv st depth hinv
    cases op with
    | generate =>
      obtain ⟨st2, h1, h2⟩ := hstep.1
      obtain ⟨st3, h3⟩ := ih st2 (depth + 1) h2 (by simpa [balanced] using hbal)
      exact ⟨st3, by simp only [runOps, h1]; exact h3⟩
    | generateKey key =>
      obtain ⟨st2, h1, h2⟩ := hstep.2.1 key
      obtain ⟨st3, h3⟩ := ih st2 (depth + 1) h2 (by simpa [balanced] using hbal)
      exact ⟨st3, by simp only [runOps, h1]; exact h3⟩
    | exit =>
      cases depth with
      | zero => simp [balanced] at hbal
      | succ d =>
        obtain ⟨st2, h1, h2⟩ := hstep.2.2 d rfl
        obtain ⟨st3, h3⟩ := ih st2 d h2 (by simpa [balanced] using hbal)
        exact ⟨st3, by simp only [runOps, h1]; exact h3⟩

theorem checkStep_follows (s t s2 : STable) (op : ScopeOp) (h : follows s t)
    (hs : s.buildStep op = .ok s2) :
    ∃ t2, t.checkStep op = .ok t2 ∧ follows s2 t2 ∧ t2.scopes = t.scopes := by
  obtain ⟨h1, h2, h3⟩ := h
  cases op with
  | generate =>
    have : s2 = s.GenerateScope := by simpa [STable.buildStep] using hs.symm
    subst this
    exact ⟨t.EnterScope, rfl, by simp [follows, STable.EnterScope, STable.GenerateScope, h1, h3],
      rfl⟩
  | generateKey key =>
    simp only [STable.buildStep, STable.GenerateScopeKey] at hs
    split at hs
    · simp at hs
    · simp only [Except.ok.injEq] at hs
      subst hs
      exact ⟨t.EnterScope, rfl, by simp [follows, STable.EnterScope, h1, h3], rfl⟩
  | exit =>
    simp only [STable.buildStep, STable.ExitScope] at hs
    simp only [STable.checkStep, STable.ExitScope, h1]
    cases ha : s.act_scopes with
    | nil => simp [ha] at hs
    | cons x xs =>
      simp only [ha] at hs ⊢
      cases hb : (x :: xs).dropLast.getLast? with
      | none => simp [hb] at hs
      | some b =>
        simp only [hb, Except.ok.injEq] at hs ⊢
        subst hs
        exact ⟨_, rfl, by simp [follows, h1, h3, ha], rfl⟩

theorem runCheck_follows :
    ∀ (ops : List ScopeOp) (s t s2 : STable), follows s t →
      runOps STable.buildStep ops s = .ok s2 →
      ∃ t2, runOps STable.checkStep ops t = .ok t2 ∧ follows s2 t2 ∧ t2.scopes = t.scopes := by
  intro ops
  induction ops with
  | nil =>
    intro s t s2 h hs
    have : s2 = s := by simpa [runOps] using hs.symm
    subst this
    exact ⟨t, rfl, h, rfl⟩
  | cons op rest ih =>
    intro s t s2 h hs
    simp only [runOps] at hs
    cases hstep : s.buildStep op with
    | error e => simp [hstep] at hs
    | ok s1 =>
      simp only [hstep] at hs
      obtain ⟨t1, ht1, hf1, hsc1⟩ := checkStep_follows s t s1 op h hstep
      obtain ⟨t2, ht2, hf2, hsc2⟩ := ih s1 t1 s2 hf1 hs
      exact ⟨t2, by simp only [runOps, ht1]; exact ht2, hf2, hsc2.trans hsc1⟩

/-- C16. For a balanced sequence of `GenerateScope`/`ExitScope` calls the build
pass returns from a fresh table, in a state `sN`.  After `ResetSymbolTable`,
the same sequence with `EnterScope` in place of `GenerateScope` returns after
every step; the current scope and the active stack after the first `k` calls
are those of the build pass after its first `k` calls, and the vector of
scopes stays the one the build pass left. -/
theorem scope_reentry (ops : List ScopeOp) (hbal : balanced 0 ops = true) :
    ∃ sN : STable, runOps STable.buildStep ops STable.new = .ok sN ∧
      ∀ k : Nat, k ≤ ops.length →
        ∃ sk tk : STable, runOps STable.buildStep (ops.take k) STable.new = .ok sk ∧
          runOps STable.checkStep (ops.take k) sN.ResetSymbolTable = .ok tk ∧
          tk.cur_scopes = sk.cur_scopes ∧ tk.act_scopes = sk.act_scopes ∧
          tk.scopes = sN.scopes := by
  obtain ⟨sN, hN⟩ := runBuild_ok ops STable.new 0 ⟨rfl, rfl⟩ hbal
  refine ⟨sN, hN, ?_⟩
  intro k _
  have hsplit : runOps STable.buildStep (ops.take k ++ ops.drop k) STable.new = .ok sN := by
    rw [List.take_append_drop]; exact hN
  rw [runOps_append] at hsplit
  cases hk : runOps STable.buildStep (ops.take k) STable.new with
  | error e => simp [hk] at hsplit
  | ok sk =>
    have hf : follows STable.new sN.ResetSymbolTable := ⟨rfl, rfl, rfl⟩
    obtain ⟨tk, htk, hfk, hsc⟩ := runCheck_follows (ops.take k) _ _ sk hf hk
    exact ⟨sk, tk, rfl, htk, hfk.2.1, hfk.1, hsc⟩

theorem scope_reentry_witness :
    ∃ sN : STable,
      runOps STable.buildStep [.generateKey "A", .generate, .exit, .exit, .generate, .exit]
        STable.new = .ok sN ∧
      ∀ k : Nat, k ≤ [ScopeOp.generateKey "A", .generate, .exit, .exit, .generate, .exit].length →
        ∃ sk tk : STable,
          runOps STable.buildStep
            ([ScopeOp.generateKey "A", .generate, .exit, .exit, .generate, .exit].take k)
            STable.new = .ok sk ∧
          runOps STable.checkStep
            ([ScopeOp.generateKey "A", .generate, .exit, .exit, .generate, .exit].take k)
            sN.ResetSymbolTable = .ok tk ∧
          tk.cur_scopes = sk.cur_scopes ∧ tk.act_scopes = sk.act_scopes ∧
          tk.scopes = sN.scopes :=
  scope_reentry [.generateKey "A", .generate, .exit, .exit, .generate, .exit] rfl

/-! ## Arrays and signature equivalence -/

theorem Ty.resolved_ReturnType (T : Ty) (h : T.resolved = true) : T.ReturnType = true := by
  cases T with
  | base b t => simpa [Ty.resolved, Ty.ReturnType] using h
  | named n => simpa [Ty.resolved, Ty.ReturnType] using h
  | array e t =>
    simp only [Ty.resolved, Bool.and_eq_true] at h
    simpa [Ty.ReturnType] using h.1

theorem Ty.Equivalent_eq_equiv :
    ∀ T U : Ty, T.resolved = true → U.resolved = true → T.Equivalent U = .ok (T.equiv U) := by
  intro T
  induction T with
  | base b t =>
    intro U _ _
    cases U <;> simp [Ty.Equivalent, Ty.equiv, Ty.isBuiltin]
  | named n =>
    intro U hT hU
    have hU2 := Ty.resolved_ReturnType U hU
    simp only [Ty.resolved] at hT
    cases U <;> simp [Ty.Equivalent, Ty.equiv, hT, hU2, Identifier.Equivalent]
  | array e t ih =>
    intro U hT hU
    have hU2 := Ty.resolved_ReturnType U hU
    simp only [Ty.resolved, Bool.and_eq_true] at hT
    cases U with
    | base b2 t2 => simp [Ty.Equivalent, Ty.equiv, hT.1, hU2]
    | named n2 => simp [Ty.Equivalent, Ty.equiv, hT.1, hU2]
    | array e2 t2 =>
      simp only [Ty.resolved, Bool.and_eq_true] at hU
      simp [Ty.Equivalent, Ty.equiv, hT.1, hU2, ih e2 hT.2 hU.2]

theorem Ty.equiv_symm : ∀ T U : Ty, T.equiv U = U.equiv T := by
  intro T
  induction T with
  | base b t =>
    intro U
    cases U <;> simp [Ty.equiv]
    exact eq_comm
  | named n =>
    intro U
    cases U <;> simp [Ty.equiv]
    exact eq_comm
  | array e t ih =>
    intro U
    cases U <;> simp [Ty.equiv, ih]

theorem Ty.equiv_trans :
    ∀ T U V : Ty, T.equiv U = true → U.equiv V = true → T.equiv V = true := by
  intro T
  induction T with
  | base b t =>
    intro U V h1 h2
    cases U <;> cases V <;> simp_all [Ty.equiv]
  | named n =>
    intro U V h1 h2
    cases U <;> cases V <;> simp_all [Ty.equiv]
  | array e t ih =>
    intro U V h1 h2
    cases U <;> cases V <;> simp_all [Ty.equiv]
    exact ih _ _ h1 h2

theorem formalsEquiv_symm : ∀ l1 l2 : List VarDecl, formalsEquiv l1 l2 = formalsEquiv l2 l1 := by
  intro l1
  induction l1 with
  | nil => intro l2; cases l2 <;> simp [formalsEquiv]
  | cons a l1 ih =>
    intro l2
    cases l2 with
    | nil => simp [formalsEquiv]
    | cons b l2 => simp [formalsEquiv, ih l2, Ty.equiv_symm a.type b.type]

theorem formalsEquiv_trans :
    ∀ l1 l2 l3 : List VarDecl, l1.length = l2.length → l2.length = l3.length →
      formalsEquiv l1 l2 = true → formalsEquiv l2 l3 = true → formalsEquiv l1 l3 = true := by
  intro l1
  induction l1 with
  | nil => intro l2 l3 _ _ _ _; cases l3 <;> simp [formalsEquiv]
  | cons a l1 ih =>
    intro l2 l3 h12 h23 e12 e23
    cases l2 with
    | nil => simp at h12
    | cons b l2 =>
      cases l3 with
      | nil => simp at h23
      | cons c l3 =>
        simp only [formalsEquiv, Bool.and_eq_true] at e12 e23 ⊢
        exact ⟨Ty.equiv_trans _ _ _ e12.1 e23.1,
          ih l2 l3 (by simpa using h12) (by simpa using h23) e12.2 e23.2⟩

theorem Equivalent_loop_eq :
    ∀ l1 l2 : List VarDecl, l1.all (fun v => v.type.resolved) = true →
      l2.all (fun v => v.type.resolved) = true →
      FnDecl.Equivalent.loop l1 l2 = .ok (formalsEquiv l1 l2) := by
  intro l1
  induction l1 with
  | nil => intro l2 _ _; cases l2 <;> simp [FnDecl.Equivalent.loop, formalsEquiv]
  | cons a l1 ih =>
    intro l2 h1 h2
    cases l2 with
    | nil => simp [FnDecl.Equivalent.loop, formalsEquiv]
    | cons b l2 =>
      simp only [List.all_cons, Bool.and_eq_true] at h1 h2
      simp only [FnDecl.Equivalent.loop, formalsEquiv,
        Ty.Equivalent_eq_equiv a.type b.type h1.1 h2.1]
      cases hab : a.type.equiv b.type with
      | false => simp
      | true => simpa using ih l2 h1.2 h2.2

theorem FnDecl.Equivalent_eq_sigEquiv (f g : FnDecl) (hf : f.checked = true)
    (hg : g.checked = true) : f.Equivalent (.fn g) = .ok (sigEquiv f g) := by
  simp only [FnDecl.checked, Bool.and_eq_true] at hf hg
  obtain ⟨⟨hf1, hf2⟩, hf3⟩ := hf
  obtain ⟨⟨hg1, hg2⟩, hg3⟩ := hg
  simp only [FnDecl.Equivalent, FnDecl.ReturnType, Decl.ReturnType, hf1, hg1, if_true,
    Ty.Equivalent_eq_equiv f.returnType g.returnType hf2 hg2, sigEquiv]
  cases hr : f.returnType.equiv g.returnType with
  | false => simp
  | true =>
    simp only
    by_cases hl : f.formals.length = g.formals.length
    · have h1 : (f.formals.length == g.formals.length) = true := beq_iff_eq.mpr hl
      have h2 : (f.formals.length != g.formals.length) = false := by
        simp only [bne, h1]; rfl
      simp only [h1, h2, Equivalent_loop_eq f.formals g.formals hf3 hg3]
      simp
    · have h1 : (f.formals.length == g.formals.length) = false := beq_eq_false_iff_ne.mpr hl
      have h2 : (f.formals.length != g.formals.length) = true := by
        simp only [bne, h1]; rfl
      simp only [h1, h2]
      simp

theorem sigEquiv_symm (f g : FnDecl) : sigEquiv f g = sigEquiv g f := by
  simp only [sigEquiv]
  rw [Ty.equiv_symm f.returnType g.returnType, formalsEquiv_symm f.formals g.formals]
  congr 2
  by_cases hl : f.formals.length = g.formals.length
  · rw [beq_iff_eq.mpr hl, beq_iff_eq.mpr hl.symm]
  · rw [beq_eq_false_iff_ne.mpr hl, beq_eq_false_iff_ne.mpr (Ne.symm hl)]

theorem sigEquiv_trans (f g h : FnDecl) (h1 : sigEquiv f g = true) (h2 : sigEquiv g h = true) :
    sigEquiv f h = true := by
  simp only [sigEquiv, Bool.and_eq_true, beq_iff_eq] at h1 h2 ⊢
  exact ⟨⟨Ty.equiv_trans _ _ _ h1.1.1 h2.1.1, h1.1.2.trans h2.1.2⟩,
    formalsEquiv_trans _ _ _ h1.1.2 h2.1.2 h1.2 h2.2⟩

/-- C11. For an array type `A` and a type `B` other than null, both passing
the entry assertion, `A.IsCompatibleWith(B)` is true iff `B` is an array type
whose element type is `Equivalent` to the element type of `A`; the call returns
a value when both types are resolved throughout.  In particular arrays of two
named types with different names are not compatible, whatever the classes
are: there is no array covariance. -/
theorem ArrayType_IsCompatibleWith_spec (heap : Heap) (fuel : Nat) (eA B : Ty)
    (hB : B.ReturnType = true) (hnull : B.isBuiltin .nullType = false) :
    (Ty.IsCompatibleWith heap fuel (.array eA true) B = .ok true ↔
      ∃ (eB : Ty) (tB : Bool), B = .array eB tB ∧ eA.Equivalent eB = .ok true) ∧
    (eA.resolved = true → B.resolved = true →
      ∃ b, Ty.IsCompatibleWith heap fuel (.array eA true) B = .ok b) ∧
    (∀ idA idB : Identifier, idA.name ≠ idB.name →
      Ty.IsCompatibleWith heap fuel (.array (.named ⟨idA, true⟩) true)
        (.array (.named ⟨idB, true⟩) true) = .ok false) := by
  have key : Ty.IsCompatibleWith heap fuel (.array eA true) B =
      (Ty.array eA true).Equivalent B := by
    simp [Ty.IsCompatibleWith, hB, hnull]
  refine ⟨?_, ?_, ?_⟩
  · rw [key]
    cases B with
    | base b t => simp [Ty.Equivalent, Ty.ReturnType] at hB ⊢; simp [hB]
    | named n => simp [Ty.Equivalent, Ty.ReturnType] at hB ⊢; simp [hB]
    | array eB tB =>
      simp only [Ty.ReturnType] at hB
      simp [Ty.Equivalent, Ty.ReturnType, hB]
  · intro hA hBr
    rw [key, Ty.Equivalent_eq_equiv (.array eA true) B (by simp [Ty.resolved, hA]) hBr]
    exact ⟨_, rfl⟩
  · intro idA idB hne
    simp [Ty.IsCompatibleWith, Ty.Equivalent, Ty.ReturnType, Ty.isBuiltin,
      Identifier.Equivalent, hne]

theorem ArrayType_IsCompatibleWith_spec_witness :
    Ty.IsCompatibleWith exHeap 2 (.named { id := exA.id }) (.named { id := exB.id }) = .ok true ∧
    Ty.IsCompatibleWith exHeap 2 (.array (.named ⟨exA.id, true⟩) true)
      (.array (.named ⟨exB.id, true⟩) true) = .ok false :=
  ⟨rfl, (ArrayType_IsCompatibleWith_spec exHeap 2 (.named ⟨exA.id, true⟩)
    (.array (.named ⟨exB.id, true⟩) true) rfl rfl).2.2 exA.id exB.id (by decide)⟩

/-- C12. On checked function declarations `FnDecl::Equivalent` returns the
signature equivalence of the specification (same return type, same formal
count, element-wise equivalent formal types), and it is symmetric and
transitive: `f.Equivalent(g) = g.Equivalent(f)`, and `f.Equivalent(g)` and
`g.Equivalent(h)` imply `f.Equivalent(h)`. -/
theorem FnDecl_Equivalent_symm_trans (f g h : FnDecl) (hf : f.checked = true)
    (hg : g.checked = true) (hh : h.checked = true) :
    f.Equivalent (.fn g) = .ok (sigEquiv f g) ∧
    f.Equivalent (.fn g) = g.Equivalent (.fn f) ∧
    (f.Equivalent (.fn g) = .ok true → g.Equivalent (.fn h) = .ok true →
      f.Equivalent (.fn h) = .ok true) := by
  refine ⟨FnDecl.Equivalent_eq_sigEquiv f g hf hg, ?_, ?_⟩
  · rw [FnDecl.Equivalent_eq_sigEquiv f g hf hg, FnDecl.Equivalent_eq_sigEquiv g f hg hf,
      sigEquiv_symm]
  · rw [FnDecl.Equivalent_eq_sigEquiv f g hf hg, FnDecl.Equivalent_eq_sigEquiv g h hg hh,
      FnDecl.Equivalent_eq_sigEquiv f h hf hh]
    intro h1 h2
    simp only [Except.ok.injEq] at h1 h2 ⊢
    exact sigEquiv_trans f g h h1 h2

theorem FnDecl_Equivalent_symm_trans_witness :
    exFnInt.Equivalent (.fn exFnBool) = .ok (sigEquiv exFnInt exFnBool) ∧
    exFnInt.Equivalent (.fn exFnBool) = exFnBool.Equivalent (.fn exFnInt) ∧
    (exFnInt.Equivalent (.fn exFnBool) = .ok true →
      exFnBool.Equivalent (.fn exFnInt) = .ok true →
      exFnInt.Equivalent (.fn exFnInt) = .ok true) :=
  FnDecl_Equivalent_symm_trans exFnInt exFnBool exFnInt rfl rfl rfl

/-! ## The declaration pass -/

theorem Lookup_local (st : STable) (fuel : Nat) (key : String) (s : Scope) (prev : Decl)
    (hcur : st.act_scopes.getLast? = some st.cur_scopes)
    (hs : st.scopes[st.cur_scopes]? = some s) (hfind : s.find key = some prev) :
    st.Lookup fuel key = .ok (some prev) := by
  have hrev : ∃ outer, st.act_scopes.reverse = st.cur_scopes :: outer := by
    cases hr : st.act_scopes.reverse with
    | nil =>
      have : st.act_scopes = [] := by simpa using hr
      simp [this] at hcur
    | cons a outer =>
      have hl : st.act_scopes.getLast? = some a := by
        rw [List.getLast?_eq_head?_reverse, hr]; rfl
      rw [hl] at hcur
      exact ⟨outer, by simp at hcur; rw [hcur]⟩
  obtain ⟨outer, houter⟩ := hrev
  have h1 := Lookup_loop_eq st key fuel st.act_scopes.length (Nat.le_refl _)
  rw [List.take_length, houter] at h1
  rw [STable.Lookup, h1, STable.lookupList, hs]
  simp only [hfind]

theorem lookupIn_filter (key name : String) (hne : key ≠ name) :
    ∀ l : List (String × Decl),
      Hashtable.lookupIn key (l.filter (fun e => !(e.1 == name))) = Hashtable.lookupIn key l := by
  intro l
  induction l with
  | nil => rfl
  | cons e l ih =>
    obtain ⟨k, d⟩ := e
    by_cases hk : k = name
    · subst hk
      have hkk : (k == key) = false := beq_eq_false_iff_ne.mpr (Ne.symm hne)
      have hf : ((k, d) :: l).filter (fun e => !(e.1 == k)) =
          l.filter (fun e => !(e.1 == k)) := by
        simp [List.filter_cons]
      rw [hf, ih]
      simp only [Hashtable.lookupIn, hkk]
      rfl
    · have hkn : (k == name) = false := beq_eq_false_iff_ne.mpr hk
      have hf : ((k, d) :: l).filter (fun e => !(e.1 == name)) =
          (k, d) :: l.filter (fun e => !(e.1 == name)) := by
        simp [List.filter_cons, hkn]
      rw [hf]
      simp only [Hashtable.lookupIn, ih]

theorem find_Enter (s : Scope) (ht : Hashtable) (name key : String) (d : Decl)
    (hht : ht = match s.ht with | none => { entries := [] } | some ht => ht) :
    Scope.find { s with ht := some (ht.Enter name d) } key =
      if name = key then some d else s.find key := by
  simp only [Scope.find, Hashtable.Lookup, Hashtable.Enter, Hashtable.lookupIn]
  by_cases hk : name = key
  · simp [hk]
  · have hkn : (name == key) = false := beq_eq_false_iff_ne.mpr hk
    simp only [hkn, hk, if_false]
    rw [lookupIn_filter key name (Ne.symm hk)]
    subst hht
    cases s.ht with
    | none => rfl
    | some h => rfl

/-- C17. Declaring a name in a table whose current scope is the innermost
active scope: if the current scope already binds the name to `prev`,
exactly one `DeclConflict(this, prev)` is added to the reports and the table is
left as it is (the earlier binding stays); if the current scope does not bind
the name, nothing is reported and the table after the call binds the name
to `this` in the current scope, every other binding being as before. -/
theorem declare_spec (this : Decl) (fuel : Nat) (st : STable) (errs : List ErrorMsg) (s : Scope)
    (hcur : st.act_scopes.getLast? = some st.cur_scopes)
    (hs : st.scopes[st.cur_scopes]? = some s) :
    (∀ prev, s.find this.GetId.name = some prev →
      this.declare fuel st errs = .ok (st, errs ++ [.DeclConflict this (some prev)])) ∧
    (s.find this.GetId.name = none →
      ∃ st2, this.declare fuel st errs = .ok (st2, errs) ∧
        st2.binding this.GetId.name st.cur_scopes = some this ∧
        (∀ (key : String) (a : Nat), (a ≠ st.cur_scopes ∨ key ≠ this.GetId.name) →
          st2.binding key a = st.binding key a) ∧
        st2.act_scopes = st.act_scopes ∧ st2.cur_scopes = st.cur_scopes) := by
  refine ⟨?_, ?_⟩
  · intro prev hprev
    simp only [Decl.declare, STable.LocalLookup, hs, hprev, Option.isSome_some,
      Lookup_local st fuel this.GetId.name s prev hcur hs hprev]
  · intro hnone
    have hlt : st.cur_scopes < st.scopes.length := by
      by_contra hge
      rw [List.getElem?_eq_none (Nat.le_of_not_lt hge)] at hs
      exact Option.noConfusion hs
    have hins : st.InsertSymbol this =
        .ok ({ st with
               scopes := st.scopes.set st.cur_scopes
                 { s with ht := some (Hashtable.Enter
                     (match s.ht with
                      | none => { entries := [] }
                      | some ht => ht) this.GetId.name this) }
               id_count := st.id_count + 1 }, st.id_count) := by
      simp only [STable.InsertSymbol, hs]
    refine ⟨{ st with
               scopes := st.scopes.set st.cur_scopes
                 { s with ht := some (Hashtable.Enter
                     (match s.ht with
                      | none => { entries := [] }
                      | some ht => ht) this.GetId.name this) }
               id_count := st.id_count + 1 }, ?_, ?_, ?_, ?_, ?_⟩
    · simp only [Decl.declare, STable.LocalLookup, hs, hnone, Option.isSome_none, hins]
    · simp only [STable.binding, List.getElem?_set_self hlt]
      rw [find_Enter s _ _ _ _ rfl]
      simp
    · intro key a hor
      simp only [STable.binding]
      by_cases ha : a = st.cur_scopes
      · subst ha
        have hk : key ≠ this.GetId.name := by
          cases hor with
          | inl h => exact absurd rfl h
          | inr h => exact h
        simp only [List.getElem?_set_self hlt, hs]
        rw [find_Enter s _ _ _ _ rfl]
        simp [Ne.symm hk]
      · rw [List.getElem?_set_ne (Ne.symm ha)]
    · rfl
    · rfl

/-- The table after `class A {}` has been declared, and the reports of the
programs `class A {} class A {}` and `class A {} class A { int y; }`: one
`DeclConflict`, for the second `A`. -/
theorem declare_spec_witness :
    Program.GenerateST 0 [.cls exA] = .ok (exTableAfterA, []) ∧
    exTableAfterA.act_scopes.getLast? = some exTableAfterA.cur_scopes ∧
    exTableAfterA.scopes[exTableAfterA.cur_scopes]? =
      some { ht := some { entries := [("A", .cls exA)] } } ∧
    (Decl.cls exA2).declare 0 exTableAfterA [] =
      .ok (exTableAfterA, [.DeclConflict (.cls exA2) (some (.cls exA))]) ∧
    (Program.GenerateST 0 [.cls exA, .cls exA]).map Prod.snd =
      .ok [.DeclConflict (.cls exA) (some (.cls exA))] ∧
    (Program.GenerateST 0 [.cls exA, .cls exA2]).map Prod.snd =
      .ok [.DeclConflict (.cls exA2) (some (.cls exA))] :=
  ⟨rfl, rfl, rfl,
    (declare_spec (.cls exA2) 0 exTableAfterA [] { ht := some { entries := [("A", .cls exA)] } }
      rfl rfl).1 (.cls exA) rfl, rfl, rfl⟩

/-! ## The inheritance check -/

theorem checked_ReturnType (f : FnDecl) (h : f.checked = true) :
    f.ReturnType = some f.returnType := by
  simp only [FnDecl.checked, Bool.and_eq_true] at h
  simp [FnDecl.ReturnType, h.1.1]

theorem compareParent_fn (d t : FnDecl) (errs : List ErrorMsg) (hd : d.checked = true)
    (ht : t.checked = true) :
    CheckInherit.compareParent d (some (.fn t)) errs =
      .ok (if sigEquiv d t then errs else errs ++ [.OverrideMismatch (.fn d)]) := by
  simp only [CheckInherit.compareParent, Decl.FnIsDecl, Bool.not_true, Bool.false_eq_true,
    if_false, checked_ReturnType d hd, Decl.ReturnType, checked_ReturnType t ht,
    FnDecl.Equivalent_eq_sigEquiv d t hd ht]
  cases sigEquiv d t <;> rfl

/-- C18. For a function member `d` of the class being checked whose name
`FindParent` resolves to an inherited function `t`, both having passed the
declaration check, the comparison with `t` adds `OverrideMismatch(d)` to the
reports when `d` and `t` are not signature-equivalent and adds nothing when
they are; when no implemented interface binds the name, these are all the
reports made for the member. -/
theorem CheckInherit_override (st : STable) (fuel : Nat) (d t : FnDecl) (errs : List ErrorMsg)
    (hfind : st.FindParent fuel d.id.name = .ok (some (.fn t)))
    (hd : d.checked = true) (ht : t.checked = true) :
    CheckInherit.fnParent st fuel d errs =
      .ok (if sigEquiv d t then errs else errs ++ [.OverrideMismatch (.fn d)]) ∧
    (st.FindInterface d.id.name = .ok none →
      CheckInherit.member st fuel (.fn d) errs =
        .ok (if sigEquiv d t then errs else errs ++ [.OverrideMismatch (.fn d)])) := by
  have h1 : CheckInherit.fnParent st fuel d errs =
      .ok (if sigEquiv d t then errs else errs ++ [.OverrideMismatch (.fn d)]) := by
    simp only [CheckInherit.fnParent, hfind, compareParent_fn d t errs hd ht]
  refine ⟨h1, ?_⟩
  intro hi
  simp only [CheckInherit.member, h1, CheckInherit.fnInterface, hi, CheckInherit.compareInterface]

/-- The program `class A { int f(int x); } class B extends A { bool f(int x); }`:
its table in the inheritance check of `B`, and the report at `B.f`. -/
theorem CheckInherit_override_witness :
    (Program.GenerateST 0 [.cls exBaseA, .cls exDerivedB]).map
        (fun r => (runOps STable.checkStep
          [.generateKey "A", .generate, .exit, .exit, .generateKey "B"]
          r.1.ResetSymbolTable, r.2)) = .ok (.ok exTableInB, []) ∧
    exTableInB.FindParent 1 "f" = .ok (some (.fn exFnInt)) ∧
    sigEquiv exFnBool exFnInt = false ∧
    CheckInherit.fnParent exTableInB 1 exFnBool [] = .ok [.OverrideMismatch (.fn exFnBool)] ∧
    exDerivedB.CheckInherit exTableInB [.cls exBaseA, .cls exDerivedB] 1 [] =
      .ok [.OverrideMismatch (.fn exFnBool)] :=
  ⟨rfl, rfl, rfl, (CheckInherit_override exTableInB 1 exFnBool exFnInt [] rfl rfl rfl).1, rfl⟩

theorem interfaceMembers_eq (st : STable) (fuel : Nat) (C : ClassDecl) :
    ∀ ms : List Member,
      (∀ m ∈ ms, ∃ r, st.LookForField fuel C.id.name m.GetId.name = .ok r) →
      (∀ f1 : FnDecl, Member.fn f1 ∈ ms → f1.checked = true) →
      (∀ m ∈ ms, ∀ f2 : FnDecl,
        st.LookForField fuel C.id.name m.GetId.name = .ok (some (.fn f2)) → f2.checked = true) →
      CheckInherit.interfaceMembers st fuel C ms = .ok (!(ms.all (implementedBy st fuel C))) := by
  intro ms
  induction ms with
  | nil => intro _ _ _; rfl
  | cons m rest ih =>
    intro hlook h1 h2
    have ih2 := ih (fun x hx => hlook x (List.mem_cons_of_mem _ hx))
      (fun f hf => h1 f (List.mem_cons_of_mem _ hf))
      (fun x hx => h2 x (List.mem_cons_of_mem _ hx))
    obtain ⟨r, hr⟩ := hlook m (List.mem_cons_self _ _)
    rw [CheckInherit.interfaceMembers, hr]
    simp only [List.all_cons]
    cases r with
    | none =>
      have : implementedBy st fuel C m = false := by
        cases m with
        | var v => rfl
        | fn f => simp only [implementedBy]; rw [show f.id = (Member.fn f).GetId from rfl, hr]
        | other i => rfl
      simp [this]
    | some t =>
      cases m with
      | var v => cases t <;> simp [implementedBy]
      | other i => cases t <;> simp [implementedBy]
      | fn f1 =>
        have hr2 : st.LookForField fuel C.id.name f1.id.name = .ok (some t) := hr
        cases t with
        | var v => simp [implementedBy, hr2]
        | cls c => simp [implementedBy, hr2]
        | iface i => simp [implementedBy, hr2]
        | fn f2 =>
          have hc1 := h1 f1 (List.mem_cons_self _ _)
          have hc2 := h2 (.fn f1) (List.mem_cons_self _ _) f2 hr
          simp only [checked_ReturnType f1 hc1, checked_ReturnType f2 hc2,
            FnDecl.Equivalent_eq_sigEquiv f1 f2 hc1 hc2, implementedBy, hr2]
          cases hse : sigEquiv f1 f2 with
          | false => simp
          | true => simp [ih2]

/-- Where the lookups return: for a class `C` and an entry `I` of its implements list whose
identifier is resolved to the interface `i`, the lookups from `C` returning and
the functions compared having passed the declaration check: the check adds
`InterfaceNotImplemented(C, I)` to the reports exactly once if some member of
`i` has no function of the same name with an equivalent signature found by
`LookForField` from `C`, and adds nothing if every member has one. -/
theorem CheckInherit_interface (st : STable) (heap : Heap) (fuel : Nat) (C : ClassDecl)
    (I : NamedType) (i : InterfaceDecl) (errs : List ErrorMsg)
    (hI : I.id.ReturnCache heap = some (.iface i))
    (hlook : ∀ m ∈ i.members, ∃ r, st.LookForField fuel C.id.name m.GetId.name = .ok r)
    (hchk : ∀ f1 : FnDecl, Member.fn f1 ∈ i.members → f1.checked = true)
    (hfound : ∀ m ∈ i.members, ∀ f2 : FnDecl,
      st.LookForField fuel C.id.name m.GetId.name = .ok (some (.fn f2)) → f2.checked = true) :
    CheckInherit.interfaceEntry st heap fuel C I errs =
      .ok (if i.members.all (implementedBy st fuel C) then errs
           else errs ++ [.InterfaceNotImplemented (.cls C) I]) := by
  simp only [CheckInherit.interfaceEntry, hI,
    interfaceMembers_eq st fuel C i.members hlook hchk hfound]
  cases i.members.all (implementedBy st fuel C) <;> rfl

/-- The program `interface I { void m(); } class C implements I { }
class G implements I { void m(); }`: `C` is reported, `G` is not. -/
theorem CheckInherit_interface_witness :
    exTypeI.id.ReturnCache exHeapImpl = some (.iface exIfaceM) ∧
    exIfaceM.members.all (implementedBy exTableInC 1 exImplC) = false ∧
    CheckInherit.interfaceEntry exTableInC exHeapImpl 1 exImplC exTypeI [] =
      .ok [.InterfaceNotImplemented (.cls exImplC) exTypeI] ∧
    exImplC.CheckInherit exTableInC exHeapImpl 1 [] =
      .ok [.InterfaceNotImplemented (.cls exImplC) exTypeI] ∧
    exIfaceM.members.all (implementedBy exTableInG 1 exImplG) = true ∧
    CheckInherit.interfaceEntry exTableInG exHeapImpl 1 exImplG exTypeI [] = .ok [] ∧
    exImplG.CheckInherit exTableInG exHeapImpl 1 [] = .ok [] :=
  ⟨rfl, rfl,
    CheckInherit_interface exTableInC exHeapImpl 1 exImplC exTypeI exIfaceM [] rfl
      (by intro m hm; simp only [exIfaceM, List.mem_singleton] at hm; subst hm; exact ⟨none, rfl⟩)
      (by intro f hf; simp only [exIfaceM, List.mem_singleton, Member.fn.injEq] at hf
          subst hf; rfl)
      (by intro m hm f2 h; simp only [exIfaceM, List.mem_singleton] at hm; subst hm
          have h0 : exTableInC.LookForField 1 exImplC.id.name (Member.fn exFnM).GetId.name =
            .ok none := rfl
          rw [h0] at h
          simp at h),
    rfl, rfl,
    CheckInherit_interface exTableInG exHeapImpl 1 exImplG exTypeI exIfaceM [] rfl
      (by intro m hm; simp only [exIfaceM, List.mem_singleton] at hm; subst hm
          exact ⟨some (.fn exFnM), rfl⟩)
      (by intro f hf; simp only [exIfaceM, List.mem_singleton, Member.fn.injEq] at hf
          subst hf; rfl)
      (by intro m hm f2 h; simp only [exIfaceM, List.mem_singleton] at hm; subst hm
          have h0 : exTableInG.LookForField 1 exImplG.id.name (Member.fn exFnM).GetId.name =
            .ok (some (.fn exFnM)) := rfl
          rw [h0] at h
          simp only [Except.ok.injEq, Option.some.injEq, Decl.fn.injEq] at h
          subst h; rfl),
    rfl⟩

/-! ## Field access -/

/-- C20. For an access with an explicit base of named type in which the
field resolves to a variable: with no enclosing class (or an owner of the
enclosing scope that is no class) `InaccessibleField(field, base)` is reported;
with an enclosing class `E` in which the field does not resolve to a variable,
`FieldNotFoundInBase(field, E)` is reported, whatever the compatibility of the
two types; with an enclosing class `E` in which the field resolves to the
variable `v`, the access is accepted (nothing reported, the expression typed
with the declared type of `v`, the field bound to `v`) when the type of `E` is
compatible with the base type or the base type is compatible with the type of
`E`, and `InaccessibleField(field, base)` is reported when neither holds. -/
theorem FieldAccess_ConfirmType_spec (st : STable) (heap : Heap) (fuel : Nat) (bn : NamedType)
    (field : Identifier) (v0 : VarDecl) (errs : List ErrorMsg)
    (hbase : st.LookForField fuel bn.id.name field.name = .ok (some (.var v0))) :
    (∀ r, st.FindThis = .ok r → (∀ E, r ≠ some (.cls E)) →
      FieldAccess.ConfirmType st heap fuel (some (some (.named bn))) field errs =
        .ok { errs := errs ++ [.InaccessibleField field (.named bn)],
              type_of_expr := none, cache := none }) ∧
    (∀ E : ClassDecl, st.FindThis = .ok (some (.cls E)) →
      (∀ r, st.LookForField fuel E.id.name field.name = .ok r → (∀ v, r ≠ some (.var v)) →
        FieldAccess.ConfirmType st heap fuel (some (some (.named bn))) field errs =
          .ok { errs := errs ++ [.FieldNotFoundInBase field (.named ⟨E.id, true⟩)],
                type_of_expr := none, cache := none }) ∧
      (∀ v : VarDecl, st.LookForField fuel E.id.name field.name = .ok (some (.var v)) →
        (Ty.IsCompatibleWith heap fuel (.named ⟨E.id, true⟩) (.named bn) = .ok true →
          FieldAccess.ConfirmType st heap fuel (some (some (.named bn))) field errs =
            .ok { errs := errs, type_of_expr := some v.type, cache := some (.var v) }) ∧
        (Ty.IsCompatibleWith heap fuel (.named ⟨E.id, true⟩) (.named bn) = .ok false →
          Ty.IsCompatibleWith heap fuel (.named bn) (.named ⟨E.id, true⟩) = .ok true →
          FieldAccess.ConfirmType st heap fuel (some (some (.named bn))) field errs =
            .ok { errs := errs, type_of_expr := some v.type, cache := some (.var v) }) ∧
        (Ty.IsCompatibleWith heap fuel (.named ⟨E.id, true⟩) (.named bn) = .ok false →
          Ty.IsCompatibleWith heap fuel (.named bn) (.named ⟨E.id, true⟩) = .ok false →
          FieldAccess.ConfirmType st heap fuel (some (some (.named bn))) field errs =
            .ok { errs := errs ++ [.InaccessibleField field (.named bn)],
                  type_of_expr := none, cache := none }))) := by
  refine ⟨?_, ?_⟩
  · intro r hr hE
    cases r with
    | none => simp only [FieldAccess.ConfirmType, hbase, hr]
    | some d =>
      cases d with
      | cls E => exact absurd rfl (hE E)
      | var v => simp only [FieldAccess.ConfirmType, hbase, hr]
      | fn f => simp only [FieldAccess.ConfirmType, hbase, hr]
      | iface i => simp only [FieldAccess.ConfirmType, hbase, hr]
  · intro E hE
    refine ⟨?_, ?_⟩
    · intro r hr hv
      cases r with
      | none => simp only [FieldAccess.ConfirmType, hbase, hE, hr]
      | some d =>
        cases d with
        | var v => exact absurd rfl (hv v)
        | cls c => simp only [FieldAccess.ConfirmType, hbase, hE, hr]
        | fn f => simp only [FieldAccess.ConfirmType, hbase, hE, hr]
        | iface i => simp only [FieldAccess.ConfirmType, hbase, hE, hr]
    · intro v hv
      refine ⟨?_, ?_, ?_⟩
      · intro h1
        simp only [FieldAccess.ConfirmType, hbase, hE, hv, h1]
      · intro h1 h2
        simp only [FieldAccess.ConfirmType, hbase, hE, hv, h1, h2]
      · intro h1 h2
        simp only [FieldAccess.ConfirmType, hbase, hE, hv, h1, h2]

/-- Inside `E.m` of `class E { int w; void m() { D d; d.x; d.w; } }
class D extends E { int x; }` the access `d.w` is accepted; inside a global
function the access `d.x` is reported as inaccessible. -/
theorem FieldAccess_ConfirmType_spec_witness :
    exTableInM.LookForField 2 "D" "w" = .ok (some (.var (exV "w"))) ∧
    exTableInM.FindThis = .ok (some (.cls exEnclE)) ∧
    exTableInM.LookForField 2 "E" "w" = .ok (some (.var (exV "w"))) ∧
    Ty.IsCompatibleWith exHeapField 2 (.named ⟨exEnclE.id, true⟩) exTypeD = .ok true ∧
    FieldAccess.ConfirmType exTableInM exHeapField 2 (some (some exTypeD)) { name := "w" } [] =
      .ok { errs := [], type_of_expr := some (.base .intType true),
            cache := some (.var (exV "w")) } ∧
    exTableGlobalFn.FindThis = .ok none ∧
    FieldAccess.ConfirmType exTableGlobalFn exHeapField 2 (some (some exTypeD)) { name := "x" } [] =
      .ok { errs := [.InaccessibleField { name := "x" } exTypeD],
            type_of_expr := none, cache := none } :=
  ⟨rfl, rfl, rfl, rfl,
    (((FieldAccess_ConfirmType_spec exTableInM exHeapField 2 { id := { name := "D", cache := some 1 } }
      { name := "w" } (exV "w") [] rfl).2 exEnclE rfl).2 (exV "w") rfl).1 rfl,
    rfl, rfl⟩

/-- Inside `E.m` of `class E { int w; void m() { D d; d.x; } } class D extends E
{ int x; }` the field `x` resolves to a variable in the base type `D`, the
enclosing class is `E` and the type of `E` is compatible with `D`; the access
`d.x` is not accepted: `FieldNotFoundInBase(x, E)` is reported. -/
theorem FieldAccess_counterexample :
    exTableInM.LookForField 2 "D" "x" = .ok (some (.var (exV "x"))) ∧
    exTableInM.FindThis = .ok (some (.cls exEnclE)) ∧
    Ty.IsCompatibleWith exHeapField 2 (.named ⟨exEnclE.id, true⟩) exTypeD = .ok true ∧
    FieldAccess.ConfirmType exTableInM exHeapField 2 (some (some exTypeD)) { name := "x" } [] =
      .ok { errs := [.FieldNotFoundInBase { name := "x" } (.named ⟨exEnclE.id, true⟩)],
            type_of_expr := none, cache := none } :=
  ⟨rfl, rfl, rfl, rfl⟩

/-! ## Type checks of expressions -/

/-- Where the check returns: for an equality expression whose operands have been checked, the
type of the expression is bool whenever the check returns; when the type of
an operand is not known nothing is reported; when both are known and the two
compatibility tests return, `IncompatibleOperands` is reported iff neither
type is compatible with the other, and the same holds with the two operands
swapped. -/
theorem EqualityExpr_ConfirmType_spec (heap : Heap) (fuel : Nat) (op : String)
    (tl tr : Option Ty) (errs : List ErrorMsg) :
    (∀ r, EqualityExpr.ConfirmType heap fuel op tl tr errs = .ok r →
      r.2 = some (Ty.builtin .boolType)) ∧
    ((tl = none ∨ tr = none) →
      EqualityExpr.ConfirmType heap fuel op tl tr errs =
        .ok (errs, some (Ty.builtin .boolType))) ∧
    (∀ (a b : Ty) (c1 c2 : Bool), tl = some a → tr = some b →
      b.IsCompatibleWith heap fuel a = .ok c1 → a.IsCompatibleWith heap fuel b = .ok c2 →
      EqualityExpr.ConfirmType heap fuel op tl tr errs =
        .ok (if !c1 && !c2 then errs ++ [.IncompatibleOperands op a b] else errs,
          some (Ty.builtin .boolType)) ∧
      EqualityExpr.ConfirmType heap fuel op tr tl errs =
        .ok (if !c1 && !c2 then errs ++ [.IncompatibleOperands op b a] else errs,
          some (Ty.builtin .boolType))) := by
  refine ⟨?_, ?_, ?_⟩
  · intro r hr
    cases tl with
    | none => simp only [EqualityExpr.ConfirmType, Except.ok.injEq] at hr; rw [← hr]
    | some a =>
      cases tr with
      | none => simp only [EqualityExpr.ConfirmType, Except.ok.injEq] at hr; rw [← hr]
      | some b =>
        simp only [EqualityExpr.ConfirmType] at hr
        cases h1 : b.IsCompatibleWith heap fuel a with
        | error e => simp [h1] at hr
        | ok c1 =>
          cases c1 with
          | true => simp only [h1, Except.ok.injEq] at hr; rw [← hr]
          | false =>
            simp only [h1] at hr
            cases h2 : a.IsCompatibleWith heap fuel b with
            | error e => simp [h2] at hr
            | ok c2 =>
              cases c2 with
              | true => simp only [h2, Except.ok.injEq] at hr; rw [← hr]
              | false => simp only [h2, Except.ok.injEq] at hr; rw [← hr]
  · intro h
    cases tl with
    | none => cases tr <;> rfl
    | some a =>
      cases tr with
      | none => rfl
      | some b => cases h with
        | inl h => cases h
        | inr h => cases h
  · intro a b c1 c2 hl hr h1 h2
    subst hl; subst hr
    simp only [EqualityExpr.ConfirmType, h1, h2]
    cases c1 <;> cases c2 <;> simp

/-- The operands `int`, `bool` are reported in either order; an object of class
`B` compared with one of its superclass `A` is not, in either order. -/
theorem EqualityExpr_ConfirmType_spec_witness :
    (EqualityExpr.ConfirmType exHeap 2 "==" (some (Ty.builtin .intType))
        (some (Ty.builtin .boolType)) [] =
      .ok ([.IncompatibleOperands "==" (Ty.builtin .intType) (Ty.builtin .boolType)],
        some (Ty.builtin .boolType)) ∧
      EqualityExpr.ConfirmType exHeap 2 "==" (some (Ty.builtin .boolType))
        (some (Ty.builtin .intType)) [] =
      .ok ([.IncompatibleOperands "==" (Ty.builtin .boolType) (Ty.builtin .intType)],
        some (Ty.builtin .boolType))) ∧
    (EqualityExpr.ConfirmType exHeap 2 "!=" (some (.named { id := exA.id }))
        (some (.named { id := exB.id })) [] = .ok ([], some (Ty.builtin .boolType)) ∧
      EqualityExpr.ConfirmType exHeap 2 "!=" (some (.named { id := exB.id }))
        (some (.named { id := exA.id })) [] = .ok ([], some (Ty.builtin .boolType))) :=
  ⟨(EqualityExpr_ConfirmType_spec exHeap 2 "==" (some (Ty.builtin .intType))
      (some (Ty.builtin .boolType)) []).2.2 (Ty.builtin .intType) (Ty.builtin .boolType)
      false false rfl rfl rfl rfl,
    (EqualityExpr_ConfirmType_spec exHeap 2 "!=" (some (.named { id := exA.id }))
      (some (.named { id := exB.id })) []).2.2 (.named { id := exA.id })
      (.named { id := exB.id }) false true rfl rfl rfl rfl⟩

theorem notCompatible_iff (heap : Heap) (fuel : Nat) (t_f t_a : Ty) :
    notCompatible heap fuel t_f t_a = true ↔ t_f.IsCompatibleWith heap fuel t_a = .ok false := by
  unfold notCompatible
  cases t_f.IsCompatibleWith heap fuel t_a with
  | error e => simp
  | ok b => cases b <;> simp

theorem CheckFuncArgs_loop_eq (heap : Heap) (fuel : Nat) :
    ∀ (actuals : List Expr) (formals : List VarDecl) (i : Nat) (errs : List ErrorMsg),
      (∀ (j : Nat) (a : Expr) (f : VarDecl) (t_a : Ty), actuals[j]? = some a →
        formals[j]? = some f → a.ReturnType = some t_a →
        ∃ b, f.type.IsCompatibleWith heap fuel t_a = .ok b) →
      CheckFuncArgs.loop heap fuel i actuals formals errs =
        .ok (errs ++ argMismatches heap fuel i actuals formals) := by
  intro actuals
  induction actuals with
  | nil => intro formals i errs _; simp [CheckFuncArgs.loop, argMismatches]
  | cons a rest ih =>
    intro formals i errs h
    cases formals with
    | nil => simp [CheckFuncArgs.loop, argMismatches]
    | cons f fs =>
      have hrest : ∀ (j : Nat) (a2 : Expr) (f2 : VarDecl) (t_a : Ty), rest[j]? = some a2 →
          fs[j]? = some f2 → a2.ReturnType = some t_a →
          ∃ b, f2.type.IsCompatibleWith heap fuel t_a = .ok b :=
        fun j a2 f2 t_a h1 h2 h3 => h (j + 1) a2 f2 t_a (by simpa using h1) (by simpa using h2) h3
      rw [CheckFuncArgs.loop, argMismatches]
      cases hty : a.ReturnType with
      | none => exact ih fs (i + 1) errs hrest
      | some t_a =>
        obtain ⟨b, hb⟩ := h 0 a f t_a (by simp) (by simp) hty
        cases b with
        | true =>
          have hn : notCompatible heap fuel f.type t_a = false := by
            simp [notCompatible, hb]
          simp only [hb, hn]
          exact ih fs (i + 1) errs hrest
        | false =>
          have hn : notCompatible heap fuel f.type t_a = true :=
            (notCompatible_iff heap fuel f.type t_a).mpr hb
          simp only [hb, hn, if_true]
          exact (ih fs (i + 1) _ hrest).trans (by simp)

theorem mem_argMismatches (heap : Heap) (fuel : Nat) :
    ∀ (actuals : List Expr) (formals : List VarDecl) (i k : Nat) (given expected : Ty),
      ErrorMsg.ArgMismatch k given expected ∈ argMismatches heap fuel i actuals formals ↔
        ∃ (j : Nat) (a : Expr) (f : VarDecl), k = i + j + 1 ∧ actuals[j]? = some a ∧
          formals[j]? = some f ∧ a.ReturnType = some given ∧ f.type = expected ∧
          f.type.IsCompatibleWith heap fuel given = .ok false := by
  intro actuals
  induction actuals with
  | nil => intro formals i k g e; simp [argMismatches]
  | cons a rest ih =>
    intro formals i k g e
    cases formals with
    | nil => simp [argMismatches]
    | cons f fs =>
      have hshift : (∃ (j : Nat) (a2 : Expr) (f2 : VarDecl), k = i + 1 + j + 1 ∧
            rest[j]? = some a2 ∧ fs[j]? = some f2 ∧ a2.ReturnType = some g ∧ f2.type = e ∧
            f2.type.IsCompatibleWith heap fuel g = .ok false) ↔
          (∃ (j : Nat) (a2 : Expr) (f2 : VarDecl), k = i + j + 1 ∧ 0 < j ∧
            (a :: rest)[j]? = some a2 ∧ (f :: fs)[j]? = some f2 ∧ a2.ReturnType = some g ∧
            f2.type = e ∧ f2.type.IsCompatibleWith heap fuel g = .ok false) := by
        constructor
        · rintro ⟨j, a2, f2, hk, h1, h2, h3, h4, h5⟩
          exact ⟨j + 1, a2, f2, by omega, by omega, by simpa using h1, by simpa using h2,
            h3, h4, h5⟩
        · rintro ⟨j, a2, f2, hk, hj, h1, h2, h3, h4, h5⟩
          obtain ⟨j2, rfl⟩ : ∃ j2, j = j2 + 1 := ⟨j - 1, by omega⟩
          exact ⟨j2, a2, f2, by omega, by simpa using h1, by simpa using h2, h3, h4, h5⟩
      have hsplit : (∃ (j : Nat) (a2 : Expr) (f2 : VarDecl), k = i + j + 1 ∧
            (a :: rest)[j]? = some a2 ∧ (f :: fs)[j]? = some f2 ∧ a2.ReturnType = some g ∧
            f2.type = e ∧ f2.type.IsCompatibleWith heap fuel g = .ok false) ↔
          ((k = i + 1 ∧ a.ReturnType = some g ∧ f.type = e ∧
              f.type.IsCompatibleWith heap fuel g = .ok false) ∨
            (∃ (j : Nat) (a2 : Expr) (f2 : VarDecl), k = i + j + 1 ∧ 0 < j ∧
              (a :: rest)[j]? = some a2 ∧ (f :: fs)[j]? = some f2 ∧ a2.ReturnType = some g ∧
              f2.type = e ∧ f2.type.IsCompatibleWith heap fuel g = .ok false)) := by
        constructor
        · rintro ⟨j, a2, f2, hk, h1, h2, h3, h4, h5⟩
          cases j with
          | zero =>
            simp only [List.getElem?_cons_zero, Option.some.injEq] at h1 h2
            subst h1; subst h2
            exact Or.inl ⟨by omega, h3, h4, h5⟩
          | succ j => exact Or.inr ⟨j + 1, a2, f2, hk, by omega, h1, h2, h3, h4, h5⟩
        · rintro (⟨hk, h3, h4, h5⟩ | ⟨j, a2, f2, hk, _, h1, h2, h3, h4, h5⟩)
          · exact ⟨0, a, f, by omega, by simp, by simp, h3, h4, h5⟩
          · exact ⟨j, a2, f2, hk, h1, h2, h3, h4, h5⟩
      rw [hsplit, ← hshift, ← ih fs (i + 1) k g e, argMismatches]
      cases hty : a.ReturnType with
      | none => simp
      | some t_a =>
        by_cases hn : notCompatible heap fuel f.type t_a = true
        · have hc := (notCompatible_iff heap fuel f.type t_a).mp hn
          simp only [hn, if_true, List.mem_cons, ErrorMsg.ArgMismatch.injEq, Option.some.injEq]
          constructor
          · rintro (⟨h1, h2, h3⟩ | h)
            · subst h2; exact Or.inl ⟨h1, rfl, h3.symm, hc⟩
            · exact Or.inr h
          · rintro (⟨h1, h2, h3, _⟩ | h)
            · exact Or.inl ⟨h1, h2.symm, h3.symm⟩
            · exact Or.inr h
        · have hc : ¬ f.type.IsCompatibleWith heap fuel t_a = .ok false :=
            fun h => hn ((notCompatible_iff heap fuel f.type t_a).mpr h)
          simp only [hn, Option.some.injEq]
          constructor
          · intro h; exact Or.inr h
          · rintro (⟨_, h3, _, h5⟩ | h)
            · subst h3; exact absurd h5 hc
            · exact h

theorem argMismatches_lt (heap : Heap) (fuel : Nat) :
    ∀ (actuals : List Expr) (formals : List VarDecl) (i : Nat),
      (∀ x ∈ argMismatches heap fuel i actuals formals, i < x.argIndex) ∧
      (argMismatches heap fuel i actuals formals).Pairwise
        (fun x y => x.argIndex < y.argIndex) := by
  intro actuals
  induction actuals with
  | nil => intro formals i; simp [argMismatches]
  | cons a rest ih =>
    intro formals i
    cases formals with
    | nil => simp [argMismatches]
    | cons f fs =>
      obtain ⟨h1, h2⟩ := ih fs (i + 1)
      have hlt : ∀ x ∈ argMismatches heap fuel (i + 1) rest fs, i < x.argIndex :=
        fun x hx => Nat.lt_of_succ_lt (h1 x hx)
      rw [argMismatches]
      cases a.ReturnType with
      | none => exact ⟨hlt, h2⟩
      | some t_a =>
        by_cases hn : notCompatible heap fuel f.type t_a = true
        · simp only [hn, if_true]
          refine ⟨?_, ?_⟩
          · intro x hx
            cases List.mem_cons.mp hx with
            | inl h => subst h; simp [ErrorMsg.argIndex]
            | inr h => exact hlt x h
          · exact List.pairwise_cons.mpr ⟨fun x hx => h1 x hx, h2⟩
        · simp only [hn]
          exact ⟨hlt, h2⟩

/-- Where the tests return: for a call whose field is resolved to the function `fn`, when the
number of actuals differs from the number of formals, exactly one
`NumArgsMismatch(field, expected, given)` is added to the reports and nothing
else; when the numbers agree and the compatibility tests return, the reports
added are `ArgMismatch` with position `i + 1` for exactly the indices `i` at
which the type of the actual is known and the type of the formal is not
compatible with it, each once, in the order of the positions. -/
theorem CheckFuncArgs_spec (heap : Heap) (fuel : Nat) (field : Identifier)
    (actuals : List Expr) (errs : List ErrorMsg) (fn : FnDecl)
    (hf : field.ReturnCache heap = some (.fn fn)) :
    (actuals.length ≠ fn.formals.length →
      Call.CheckFuncArgs heap fuel field actuals errs =
        .ok (errs ++ [.NumArgsMismatch field fn.formals.length actuals.length])) ∧
    (actuals.length = fn.formals.length →
      (∀ (j : Nat) (a : Expr) (f : VarDecl) (t_a : Ty), actuals[j]? = some a →
        fn.formals[j]? = some f → a.ReturnType = some t_a →
        ∃ b, f.type.IsCompatibleWith heap fuel t_a = .ok b) →
      Call.CheckFuncArgs heap fuel field actuals errs =
        .ok (errs ++ argMismatches heap fuel 0 actuals fn.formals) ∧
      (∀ x ∈ argMismatches heap fuel 0 actuals fn.formals,
        ∃ k given expected, x = .ArgMismatch k given expected) ∧
      (∀ (k : Nat) (given expected : Ty),
        ErrorMsg.ArgMismatch k given expected ∈ argMismatches heap fuel 0 actuals fn.formals ↔
          ∃ (i : Nat) (a : Expr) (f : VarDecl), k = i + 1 ∧ actuals[i]? = some a ∧
            fn.formals[i]? = some f ∧ a.ReturnType = some given ∧ f.type = expected ∧
            f.type.IsCompatibleWith heap fuel given = .ok false) ∧
      (argMismatches heap fuel 0 actuals fn.formals).Pairwise
        (fun x y => x.argIndex < y.argIndex)) := by
  refine ⟨?_, ?_⟩
  · intro hne
    simp only [Call.CheckFuncArgs, hf, bne_iff_ne, ne_eq, hne, not_false_eq_true, if_true]
  · intro heq htot
    refine ⟨?_, ?_, ?_, (argMismatches_lt heap fuel actuals fn.formals 0).2⟩
    · simp only [Call.CheckFuncArgs, hf, bne_iff_ne, ne_eq, heq, not_true_eq_false, if_false]
      exact CheckFuncArgs_loop_eq heap fuel actuals fn.formals 0 errs htot
    · intro x hx
      have hpos := (argMismatches_lt heap fuel actuals fn.formals 0).1 x hx
      cases x <;> simp [ErrorMsg.argIndex] at hpos ⊢
    · intro k g e
      rw [mem_argMismatches]
      simp only [Nat.zero_add]

/-- The function `int f(int x)` called as `f()` and as `f(true)`. -/
theorem CheckFuncArgs_spec_witness :
    Call.CheckFuncArgs [.fn exFnInt] 1 { name := "f", cache := some 0 } [] [] =
      .ok [.NumArgsMismatch { name := "f", cache := some 0 } 1 0] ∧
    Call.CheckFuncArgs [.fn exFnInt] 1 { name := "f", cache := some 0 }
        [.BoolConstant (some (Ty.builtin .boolType)) true] [] =
      .ok [.ArgMismatch 1 (Ty.builtin .boolType) (Ty.builtin .intType)] :=
  ⟨(CheckFuncArgs_spec [.fn exFnInt] 1 { name := "f", cache := some 0 } [] [] exFnInt rfl).1
      (by decide),
    ((CheckFuncArgs_spec [.fn exFnInt] 1 { name := "f", cache := some 0 }
      [.BoolConstant (some (Ty.builtin .boolType)) true] [] exFnInt rfl).2 rfl
      (by
        intro j a f t_a _ h2 _
        cases j with
        | zero =>
          simp only [exFnInt, List.getElem?_cons_zero, Option.some.injEq] at h2
          subst h2
          exact ⟨_, rfl⟩
        | succ j => simp [exFnInt] at h2)).1⟩

/-! ## The break statement -/

theorem walk_eq (l : List NodeKind) :
    ∀ n : NodeKind, BreakStmt.Check.walk n l = !((n :: l).dropLast.any NodeKind.IsLoop) := by
  induction l with
  | nil => intro n; rfl
  | cons p rest ih =>
    intro n
    rw [BreakStmt.Check.walk, ih p]
    have hd : (n :: p :: rest).dropLast = n :: (p :: rest).dropLast := rfl
    rw [hd, List.any_cons]
    cases n.IsLoop <;> simp

theorem any_dropLast (l : List NodeKind)
    (hroot : ∀ r, l.getLast? = some r → r.IsLoop = false) :
    l.dropLast.any NodeKind.IsLoop = l.any NodeKind.IsLoop := by
  induction l with
  | nil => rfl
  | cons a rest ih =>
    cases rest with
    | nil =>
      have := hroot a rfl
      simp [this]
    | cons b rest2 =>
      have hd : (a :: b :: rest2).dropLast = a :: (b :: rest2).dropLast := rfl
      rw [hd, List.any_cons, List.any_cons (l := b :: rest2)]
      rw [ih (fun r hr => hroot r (by simpa [List.getLast?_cons_cons] using hr))]

/-- C23. In the type-check pass, for a break statement whose chain of parents
ends in a root that is no loop (in a program tree the root is the program),
`BreakOutsideLoop` is reported iff no proper ancestor of the statement is a
`ForStmt` or a `WhileStmt`; in the other passes nothing is reported. -/
theorem BreakStmt_Check_spec (ancestors : List NodeKind) (errs : List ErrorMsg)
    (hroot : ∀ r, ancestors.getLast? = some r → r.IsLoop = false) :
    BreakStmt.Check .enum_TypeCheck ancestors errs =
      (if ∃ a ∈ ancestors, a = NodeKind.ForStmt ∨ a = NodeKind.WhileStmt then errs
       else errs ++ [.BreakOutsideLoop]) ∧
    BreakStmt.Check .enum_DeclCheck ancestors errs = errs ∧
    BreakStmt.Check .enum_InheritCheck ancestors errs = errs := by
  refine ⟨?_, rfl, rfl⟩
  have hw : BreakStmt.Check.walk .BreakStmt ancestors = !(ancestors.any NodeKind.IsLoop) := by
    rw [walk_eq]
    cases ancestors with
    | nil => rfl
    | cons a rest =>
      have hd : (NodeKind.BreakStmt :: a :: rest).dropLast =
          NodeKind.BreakStmt :: (a :: rest).dropLast := rfl
      rw [hd, List.any_cons, any_dropLast (a :: rest) hroot]
      rfl
  have hiff : (∃ a ∈ ancestors, a = NodeKind.ForStmt ∨ a = NodeKind.WhileStmt) ↔
      ancestors.any NodeKind.IsLoop = true := by
    rw [List.any_eq_true]
    constructor
    · rintro ⟨a, ha, h | h⟩
      · exact ⟨a, ha, by rw [h]; rfl⟩
      · exact ⟨a, ha, by rw [h]; rfl⟩
    · rintro ⟨a, ha, h⟩
      refine ⟨a, ha, ?_⟩
      cases a <;> simp [NodeKind.IsLoop] at h ⊢
  simp only [BreakStmt.Check, hw, beq_self_eq_true, if_true]
  by_cases hany : ancestors.any NodeKind.IsLoop = true
  · rw [if_pos (hiff.mpr hany)]
    simp [hany]
  · rw [if_neg (fun h => hany (hiff.mp h))]
    simp [hany]

/-- A break in the body of a `while` inside a function is not reported; a break
in an `if` outside any loop is. -/
theorem BreakStmt_Check_spec_witness :
    BreakStmt.Check .enum_TypeCheck [.StmtBlock, .WhileStmt, .StmtBlock, .FnDecl, .Program] [] =
      [] ∧
    BreakStmt.Check .enum_TypeCheck [.IfStmt, .StmtBlock, .FnDecl, .Program] [] =
      [.BreakOutsideLoop] :=
  ⟨(BreakStmt_Check_spec [.StmtBlock, .WhileStmt, .StmtBlock, .FnDecl, .Program] []
      (by intro r hr; simp at hr; subst hr; rfl)).1.trans
      (if_pos ⟨.WhileStmt, by simp, Or.inr rfl⟩),
    (BreakStmt_Check_spec [.IfStmt, .StmtBlock, .FnDecl, .Program] []
      (by intro r hr; simp at hr; subst hr; rfl)).1.trans
      (if_neg (by decide))⟩

/-! ## Labels of functions -/

/-- C25. After prefixing, a method `m` declared in a class `C` has the name
`_C.m`, and `ClassDecl::PrefixForMember` writes that name into every method of
the class; a top-level function other than `main` has its name with `_` put
before it; the top-level function `main` keeps its name. -/
theorem PrefixForMember_spec :
    (∀ (C : ClassDecl) (m : FnDecl),
      (m.PrefixForMember (some (.cls C))).id.name = "_" ++ C.id.name ++ "." ++ m.id.name) ∧
    (∀ (C : ClassDecl) (m : FnDecl), Member.fn m ∈ C.members →
      Member.fn (m.PrefixForMember (some (.cls C))) ∈ C.PrefixForMember.members) ∧
    (∀ f : FnDecl, f.id.name ≠ "main" →
      ∃ f2, (Decl.fn f).PrefixForMember = .fn f2 ∧ f2.id.name = "_" ++ f.id.name) ∧
    (∀ f : FnDecl, f.id.name = "main" → (Decl.fn f).PrefixForMember = .fn f) := by
  refine ⟨?_, ?_, ?_, ?_⟩
  · intro C m
    simp only [FnDecl.PrefixForMember, parentIsClass, Decl.IsClassDecl, if_true,
      Identifier.SetPrefix, Decl.GetId, String.append_assoc]
  · intro C m hm
    simp only [ClassDecl.PrefixForMember, List.mem_map]
    exact ⟨.fn m, hm, rfl⟩
  · intro f hf
    refine ⟨_, rfl, ?_⟩
    simp [FnDecl.PrefixForMember, parentIsClass, Identifier.SetPrefix, hf]
  · intro f hf
    simp [Decl.PrefixForMember, FnDecl.PrefixForMember, parentIsClass, hf]

/-- The method `f` of class `B` is named `_B.f`, the top-level `f` is named
`_f`, and `main` stays `main`. -/
theorem PrefixForMember_spec_witness :
    (exFnBool.PrefixForMember (some (.cls exDerivedB))).id.name = "_B.f" ∧
    exDerivedB.PrefixForMember.members =
      [.fn { exFnBool with id := { name := "_B.f" } }] ∧
    (∃ f2, (Decl.fn exFnInt).PrefixForMember = .fn f2 ∧ f2.id.name = "_f") ∧
    (Decl.fn { exFnM with id := { name := "main" } }).PrefixForMember =
      .fn { exFnM with id := { name := "main" } } :=
  ⟨PrefixForMember_spec.1 exDerivedB exFnBool, rfl,
    PrefixForMember_spec.2.2.1 exFnInt (by decide),
    PrefixForMember_spec.2.2.2 { exFnM with id := { name := "main" } } rfl⟩

/-! ## Emission of declarations -/

theorem EmitFormals_getElem? :
    ∀ (l : List VarDecl) (cg : CodeGenerator),
      (FnDecl.EmitFormals l cg).1.length = l.length ∧
      ∀ (i : Nat) (v : VarDecl), l[i]? = some v →
        (FnDecl.EmitFormals l cg).1[i]? =
          some { v with
                 emit_loc := some (.plain .fpRelative (cg.paramLocation + 4 * (i : Int))
                   v.id.name) } := by
  intro l
  induction l with
  | nil => intro cg; exact ⟨rfl, fun i v h => by simp at h⟩
  | cons a rest ih =>
    intro cg
    obtain ⟨h1, h2⟩ := ih (cg.GetNextParam).2
    refine ⟨by simp only [FnDecl.EmitFormals, List.length_cons, h1], ?_⟩
    intro i v hv
    cases i with
    | zero =>
      simp only [List.getElem?_cons_zero, Option.some.injEq] at hv
      subst hv
      simp [FnDecl.EmitFormals, CodeGenerator.GetNextParam]
    | succ i =>
      simp only [List.getElem?_cons_succ] at hv
      have := h2 i v hv
      simp only [FnDecl.EmitFormals, List.getElem?_cons_succ, this]
      simp only [CodeGenerator.GetNextParam, VarSize, Nat.cast_add, Nat.cast_one]
      congr 4
      ring

/-- C30. Whatever the generator held before and whatever the body emits,
`FnDecl::Emit` leaves the number of formals as it is and gives the formal at
index `i` the frame-pointer-relative location of offset `4 + 4 * i` when
the parent of the function is no class and `8 + 4 * i` when it is a class;
and the call returns whenever the emission of the body does. -/
theorem FnDecl_Emit_formals (parent : Option Decl) (body : Option BodyEmit) (this : FnDecl)
    (cg : CodeGenerator) :
    (∀ (f2 : FnDecl) (cg2 : CodeGenerator), this.Emit parent body cg = .ok (f2, cg2) →
      f2.formals.length = this.formals.length ∧
      ∀ (i : Nat) (v : VarDecl), this.formals[i]? = some v →
        f2.formals[i]? =
          some { v with
                 emit_loc := some (.plain .fpRelative
                   ((if parentIsClass parent then 8 else 4) + 4 * (i : Int)) v.id.name) }) ∧
    ((∀ b, body = some b → ∀ c, ∃ c2, b c = .ok c2) →
      ∃ r, this.Emit parent body cg = .ok r) := by
  refine ⟨?_, ?_⟩
  · intro f2 cg2 h
    simp only [FnDecl.Emit] at h
    split at h
    · cases h
    · simp only [Except.ok.injEq, Prod.mk.injEq] at h
      obtain ⟨hf, _⟩ := h
      subst hf
      cases hp : parentIsClass parent with
      | true =>
        have := EmitFormals_getElem? this.formals
          ((cg.GenLabel this.id.name).GenBeginFunc.2.GetNextParam).2
        simp only [if_true]
        exact ⟨this.1, fun i v hv => by
          rw [this.2 i v hv]
          rfl⟩
      | false =>
        have := EmitFormals_getElem? this.formals (cg.GenLabel this.id.name).GenBeginFunc.2
        simp only [Bool.false_eq_true, if_false]
        exact ⟨this.1, fun i v hv => by
          rw [this.2 i v hv]
          rfl⟩
  · intro hb
    simp only [FnDecl.Emit]
    cases body with
    | none => exact ⟨_, rfl⟩
    | some b =>
      obtain ⟨c2, hc2⟩ := hb b rfl
        (FnDecl.EmitFormals this.formals
          (if parentIsClass parent = true then
            ((cg.GenLabel this.id.name).GenBeginFunc.2.GetNextParam).2
           else (cg.GenLabel this.id.name).GenBeginFunc.2)).2
      simp only [hc2]
      exact ⟨_, rfl⟩

/-- The method `bool f(int x)` of class `B`, emitted after other code, has
`x` at offset 8; the top-level `int f(int x)` has `x` at offset 4. -/
theorem FnDecl_Emit_formals_witness :
    (exFnBool.Emit (some (.cls exDerivedB)) none
        ((CodeGenerator.new.GenLoadConstant 7).2.GetNextParam).2).map
      (fun r => r.1.formals.map (fun v => v.emit_loc)) =
      .ok [some (.plain .fpRelative 8 "x")] ∧
    (exFnInt.Emit none none CodeGenerator.new).map
      (fun r => r.1.formals.map (fun v => v.emit_loc)) =
      .ok [some (.plain .fpRelative 4 "x")] ∧
    (∃ r, exFnInt.Emit none (some (fun c => .ok (c.GenLoadConstant 1).2)) CodeGenerator.new =
      .ok r) :=
  ⟨rfl, rfl,
    (FnDecl_Emit_formals none (some (fun c => .ok (c.GenLoadConstant 1).2)) exFnInt
      CodeGenerator.new).2 (fun b hb c => by
        simp only [Option.some.injEq] at hb
        subst hb
        exact ⟨_, rfl⟩)⟩

/-! ## The program -/

theorem main_exists_iff (decls : List Decl) :
    Program.main_exists decls = true ↔
      ∃ f : FnDecl, Decl.fn f ∈ decls ∧ f.id.name = "main" := by
  induction decls with
  | nil => simp [Program.main_exists]
  | cons d rest ih =>
    rw [Program.main_exists]
    cases d with
    | fn g =>
      simp only [Decl.FnIsDecl, if_true, Decl.GetId]
      by_cases hg : g.id.name = "main"
      · simp only [hg, beq_self_eq_true, if_true, true_iff]
        exact ⟨g, List.mem_cons_self _ _, hg⟩
      · have hb : (g.id.name == "main") = false := beq_eq_false_iff_ne.mpr hg
        simp only [hb, Bool.false_eq_true, if_false, ih, List.mem_cons, Decl.fn.injEq]
        constructor
        · rintro ⟨f, hf, hn⟩; exact ⟨f, Or.inr hf, hn⟩
        · rintro ⟨f, hf | hf, hn⟩
          · subst hf; exact absurd hn hg
          · exact ⟨f, hf, hn⟩
    | var v => simp [Decl.FnIsDecl, ih]
    | cls c => simp [Decl.FnIsDecl, ih]
    | iface i => simp [Decl.FnIsDecl, ih]

/-! ## Emission only appends code -/

theorem growsTo_refl (cg : CodeGenerator) : cg.growsTo cg := ⟨[], by simp⟩

theorem growsTo_trans {a b c : CodeGenerator} (h1 : a.growsTo b) (h2 : b.growsTo c) :
    a.growsTo c := by
  obtain ⟨e1, h1⟩ := h1
  obtain ⟨e2, h2⟩ := h2
  exact ⟨e1 ++ e2, by rw [h2, h1, List.append_assoc]⟩

theorem growsTo_of_code {a b : CodeGenerator} (ext : List Instr) (h : b.code = a.code ++ ext) :
    a.growsTo b := ⟨ext, h⟩

theorem growsTo_push (cg : CodeGenerator) (i : Instr) : cg.growsTo (cg.push i) := ⟨[i], rfl⟩

theorem growsTo_GenLoadConstant (cg : CodeGenerator) (v : Int) :
    cg.growsTo (cg.GenLoadConstant v).2 := ⟨_, rfl⟩

theorem growsTo_GenLoadStringConstant (cg : CodeGenerator) (s : String) :
    cg.growsTo (cg.GenLoadStringConstant s).2 := ⟨_, rfl⟩

theorem growsTo_GenLoadLabel (cg : CodeGenerator) (s : String) :
    cg.growsTo (cg.GenLoadLabel s).2 := ⟨_, rfl⟩

theorem growsTo_GenLoad (cg : CodeGenerator) (r : Option Location) (o : Int) :
    cg.growsTo (cg.GenLoad r o).2 := ⟨_, rfl⟩

theorem growsTo_GenBinaryOp (cg : CodeGenerator) (op : String) (a b : Option Location) :
    cg.growsTo (cg.GenBinaryOp op a b).2 := ⟨_, rfl⟩

theorem growsTo_NewLabel (cg : CodeGenerator) : cg.growsTo cg.NewLabel.2 := ⟨[], by
  simp [CodeGenerator.NewLabel]⟩

theorem growsTo_GenLCall (cg : CodeGenerator) (l : String) (b : Bool) :
    cg.growsTo (cg.GenLCall l b).2 := by
  cases b <;> exact ⟨_, rfl⟩

theorem growsTo_GenACall (cg : CodeGenerator) (l : Option Location) (b : Bool) :
    cg.growsTo (cg.GenACall l b).2 := by
  cases b <;> exact ⟨_, rfl⟩

theorem growsTo_GenPopParams (cg cg2 : CodeGenerator) (n : Int)
    (h : cg.GenPopParams n = .ok cg2) : cg.growsTo cg2 := by
  unfold CodeGenerator.GenPopParams at h
  split at h
  · cases h
  · split at h
    · simp only [Except.ok.injEq] at h; subst h; exact growsTo_push _ _
    · simp only [Except.ok.injEq] at h; subst h; exact growsTo_refl _

theorem growsTo_GenBuiltInCall (cg cg2 : CodeGenerator) (bn : BuiltIn)
    (a1 a2 r : Option Location) (h : cg.GenBuiltInCall bn a1 a2 = .ok (r, cg2)) :
    cg.growsTo cg2 := by
  unfold CodeGenerator.GenBuiltInCall at h
  simp only at h
  split at h
  · cases h
  · split at h
    · cases h
    · rename_i cg4 hpop
      simp only [Except.ok.injEq, Prod.mk.injEq] at h
      obtain ⟨_, h⟩ := h
      subst h
      refine growsTo_trans ?_ (growsTo_GenPopParams _ _ _ hpop)
      refine growsTo_trans ?_ (growsTo_push _ _)
      have h0 : cg.growsTo (if bn.hasReturn = true then
          match cg.GenTempVar with
          | (result, cg1) => (some result, cg1)
        else (none, cg)).2 := by
        cases bn.hasReturn
        · exact growsTo_refl _
        · exact ⟨[], by simp [CodeGenerator.GenTempVar]⟩
      refine growsTo_trans h0 ?_
      cases a2.isSome <;> cases a1.isSome <;>
        simp only [if_true, Bool.false_eq_true, if_false] <;>
        first
          | exact growsTo_refl _
          | exact growsTo_push _ _
          | exact growsTo_trans (growsTo_push _ _) (growsTo_push _ _)

theorem ReturnEmitLocD_code (e : Expr) (l r : Option Location) (cg cg2 : CodeGenerator)
    (h : e.ReturnEmitLocD l cg = .ok (r, cg2)) :
    ∃ ext, cg2.code = cg.code ++ ext ∧ isLoads ext := by
  unfold Expr.ReturnEmitLocD at h
  split at h
  · simp only [Except.ok.injEq, Prod.mk.injEq] at h
    obtain ⟨_, h⟩ := h
    subst h
    exact ⟨_, rfl, Or.inr ⟨_, _, _, rfl⟩⟩
  · split at h
    · cases h
    · split at h
      · simp only [Except.ok.injEq, Prod.mk.injEq] at h
        obtain ⟨_, h⟩ := h
        subst h
        exact ⟨_, rfl, Or.inr ⟨_, _, _, rfl⟩⟩
      · simp only [Except.ok.injEq, Prod.mk.injEq] at h
        obtain ⟨_, h⟩ := h
        subst h
        exact ⟨[], by simp, Or.inl rfl⟩
  · simp only [Except.ok.injEq, Prod.mk.injEq] at h
    obtain ⟨_, h⟩ := h
    subst h
    exact ⟨[], by simp, Or.inl rfl⟩

theorem growsTo_ReturnEmitLocD (e : Expr) (l r : Option Location) (cg cg2 : CodeGenerator)
    (h : e.ReturnEmitLocD l cg = .ok (r, cg2)) : cg.growsTo cg2 := by
  obtain ⟨ext, h1, _⟩ := ReturnEmitLocD_code e l r cg cg2 h
  exact ⟨ext, h1⟩

theorem ReturnEmitLocD_some (e : Expr) (l : Location) (cg : CodeGenerator) :
    ∃ r cg2, e.ReturnEmitLocD (some l) cg = .ok (some r, cg2) := by
  unfold Expr.ReturnEmitLocD
  split
  · exact ⟨_, _, rfl⟩
  · cases hb : l.GetBase with
    | none => simp only [hb]; exact ⟨_, _, rfl⟩
    | some b => simp only [hb]; exact ⟨_, _, rfl⟩
  · exact ⟨_, _, rfl⟩

theorem growsTo_ArithmeticTail (op : String) (left : Expr) (ll : Option Location) (right : Expr)
    (rl r : Option Location) (cg cg2 : CodeGenerator)
    (h : ArithmeticExpr.EmitTail op left ll right rl cg = .ok (r, cg2)) : cg.growsTo cg2 := by
  unfold ArithmeticExpr.EmitTail at h
  cases h1 : left.ReturnEmitLocD ll cg with
  | error e => simp [h1] at h
  | ok p1 =>
    obtain ⟨l, cg1⟩ := p1
    simp only [h1] at h
    cases h2 : right.ReturnEmitLocD rl cg1 with
    | error e => simp [h2] at h
    | ok p2 =>
      obtain ⟨r2, cg3⟩ := p2
      simp only [h2, Except.ok.injEq, Prod.mk.injEq] at h
      obtain ⟨_, h⟩ := h
      subst h
      exact growsTo_trans (growsTo_ReturnEmitLocD _ _ _ _ _ h1)
        (growsTo_trans (growsTo_ReturnEmitLocD _ _ _ _ _ h2) (growsTo_GenBinaryOp _ _ _ _))

theorem growsTo_binaryTail (op : String) (left : Expr) (ll : Option Location) (right : Expr)
    (rl r : Option Location) (cg cg2 : CodeGenerator)
    (h : Expr.binaryTail op left ll right rl cg = .ok (r, cg2)) : cg.growsTo cg2 := by
  unfold Expr.binaryTail at h
  cases h1 : right.ReturnEmitLocD rl cg with
  | error e => simp [h1] at h
  | ok p1 =>
    obtain ⟨l, cg1⟩ := p1
    simp only [h1] at h
    cases h2 : left.ReturnEmitLocD ll cg1 with
    | error e => simp [h2] at h
    | ok p2 =>
      obtain ⟨r2, cg3⟩ := p2
      simp only [h2, Except.ok.injEq, Prod.mk.injEq] at h
      obtain ⟨_, h⟩ := h
      subst h
      exact growsTo_trans (growsTo_ReturnEmitLocD _ _ _ _ _ h1)
        (growsTo_trans (growsTo_ReturnEmitLocD _ _ _ _ _ h2) (growsTo_GenBinaryOp _ _ _ _))

theorem growsTo_EqualityTail (op : String) (left : Expr) (ll : Option Location) (right : Expr)
    (rl r : Option Location) (cg cg2 : CodeGenerator)
    (h : EqualityExpr.EmitTail op left ll right rl cg = .ok (r, cg2)) : cg.growsTo cg2 := by
  unfold EqualityExpr.EmitTail at h
  split at h
  · cases h1 : right.ReturnEmitLocD rl cg with
    | error e => simp [h1] at h
    | ok p1 =>
      obtain ⟨l, cg1⟩ := p1
      simp only [h1] at h
      cases h2 : left.ReturnEmitLocD ll cg1 with
      | error e => simp [h2] at h
      | ok p2 =>
        obtain ⟨r2, cg3⟩ := p2
        simp only [h2] at h
        cases h3 : cg3.GenBuiltInCall .StringEqual r2 l with
        | error e => simp [h3] at h
        | ok p3 =>
          obtain ⟨res, cg4⟩ := p3
          simp only [h3] at h
          have h03 : cg.growsTo cg4 :=
            growsTo_trans (growsTo_ReturnEmitLocD _ _ _ _ _ h1)
              (growsTo_trans (growsTo_ReturnEmitLocD _ _ _ _ _ h2)
                (growsTo_GenBuiltInCall _ _ _ _ _ _ h3))
          split at h
          · simp only [Except.ok.injEq, Prod.mk.injEq] at h
            obtain ⟨_, h⟩ := h
            subst h
            exact growsTo_trans h03
              (growsTo_trans (growsTo_GenLoadConstant _ _) (growsTo_GenBinaryOp _ _ _ _))
          · simp only [Except.ok.injEq, Prod.mk.injEq] at h
            obtain ⟨_, h⟩ := h
            subst h
            exact h03
  · exact growsTo_binaryTail _ _ _ _ _ _ _ _ h

theorem growsTo_AssignTail (left : Expr) (ll : Option Location) (right : Expr)
    (rl r : Option Location) (cg cg2 : CodeGenerator)
    (h : AssignExpr.EmitTail left ll right rl cg = .ok (r, cg2)) : cg.growsTo cg2 := by
  unfold AssignExpr.EmitTail at h
  cases h1 : right.ReturnEmitLocD rl cg with
  | error e => simp [h1] at h
  | ok p1 =>
    obtain ⟨rightLoc, cg1⟩ := p1
    simp only [h1] at h
    have h01 := growsTo_ReturnEmitLocD _ _ _ _ _ h1
    cases rightLoc with
    | none =>
      simp only [Except.ok.injEq, Prod.mk.injEq] at h
      obtain ⟨_, h⟩ := h
      subst h
      exact h01
    | some rightLoc =>
      cases ll with
      | none =>
        simp only [Except.ok.injEq, Prod.mk.injEq] at h
        obtain ⟨_, h⟩ := h
        subst h
        exact h01
      | some leftLoc =>
        simp only at h
        refine growsTo_trans h01 (growsTo_trans ?_ (growsTo_ReturnEmitLocD _ _ _ _ _ h))
        cases leftLoc.GetBase with
        | some b => exact growsTo_push _ _
        | none =>
          cases left.AccessibleArray
          · exact growsTo_push _ _
          · exact growsTo_push _ _

theorem growsTo_EmitBounds (t : Option Ty) (t0 t3 : Option Location) (t1 t2 : Location)
    (r : Option Location) (cg cg2 : CodeGenerator)
    (h : ArrayAccess.EmitBounds t t0 t1 t2 t3 cg = .ok (r, cg2)) : cg.growsTo cg2 := by
  cases t with
  | none =>
    simp [ArrayAccess.EmitBounds, CodeGenerator.GenBuiltInCall, CodeGenerator.GenPopParams,
      BuiltIn.hasReturn, BuiltIn.numArgs, VarSize] at h
  | some ty =>
    simp only [ArrayAccess.EmitBounds, CodeGenerator.GenLoad, CodeGenerator.GenBinaryOp,
      CodeGenerator.GenTempVar, CodeGenerator.push, CodeGenerator.NewLabel, CodeGenerator.GenIfZ,
      CodeGenerator.GenLoadStringConstant, CodeGenerator.GenBuiltInCall,
      CodeGenerator.GenPopParams, CodeGenerator.GenLabel, CodeGenerator.GenLoadConstant,
      BuiltIn.hasReturn, BuiltIn.numArgs, BuiltIn.label, VarSize] at h
    simp at h
    obtain ⟨_, h⟩ := h
    subst h
    exact ⟨_, by simp only [List.append_assoc]; rfl⟩

theorem growsTo_ArrayTail (t : Option Ty) (base : Expr) (bl : Option Location) (sub : Expr)
    (sl r : Option Location) (cg cg2 : CodeGenerator)
    (h : ArrayAccess.EmitTail t base bl sub sl cg = .ok (r, cg2)) : cg.growsTo cg2 := by
  unfold ArrayAccess.EmitTail at h
  cases h1 : sub.ReturnEmitLocD sl cg with
  | error e => simp [h1] at h
  | ok p1 =>
    obtain ⟨t0, cg1⟩ := p1
    simp only [h1] at h
    cases h2 : base.ReturnEmitLocD bl
        ((cg1.GenLoadConstant 0).2.GenBinaryOp "<" t0 (some (cg1.GenLoadConstant 0).1)).2 with
    | error e => simp [h2] at h
    | ok p2 =>
      obtain ⟨t3, cg4⟩ := p2
      simp only [h2] at h
      exact growsTo_trans (growsTo_ReturnEmitLocD _ _ _ _ _ h1)
        (growsTo_trans (growsTo_GenLoadConstant _ _)
          (growsTo_trans (growsTo_GenBinaryOp _ _ _ _)
            (growsTo_trans (growsTo_ReturnEmitLocD _ _ _ _ _ h2)
              (growsTo_EmitBounds _ _ _ _ _ _ _ _ h))))

theorem growsTo_NewArrayTail (size : Expr) (sl r : Option Location) (elemType : Ty)
    (cg cg2 : CodeGenerator)
    (h : NewArrayExpr.EmitTail size sl elemType cg = .ok (r, cg2)) : cg.growsTo cg2 := by
  unfold NewArrayExpr.EmitTail at h
  cases h1 : size.ReturnEmitLocD sl cg with
  | error e => simp [h1] at h
  | ok p1 =>
    obtain ⟨t0, cg1⟩ := p1
    simp only [h1] at h
    refine growsTo_trans (growsTo_ReturnEmitLocD _ _ _ _ _ h1) ?_
    simp only [CodeGenerator.GenLoad, CodeGenerator.GenBinaryOp,
      CodeGenerator.GenTempVar, CodeGenerator.push, CodeGenerator.NewLabel, CodeGenerator.GenIfZ,
      CodeGenerator.GenLoadStringConstant, CodeGenerator.GenBuiltInCall,
      CodeGenerator.GenPopParams, CodeGenerator.GenLabel, CodeGenerator.GenLoadConstant,
      CodeGenerator.GenStore, BuiltIn.hasReturn, BuiltIn.numArgs, BuiltIn.label, VarSize] at h
    simp at h
    obtain ⟨_, h⟩ := h
    subst h
    exact ⟨_, by simp only [List.append_assoc]; rfl⟩

theorem growsTo_NewExpr (heap : Heap) (cType : NamedType) (r : Option Location)
    (cg cg2 : CodeGenerator) (h : NewExpr.Emit heap cType cg = .ok (r, cg2)) :
    cg.growsTo cg2 := by
  unfold NewExpr.Emit at h
  split at h
  · cases h
  · simp only [CodeGenerator.GenLoadConstant, CodeGenerator.GenTempVar, CodeGenerator.push,
      CodeGenerator.GenBuiltInCall, CodeGenerator.GenPopParams, CodeGenerator.GenLoadLabel,
      CodeGenerator.GenStore, BuiltIn.hasReturn, BuiltIn.numArgs, BuiltIn.label, VarSize] at h
    simp at h
    obtain ⟨_, h⟩ := h
    subst h
    exact ⟨_, by simp only [List.append_assoc]; rfl⟩

theorem poppedBytes_append (a b : List Instr) :
    poppedBytes (a ++ b) = poppedBytes a + poppedBytes b := by
  induction a with
  | nil => simp [poppedBytes]
  | cons i rest ih =>
    cases i <;> simp [poppedBytes, ih, add_assoc]

theorem GenPopParams_nat (cg : CodeGenerator) (n : Nat) :
    cg.GenPopParams ((n : Int) * 4) =
      .ok (if n = 0 then cg else cg.push (.PopParams ((n : Int) * 4))) := by
  unfold CodeGenerator.GenPopParams
  have h1 : (0 : Int) ≤ (n : Int) * 4 := by positivity
  have h2 : ((n : Int) * 4) % VarSize = 0 := by simp [VarSize]
  simp only [h1, h2, ge_iff_le, decide_True, beq_self_eq_true, Bool.and_self, Bool.not_true,
    Bool.false_eq_true, if_false]
  by_cases hn : n = 0
  · subst hn; simp
  · have : (0 : Int) < (n : Int) * 4 := by
      have : 0 < n := Nat.pos_of_ne_zero hn
      positivity
    simp [this, hn]

theorem isLoads_facts (ext : List Instr) (h : isLoads ext) :
    ext.filter Instr.isCallPart = [] ∧ poppedBytes ext = 0 ∧
      ext.countP Instr.isPushParam = 0 := by
  rcases h with h0 | ⟨d, rf, off, h0⟩ <;> subst h0 <;>
    simp [Instr.isCallPart, poppedBytes, Instr.isPushParam]

theorem GenACall_code (cg : CodeGenerator) (fnAddr : Option Location) (b : Bool) :
    (cg.GenACall fnAddr b).2.code = cg.code ++ [.ACall fnAddr (cg.GenACall fnAddr b).1] := by
  cases b <;> rfl

theorem GenLCall_code (cg : CodeGenerator) (label : String) (b : Bool) :
    (cg.GenLCall label b).2.code = cg.code ++ [.LCall label (cg.GenLCall label b).1] := by
  cases b <;> rfl

theorem pushParams_run :
    ∀ (l : List (Expr × Option Location)) (cg cg2 : CodeGenerator),
      Call.pushParams l cg = .ok cg2 →
      ∃ code, pushRun l cg code cg2 ∧ cg2.code = cg.code ++ code ∧ poppedBytes code = 0 ∧
        code.countP Instr.isPushParam = l.length := by
  intro l
  induction l with
  | nil =>
    intro cg cg2 h
    simp only [Call.pushParams, Except.ok.injEq] at h
    subst h
    exact ⟨[], ⟨rfl, rfl⟩, by simp, rfl, rfl⟩
  | cons a rest ih =>
    intro cg cg2 h
    obtain ⟨e, al⟩ := a
    rw [Call.pushParams] at h
    cases h1 : e.ReturnEmitLocD al cg with
    | error err => simp [h1] at h
    | ok p1 =>
      obtain ⟨d, cg1⟩ := p1
      simp only [h1] at h
      obtain ⟨loads, hc1, hl1⟩ := ReturnEmitLocD_code e al d cg cg1 h1
      obtain ⟨code1, hrun, hc2, hpop2, hcnt2⟩ := ih _ _ h
      obtain ⟨_, hp0, hn0⟩ := isLoads_facts loads hl1
      refine ⟨loads ++ .PushParam d :: code1, ⟨d, cg1, loads, code1, h1, hc1, hl1, rfl, hrun⟩,
        ?_, ?_, ?_⟩
      · rw [hc2]
        simp only [CodeGenerator.GenPushParam, CodeGenerator.push, hc1, List.append_assoc,
          List.singleton_append]
      · rw [poppedBytes_append, hp0]
        simp [poppedBytes, hpop2]
      · rw [List.countP_append, hn0]
        simp [List.countP_cons, Instr.isPushParam, hcnt2]

theorem GenLoad_facts (cg : CodeGenerator) (ref : Option Location) (offset : Int) :
    (cg.GenLoad ref offset).1 = tempAt cg 0 ∧
    (cg.GenLoad ref offset).2.code = cg.code ++ [.Load (tempAt cg 0) ref offset] ∧
    tempAt (cg.GenLoad ref offset).2 0 = tempAt cg 1 := by
  simp [CodeGenerator.GenLoad, CodeGenerator.GenTempVar, CodeGenerator.push, tempAt, VarSize]

theorem virtualTail_exact (actuals : List (Expr × Option Location))
    (current_loc loc : Option Location) (vt : Int) (hasRet : Bool) (cg1 cg2 : CodeGenerator)
    (h : (match Call.pushParams actuals.reverse
            ((cg1.GenLoad current_loc 0).2.GenLoad (some (cg1.GenLoad current_loc 0).1) vt).2 with
          | .error e => .error e
          | .ok cg4 =>
            match (cg4.GenPushParam current_loc).GenACall
                (some ((cg1.GenLoad current_loc 0).2.GenLoad
                  (some (cg1.GenLoad current_loc 0).1) vt).1) hasRet with
            | (emit_loc, cg5) =>
              match cg5.GenPopParams ((actuals.length : Int) * 4 + 4) with
              | .error e => .error e
              | .ok cg6 => .ok (emit_loc, cg6)) = Except.ok (loc, cg2)) :
    ∃ (own pushes : List Instr) (cgQ : CodeGenerator),
      pushRun actuals.reverse
        ((cg1.GenLoad current_loc 0).2.GenLoad (some (tempAt cg1 0)) vt).2 pushes cgQ ∧
      loc = (if hasRet then some (tempAt cgQ 0) else none) ∧
      own = [.Load (tempAt cg1 0) current_loc 0,
          .Load (tempAt cg1 1) (some (tempAt cg1 0)) vt] ++ pushes ++
          [.PushParam current_loc, .ACall (some (tempAt cg1 1)) loc,
            .PopParams (4 * ((actuals.length : Int) + 1))] ∧
      cg2.code = cg1.code ++ own ∧
      poppedBytes own = 4 * (own.countP Instr.isPushParam : Int) := by
  obtain ⟨ha, hb, hc⟩ := GenLoad_facts cg1 current_loc 0
  obtain ⟨ha2, hb2, _⟩ := GenLoad_facts (cg1.GenLoad current_loc 0).2 (some (tempAt cg1 0)) vt
  rw [hc] at ha2
  rw [ha] at h
  cases hpp : Call.pushParams actuals.reverse
      ((cg1.GenLoad current_loc 0).2.GenLoad (some (tempAt cg1 0)) vt).2 with
  | error e => simp [hpp] at h
  | ok cg4 =>
    simp only [hpp] at h
    obtain ⟨pushes, hrun, hcode, hpop, hcnt⟩ := pushParams_run _ _ _ hpp
    have hcast : (actuals.length : Int) * 4 + 4 = ((actuals.length + 1 : Nat) : Int) * 4 := by
      push_cast; ring
    rw [hcast, GenPopParams_nat, ha2] at h
    simp only [Nat.add_one_ne_zero, if_false, Except.ok.injEq, Prod.mk.injEq] at h
    obtain ⟨hloc, h⟩ := h
    subst h
    have hloc2 : loc = (if hasRet then some (tempAt cg4 0) else none) := by
      rw [← hloc]
      cases hasRet <;>
        simp [CodeGenerator.GenACall, CodeGenerator.GenTempVar, CodeGenerator.GenPushParam,
          CodeGenerator.push, tempAt, VarSize]
    refine ⟨_, pushes, cg4, hrun, hloc2, rfl, ?_, ?_⟩
    · rw [show ∀ (Y : CodeGenerator) (i : Instr), (Y.push i).code = Y.code ++ [i] from
          fun _ _ => rfl, GenACall_code, hloc,
        show (cg4.GenPushParam current_loc).code = cg4.code ++ [.PushParam current_loc] from rfl,
        hcode, hb2, hb]
      simp only [List.append_assoc, List.cons_append, List.nil_append, List.singleton_append]
      congr 6
      push_cast
      ring_nf
    · simp only [poppedBytes_append, List.countP_append, hpop, hcnt, List.length_reverse]
      simp [poppedBytes, List.countP_cons, Instr.isPushParam]

theorem CallTail_exact (heap : Heap) (parents : Parents) (t : Option Ty)
    (base : Option (Expr × Option Location)) (field : Identifier)
    (actuals : List (Expr × Option Location)) (cg cg2 : CodeGenerator)
    (loc : Option Location) (p : Ptr) (func : FnDecl)
    (hlen : Call.isLength (base.map Prod.fst) field = .ok false)
    (hp : field.cache = some p) (hfunc : heap[p]? = some (.fn func))
    (h : Call.EmitTail heap parents t base field actuals cg = .ok (loc, cg2)) :
    ∃ (own pushes : List Instr) (cgP cgQ : CodeGenerator),
      cg2.code = cg.code ++ own ∧
      pushRun actuals.reverse cgP pushes cgQ ∧
      ((base.isSome = true ∨ MemberOfClass heap parents p = true) →
        ∃ (recv : Option Location) (cgR : CodeGenerator) (recvLoads : List Instr),
          (base = none → recv = some ptrThis ∧ cgR = cg) ∧
          (∀ b bl, base = some (b, bl) → b.ReturnEmitLocD bl cg = .ok (recv, cgR)) ∧
          cgR.code = cg.code ++ recvLoads ∧ isLoads recvLoads ∧
          cgP = ((cgR.GenLoad recv 0).2.GenLoad (some (tempAt cgR 0)) func.vtable_ofst).2 ∧
          loc = (if func.returnType.isBuiltin .voidType then none else some (tempAt cgQ 0)) ∧
          own = recvLoads ++
            [.Load (tempAt cgR 0) recv 0,
              .Load (tempAt cgR 1) (some (tempAt cgR 0)) func.vtable_ofst] ++ pushes ++
            [.PushParam recv, .ACall (some (tempAt cgR 1)) loc,
              .PopParams (4 * ((actuals.length : Int) + 1))]) ∧
      ((base.isSome = false ∧ MemberOfClass heap parents p = false) →
        cgP = cg ∧
        loc = (if isType .voidType t then none else some (tempAt cgQ 0)) ∧
        own = pushes ++ [.LCall ("_" ++ field.name) loc] ++
          (if actuals.length = 0 then [] else [.PopParams (4 * (actuals.length : Int))])) ∧
      poppedBytes own = 4 * (own.countP Instr.isPushParam : Int) := by
  unfold Call.EmitTail at h
  simp only [hlen, hp, hfunc] at h
  cases base with
  | some bb =>
    obtain ⟨b, bl⟩ := bb
    simp only [Option.isSome_some, Bool.true_or, if_true] at h
    cases h1 : b.ReturnEmitLocD bl cg with
    | error e => simp [h1] at h
    | ok p1 =>
      obtain ⟨current_loc, cg1⟩ := p1
      simp only [h1] at h
      obtain ⟨ext0, hc0, hld⟩ := ReturnEmitLocD_code b bl current_loc cg cg1 h1
      have hl0 := isLoads_facts ext0 hld
      obtain ⟨own, pushes, cgQ, hrun, hloc, hown, hc, hpop⟩ :=
        virtualTail_exact actuals current_loc loc func.vtable_ofst _ cg1 cg2 h
      refine ⟨ext0 ++ own, pushes, _, cgQ,
        by rw [hc, hc0, List.append_assoc], hrun, ?_, ?_, ?_⟩
      · intro _
        refine ⟨current_loc, cg1, ext0, (fun hb => by cases hb), ?_, hc0, hld, rfl, ?_, ?_⟩
        · intro b2 bl2 hb
          simp only [Option.some.injEq, Prod.mk.injEq] at hb
          obtain ⟨hb1, hb2⟩ := hb
          subst hb1 hb2
          exact h1
        · rw [hloc]
          cases func.returnType.isBuiltin .voidType <;> rfl
        · rw [hown]
          simp only [List.append_assoc]
      · intro hno
        simp at hno
      · rw [poppedBytes_append, List.countP_append, hl0.2.1, hl0.2.2, hpop]
        simp
  | none =>
    simp only [Option.isSome_none, Bool.false_or] at h
    cases hm : MemberOfClass heap parents p with
    | true =>
      simp only [hm, if_true] at h
      obtain ⟨own, pushes, cgQ, hrun, hloc, hown, hc, hpop⟩ :=
        virtualTail_exact actuals (some ptrThis) loc func.vtable_ofst _ cg cg2 h
      refine ⟨own, pushes, _, cgQ, hc, hrun, ?_, ?_, hpop⟩
      · intro _
        refine ⟨some ptrThis, cg, [], (fun _ => ⟨rfl, rfl⟩), (fun b bl hb => by cases hb),
          by simp, Or.inl rfl, rfl, ?_, by rw [hown]; simp⟩
        rw [hloc]
        cases func.returnType.isBuiltin .voidType <;> rfl
      · intro hno
        simp at hno
    | false =>
      simp only [hm, Bool.false_eq_true, if_false] at h
      cases hpp : Call.pushParams actuals.reverse cg with
      | error e => simp [hpp] at h
      | ok cg4 =>
        simp only [hpp] at h
        obtain ⟨pushes, hrun, hc, hpop, hcnt⟩ := pushParams_run _ _ _ hpp
        rw [GenPopParams_nat] at h
        simp only [Except.ok.injEq, Prod.mk.injEq] at h
        obtain ⟨hloc, h⟩ := h
        subst h
        have hloc2 : (cg4.GenLCall ("_" ++ field.name) (!isType .voidType t)).1 = loc := hloc
        have hloc3 : loc = (if isType .voidType t then none else some (tempAt cg4 0)) := by
          rw [← hloc2]
          cases isType .voidType t <;>
            simp [CodeGenerator.GenLCall, CodeGenerator.GenTempVar, CodeGenerator.push, tempAt,
              VarSize]
        refine ⟨pushes ++ [.LCall ("_" ++ field.name) loc] ++
            (if actuals.length = 0 then [] else [.PopParams (4 * (actuals.length : Int))]),
          pushes, cg, cg4, ?_, hrun, ?_, ?_, ?_⟩
        · by_cases hn : actuals.length = 0
          · simp only [hn, if_true, List.append_nil, GenLCall_code, hc, hloc2,
              Identifier.SetPrefix, List.append_assoc]
          · simp only [hn, if_false, CodeGenerator.push, GenLCall_code, hc, hloc2,
              Identifier.SetPrefix, List.append_assoc, mul_comm]
        · intro hor
          simp at hor
        · intro _
          exact ⟨rfl, hloc3, rfl⟩
        · by_cases hn : actuals.length = 0
          · simp [hn, poppedBytes_append, List.countP_append, hpop, hcnt, poppedBytes,
              Instr.isPushParam]
          · simp only [hn, if_false, poppedBytes_append, List.countP_append, hpop, hcnt,
              List.length_reverse]
            simp [poppedBytes, Instr.isPushParam]

theorem growsTo_CallTail (heap : Heap) (parents : Parents) (t : Option Ty)
    (base : Option (Expr × Option Location)) (field : Identifier)
    (actuals : List (Expr × Option Location)) (cg cg2 : CodeGenerator) (loc : Option Location)
    (h : Call.EmitTail heap parents t base field actuals cg = .ok (loc, cg2)) :
    cg.growsTo cg2 := by
  cases hlen : Call.isLength (base.map Prod.fst) field with
  | error e => simp [Call.EmitTail, hlen] at h
  | ok b =>
    cases b with
    | true =>
      simp only [Call.EmitTail, hlen] at h
      cases base with
      | none =>
        simp only [Except.ok.injEq, Prod.mk.injEq] at h
        obtain ⟨_, h⟩ := h
        subst h
        exact growsTo_refl _
      | some bb =>
        obtain ⟨b, bl⟩ := bb
        simp only at h
        cases h1 : b.ReturnEmitLocD bl cg with
        | error e => simp [h1] at h
        | ok p1 =>
          obtain ⟨t0, cg1⟩ := p1
          simp only [h1, Except.ok.injEq, Prod.mk.injEq] at h
          obtain ⟨_, h⟩ := h
          subst h
          exact growsTo_trans (growsTo_ReturnEmitLocD _ _ _ _ _ h1) (growsTo_GenLoad _ _ _)
    | false =>
      cases hp : field.cache with
      | none => simp [Call.EmitTail, hlen, hp] at h
      | some p =>
        cases hd : heap[p]? with
        | none => simp [Call.EmitTail, hlen, hp, hd] at h
        | some d =>
          cases d with
          | fn func =>
            obtain ⟨own, _, _, _, hc, _⟩ :=
              CallTail_exact heap parents t base field actuals cg cg2 loc p func hlen hp hd h
            exact ⟨own, hc⟩
          | var v => simp [Call.EmitTail, hlen, hp, hd] at h
          | cls c => simp [Call.EmitTail, hlen, hp, hd] at h
          | iface i => simp [Call.EmitTail, hlen, hp, hd] at h

mutual
theorem growsTo_Emit (heap : Heap) (parents : Parents) :
    ∀ (e : Expr) (cg : CodeGenerator) (r : Option Location) (cg2 : CodeGenerator),
      e.Emit heap parents cg = .ok (r, cg2) → cg.growsTo cg2
  | .EmptyExpr _, cg, r, cg2, h => by
    simp only [Expr.Emit, Except.ok.injEq, Prod.mk.injEq] at h
    obtain ⟨_, h⟩ := h
    subst h
    exact growsTo_refl _
  | .IntConstant _ v, cg, r, cg2, h => by
    simp only [Expr.Emit, Except.ok.injEq, Prod.mk.injEq] at h
    obtain ⟨_, h⟩ := h
    subst h
    exact growsTo_GenLoadConstant _ _
  | .DoubleConstant _, cg, r, cg2, h => by
    simp only [Expr.Emit] at h
    cases h
  | .BoolConstant _ v, cg, r, cg2, h => by
    simp only [Expr.Emit, Except.ok.injEq, Prod.mk.injEq] at h
    obtain ⟨_, h⟩ := h
    subst h
    exact growsTo_GenLoadConstant _ _
  | .StringConstant _ v, cg, r, cg2, h => by
    simp only [Expr.Emit, Except.ok.injEq, Prod.mk.injEq] at h
    obtain ⟨_, h⟩ := h
    subst h
    exact growsTo_GenLoadStringConstant _ _
  | .NullConstant _, cg, r, cg2, h => by
    simp only [Expr.Emit, Except.ok.injEq, Prod.mk.injEq] at h
    obtain ⟨_, h⟩ := h
    subst h
    exact growsTo_GenLoadConstant _ _
  | .ArithmeticExpr _ none op right, cg, r, cg2, h => by
    simp only [Expr.Emit] at h
    cases h1 : Expr.Emit heap parents right cg with
    | error e => simp [h1] at h
    | ok p1 =>
      obtain ⟨rl, cg1⟩ := p1
      simp only [h1] at h
      cases h2 : right.ReturnEmitLocD rl (cg1.GenLoadConstant 0).2 with
      | error e => simp [h2] at h
      | ok p2 =>
        obtain ⟨r2, cg3⟩ := p2
        simp only [h2, Except.ok.injEq, Prod.mk.injEq] at h
        obtain ⟨_, h⟩ := h
        subst h
        exact growsTo_trans (growsTo_Emit heap parents right cg rl cg1 h1)
          (growsTo_trans (growsTo_GenLoadConstant _ _)
            (growsTo_trans (growsTo_ReturnEmitLocD _ _ _ _ _ h2) (growsTo_GenBinaryOp _ _ _ _)))
  | .ArithmeticExpr _ (some left) op right, cg, r, cg2, h => by
    simp only [Expr.Emit] at h
    cases h1 : Expr.Emit heap parents left cg with
    | error e => simp [h1] at h
    | ok p1 =>
      obtain ⟨ll, cg1⟩ := p1
      simp only [h1] at h
      cases h2 : Expr.Emit heap parents right cg1 with
      | error e => simp [h2] at h
      | ok p2 =>
        obtain ⟨rl, cg3⟩ := p2
        simp only [h2] at h
        exact growsTo_trans (growsTo_Emit heap parents left cg ll cg1 h1)
          (growsTo_trans (growsTo_Emit heap parents right cg1 rl cg3 h2)
            (growsTo_ArithmeticTail _ _ _ _ _ _ _ _ h))
  | .RelationalExpr _ left op right, cg, r, cg2, h => by
    simp only [Expr.Emit] at h
    cases h1 : Expr.Emit heap parents left cg with
    | error e => simp [h1] at h
    | ok p1 =>
      obtain ⟨ll, cg1⟩ := p1
      simp only [h1] at h
      cases h2 : Expr.Emit heap parents right cg1 with
      | error e => simp [h2] at h
      | ok p2 =>
        obtain ⟨rl, cg3⟩ := p2
        simp only [h2] at h
        exact growsTo_trans (growsTo_Emit heap parents left cg ll cg1 h1)
          (growsTo_trans (growsTo_Emit heap parents right cg1 rl cg3 h2)
            (growsTo_binaryTail _ _ _ _ _ _ _ _ h))
  | .EqualityExpr _ left op right, cg, r, cg2, h => by
    simp only [Expr.Emit] at h
    cases h1 : Expr.Emit heap parents left cg with
    | error e => simp [h1] at h
    | ok p1 =>
      obtain ⟨ll, cg1⟩ := p1
      simp only [h1] at h
      cases h2 : Expr.Emit heap parents right cg1 with
      | error e => simp [h2] at h
      | ok p2 =>
        obtain ⟨rl, cg3⟩ := p2
        simp only [h2] at h
        exact growsTo_trans (growsTo_Emit heap parents left cg ll cg1 h1)
          (growsTo_trans (growsTo_Emit heap parents right cg1 rl cg3 h2)
            (growsTo_EqualityTail _ _ _ _ _ _ _ _ h))
  | .LogicalExpr _ none op right, cg, r, cg2, h => by
    simp only [Expr.Emit] at h
    cases h1 : Expr.Emit heap parents right cg with
    | error e => simp [h1] at h
    | ok p1 =>
      obtain ⟨rl, cg1⟩ := p1
      simp only [h1] at h
      cases h2 : right.ReturnEmitLocD rl cg1 with
      | error e => simp [h2] at h
      | ok p2 =>
        obtain ⟨r2, cg3⟩ := p2
        simp only [h2, Except.ok.injEq, Prod.mk.injEq] at h
        obtain ⟨_, h⟩ := h
        subst h
        exact growsTo_trans (growsTo_Emit heap parents right cg rl cg1 h1)
          (growsTo_trans (growsTo_ReturnEmitLocD _ _ _ _ _ h2)
            (growsTo_trans (growsTo_GenLoadConstant _ _) (growsTo_GenBinaryOp _ _ _ _)))
  | .LogicalExpr _ (some left) op right, cg, r, cg2, h => by
    simp only [Expr.Emit] at h
    cases h1 : Expr.Emit heap parents left cg with
    | error e => simp [h1] at h
    | ok p1 =>
      obtain ⟨ll, cg1⟩ := p1
      simp only [h1] at h
      cases h2 : Expr.Emit heap parents right cg1 with
      | error e => simp [h2] at h
      | ok p2 =>
        obtain ⟨rl, cg3⟩ := p2
        simp only [h2] at h
        exact growsTo_trans (growsTo_Emit heap parents left cg ll cg1 h1)
          (growsTo_trans (growsTo_Emit heap parents right cg1 rl cg3 h2)
            (growsTo_binaryTail _ _ _ _ _ _ _ _ h))
  | .AssignExpr _ left op right, cg, r, cg2, h => by
    simp only [Expr.Emit] at h
    cases h1 : Expr.Emit heap parents right cg with
    | error e => simp [h1] at h
    | ok p1 =>
      obtain ⟨rl, cg1⟩ := p1
      simp only [h1] at h
      cases h2 : Expr.Emit heap parents left cg1 with
      | error e => simp [h2] at h
      | ok p2 =>
        obtain ⟨ll, cg3⟩ := p2
        simp only [h2] at h
        exact growsTo_trans (growsTo_Emit heap parents right cg rl cg1 h1)
          (growsTo_trans (growsTo_Emit heap parents left cg1 ll cg3 h2)
            (growsTo_AssignTail _ _ _ _ _ _ _ h))
  | .This _, cg, r, cg2, h => by
    simp only [Expr.Emit, Except.ok.injEq, Prod.mk.injEq] at h
    obtain ⟨_, h⟩ := h
    subst h
    exact growsTo_refl _
  | .ArrayAccess t base sub, cg, r, cg2, h => by
    simp only [Expr.Emit] at h
    cases h1 : Expr.Emit heap parents base cg with
    | error e => simp [h1] at h
    | ok p1 =>
      obtain ⟨bl, cg1⟩ := p1
      simp only [h1] at h
      cases h2 : Expr.Emit heap parents sub cg1 with
      | error e => simp [h2] at h
      | ok p2 =>
        obtain ⟨sl, cg3⟩ := p2
        simp only [h2] at h
        exact growsTo_trans (growsTo_Emit heap parents base cg bl cg1 h1)
          (growsTo_trans (growsTo_Emit heap parents sub cg1 sl cg3 h2)
            (growsTo_ArrayTail _ _ _ _ _ _ _ _ h))
  | .FieldAccess _ none field, cg, r, cg2, h => by
    simp only [Expr.Emit, Except.ok.injEq, Prod.mk.injEq] at h
    obtain ⟨_, h⟩ := h
    subst h
    exact growsTo_refl _
  | .FieldAccess _ (some base) field, cg, r, cg2, h => by
    simp only [Expr.Emit] at h
    cases h1 : Expr.Emit heap parents base cg with
    | error e => simp [h1] at h
    | ok p1 =>
      obtain ⟨bl, cg1⟩ := p1
      simp only [h1] at h
      cases hf : field.Emit heap with
      | none => simp [hf] at h
      | some fl =>
        simp only [hf] at h
        cases h2 : base.ReturnEmitLocD bl cg1 with
        | error e => simp [h2] at h
        | ok p2 =>
          obtain ⟨b, cg3⟩ := p2
          simp only [h2, Except.ok.injEq, Prod.mk.injEq] at h
          obtain ⟨_, h⟩ := h
          subst h
          exact growsTo_trans (growsTo_Emit heap parents base cg bl cg1 h1)
            (growsTo_ReturnEmitLocD _ _ _ _ _ h2)
  | .Call t none field actuals, cg, r, cg2, h => by
    simp only [Expr.Emit] at h
    cases h1 : Expr.EmitAll heap parents actuals cg with
    | error e => simp [h1] at h
    | ok p1 =>
      obtain ⟨als, cg1⟩ := p1
      simp only [h1] at h
      exact growsTo_trans (growsTo_EmitAll heap parents actuals cg als cg1 h1)
        (growsTo_CallTail _ _ _ _ _ _ _ _ _ h)
  | .Call t (some base) field actuals, cg, r, cg2, h => by
    simp only [Expr.Emit] at h
    cases h0 : Expr.Emit heap parents base cg with
    | error e => simp [h0] at h
    | ok p0 =>
      obtain ⟨bl, cg0⟩ := p0
      simp only [h0] at h
      cases h1 : Expr.EmitAll heap parents actuals cg0 with
      | error e => simp [h1] at h
      | ok p1 =>
        obtain ⟨als, cg1⟩ := p1
        simp only [h1] at h
        exact growsTo_trans (growsTo_Emit heap parents base cg bl cg0 h0)
          (growsTo_trans (growsTo_EmitAll heap parents actuals cg0 als cg1 h1)
            (growsTo_CallTail _ _ _ _ _ _ _ _ _ h))
  | .NewExpr _ cType, cg, r, cg2, h => by
    simp only [Expr.Emit] at h
    exact growsTo_NewExpr _ _ _ _ _ h
  | .NewArrayExpr _ size elemType, cg, r, cg2, h => by
    simp only [Expr.Emit] at h
    cases h1 : Expr.Emit heap parents size cg with
    | error e => simp [h1] at h
    | ok p1 =>
      obtain ⟨sl, cg1⟩ := p1
      simp only [h1] at h
      exact growsTo_trans (growsTo_Emit heap parents size cg sl cg1 h1)
        (growsTo_NewArrayTail _ _ _ _ _ _ h)
  | .ReadIntegerExpr _, cg, r, cg2, h => by
    simp only [Expr.Emit] at h
    exact growsTo_GenBuiltInCall _ _ _ _ _ _ h
  | .ReadLineExpr _, cg, r, cg2, h => by
    simp only [Expr.Emit] at h
    exact growsTo_GenBuiltInCall _ _ _ _ _ _ h
theorem growsTo_EmitAll (heap : Heap) (parents : Parents) :
    ∀ (l : List Expr) (cg : CodeGenerator) (als : List (Option Location))
      (cg2 : CodeGenerator), Expr.EmitAll heap parents l cg = .ok (als, cg2) → cg.growsTo cg2
  | [], cg, als, cg2, h => by
    simp only [Expr.EmitAll, Except.ok.injEq, Prod.mk.injEq] at h
    obtain ⟨_, h⟩ := h
    subst h
    exact growsTo_refl _
  | a :: rest, cg, als, cg2, h => by
    simp only [Expr.EmitAll] at h
    cases h1 : Expr.Emit heap parents a cg with
    | error e => simp [h1] at h
    | ok p1 =>
      obtain ⟨al, cg1⟩ := p1
      simp only [h1] at h
      cases h2 : Expr.EmitAll heap parents rest cg1 with
      | error e => simp [h2] at h
      | ok p2 =>
        obtain ⟨als2, cg3⟩ := p2
        simp only [h2, Except.ok.injEq, Prod.mk.injEq] at h
        obtain ⟨_, h⟩ := h
        subst h
        exact growsTo_trans (growsTo_Emit heap parents a cg al cg1 h1)
          (growsTo_EmitAll heap parents rest cg1 als2 cg3 h2)
end

theorem EmitAll_length (heap : Heap) (parents : Parents) :
    ∀ (l : List Expr) (cg : CodeGenerator) (als : List (Option Location))
      (cg2 : CodeGenerator), Expr.EmitAll heap parents l cg = .ok (als, cg2) →
      als.length = l.length := by
  intro l
  induction l with
  | nil =>
    intro cg als cg2 h
    simp only [Expr.EmitAll, Except.ok.injEq, Prod.mk.injEq] at h
    obtain ⟨h, _⟩ := h
    subst h
    rfl
  | cons a rest ih =>
    intro cg als cg2 h
    simp only [Expr.EmitAll] at h
    cases h1 : Expr.Emit heap parents a cg with
    | error e => simp [h1] at h
    | ok p1 =>
      obtain ⟨al, cg1⟩ := p1
      simp only [h1] at h
      cases h2 : Expr.EmitAll heap parents rest cg1 with
      | error e => simp [h2] at h
      | ok p2 =>
        obtain ⟨als2, cg3⟩ := p2
        simp only [h2, Except.ok.injEq, Prod.mk.injEq] at h
        rw [← h.1, List.length_cons, List.length_cons, ih cg1 als2 cg3 h2]

theorem zip_length_eq (actuals : List Expr) (als : List (Option Location))
    (h : als.length = actuals.length) : (actuals.zip als).length = actuals.length := by
  rw [List.length_zip, h, Nat.min_self]

/-- C26. For a call that is not the `length` of an array and whose field is
resolved to a function, `Call::Emit` first emits the base and the `n` actuals,
which leaves the generator `cgA`, and then appends exactly the code `own`:
when there is a base or the function is a member of a class, what
`ReturnEmitLocD` loads for the base (nothing without a base, where the receiver
is `this`), the `Load` of the table of the receiver and the `Load` of the entry
at the offset of the function in it, the pushes of the actuals, the
`PushParam` of the receiver, the `ACall` through the loaded entry and
`PopParams` of `4 * (n + 1)` bytes; otherwise the pushes of the actuals, the
`LCall` of the name with `_` put before it and `PopParams` of `4 * n` bytes,
left out when `n = 0`.  The pushes of the actuals are, for the actuals taken in
the order `n-1, ..., 0` and the generator threaded from one to the next, what
`ReturnEmitLocD` loads for the actual and then the `PushParam` of the location
it returns.  The result of the call is a fresh temporary, or none for a
function that returns nothing.  In both cases the bytes popped are 4 times the
number of `PushParam` appended. -/
theorem Call_Emit_spec (heap : Heap) (parents : Parents) (t : Option Ty) (base : Option Expr)
    (field : Identifier) (actuals : List Expr) (cg cg2 : CodeGenerator)
    (loc : Option Location) (p : Ptr) (func : FnDecl)
    (hlen : Call.isLength base field = .ok false)
    (hp : field.cache = some p) (hfunc : heap[p]? = some (.fn func))
    (h : (Expr.Call t base field actuals).Emit heap parents cg = .ok (loc, cg2)) :
    ∃ (cgA : CodeGenerator) (als : List (Option Location)) (own pushes : List Instr)
        (cgP cgQ : CodeGenerator),
      (base = none → Expr.EmitAll heap parents actuals cg = .ok (als, cgA)) ∧
      (∀ b, base = some b → ∃ bl cg0, b.Emit heap parents cg = .ok (bl, cg0) ∧
        Expr.EmitAll heap parents actuals cg0 = .ok (als, cgA)) ∧
      cg.growsTo cgA ∧ als.length = actuals.length ∧
      cg2.code = cgA.code ++ own ∧
      pushRun (actuals.zip als).reverse cgP pushes cgQ ∧
      ((base.isSome = true ∨ MemberOfClass heap parents p = true) →
        ∃ (recv : Option Location) (cgR : CodeGenerator) (recvLoads : List Instr),
          (base = none → recv = some ptrThis ∧ cgR = cgA) ∧
          (∀ b bl cg0, base = some b → b.Emit heap parents cg = .ok (bl, cg0) →
            b.ReturnEmitLocD bl cgA = .ok (recv, cgR)) ∧
          cgR.code = cgA.code ++ recvLoads ∧ isLoads recvLoads ∧
          cgP = ((cgR.GenLoad recv 0).2.GenLoad (some (tempAt cgR 0)) func.vtable_ofst).2 ∧
          loc = (if func.returnType.isBuiltin .voidType then none else some (tempAt cgQ 0)) ∧
          own = recvLoads ++
            [.Load (tempAt cgR 0) recv 0,
              .Load (tempAt cgR 1) (some (tempAt cgR 0)) func.vtable_ofst] ++ pushes ++
            [.PushParam recv, .ACall (some (tempAt cgR 1)) loc,
              .PopParams (4 * ((actuals.length : Int) + 1))]) ∧
      ((base.isSome = false ∧ MemberOfClass heap parents p = false) →
        cgP = cgA ∧
        loc = (if isType .voidType t then none else some (tempAt cgQ 0)) ∧
        own = pushes ++ [.LCall ("_" ++ field.name) loc] ++
          (if actuals.length = 0 then [] else [.PopParams (4 * (actuals.length : Int))])) ∧
      poppedBytes own = 4 * (own.countP Instr.isPushParam : Int) := by
  cases base with
  | none =>
    simp only [Expr.Emit] at h
    cases h1 : Expr.EmitAll heap parents actuals cg with
    | error e => simp [h1] at h
    | ok p1 =>
      obtain ⟨als, cgA⟩ := p1
      simp only [h1] at h
      have hal := EmitAll_length heap parents actuals cg als cgA h1
      have hz := zip_length_eq actuals als hal
      obtain ⟨own, pushes, cgP, cgQ, hc, hrun, hv, hfree, hpop⟩ :=
        CallTail_exact heap parents t none field (actuals.zip als) cgA cg2 loc p func hlen hp
          hfunc h
      rw [hz] at hv hfree
      refine ⟨cgA, als, own, pushes, cgP, cgQ, fun _ => rfl, (fun b hb => by cases hb),
        growsTo_EmitAll heap parents actuals cg als cgA h1, hal, hc, hrun, ?_, hfree, hpop⟩
      intro hvirt
      obtain ⟨recv, cgR, recvLoads, hn, _, hrest⟩ := hv hvirt
      exact ⟨recv, cgR, recvLoads, (fun _ => hn rfl), (fun b bl cg0 hb => by cases hb), hrest⟩
  | some b =>
    simp only [Expr.Emit] at h
    cases h0 : Expr.Emit heap parents b cg with
    | error e => simp [h0] at h
    | ok p0 =>
      obtain ⟨bl, cg0⟩ := p0
      simp only [h0] at h
      cases h1 : Expr.EmitAll heap parents actuals cg0 with
      | error e => simp [h1] at h
      | ok p1 =>
        obtain ⟨als, cgA⟩ := p1
        simp only [h1] at h
        have hal := EmitAll_length heap parents actuals cg0 als cgA h1
        have hz := zip_length_eq actuals als hal
        obtain ⟨own, pushes, cgP, cgQ, hc, hrun, hv, hfree, hpop⟩ :=
          CallTail_exact heap parents t (some (b, bl)) field (actuals.zip als) cgA cg2 loc p
            func hlen hp hfunc h
        rw [hz] at hv hfree
        refine ⟨cgA, als, own, pushes, cgP, cgQ, (fun hb => by cases hb),
          (fun b2 hb => by
            simp only [Option.some.injEq] at hb
            subst hb
            exact ⟨bl, cg0, h0, h1⟩),
          growsTo_trans (growsTo_Emit heap parents b cg bl cg0 h0)
            (growsTo_EmitAll heap parents actuals cg0 als cgA h1),
          hal, hc, hrun, ?_, (fun hno => by simp at hno), hpop⟩
        intro _
        obtain ⟨recv, cgR, recvLoads, _, hb, hrest⟩ := hv (Or.inl rfl)
        refine ⟨recv, cgR, recvLoads, (fun hn => by cases hn), ?_, hrest⟩
        intro b2 bl2 cg02 hb2 he
        simp only [Option.some.injEq] at hb2
        subst hb2
        rw [h0] at he
        simp only [Except.ok.injEq, Prod.mk.injEq] at he
        rw [← he.1]
        exact hb b bl rfl

/-- The call `f(i, 7)` of a top-level function pushes 7, then `i`, calls `_f`
and pops 8 bytes.  The call `a.f(i, 7)` of a method loads the table of `a` and
its entry 0, pushes 7, then `i`, then `a`, calls through the loaded entry and
pops 12 bytes; its own code is the two loads, the pushes of the two actuals
from the generator after the loads, and the three instructions of the call. -/
theorem Call_Emit_spec_witness :
    (Expr.Emit exHeapVars exParents
        (.Call (some (.base .intType true)) none { name := "f", cache := some 8 }
          [exVarI, .IntConstant (some (.base .intType true)) 7]) CodeGenerator.new).map
      (fun r => r.2.code) =
      .ok [.LoadConstant (.plain .fpRelative (-8) "_tmp0") 7,
        .PushParam (some (.plain .fpRelative (-8) "_tmp0")),
        .PushParam (some (.plain .gpRelative 12 "i")),
        .LCall "_f" (some (.plain .fpRelative (-12) "_tmp1")),
        .PopParams 8] ∧
    (Expr.Emit exHeapVars exParents
        (.Call (some (.base .intType true)) (some exVarA) { name := "f", cache := some 7 }
          [exVarI, .IntConstant (some (.base .intType true)) 7]) CodeGenerator.new).map
      (fun r => r.2.code) =
      .ok [.LoadConstant (.plain .fpRelative (-8) "_tmp0") 7,
        .Load (.plain .fpRelative (-12) "_tmp1") (some (.plain .gpRelative 0 "a")) 0,
        .Load (.plain .fpRelative (-16) "_tmp2") (some (.plain .fpRelative (-12) "_tmp1")) 0,
        .PushParam (some (.plain .fpRelative (-8) "_tmp0")),
        .PushParam (some (.plain .gpRelative 12 "i")),
        .PushParam (some (.plain .gpRelative 0 "a")),
        .ACall (some (.plain .fpRelative (-16) "_tmp2")) (some (.plain .fpRelative (-20) "_tmp3")),
        .PopParams 12] ∧
    (∃ (own pushes : List Instr) (cgQ : CodeGenerator),
      pushRun
        [(.IntConstant (some (.base .intType true)) 7, some (.plain .fpRelative (-8) "_tmp0")),
          (exVarI, some (.plain .gpRelative 12 "i"))]
        ((((CodeGenerator.new.GenLoadConstant 7).2.GenLoad
          (some (.plain .gpRelative 0 "a")) 0).2.GenLoad
            (some (.plain .fpRelative (-12) "_tmp1")) 0).2) pushes cgQ ∧
      own = [.Load (.plain .fpRelative (-12) "_tmp1") (some (.plain .gpRelative 0 "a")) 0,
          .Load (.plain .fpRelative (-16) "_tmp2") (some (.plain .fpRelative (-12) "_tmp1")) 0] ++
        pushes ++
        [.PushParam (some (.plain .gpRelative 0 "a")),
          .ACall (some (.plain .fpRelative (-16) "_tmp2")) (some (tempAt cgQ 0)),
          .PopParams 12] ∧
      poppedBytes own = 4 * (own.countP Instr.isPushParam : Int)) := by
  refine ⟨rfl, rfl, ?_⟩
  have hrun : ∃ r, (Expr.Call (some (.base .intType true)) (some exVarA)
      { name := "f", cache := some 7 }
      [exVarI, .IntConstant (some (.base .intType true)) 7]).Emit exHeapVars exParents
        CodeGenerator.new = .ok r := ⟨_, rfl⟩
  obtain ⟨⟨loc, cg2⟩, hrun⟩ := hrun
  obtain ⟨cgA, als, own, pushes, cgP, cgQ, _, hsome, _, _, _, hpush, hvirt, _, hpop⟩ :=
    Call_Emit_spec exHeapVars exParents (some (.base .intType true)) (some exVarA)
      { name := "f", cache := some 7 } [exVarI, .IntConstant (some (.base .intType true)) 7]
      CodeGenerator.new cg2 loc 7 { exFnInt with vtable_ofst := 0 } rfl rfl rfl hrun
  obtain ⟨bl, cg0, hb, hall⟩ := hsome exVarA rfl
  have hb2 : exVarA.Emit exHeapVars exParents CodeGenerator.new =
      .ok (some (.plain .gpRelative 0 "a"), CodeGenerator.new) := rfl
  rw [hb2] at hb
  simp only [Except.ok.injEq, Prod.mk.injEq] at hb
  obtain ⟨hbl, hcg0⟩ := hb
  subst hbl hcg0
  have hall2 : Expr.EmitAll exHeapVars exParents
      [exVarI, .IntConstant (some (.base .intType true)) 7] CodeGenerator.new =
      .ok ([some (.plain .gpRelative 12 "i"), some (.plain .fpRelative (-8) "_tmp0")],
        (CodeGenerator.new.GenLoadConstant 7).2) := rfl
  rw [hall2] at hall
  simp only [Except.ok.injEq, Prod.mk.injEq] at hall
  obtain ⟨hals, hcgA⟩ := hall
  subst hals hcgA
  obtain ⟨recv, cgR, recvLoads, _, hrecv, hcode, _, hcgP, hloc, hown⟩ := hvirt (Or.inl rfl)
  have hr := hrecv exVarA _ _ rfl hb2
  have hr2 : exVarA.ReturnEmitLocD (some (.plain .gpRelative 0 "a"))
      (CodeGenerator.new.GenLoadConstant 7).2 =
      .ok (some (.plain .gpRelative 0 "a"), (CodeGenerator.new.GenLoadConstant 7).2) := rfl
  rw [hr2] at hr
  simp only [Except.ok.injEq, Prod.mk.injEq] at hr
  obtain ⟨hrecv2, hcgR⟩ := hr
  subst hrecv2 hcgR
  have hnil : recvLoads = [] := by
    have := hcode
    simpa using this
  subst hnil
  subst hcgP
  refine ⟨own, pushes, cgQ, hpush, ?_, hpop⟩
  rw [hown, hloc]
  rfl

/-- C29. For an assignment whose right operand is emitted with a location
`rightLoc` and whose left operand is emitted with a location `leftLoc`, the
code appended is the code of the right operand, then the code of the left
operand, then what `ReturnEmitLocD` loads for the right operand, then exactly
one writing instruction - `Store(base, rhs, offset)` if the left location has a
base, otherwise `Store(addr, rhs)` with offset 0 if the left operand is an
array access, otherwise `Assign(lhs, rhs)` - and then what `ReturnEmitLocD` loads
for the left operand. -/
theorem AssignExpr_Emit_spec (heap : Heap) (parents : Parents) (t : Option Ty)
    (left : Expr) (op : String) (right : Expr) (cg cg1 cg2 cg3 : CodeGenerator)
    (rl : Option Location) (leftLoc rightLoc : Location)
    (hr : right.Emit heap parents cg = .ok (rl, cg1))
    (hl : left.Emit heap parents cg1 = .ok (some leftLoc, cg2))
    (hrl : right.ReturnEmitLocD rl cg2 = .ok (some rightLoc, cg3)) :
    ∃ (rc lc rload lload : List Instr) (el : Location) (cg4 : CodeGenerator),
      cg1.code = cg.code ++ rc ∧ cg2.code = cg.code ++ rc ++ lc ∧
      cg3.code = cg.code ++ rc ++ lc ++ rload ∧ isLoads rload ∧ isLoads lload ∧
      (Expr.AssignExpr t left op right).Emit heap parents cg = .ok (some el, cg4) ∧
      cg4.code =
        cg.code ++ rc ++ lc ++ rload ++ [writeInstr left leftLoc rightLoc] ++ lload := by
  obtain ⟨rc, hrc⟩ := growsTo_Emit heap parents right cg rl cg1 hr
  obtain ⟨lc, hlc⟩ := growsTo_Emit heap parents left cg1 (some leftLoc) cg2 hl
  obtain ⟨rload, hrload, hrl2⟩ := ReturnEmitLocD_code right rl (some rightLoc) cg2 cg3 hrl
  have hw : (match leftLoc.GetBase with
      | some base => cg3.GenStore (some base) (some rightLoc) leftLoc.GetOffset
      | none =>
        if left.AccessibleArray then cg3.GenStore (some leftLoc) (some rightLoc) 0
        else cg3.GenAssign (some leftLoc) (some rightLoc)) =
      cg3.push (writeInstr left leftLoc rightLoc) := by
    cases leftLoc with
    | plain s o n =>
      simp only [Location.GetBase, writeInstr]
      cases left.AccessibleArray <;> rfl
    | based s o n b => rfl
  obtain ⟨el, cg4, h4⟩ := ReturnEmitLocD_some left leftLoc (cg3.push (writeInstr left leftLoc rightLoc))
  obtain ⟨lload, hlload, hl2⟩ := ReturnEmitLocD_code left (some leftLoc) (some el) _ cg4 h4
  refine ⟨rc, lc, rload, lload, el, cg4, hrc, by rw [hlc, hrc], by rw [hrload, hlc, hrc],
    hrl2, hl2, ?_, ?_⟩
  · simp only [Expr.Emit, hr, hl, AssignExpr.EmitTail, hrl]
    rw [← hw] at h4
    exact h4
  · rw [hlload]
    simp only [CodeGenerator.push, hrload, hlc, hrc]

/-- The assignment `a = b` of a variable of class `B` to a variable of its
superclass `A` is a plain `Assign`; the assignment `v[i] = b` stores through
the address of the element. -/
theorem AssignExpr_Emit_spec_witness :
    (Expr.Emit exHeapVars exParents (.AssignExpr none exVarA "=" exVarB) CodeGenerator.new).map
      (fun r => r.2.code) =
      .ok [.Assign (some (.plain .gpRelative 0 "a")) (some (.plain .gpRelative 4 "b"))] ∧
    writeInstr (.ArrayAccess (some (.base .intType true)) exVarV exVarI)
        (.plain .fpRelative (-44) "_tmp9") (.plain .gpRelative 4 "b") =
      .Store (some (.plain .fpRelative (-44) "_tmp9")) (some (.plain .gpRelative 4 "b")) 0 ∧
    (∃ (rc lc rload lload : List Instr) (el : Location) (cg4 : CodeGenerator),
      CodeGenerator.new.code = CodeGenerator.new.code ++ rc ∧
      CodeGenerator.new.code = CodeGenerator.new.code ++ rc ++ lc ∧
      CodeGenerator.new.code = CodeGenerator.new.code ++ rc ++ lc ++ rload ∧
      isLoads rload ∧ isLoads lload ∧
      (Expr.AssignExpr none exVarA "=" exVarB).Emit exHeapVars exParents CodeGenerator.new =
        .ok (some el, cg4) ∧
      cg4.code = CodeGenerator.new.code ++ rc ++ lc ++ rload ++
        [writeInstr exVarA (.plain .gpRelative 0 "a") (.plain .gpRelative 4 "b")] ++ lload) :=
  ⟨rfl, rfl,
    AssignExpr_Emit_spec exHeapVars exParents none exVarA "=" exVarB CodeGenerator.new
      CodeGenerator.new CodeGenerator.new CodeGenerator.new (some (.plain .gpRelative 4 "b"))
      (.plain .gpRelative 0 "a") (.plain .gpRelative 4 "b") rfl rfl rfl⟩

/-! ## The bounds check and the allocation of an array, run -/

theorem ArrayTail_eq (t : Ty) (base sub : Expr) (bl sl : Option Location) (t0 t3 : Location)
    (cg : CodeGenerator)
    (hsub : ∀ c, sub.ReturnEmitLocD sl c = .ok (some t0, c))
    (hbase : ∀ c, base.ReturnEmitLocD bl c = .ok (some t3, c)) :
    ∃ cg2, ArrayAccess.EmitTail (some t) base bl sub sl cg = .ok (some (tempAt cg 9), cg2) ∧
      cg2.code = cg.code ++ boundsCheckCode cg t0 t3 := by
  simp only [ArrayAccess.EmitTail, hsub, hbase, ArrayAccess.EmitBounds,
    CodeGenerator.GenLoad, CodeGenerator.GenBinaryOp,
    CodeGenerator.GenTempVar, CodeGenerator.push, CodeGenerator.NewLabel, CodeGenerator.GenIfZ,
    CodeGenerator.GenLoadStringConstant, CodeGenerator.GenBuiltInCall,
    CodeGenerator.GenPopParams, CodeGenerator.GenLabel, CodeGenerator.GenLoadConstant,
    BuiltIn.hasReturn, BuiltIn.numArgs, BuiltIn.label, VarSize, Ty.ReturnTypeSize]
  simp [tempAt, boundsCheckCode, sub_sub, Nat.add_assoc]

theorem get_set_self (m : Machine) (cg : CodeGenerator) (k : Nat) (v : Int) :
    (m.set (tempAt cg k) v).get (some (tempAt cg k)) = some v := by
  simp [Machine.set, Machine.get, tempAt, Location.GetSegment, Location.GetOffset]

theorem get_set_ne (m : Machine) (cg : CodeGenerator) (j k : Nat) (v : Int) (h : j ≠ k) :
    (m.set (tempAt cg k) v).get (some (tempAt cg j)) = m.get (some (tempAt cg j)) := by
  simp [Machine.set, Machine.get, tempAt, Location.GetSegment, Location.GetOffset, h]

theorem get_set_settled (m : Machine) (cg : CodeGenerator) (x : Location) (k : Nat) (v : Int)
    (h : settled cg x) :
    (m.set (tempAt cg k) v).get (some x) = m.get (some x) := by
  obtain ⟨g, o, n, rfl, h⟩ := h
  have : ¬ (g = .fpRelative ∧ o = cg.localLocation - 4 * (k : Int)) :=
    fun ⟨a, b⟩ => by have := h a; omega
  simp [Machine.set, Machine.get, tempAt, Location.GetSegment, Location.GetOffset, this]

theorem get_mk (m : Machine) (mem : Int → Int) (brk : Int) (strings : List String)
    (params : List Int) (out : List String) (halted : Bool) (pc : Nat) (x : Option Location) :
    (Machine.mk m.vars mem brk strings params out halted pc).get x = m.get x := by
  cases x with
  | none => rfl
  | some l => cases l <;> rfl

theorem set_pc (m : Machine) (d : Location) (v : Int) : (m.set d v).pc = m.pc + 1 := rfl
theorem set_halted (m : Machine) (d : Location) (v : Int) : (m.set d v).halted = m.halted := rfl
theorem set_mem (m : Machine) (d : Location) (v : Int) : (m.set d v).mem = m.mem := rfl
theorem set_brk (m : Machine) (d : Location) (v : Int) : (m.set d v).brk = m.brk := rfl
theorem set_strings (m : Machine) (d : Location) (v : Int) : (m.set d v).strings = m.strings := rfl
theorem set_params (m : Machine) (d : Location) (v : Int) : (m.set d v).params = m.params := rfl
theorem set_out (m : Machine) (d : Location) (v : Int) : (m.set d v).out = m.out := rfl

theorem bounds_at (cg : CodeGenerator) (t0 t3 : Location) :
    (boundsCheckCode cg t0 t3)[0]? = some (Instr.LoadConstant (tempAt cg 0) 0) ∧
    (boundsCheckCode cg t0 t3)[1]? = some (Instr.BinaryOp "<" (tempAt cg 1) (some t0) (some (tempAt cg 0))) ∧
    (boundsCheckCode cg t0 t3)[2]? = some (Instr.Load (tempAt cg 2) (some t3) (-4)) ∧
    (boundsCheckCode cg t0 t3)[3]? = some (Instr.BinaryOp "<" (tempAt cg 3) (some t0) (some (tempAt cg 2))) ∧
    (boundsCheckCode cg t0 t3)[4]? = some (Instr.BinaryOp "==" (tempAt cg 4) (some (tempAt cg 3)) (some (tempAt cg 0))) ∧
    (boundsCheckCode cg t0 t3)[5]? = some (Instr.BinaryOp "||" (tempAt cg 5) (some (tempAt cg 1)) (some (tempAt cg 4))) ∧
    (boundsCheckCode cg t0 t3)[6]? = some (Instr.IfZ (some (tempAt cg 5)) ("_L" ++ toString cg.nextLabelNum)) ∧
    (boundsCheckCode cg t0 t3)[7]? = some (Instr.LoadStringConstant (tempAt cg 6) err_arr_out_of_bounds) ∧
    (boundsCheckCode cg t0 t3)[8]? = some (Instr.PushParam (some (tempAt cg 6))) ∧
    (boundsCheckCode cg t0 t3)[9]? = some (Instr.LCall "_PrintString" none) ∧
    (boundsCheckCode cg t0 t3)[10]? = some (Instr.PopParams 4) ∧
    (boundsCheckCode cg t0 t3)[11]? = some (Instr.LCall "_Halt" none) ∧
    (boundsCheckCode cg t0 t3)[12]? = some (Instr.Label ("_L" ++ toString cg.nextLabelNum)) ∧
    (boundsCheckCode cg t0 t3)[13]? = some (Instr.LoadConstant (tempAt cg 7) 4) ∧
    (boundsCheckCode cg t0 t3)[14]? = some (Instr.BinaryOp "*" (tempAt cg 8) (some (tempAt cg 7)) (some t0)) ∧
    (boundsCheckCode cg t0 t3)[15]? = some (Instr.BinaryOp "+" (tempAt cg 9) (some t3) (some (tempAt cg 8))) :=
  ⟨rfl, rfl, rfl, rfl, rfl, rfl, rfl, rfl, rfl, rfl, rfl, rfl, rfl, rfl, rfl, rfl⟩

theorem newArray_at (cg : CodeGenerator) (t0 : Location) :
    (newArrayCode cg t0)[0]? = some (Instr.LoadConstant (tempAt cg 0) 0) ∧
    (newArrayCode cg t0)[1]? = some (Instr.BinaryOp "<=" (tempAt cg 1) (some t0) (some (tempAt cg 0))) ∧
    (newArrayCode cg t0)[2]? = some (Instr.IfZ (some (tempAt cg 1)) ("_L" ++ toString cg.nextLabelNum)) ∧
    (newArrayCode cg t0)[3]? = some (Instr.LoadStringConstant (tempAt cg 2) err_arr_bad_size) ∧
    (newArrayCode cg t0)[4]? = some (Instr.PushParam (some (tempAt cg 2))) ∧
    (newArrayCode cg t0)[5]? = some (Instr.LCall "_PrintString" none) ∧
    (newArrayCode cg t0)[6]? = some (Instr.PopParams 4) ∧
    (newArrayCode cg t0)[7]? = some (Instr.LCall "_Halt" none) ∧
    (newArrayCode cg t0)[8]? = some (Instr.Label ("_L" ++ toString cg.nextLabelNum)) ∧
    (newArrayCode cg t0)[9]? = some (Instr.LoadConstant (tempAt cg 3) 1) ∧
    (newArrayCode cg t0)[10]? = some (Instr.BinaryOp "+" (tempAt cg 4) (some (tempAt cg 3)) (some t0)) ∧
    (newArrayCode cg t0)[11]? = some (Instr.LoadConstant (tempAt cg 5) 4) ∧
    (newArrayCode cg t0)[12]? = some (Instr.BinaryOp "*" (tempAt cg 6) (some (tempAt cg 4)) (some (tempAt cg 5))) ∧
    (newArrayCode cg t0)[13]? = some (Instr.PushParam (some (tempAt cg 6))) ∧
    (newArrayCode cg t0)[14]? = some (Instr.LCall "_Alloc" (some (tempAt cg 7))) ∧
    (newArrayCode cg t0)[15]? = some (Instr.PopParams 4) ∧
    (newArrayCode cg t0)[16]? = some (Instr.Store (some (tempAt cg 7)) (some t0) 0) ∧
    (newArrayCode cg t0)[17]? = some (Instr.BinaryOp "+" (tempAt cg 8) (some (tempAt cg 7)) (some (tempAt cg 5))) :=
  ⟨rfl, rfl, rfl, rfl, rfl, rfl, rfl, rfl, rfl, rfl, rfl, rfl, rfl, rfl, rfl, rfl, rfl, rfl⟩

theorem bounds_label (cg : CodeGenerator) (t0 t3 : Location) :
    findLabel ("_L" ++ toString cg.nextLabelNum) (boundsCheckCode cg t0 t3) = some 12 := by
  simp [findLabel, boundsCheckCode]

theorem newArray_label (cg : CodeGenerator) (t0 : Location) :
    findLabel ("_L" ++ toString cg.nextLabelNum) (newArrayCode cg t0) = some 8 := by
  simp [findLabel, newArrayCode]

theorem bounds_end (cg : CodeGenerator) (t0 t3 : Location) :
    (boundsCheckCode cg t0 t3)[16]? = none := rfl

theorem newArray_end (cg : CodeGenerator) (t0 : Location) :
    (newArrayCode cg t0)[18]? = none := rfl

theorem bounds_run (cg : CodeGenerator) (t0 t3 : Location) (m : Machine) (s len b : Int)
    (h0 : settled cg t0) (h3 : settled cg t3)
    (hs : m.get (some t0) = some s) (hb : m.get (some t3) = some b) (hlen : m.mem (b - 4) = len)
    (hrun : m.halted = false) (hpc : m.pc = 0) :
    ∃ m2, Machine.run (boundsCheckCode cg t0 t3) 16 m = some m2 ∧
      m2.get (some (tempAt cg 5)) = some (if s < 0 ∨ len ≤ s then 1 else 0) ∧
      ((s < 0 ∨ len ≤ s) → m2.halted = true ∧ m2.out = m.out ++ [err_arr_out_of_bounds] ∧
        m2.get (some (tempAt cg 9)) = m.get (some (tempAt cg 9))) ∧
      ((0 ≤ s ∧ s < len) → m2.halted = false ∧ m2.pc = 16 ∧ m2.out = m.out ∧
        m2.get (some (tempAt cg 9)) = some (b + 4 * s)) := by
  have hlen2 : m.mem (b + -4) = len := by rw [← sub_eq_add_neg]; exact hlen
  rcases lt_or_le s len with c2 | c3
  · have c3 : ¬ len ≤ s := not_le.mpr c2
    by_cases c1 : s < 0 <;>
    simp [Machine.run, set_pc, set_halted, set_mem, set_brk, set_strings,
      set_params, set_out, hrun, hpc, bounds_at, bounds_end, bounds_label, Machine.exec,
      get_set_self, get_set_ne, get_set_settled, h0, h3, hs, hb, hlen2, binop, get_mk, c1, c2, c3,
      Machine.call]
  · have c2 : ¬ s < len := not_lt.mpr c3
    by_cases c1 : s < 0 <;>
    simp [Machine.run, set_pc, set_halted, set_mem, set_brk, set_strings,
      set_params, set_out, hrun, hpc, bounds_at, bounds_end, bounds_label, Machine.exec,
      get_set_self, get_set_ne, get_set_settled, h0, h3, hs, hb, hlen2, binop, get_mk, c1, c2, c3,
      Machine.call]

theorem NewArrayTail_eq (size : Expr) (sl : Option Location) (elemType : Ty) (t0 : Location)
    (cg : CodeGenerator) (hsize : ∀ c, size.ReturnEmitLocD sl c = .ok (some t0, c)) :
    ∃ cg2, NewArrayExpr.EmitTail size sl elemType cg = .ok (some (tempAt cg 8), cg2) ∧
      cg2.code = cg.code ++ newArrayCode cg t0 := by
  simp only [NewArrayExpr.EmitTail, hsize, CodeGenerator.GenStore,
    CodeGenerator.GenLoad, CodeGenerator.GenBinaryOp,
    CodeGenerator.GenTempVar, CodeGenerator.push, CodeGenerator.NewLabel, CodeGenerator.GenIfZ,
    CodeGenerator.GenLoadStringConstant, CodeGenerator.GenBuiltInCall,
    CodeGenerator.GenPopParams, CodeGenerator.GenLabel, CodeGenerator.GenLoadConstant,
    BuiltIn.hasReturn, BuiltIn.numArgs, BuiltIn.label, VarSize, Ty.ReturnTypeSize]
  simp [tempAt, newArrayCode, sub_sub, Nat.add_assoc]

theorem newArray_run (cg : CodeGenerator) (t0 : Location) (m : Machine) (n : Int)
    (h0 : settled cg t0) (hn : m.get (some t0) = some n)
    (hrun : m.halted = false) (hpc : m.pc = 0) :
    ∃ m2, Machine.run (newArrayCode cg t0) 18 m = some m2 ∧
      (n ≤ 0 → m2.halted = true ∧ m2.out = m.out ++ [err_arr_bad_size] ∧ m2.brk = m.brk) ∧
      (0 < n → m2.halted = false ∧ m2.pc = 18 ∧ m2.out = m.out ∧
        m2.brk = m.brk + (n + 1) * 4 ∧ m2.mem m.brk = n ∧
        m2.get (some (tempAt cg 8)) = some (m.brk + 4) ∧
        ∀ dst, m2.exec (newArrayCode cg t0) (.Load dst (some (tempAt cg 8)) (-4)) =
          some (m2.set dst n)) := by
  rcases lt_or_le 0 n with c1 | c2
  · have c2 : ¬ n ≤ 0 := not_le.mpr c1
    simp [Machine.run, set_pc, set_halted, set_mem, set_brk, set_strings,
      set_params, set_out, hrun, hpc, newArray_at, newArray_end, newArray_label, Machine.exec,
      get_set_self, get_set_ne, get_set_settled, h0, hn, binop, get_mk, c1, c2,
      Machine.call]
    omega
  · have c1 : ¬ 0 < n := not_lt.mpr c2
    simp [Machine.run, set_pc, set_halted, set_mem, set_brk, set_strings,
      set_params, set_out, hrun, hpc, newArray_at, newArray_end, newArray_label, Machine.exec,
      get_set_self, get_set_ne, get_set_settled, h0, hn, binop, get_mk, c1, c2,
      Machine.call]

/-- C27. The bounds check of an array access, for a subscript and a base whose
values are at hand in the locations `t0` and `t3` (neither needs a load of its
own), run in a state where `t0` holds `s`, `t3` holds the address `b` of the
array and the word at `b - 4` is `len`, with `<`, `==` and `||` read as
operations on integers that yield 0 or 1: the emission appends exactly the
sequence `boundsCheckCode`, whose `IfZ` tests the sixth temporary; the run ends,
and the value tested is non-zero exactly when `s < 0` or `s >= len`; in that
case the message `err_arr_out_of_bounds` is printed, the run halts, and the word
of the result location is left as it was; when `0 <= s < len` nothing is
printed, the run reaches the end of the sequence, and the result location
holds `b + 4 * s`. -/
theorem ArrayAccess_Emit_spec (heap : Heap) (parents : Parents) (t : Ty) (base sub : Expr)
    (cg0 cg1 cg : CodeGenerator) (bl sl : Option Location) (t0 t3 : Location)
    (m : Machine) (s len b : Int)
    (hbase : base.Emit heap parents cg0 = .ok (bl, cg1))
    (hsub : sub.Emit heap parents cg1 = .ok (sl, cg))
    (ht0 : ∀ c, sub.ReturnEmitLocD sl c = .ok (some t0, c))
    (ht3 : ∀ c, base.ReturnEmitLocD bl c = .ok (some t3, c))
    (h0 : settled cg t0) (h3 : settled cg t3)
    (hs : m.get (some t0) = some s) (hb : m.get (some t3) = some b)
    (hlen : m.mem (b - 4) = len) (hrun : m.halted = false) (hpc : m.pc = 0) :
    ∃ (cg2 : CodeGenerator) (m2 : Machine) (v : Int),
      (Expr.ArrayAccess (some t) base sub).Emit heap parents cg0 =
        .ok (some (tempAt cg 9), cg2) ∧
      cg2.code = cg.code ++ boundsCheckCode cg t0 t3 ∧
      Instr.IfZ (some (tempAt cg 5)) ("_L" ++ toString cg.nextLabelNum) ∈
        boundsCheckCode cg t0 t3 ∧
      Machine.run (boundsCheckCode cg t0 t3) (boundsCheckCode cg t0 t3).length m = some m2 ∧
      m2.get (some (tempAt cg 5)) = some v ∧
      (v ≠ 0 ↔ (s < 0 ∨ len ≤ s)) ∧
      ((s < 0 ∨ len ≤ s) →
        m2.halted = true ∧ m2.out = m.out ++ [err_arr_out_of_bounds] ∧
        m2.get (some (tempAt cg 9)) = m.get (some (tempAt cg 9))) ∧
      ((0 ≤ s ∧ s < len) →
        m2.halted = false ∧ m2.pc = (boundsCheckCode cg t0 t3).length ∧ m2.out = m.out ∧
        m2.get (some (tempAt cg 9)) = some (b + 4 * s)) := by
  obtain ⟨cg2, he, hc⟩ := ArrayTail_eq t base sub bl sl t0 t3 cg ht0 ht3
  obtain ⟨m2, hr, hv, hfail, hok⟩ := bounds_run cg t0 t3 m s len b h0 h3 hs hb hlen hrun hpc
  refine ⟨cg2, m2, _, ?_, hc, by simp [boundsCheckCode], hr, hv, ?_, hfail, hok⟩
  · simp only [Expr.Emit, hbase, hsub]
    exact he
  · by_cases c : s < 0 ∨ len ≤ s <;> simp [c]

/-- The access `v[i]` with `i = 5` and an array of length 3: the run of the
bounds check prints the message and halts. -/
theorem ArrayAccess_Emit_spec_witness :
    ∃ m2, Machine.run
        (boundsCheckCode CodeGenerator.new (.plain .gpRelative 12 "i") (.plain .gpRelative 8 "v"))
        16 exMachine = some m2 ∧
      m2.halted = true ∧ m2.out = [err_arr_out_of_bounds] := by
  obtain ⟨_, m2, _, _, _, _, hr, _, _, hfail, _⟩ :=
    ArrayAccess_Emit_spec exHeapVars exParents (.base .intType true) exVarV exVarI
      CodeGenerator.new CodeGenerator.new CodeGenerator.new
      (some (.plain .gpRelative 8 "v")) (some (.plain .gpRelative 12 "i"))
      (.plain .gpRelative 12 "i") (.plain .gpRelative 8 "v") exMachine 5 3 1000
      rfl rfl (fun _ => rfl) (fun _ => rfl)
      ⟨_, _, _, rfl, fun h => nomatch h⟩ ⟨_, _, _, rfl, fun h => nomatch h⟩
      rfl rfl rfl rfl rfl
  exact ⟨m2, hr, (hfail (Or.inr (by decide))).1, (hfail (Or.inr (by decide))).2.1⟩

/-- C28. The allocation of an array, for a size whose value is at hand in the
location `t0` (it needs no load of its own) and any element type, run in a
state where `t0` holds `n`: the emission appends exactly the sequence
`newArrayCode`, and the run ends; when `n <= 0` the message `err_arr_bad_size`
is printed and the run halts with nothing allocated; when `n > 0` nothing is
printed, the run reaches the end of the sequence, `(n + 1) * 4` bytes have been
allocated, the first word of the block holds `n`, the result location holds
the address of the block plus 4, and `Load(result, -4)` into any location
reads `n`. -/
theorem NewArrayExpr_Emit_spec (heap : Heap) (parents : Parents) (t : Option Ty) (size : Expr)
    (elemType : Ty) (cg0 cg : CodeGenerator) (sl : Option Location) (t0 : Location)
    (m : Machine) (n : Int)
    (hsize : size.Emit heap parents cg0 = .ok (sl, cg))
    (ht0 : ∀ c, size.ReturnEmitLocD sl c = .ok (some t0, c))
    (h0 : settled cg t0) (hn : m.get (some t0) = some n)
    (hrun : m.halted = false) (hpc : m.pc = 0) :
    ∃ (cg2 : CodeGenerator) (m2 : Machine),
      (Expr.NewArrayExpr t size elemType).Emit heap parents cg0 =
        .ok (some (tempAt cg 8), cg2) ∧
      cg2.code = cg.code ++ newArrayCode cg t0 ∧
      Machine.run (newArrayCode cg t0) (newArrayCode cg t0).length m = some m2 ∧
      (n ≤ 0 → m2.halted = true ∧ m2.out = m.out ++ [err_arr_bad_size] ∧ m2.brk = m.brk) ∧
      (0 < n →
        m2.halted = false ∧ m2.pc = (newArrayCode cg t0).length ∧ m2.out = m.out ∧
        m2.brk = m.brk + (n + 1) * 4 ∧ m2.mem m.brk = n ∧
        m2.get (some (tempAt cg 8)) = some (m.brk + 4) ∧
        ∀ dst, m2.exec (newArrayCode cg t0) (.Load dst (some (tempAt cg 8)) (-4)) =
          some (m2.set dst n)) := by
  obtain ⟨cg2, he, hc⟩ := NewArrayTail_eq size sl elemType t0 cg ht0
  obtain ⟨m2, hr, hfail, hok⟩ := newArray_run cg t0 m n h0 hn hrun hpc
  refine ⟨cg2, m2, ?_, hc, hr, hfail, hok⟩
  simp only [Expr.Emit, hsize]
  exact he

/-- The expression `NewArray(i, int)` with `i = 5`: 24 bytes are allocated at
the address 2000, the word there is 5 and the result is 2004. -/
theorem NewArrayExpr_Emit_spec_witness :
    ∃ m2, Machine.run (newArrayCode CodeGenerator.new (.plain .gpRelative 12 "i")) 18 exMachine =
        some m2 ∧
      m2.brk = 2024 ∧ m2.mem 2000 = 5 ∧
      m2.get (some (tempAt CodeGenerator.new 8)) = some 2004 := by
  obtain ⟨_, m2, _, _, hr, _, hok⟩ :=
    NewArrayExpr_Emit_spec exHeapVars exParents none exVarI (.base .intType true)
      CodeGenerator.new CodeGenerator.new (some (.plain .gpRelative 12 "i"))
      (.plain .gpRelative 12 "i") exMachine 5 rfl (fun _ => rfl)
      ⟨_, _, _, rfl, fun h => nomatch h⟩ rfl rfl rfl
  obtain ⟨_, _, _, h1, h2, h3, _⟩ := hok (by decide)
  exact ⟨m2, hr, h1, h2, h3⟩

/-! ## Termination of `IsChildOf` and `FindParent` -/

theorem extendsChain_le (heap : Heap) (n m : Nat) (c : ClassDecl) (ch : List ClassDecl)
    (h : extendsChain heap n c = .ok ch) (hnm : n ≤ m) : extendsChain heap m c = .ok ch := by
  induction hnm with
  | refl => exact h
  | step _ ih => exact extendsChain_mono heap _ c ch ih

theorem extendsChain_length (heap : Heap) :
    ∀ (n : Nat) (c : ClassDecl) (ch : List ClassDecl),
      extendsChain heap n c = .ok ch → extendsChain heap ch.length c = .ok ch := by
  intro n
  induction n with
  | zero => intro c ch h; simp [extendsChain] at h
  | succ n ih =>
    intro c ch h
    rw [extendsChain] at h
    cases hext : c.extends_ with
    | none =>
      simp only [hext, Except.ok.injEq] at h
      subst h
      simp [extendsChain, hext]
    | some type =>
      simp only [hext] at h
      cases hcast : castClassDecl (type.id.ReturnCache heap) with
      | none =>
        simp only [hcast, Except.ok.injEq] at h
        subst h
        simp [extendsChain, hext, hcast]
      | some d =>
        simp only [hcast] at h
        cases hrec : extendsChain heap n d with
        | error e => simp [hrec] at h
        | ok chain =>
          simp only [hrec, Except.ok.injEq] at h
          subst h
          simp only [List.length_cons, extendsChain, hext, hcast, ih d chain hrec]

/-- C36. On a class whose `extends` chain ends (it runs into no cycle) and
is resolved to class declarations, `IsChildOf` returns for every argument
- a class, an interface or any other declaration - within as many activations
as the chain has classes, and with any larger budget. -/
theorem IsChildOf_terminates (heap : Heap) (n : Nat) (C : ClassDecl) (chain : List ClassDecl)
    (hchain : extendsChain heap n C = .ok chain)
    (hres : chain.all (fun c => c.extendsResolved heap) = true) (other : Decl) :
    ∀ fuel, chain.length ≤ fuel → ∃ b, C.IsChildOf heap fuel other = .ok b := by
  intro fuel hf
  exact IsChildOf_total heap fuel C chain
    (extendsChain_le heap _ fuel C chain (extendsChain_length heap n C chain hchain) hf) hres other

/-- With `class A {}`, `class B extends A implements I {}`: the chain of `B` has
two classes and two activations answer for a class and for an interface. -/
theorem IsChildOf_terminates_witness :
    (∃ b, exB.IsChildOf exHeap 2 (.cls exA) = .ok b) ∧
    (∃ b, exB.IsChildOf exHeap 2 (.iface exI) = .ok b) :=
  ⟨IsChildOf_terminates exHeap 2 exB [exB, exA] rfl rfl (.cls exA) 2 (Nat.le_refl _),
    IsChildOf_terminates exHeap 5 exB [exB, exA] rfl rfl (.iface exI) 2 (Nat.le_refl _)⟩

theorem FindParent_loop_stuck (st : STable) (key parent : String) (s : Scope)
    (hp : s.parent = some parent) (hn : st.SearchScopeOwner parent = none) :
    ∀ fuel, STable.FindParent.loop st key fuel s = .error .fuel := by
  intro fuel
  induction fuel with
  | zero => simp [STable.FindParent.loop, Scope.HasParent, hp]
  | succ n ih => simp only [STable.FindParent.loop, hp, hn, ih]

/-- C37, the failing input.  In the table of `class C extends U { int x; }`
with `U` not declared and the scope of `C` current, the parent-owner chain of
the current scope is empty, `LookForField` and `Lookup` return none for a name
that is not bound, and `FindParent` does not return within any step budget. -/
theorem FindParent_undeclared_parent :
    exTableOrphan.SearchScopeOwner "U" = none ∧
    exTableOrphan.parentChain 1 1 = .ok [] ∧
    exTableOrphan.LookForField 1 "C" "y" = .ok none ∧
    exTableOrphan.Lookup 1 "y" = .ok none ∧
    (∀ fuel : Nat, exTableOrphan.FindParent fuel "x" = .error .fuel) ∧
    (∀ fuel : Nat, exTableOrphan.FindParent fuel "y" = .error .fuel) := by
  refine ⟨rfl, rfl, rfl, rfl, fun fuel => ?_, fun fuel => ?_⟩
  · exact FindParent_loop_stuck exTableOrphan "x" "U" _ rfl rfl fuel
  · exact FindParent_loop_stuck exTableOrphan "y" "U" _ rfl rfl fuel

/-! ## Layout along inheritance -/

theorem ownVars_erase (ms : List Member) :
    ownVars (ms.map Member.eraseLayout) = (ownVars ms).map VarDecl.eraseLayout := by
  induction ms with
  | nil => rfl
  | cons m rest ih => cases m <;> simp [ownVars, Member.eraseLayout, ih]

theorem chainVars_erase :
    ∀ ch1 ch2 : List ClassDecl,
      ch1.map ClassDecl.eraseLayout = ch2.map ClassDecl.eraseLayout →
      (chainVars ch1).map VarDecl.eraseLayout = (chainVars ch2).map VarDecl.eraseLayout := by
  intro ch1
  induction ch1 with
  | nil =>
    intro ch2 h
    cases ch2 with
    | nil => rfl
    | cons c rest => simp at h
  | cons c1 r1 ih =>
    intro ch2 h
    cases ch2 with
    | nil => simp at h
    | cons c2 r2 =>
      simp only [List.map_cons, List.cons.injEq] at h
      have hm : c1.members.map Member.eraseLayout = c2.members.map Member.eraseLayout := by
        have := congrArg ClassDecl.members h.1
        simpa [ClassDecl.eraseLayout] using this
      simp only [chainVars, List.map_append, ih r2 h.2, ← ownVars_erase, hm]

/-- C38. Let the `extends` chain of `C` end within the step budget and `P2` be
a class further up the chain; the layout of that class may have been made in
another state of the program (`heapP`, where it reads `P`), differing from the
present one only in the fields the layout writes.  Then `OffsetAssign` returns
on both, the method names of `P.fn_members` are a leading part of the method
names of `C.fn_members`, and `P.var_members` is a leading part of
`C.var_members` - the same nodes, compared up to the fields the layout
writes, and literally so when both layouts are made in the same state.  Hence
the name at slot `k` of `P` is the name at slot `k` of `C`, and the field at
index `j` of `P` is the field at index `j` of `C`. -/
theorem layout_inheritance_spec (heapP heapC : Heap) (fuel : Nat) (C : ClassDecl)
    (rest : List ClassDecl) (P P2 : ClassDecl)
    (hheap : heapP.map Decl.eraseLayout = heapC.map Decl.eraseLayout)
    (hchain : extendsChain heapC fuel C = .ok (C :: rest)) (hP2 : P2 ∈ rest)
    (hP : P.eraseLayout = P2.eraseLayout) :
    ∃ CC CP : ClassDecl,
      C.OffsetAssign heapC fuel = .ok CC ∧ P.OffsetAssign heapP fuel = .ok CP ∧
      fnNames CP.fn_members <+: fnNames CC.fn_members ∧
      CP.var_members.map VarDecl.eraseLayout <+: CC.var_members.map VarDecl.eraseLayout ∧
      (heapP = heapC → P = P2 → CP.var_members <+: CC.var_members) ∧
      (∀ (k : Nat) (name : String), (fnNames CP.fn_members)[k]? = some name →
        (fnNames CC.fn_members)[k]? = some name) ∧
      (∀ (j : Nat) (v : VarDecl), CP.var_members[j]? = some v →
        ∃ w, CC.var_members[j]? = some w ∧ w.eraseLayout = v.eraseLayout) := by
  obtain ⟨pre, chP2, hchP2, hsplit⟩ :=
    extendsChain_of_mem heapC fuel C (C :: rest) P2 hchain (List.mem_cons_of_mem _ hP2)
  obtain ⟨chP, hchP, hmap⟩ :=
    extendsChain_erase heapC heapP hheap.symm fuel P2 P chP2 hP.symm hchP2
  have hnames : fnNames (layoutFns (chainFns chP)) = fnNames (layoutFns (chainFns chP2)) :=
    fnNames_layoutFns_congr _ _ (chain_erase_names chP2 chP hmap).1.symm
  have hvars : (chainVars chP).map VarDecl.eraseLayout =
      (chainVars chP2).map VarDecl.eraseLayout := (chainVars_erase chP2 chP hmap).symm
  have hfns : chainFns (C :: rest) = chainFns chP2 ++ chainFns pre := by
    rw [hsplit, chainFns_append]
  have hvs : chainVars (C :: rest) = chainVars chP2 ++ chainVars pre := by
    rw [hsplit]
    clear hsplit hchP2 hmap hnames hvars hfns
    induction pre with
    | nil => simp [chainVars]
    | cons c r ih => simp [chainVars, ih]
  obtain ⟨t, ht⟩ := fnNames_layoutFns_append (chainFns chP2) (chainFns pre)
  have h1 : fnNames (layoutFns (chainFns chP)) <+: fnNames (layoutFns (chainFns (C :: rest))) :=
    ⟨t, by rw [hfns, ht, hnames]⟩
  have h2 : (chainVars chP).map VarDecl.eraseLayout <+:
      (chainVars (C :: rest)).map VarDecl.eraseLayout :=
    ⟨(chainVars pre).map VarDecl.eraseLayout, by rw [hvs, hvars, List.map_append]⟩
  refine ⟨_, _, OffsetAssign_eq heapC fuel C _ hchain, OffsetAssign_eq heapP fuel P _ hchP,
    h1, h2, ?_, ?_, ?_⟩
  · intro hh hPP
    subst hh; subst hPP
    have : chP = chP2 := by
      have := hchP.symm.trans hchP2
      simpa using this
    subst this
    exact ⟨chainVars pre, hvs.symm⟩
  · intro k name hk
    obtain ⟨t2, ht2⟩ := h1
    simp only at hk ⊢
    rw [← ht2]
    rw [List.getElem?_append_left (List.getElem?_eq_some.mp hk).1]
    exact hk
  · intro j v hj
    obtain ⟨t2, ht2⟩ := h2
    simp only at hj ⊢
    have hj2 : ((chainVars chP).map VarDecl.eraseLayout)[j]? = some v.eraseLayout := by
      simp [List.getElem?_map, hj]
    have hj3 : ((chainVars (C :: rest)).map VarDecl.eraseLayout)[j]? = some v.eraseLayout := by
      rw [← ht2, List.getElem?_append_left (List.getElem?_eq_some.mp hj2).1]
      exact hj2
    rw [List.getElem?_map] at hj3
    cases hw : (chainVars (C :: rest))[j]? with
    | none => simp [hw] at hj3
    | some w =>
      refine ⟨w, rfl, ?_⟩
      simpa [hw] using hj3

/-- With `class P { int x; void f(int a); void g(int a); }` and
`class Q extends P { int y; void h(int b); int z; void g(int b); }`, the
layout of `Q` made after that of `P`: both return, and names and fields of
`P` lead those of `Q`. -/
theorem layout_inheritance_spec_witness :
    ∃ CC CP : ClassDecl,
      exQ.OffsetAssign exHeap3 2 = .ok CC ∧ exP.OffsetAssign exHeap2 2 = .ok CP ∧
      fnNames CP.fn_members <+: fnNames CC.fn_members ∧
      CP.var_members.map VarDecl.eraseLayout <+: CC.var_members.map VarDecl.eraseLayout := by
  obtain ⟨CC, CP, h1, h2, h3, h4, _, _, _⟩ :=
    layout_inheritance_spec exHeap2 exHeap3 2 exQ [exPlaid] exP exPlaid rfl rfl
      (List.mem_singleton.mpr rfl) rfl
  exact ⟨CC, CP, h1, h2, h3, h4⟩

namespace P3

/-! ## Type equivalence of P3 -/

theorem named_IsEqual (a : String) (t : Ty) : (Ty.named a).IsEqual t = true ↔ t = .named a := by
  cases t <;> simp [Ty.IsEqual]

theorem loop_named (globalScp : GlobalScp) (t : Ty) :
    ∀ (n : Nat) (a : String), NamedType.IsEquivalentTo.loop globalScp t n a = .ok true →
      t.isNamed = true := by
  intro n
  induction n with
  | zero =>
    intro a h
    simp only [NamedType.IsEquivalentTo.loop] at h
    cases hl : globalScp.Lookup a <;> simp [hl] at h
  | succ n ih =>
    intro a h
    simp only [NamedType.IsEquivalentTo.loop] at h
    cases hl : globalScp.Lookup a with
    | none => simp [hl] at h
    | some dec =>
      cases dec with
      | cls cl =>
        simp only [hl] at h
        by_cases himp : cl.implements.any (fun imp => (Ty.named imp).IsEqual t) = true
        · obtain ⟨imp, _, himp2⟩ := List.any_eq_true.mp himp
          rw [(named_IsEqual imp t).mp himp2]
          rfl
        · simp only [himp] at h
          cases he : cl.extends_ with
          | none => simp [he] at h
          | some ext =>
            simp only [he] at h
            by_cases hx : (Ty.named ext).IsEqual t = true
            · rw [(named_IsEqual ext t).mp hx]
              rfl
            · simp only [hx] at h
              exact ih ext h
      | var v => simp [hl] at h
      | fn f => simp [hl] at h
      | iface i => simp [hl] at h

theorem loop_mono (globalScp : GlobalScp) (t : Ty) (k : Nat) :
    ∀ (n : Nat) (a : String) (r : Bool),
      NamedType.IsEquivalentTo.loop globalScp t n a = .ok r →
      NamedType.IsEquivalentTo.loop globalScp t (n + k) a = .ok r := by
  intro n
  induction n with
  | zero =>
    intro a r h
    simp only [NamedType.IsEquivalentTo.loop] at h
    cases hl : globalScp.Lookup a with
    | some d => simp [hl] at h
    | none =>
      simp only [hl, Except.ok.injEq] at h
      subst h
      cases k <;> simp [NamedType.IsEquivalentTo.loop, hl]
  | succ n ih =>
    intro a r h
    rw [show n + 1 + k = (n + k) + 1 by omega]
    simp only [NamedType.IsEquivalentTo.loop] at h ⊢
    cases hl : globalScp.Lookup a with
    | none => simpa [hl] using h
    | some dec =>
      cases dec with
      | cls cl =>
        simp only [hl] at h ⊢
        by_cases himp : cl.implements.any (fun imp => (Ty.named imp).IsEqual t) = true
        · simpa [himp] using h
        · simp only [himp] at h ⊢
          cases he : cl.extends_ with
          | none => simpa [he] using h
          | some ext =>
            simp only [he] at h ⊢
            by_cases hx : (Ty.named ext).IsEqual t = true
            · simpa [hx] using h
            · simp only [hx] at h ⊢
              exact ih ext r h
      | var v => simpa [hl] using h
      | fn f => simpa [hl] using h
      | iface i => simpa [hl] using h

theorem loop_mono_left (globalScp : GlobalScp) (t : Ty) (k n : Nat) (a : String) (r : Bool)
    (h : NamedType.IsEquivalentTo.loop globalScp t n a = .ok r) :
    NamedType.IsEquivalentTo.loop globalScp t (k + n) a = .ok r := by
  rw [Nat.add_comm]
  exact loop_mono globalScp t k n a r h

theorem loop_class (globalScp : GlobalScp) (t : Ty) (n : Nat) (a : String)
    (h : NamedType.IsEquivalentTo.loop globalScp t n a = .ok true) :
    ∃ cl : ClassDecl, globalScp.Lookup a = some (.cls cl) := by
  cases n with
  | zero =>
    simp only [NamedType.IsEquivalentTo.loop] at h
    cases hl : globalScp.Lookup a <;> simp [hl] at h
  | succ n =>
    simp only [NamedType.IsEquivalentTo.loop] at h
    cases hl : globalScp.Lookup a with
    | none => simp [hl] at h
    | some dec =>
      cases dec with
      | cls cl => exact ⟨cl, rfl⟩
      | var v => simp [hl] at h
      | fn f => simp [hl] at h
      | iface i => simp [hl] at h

theorem loop_trans (globalScp : GlobalScp) (hwf : globalScp.implementsNoClass) (t : Ty)
    (m : Nat) (b : String)
    (h2 : NamedType.IsEquivalentTo.loop globalScp t m b = .ok true) :
    ∀ (n : Nat) (a : String),
      NamedType.IsEquivalentTo.loop globalScp (.named b) n a = .ok true →
      NamedType.IsEquivalentTo.loop globalScp t (n + m) a = .ok true := by
  intro n
  induction n with
  | zero =>
    intro a h
    simp only [NamedType.IsEquivalentTo.loop] at h
    cases hl : globalScp.Lookup a <;> simp [hl] at h
  | succ n ih =>
    intro a h
    rw [show n + 1 + m = (n + m) + 1 by omega]
    simp only [NamedType.IsEquivalentTo.loop] at h ⊢
    cases hl : globalScp.Lookup a with
    | none => simp [hl] at h
    | some dec =>
      cases dec with
      | cls cl =>
        simp only [hl] at h ⊢
        by_cases himpb : cl.implements.any (fun imp => (Ty.named imp).IsEqual (.named b)) = true
        · exfalso
          obtain ⟨imp, himp, himp2⟩ := List.any_eq_true.mp himpb
          have hib : imp = b := by
            have := (named_IsEqual imp (.named b)).mp himp2
            simpa using this.symm
          subst hib
          obtain ⟨c2, hc2⟩ := loop_class globalScp t m imp h2
          exact hwf a cl hl imp himp c2 hc2
        · simp only [himpb] at h
          by_cases himp : cl.implements.any (fun imp => (Ty.named imp).IsEqual t) = true
          · simp [himp]
          · simp only [himp]
            cases he : cl.extends_ with
            | none => simp [he] at h
            | some ext =>
              simp only [he] at h ⊢
              by_cases hx : (Ty.named ext).IsEqual t = true
              · simp [hx]
              · simp only [hx]
                by_cases hxb : (Ty.named ext).IsEqual (.named b) = true
                · have heb : ext = b := by
                    have := (named_IsEqual ext (.named b)).mp hxb
                    simpa using this.symm
                  subst heb
                  exact loop_mono_left globalScp t n m ext true h2
                · simp only [hxb] at h
                  exact ih ext h
      | var v => simp [hl] at h
      | fn f => simp [hl] at h
      | iface i => simp [hl] at h

theorem Ty_mono (globalScp : GlobalScp) (k : Nat) :
    ∀ (t1 t2 : Ty) (n : Nat) (r : Bool), t1.IsEquivalentTo globalScp n t2 = .ok r →
      t1.IsEquivalentTo globalScp (n + k) t2 = .ok r := by
  intro t1
  induction t1 with
  | base b => intro t2 n r h; simpa [Ty.IsEquivalentTo] using h
  | named a =>
    intro t2 n r h
    simp only [Ty.IsEquivalentTo] at h ⊢
    by_cases hx : (Ty.named a).IsEqual t2 = true
    · simpa [hx] using h
    · simp only [hx] at h ⊢
      exact loop_mono globalScp t2 k n a r h
  | array e ih =>
    intro t2 n r h
    cases t2 with
    | array e2 =>
      simp only [Ty.IsEquivalentTo] at h ⊢
      exact ih e2 n r h
    | base b => simpa [Ty.IsEquivalentTo] using h
    | named a => simpa [Ty.IsEquivalentTo] using h

theorem Ty_mono_left (globalScp : GlobalScp) (k : Nat) (t1 t2 : Ty) (n : Nat) (r : Bool)
    (h : t1.IsEquivalentTo globalScp n t2 = .ok r) :
    t1.IsEquivalentTo globalScp (k + n) t2 = .ok r := by
  rw [Nat.add_comm]
  exact Ty_mono globalScp k t1 t2 n r h

theorem named_true (globalScp : GlobalScp) (a : String) (t : Ty) (n : Nat)
    (h : (Ty.named a).IsEquivalentTo globalScp n t = .ok true) : t.isNamed = true := by
  simp only [Ty.IsEquivalentTo] at h
  by_cases hx : (Ty.named a).IsEqual t = true
  · rw [(named_IsEqual a t).mp hx]; rfl
  · simp only [hx] at h
    exact loop_named globalScp t n a h

theorem Ty_trans (globalScp : GlobalScp) (hwf : globalScp.implementsNoClass) :
    ∀ (t1 t2 t3 : Ty) (n m : Nat), t2.noError = true →
      t1.IsEquivalentTo globalScp n t2 = .ok true →
      t2.IsEquivalentTo globalScp m t3 = .ok true →
      t1.IsEquivalentTo globalScp (n + m) t3 = .ok true := by
  intro t1
  induction t1 with
  | base b =>
    intro t2 t3 n m hne h1 h2
    by_cases hb : b = .errorType
    · subst hb; simp [Ty.IsEquivalentTo, Ty.IsEqual]
    · cases t2 with
      | base b2 =>
        have hb2 : b2 ≠ .errorType := by simpa [Ty.noError] using hne
        have : b = b2 := by
          simpa [Ty.IsEquivalentTo, Ty.IsEqual, hb, hb2, Ty.isNamed] using h1
        subst this
        simpa [Ty.IsEquivalentTo] using h2
      | named a =>
        have hnull : b = .nullType := by
          by_contra hn
          simp [Ty.IsEquivalentTo, Ty.IsEqual, hb, hn, Ty.isNamed] at h1
        subst hnull
        have h3 := named_true globalScp a t3 m h2
        cases t3 with
        | named c => simp [Ty.IsEquivalentTo, Ty.IsEqual, Ty.isNamed]
        | base c => simp [Ty.isNamed] at h3
        | array c => simp [Ty.isNamed] at h3
      | array e =>
        simp [Ty.IsEquivalentTo, Ty.IsEqual, hb, Ty.isNamed] at h1
  | named a =>
    intro t2 t3 n m hne h1 h2
    have hn2 := named_true globalScp a t2 n h1
    cases t2 with
    | base c => simp [Ty.isNamed] at hn2
    | array c => simp [Ty.isNamed] at hn2
    | named b =>
      by_cases hab : (Ty.named a).IsEqual (.named b) = true
      · have : (Ty.named b) = .named a := (named_IsEqual a (.named b)).mp hab
        rw [this] at h2
        exact Ty_mono_left globalScp n _ _ m true h2
      · simp only [Ty.IsEquivalentTo, hab] at h1
        by_cases hbc : (Ty.named b).IsEqual t3 = true
        · have h3 : t3 = .named b := (named_IsEqual b t3).mp hbc
          subst h3
          simp only [Ty.IsEquivalentTo, hab]
          exact loop_mono globalScp _ m n a true h1
        · simp only [Ty.IsEquivalentTo, hbc] at h2
          simp only [Ty.IsEquivalentTo]
          by_cases hac : (Ty.named a).IsEqual t3 = true
          · simp [hac]
          · simp only [hac]
            exact loop_trans globalScp hwf t3 m b h2 n a h1
  | array e ih =>
    intro t2 t3 n m hne h1 h2
    cases t2 with
    | base c => simp [Ty.IsEquivalentTo] at h1
    | named c => simp [Ty.IsEquivalentTo] at h1
    | array e2 =>
      cases t3 with
      | base c => simp [Ty.IsEquivalentTo] at h2
      | named c => simp [Ty.IsEquivalentTo] at h2
      | array e3 =>
        simp only [Ty.IsEquivalentTo] at h1 h2 ⊢
        exact ih e2 e3 n m (by simpa [Ty.noError] using hne) h1 h2

theorem Ty_symm_primitive (globalScp : GlobalScp) (fuel : Nat) :
    ∀ t1 t2 : Ty, t1.primitive = true → t2.primitive = true →
      t1.IsEquivalentTo globalScp fuel t2 = t2.IsEquivalentTo globalScp fuel t1 ∧
      ∃ r, t1.IsEquivalentTo globalScp fuel t2 = .ok r := by
  intro t1
  induction t1 with
  | base b =>
    intro t2 h1 h2
    cases t2 with
    | base b2 =>
      simp only [Ty.primitive, Bool.and_eq_true, bne_iff_ne, ne_eq] at h1 h2
      refine ⟨?_, ?_⟩
      · by_cases h : b = b2
        · subst h; rfl
        · have h3 : ¬ b2 = b := fun e => h e.symm
          simp [Ty.IsEquivalentTo, Ty.IsEqual, h1.1, h1.2, h2.1, h2.2, Ty.isNamed, h, h3]
      · simp [Ty.IsEquivalentTo, Ty.IsEqual, h1.1, h1.2, h2.1, h2.2, Ty.isNamed]
    | named a => simp [Ty.primitive] at h2
    | array e =>
      simp only [Ty.primitive, Bool.and_eq_true, bne_iff_ne, ne_eq] at h1
      simp [Ty.IsEquivalentTo, Ty.IsEqual, h1.1, h1.2, Ty.isNamed]
  | named a => intro t2 h1; simp [Ty.primitive] at h1
  | array e ih =>
    intro t2 h1 h2
    cases t2 with
    | base b2 =>
      simp only [Ty.primitive, Bool.and_eq_true, bne_iff_ne, ne_eq] at h2
      simp [Ty.IsEquivalentTo, Ty.IsEqual, h2.1, h2.2, Ty.isNamed]
    | named a => simp [Ty.primitive] at h2
    | array e2 =>
      simp only [Ty.IsEquivalentTo]
      exact ih e2 (by simpa [Ty.primitive] using h1) (by simpa [Ty.primitive] using h2)

/-! ## Signature equivalence of P3 -/

theorem formals_trans (globalScp : GlobalScp) (hwf : globalScp.implementsNoClass) (n m : Nat) :
    ∀ fs gs hs : List VarDecl, (∀ v ∈ gs, v.type.noError = true) →
      fs.length = gs.length → gs.length = hs.length →
      FnDecl.IsEquivalentTo.loop globalScp n fs gs = .ok true →
      FnDecl.IsEquivalentTo.loop globalScp m gs hs = .ok true →
      FnDecl.IsEquivalentTo.loop globalScp (n + m) fs hs = .ok true := by
  intro fs
  induction fs with
  | nil => intro gs hs _ _ _ _ _; cases hs <;> rfl
  | cons v rest ih =>
    intro gs hs hne hl1 hl2 h1 h2
    cases gs with
    | nil => simp at hl1
    | cons w rest2 =>
      cases hs with
      | nil => simp at hl2
      | cons x rest3 =>
        simp only [FnDecl.IsEquivalentTo.loop, VarDecl.IsEquivalentTo] at h1 h2 ⊢
        cases hvw : v.type.IsEquivalentTo globalScp n w.type with
        | error e => simp [hvw] at h1
        | ok r1 =>
          cases r1 with
          | false => simp [hvw] at h1
          | true =>
            simp only [hvw] at h1
            cases hwx : w.type.IsEquivalentTo globalScp m x.type with
            | error e => simp [hwx] at h2
            | ok r2 =>
              cases r2 with
              | false => simp [hwx] at h2
              | true =>
                simp only [hwx] at h2
                have hvx := Ty_trans globalScp hwf v.type w.type x.type n m
                  (hne w (List.mem_cons_self _ _)) hvw hwx
                simp only [hvx]
                exact ih rest2 rest3 (fun u hu => hne u (List.mem_cons_of_mem _ hu))
                  (by simpa using hl1) (by simpa using hl2) h1 h2

theorem formals_symm (globalScp : GlobalScp) (fuel : Nat) :
    ∀ fs gs : List VarDecl, (∀ v ∈ fs, v.type.primitive = true) →
      (∀ v ∈ gs, v.type.primitive = true) → fs.length = gs.length →
      FnDecl.IsEquivalentTo.loop globalScp fuel fs gs =
        FnDecl.IsEquivalentTo.loop globalScp fuel gs fs := by
  intro fs
  induction fs with
  | nil =>
    intro gs _ _ hl
    cases gs with
    | nil => rfl
    | cons w r => simp at hl
  | cons v rest ih =>
    intro gs hf hg hl
    cases gs with
    | nil => simp at hl
    | cons w rest2 =>
      obtain ⟨hs, r, hr⟩ := Ty_symm_primitive globalScp fuel v.type w.type
        (hf v (List.mem_cons_self _ _)) (hg w (List.mem_cons_self _ _))
      simp only [FnDecl.IsEquivalentTo.loop, VarDecl.IsEquivalentTo, ← hs, hr]
      cases r with
      | false => rfl
      | true =>
        exact ih rest2 (fun u hu => hf u (List.mem_cons_of_mem _ hu))
          (fun u hu => hg u (List.mem_cons_of_mem _ hu)) (by simpa using hl)

theorem exScp_implementsNoClass : exScp.implementsNoClass := by
  intro name cl h imp himp c2 h2
  have himpI : imp = "I" := by
    simp only [exScp, GlobalScp.Lookup] at h
    split_ifs at h <;> simp at h <;> subst h <;> simp at himp
    exact himp
  subst himpI
  simp [exScp, GlobalScp.Lookup] at h2

/-- C32 (as the code has it).  In a program whose `implements` lists name no
class, `FnDecl::IsEquivalentTo` is transitive, also when return or formal
types are class types related by `extends`: if `f` is equivalent to `g` within
`n` steps and `g` to `h` within `m` steps, `g` carrying no error type, then `f`
is equivalent to `h` within `n + m` steps.  It is symmetric on functions whose
return and formal types are built from primitive types and arrays of them;
for class types related by `extends` it holds from the subclass to the
superclass only. -/
theorem FnDecl_IsEquivalentTo_spec (globalScp : GlobalScp)
    (hwf : globalScp.implementsNoClass) :
    (∀ (f g h : FnDecl) (n m : Nat), g.noError = true →
      f.IsEquivalentTo globalScp n (.fn g) = .ok true →
      g.IsEquivalentTo globalScp m (.fn h) = .ok true →
      f.IsEquivalentTo globalScp (n + m) (.fn h) = .ok true) ∧
    (∀ (f g : FnDecl) (fuel : Nat), f.primitive = true → g.primitive = true →
      f.IsEquivalentTo globalScp fuel (.fn g) = g.IsEquivalentTo globalScp fuel (.fn f)) := by
  refine ⟨?_, ?_⟩
  · intro f g h n m hne h1 h2
    simp only [FnDecl.noError, Bool.and_eq_true, List.all_eq_true] at hne
    simp only [FnDecl.IsEquivalentTo] at h1 h2 ⊢
    cases hr1 : f.returnType.IsEquivalentTo globalScp n g.returnType with
    | error e => simp [hr1] at h1
    | ok r1 =>
      cases r1 with
      | false => simp [hr1] at h1
      | true =>
        simp only [hr1] at h1
        cases hr2 : g.returnType.IsEquivalentTo globalScp m h.returnType with
        | error e => simp [hr2] at h2
        | ok r2 =>
          cases r2 with
          | false => simp [hr2] at h2
          | true =>
            simp only [hr2] at h2
            have hl1 : f.formals.length = g.formals.length := by
              by_contra hc
              simp [hc] at h1
            have hl2 : g.formals.length = h.formals.length := by
              by_contra hc
              simp [hc] at h2
            simp only [hl1, bne_self_eq_false, Bool.false_eq_true, if_false] at h1
            simp only [hl2, bne_self_eq_false, Bool.false_eq_true, if_false] at h2
            simp only [Ty_trans globalScp hwf _ _ _ n m hne.1 hr1 hr2, hl1.trans hl2,
              bne_self_eq_false, Bool.false_eq_true, if_false]
            exact formals_trans globalScp hwf n m _ _ _ hne.2 hl1 hl2 h1 h2
  · intro f g fuel hf hg
    simp only [FnDecl.primitive, Bool.and_eq_true, List.all_eq_true] at hf hg
    obtain ⟨hs, r, hr⟩ := Ty_symm_primitive globalScp fuel f.returnType g.returnType hf.1 hg.1
    simp only [FnDecl.IsEquivalentTo, ← hs, hr]
    cases r with
    | false => rfl
    | true =>
      by_cases hl : f.formals.length = g.formals.length
      · simp only [hl, bne_self_eq_false, Bool.false_eq_true, if_false]
        exact formals_symm globalScp fuel _ _ hf.2 hg.2 hl
      · have hl2 : ¬ g.formals.length = f.formals.length := fun e => hl e.symm
        simp [hl, hl2]

/-- With `class A {} class B extends A {} class C extends B implements I {}`:
`C f(C x)` is equivalent to `B f(B x)` and that to `A f(A x)`, hence `C f(C x)`
to `A f(A x)`; and `int[] g(bool b)` and `int[] h(bool c)` compare alike in
both orders. -/
theorem FnDecl_IsEquivalentTo_spec_witness :
    exFnC.IsEquivalentTo exScp (1 + 1) (.fn exFnA) = .ok true ∧
    exFnPrim.IsEquivalentTo exScp 0 (.fn exFnPrim2) =
      exFnPrim2.IsEquivalentTo exScp 0 (.fn exFnPrim) :=
  ⟨(FnDecl_IsEquivalentTo_spec exScp exScp_implementsNoClass).1 exFnC exFnB exFnA 1 1 rfl rfl rfl,
    (FnDecl_IsEquivalentTo_spec exScp exScp_implementsNoClass).2 exFnPrim exFnPrim2 0 rfl rfl⟩

/-- C32, counterexample.  With `class A {}` and `class B extends A {}`, the
function `B f(B x)` is equivalent to `A f(A x)`, and `A f(A x)` is not
equivalent to `B f(B x)`, within any step budget that lets the calls return. -/
theorem FnDecl_IsEquivalentTo_counterexample :
    (∀ fuel : Nat, exFnB.IsEquivalentTo exScp (fuel + 1) (.fn exFnA) = .ok true) ∧
    (∀ fuel : Nat, exFnA.IsEquivalentTo exScp (fuel + 1) (.fn exFnB) = .ok false) :=
  ⟨fun _ => rfl, fun _ => rfl⟩

theorem loop_not_true (globalScp : GlobalScp) (t : Ty) (ht : t.isNamed = false) (n : Nat)
    (a : String) : NamedType.IsEquivalentTo.loop globalScp t n a ≠ .ok true := by
  intro h
  rw [loop_named globalScp t n a h] at ht
  exact Bool.noConfusion ht

/-- C33, the failing inputs.  The error type as the receiver is equivalent
to every type, and a primitive type as the receiver is equivalent to the
error type; a named type or an array type as the receiver is not: the call
`T.IsEquivalentTo(errorType)` never returns true for a named `T`, and returns
false for a declared class `A` and for every array type. -/
theorem IsEquivalentTo_errorType :
    (∀ (globalScp : GlobalScp) (fuel : Nat) (T : Ty),
      (Ty.base .errorType).IsEquivalentTo globalScp fuel T = .ok true) ∧
    (∀ (globalScp : GlobalScp) (fuel : Nat) (b : Builtin),
      (Ty.base b).IsEquivalentTo globalScp fuel (.base .errorType) = .ok true) ∧
    (∀ (globalScp : GlobalScp) (fuel : Nat) (id : String),
      (Ty.named id).IsEquivalentTo globalScp fuel (.base .errorType) ≠ .ok true) ∧
    (∀ fuel : Nat, (Ty.named "A").IsEquivalentTo exScp (fuel + 1) (.base .errorType) = .ok false) ∧
    (∀ (globalScp : GlobalScp) (fuel : Nat) (elemType : Ty),
      (Ty.array elemType).IsEquivalentTo globalScp fuel (.base .errorType) = .ok false) := by
  refine ⟨?_, ?_, ?_, fun _ => rfl, fun _ _ _ => rfl⟩
  · intro globalScp fuel T
    simp [Ty.IsEquivalentTo, Ty.IsEqual]
  · intro globalScp fuel b
    simp [Ty.IsEquivalentTo, Ty.IsEqual]
  · intro globalScp fuel id
    simp only [Ty.IsEquivalentTo, Ty.IsEqual, Bool.false_eq_true, if_false]
    exact loop_not_true globalScp (.base .errorType) rfl fuel id

end P3

/-! ## Labels are distinct -/

theorem digitChar_val : ∀ k : Nat, k < 10 → (Nat.digitChar k).toNat - 48 = k := by
  decide

theorem foldl_toDigitsCore :
    ∀ (fuel n : Nat) (ds : List Char), n < fuel →
      (Nat.toDigitsCore 10 fuel n ds).foldl (fun acc c => acc * 10 + (c.toNat - 48)) 0 =
        ds.foldl (fun acc c => acc * 10 + (c.toNat - 48)) n := by
  intro fuel
  induction fuel with
  | zero => intro n ds h; omega
  | succ fuel ih =>
    intro n ds h
    simp only [Nat.toDigitsCore]
    by_cases h0 : n / 10 = 0
    · simp only [h0, if_true, List.foldl_cons, Nat.zero_mul, Nat.zero_add]
      have hn : n < 10 := by omega
      rw [digitChar_val (n % 10) (Nat.mod_lt _ (by decide)), Nat.mod_eq_of_lt hn]
    · simp only [h0, if_false]
      rw [ih (n / 10) _ (by omega)]
      simp only [List.foldl_cons]
      rw [digitChar_val (n % 10) (Nat.mod_lt _ (by decide))]
      congr 1
      omega

theorem toString_nat_inj (a b : Nat) (h : toString a = toString b) : a = b := by
  have h2 : (Nat.toDigits 10 a) = (Nat.toDigits 10 b) := by
    have : (Nat.repr a) = (Nat.repr b) := h
    simp only [Nat.repr] at this
    exact congrArg String.data this
  have ha := foldl_toDigitsCore (a + 1) a [] (Nat.lt_succ_self a)
  have hb := foldl_toDigitsCore (b + 1) b [] (Nat.lt_succ_self b)
  simp only [List.foldl_nil] at ha hb
  rw [← ha, ← hb]
  exact congrArg _ h2

theorem label_inj (a b : Nat) (h : "_L" ++ toString a = "_L" ++ toString b) : a = b := by
  apply toString_nat_inj
  have := congrArg String.data h
  simp only [String.data_append] at this
  exact String.ext (List.append_cancel_left this)

/-! ## Emission never takes a label back -/

theorem labelLe_refl (cg : CodeGenerator) : cg.labelLe cg := Nat.le_refl _

theorem labelLe_trans {a b c : CodeGenerator} (h1 : a.labelLe b) (h2 : b.labelLe c) :
    a.labelLe c := Nat.le_trans h1 h2

theorem labelLe_push (cg : CodeGenerator) (i : Instr) : cg.labelLe (cg.push i) := Nat.le_refl _

theorem labelLe_GenLoadConstant (cg : CodeGenerator) (v : Int) :
    cg.labelLe (cg.GenLoadConstant v).2 := Nat.le_refl _

theorem labelLe_GenLoadStringConstant (cg : CodeGenerator) (s : String) :
    cg.labelLe (cg.GenLoadStringConstant s).2 := Nat.le_refl _

theorem labelLe_GenLoadLabel (cg : CodeGenerator) (s : String) :
    cg.labelLe (cg.GenLoadLabel s).2 := Nat.le_refl _

theorem labelLe_GenLoad (cg : CodeGenerator) (r : Option Location) (o : Int) :
    cg.labelLe (cg.GenLoad r o).2 := Nat.le_refl _

theorem labelLe_GenBinaryOp (cg : CodeGenerator) (op : String) (a b : Option Location) :
    cg.labelLe (cg.GenBinaryOp op a b).2 := Nat.le_refl _

theorem labelLe_NewLabel (cg : CodeGenerator) : cg.labelLe cg.NewLabel.2 := Nat.le_succ _

theorem labelLe_GenLCall (cg : CodeGenerator) (l : String) (b : Bool) :
    cg.labelLe (cg.GenLCall l b).2 := by
  cases b <;> exact Nat.le_refl _

theorem labelLe_GenACall (cg : CodeGenerator) (l : Option Location) (b : Bool) :
    cg.labelLe (cg.GenACall l b).2 := by
  cases b <;> exact Nat.le_refl _

theorem labelLe_GenPopParams (cg cg2 : CodeGenerator) (n : Int)
    (h : cg.GenPopParams n = .ok cg2) : cg.labelLe cg2 := by
  unfold CodeGenerator.GenPopParams at h
  split at h
  · cases h
  · split at h
    · simp only [Except.ok.injEq] at h; subst h; exact labelLe_push _ _
    · simp only [Except.ok.injEq] at h; subst h; exact labelLe_refl _

theorem labelLe_GenBuiltInCall (cg cg2 : CodeGenerator) (bn : BuiltIn)
    (a1 a2 r : Option Location) (h : cg.GenBuiltInCall bn a1 a2 = .ok (r, cg2)) :
    cg.labelLe cg2 := by
  unfold CodeGenerator.GenBuiltInCall at h
  simp only at h
  split at h
  · cases h
  · split at h
    · cases h
    · rename_i cg4 hpop
      simp only [Except.ok.injEq, Prod.mk.injEq] at h
      obtain ⟨_, h⟩ := h
      subst h
      refine labelLe_trans ?_ (labelLe_GenPopParams _ _ _ hpop)
      refine labelLe_trans ?_ (labelLe_push _ _)
      have h0 : cg.labelLe (if bn.hasReturn = true then
          match cg.GenTempVar with
          | (result, cg1) => (some result, cg1)
        else (none, cg)).2 := by
        cases bn.hasReturn
        · exact labelLe_refl _
        · exact Nat.le_refl _
      refine labelLe_trans h0 ?_
      cases a2.isSome <;> cases a1.isSome <;>
        simp only [if_true, Bool.false_eq_true, if_false] <;>
        exact labelLe_refl _



theorem labelLe_ReturnEmitLocD (e : Expr) (l r : Option Location) (cg cg2 : CodeGenerator)
    (h : e.ReturnEmitLocD l cg = .ok (r, cg2)) : cg.labelLe cg2 := by
  unfold Expr.ReturnEmitLocD at h
  split at h
  · simp only [Except.ok.injEq, Prod.mk.injEq] at h
    obtain ⟨_, h⟩ := h
    subst h
    exact Nat.le_refl _
  · split at h
    · cases h
    · split at h
      · simp only [Except.ok.injEq, Prod.mk.injEq] at h
        obtain ⟨_, h⟩ := h
        subst h
        exact Nat.le_refl _
      · simp only [Except.ok.injEq, Prod.mk.injEq] at h
        obtain ⟨_, h⟩ := h
        subst h
        exact Nat.le_refl _
  · simp only [Except.ok.injEq, Prod.mk.injEq] at h
    obtain ⟨_, h⟩ := h
    subst h
    exact Nat.le_refl _

theorem labelLe_ArithmeticTail (op : String) (left : Expr) (ll : Option Location) (right : Expr)
    (rl r : Option Location) (cg cg2 : CodeGenerator)
    (h : ArithmeticExpr.EmitTail op left ll right rl cg = .ok (r, cg2)) : cg.labelLe cg2 := by
  unfold ArithmeticExpr.EmitTail at h
  cases h1 : left.ReturnEmitLocD ll cg with
  | error e => simp [h1] at h
  | ok p1 =>
    obtain ⟨l, cg1⟩ := p1
    simp only [h1] at h
    cases h2 : right.ReturnEmitLocD rl cg1 with
    | error e => simp [h2] at h
    | ok p2 =>
      obtain ⟨r2, cg3⟩ := p2
      simp only [h2, Except.ok.injEq, Prod.mk.injEq] at h
      obtain ⟨_, h⟩ := h
      subst h
      exact labelLe_trans (labelLe_ReturnEmitLocD _ _ _ _ _ h1)
        (labelLe_trans (labelLe_ReturnEmitLocD _ _ _ _ _ h2) (labelLe_GenBinaryOp _ _ _ _))

theorem labelLe_binaryTail (op : String) (left : Expr) (ll : Option Location) (right : Expr)
    (rl r : Option Location) (cg cg2 : CodeGenerator)
    (h : Expr.binaryTail op left ll right rl cg = .ok (r, cg2)) : cg.labelLe cg2 := by
  unfold Expr.binaryTail at h
  cases h1 : right.ReturnEmitLocD rl cg with
  | error e => simp [h1] at h
  | ok p1 =>
    obtain ⟨l, cg1⟩ := p1
    simp only [h1] at h
    cases h2 : left.ReturnEmitLocD ll cg1 with
    | error e => simp [h2] at h
    | ok p2 =>
      obtain ⟨r2, cg3⟩ := p2
      simp only [h2, Except.ok.injEq, Prod.mk.injEq] at h
      obtain ⟨_, h⟩ := h
      subst h
      exact labelLe_trans (labelLe_ReturnEmitLocD _ _ _ _ _ h1)
        (labelLe_trans (labelLe_ReturnEmitLocD _ _ _ _ _ h2) (labelLe_GenBinaryOp _ _ _ _))

theorem labelLe_EqualityTail (op : String) (left : Expr) (ll : Option Location) (right : Expr)
    (rl r : Option Location) (cg cg2 : CodeGenerator)
    (h : EqualityExpr.EmitTail op left ll right rl cg = .ok (r, cg2)) : cg.labelLe cg2 := by
  unfold EqualityExpr.EmitTail at h
  split at h
  · cases h1 : right.ReturnEmitLocD rl cg with
    | error e => simp [h1] at h
    | ok p1 =>
      obtain ⟨l, cg1⟩ := p1
      simp only [h1] at h
      cases h2 : left.ReturnEmitLocD ll cg1 with
      | error e => simp [h2] at h
      | ok p2 =>
        obtain ⟨r2, cg3⟩ := p2
        simp only [h2] at h
        cases h3 : cg3.GenBuiltInCall .StringEqual r2 l with
        | error e => simp [h3] at h
        | ok p3 =>
          obtain ⟨res, cg4⟩ := p3
          simp only [h3] at h
          have h03 : cg.labelLe cg4 :=
            labelLe_trans (labelLe_ReturnEmitLocD _ _ _ _ _ h1)
              (labelLe_trans (labelLe_ReturnEmitLocD _ _ _ _ _ h2)
                (labelLe_GenBuiltInCall _ _ _ _ _ _ h3))
          split at h
          · simp only [Except.ok.injEq, Prod.mk.injEq] at h
            obtain ⟨_, h⟩ := h
            subst h
            exact labelLe_trans h03
              (labelLe_trans (labelLe_GenLoadConstant _ _) (labelLe_GenBinaryOp _ _ _ _))
          · simp only [Except.ok.injEq, Prod.mk.injEq] at h
            obtain ⟨_, h⟩ := h
            subst h
            exact h03
  · exact labelLe_binaryTail _ _ _ _ _ _ _ _ h

theorem labelLe_AssignTail (left : Expr) (ll : Option Location) (right : Expr)
    (rl r : Option Location) (cg cg2 : CodeGenerator)
    (h : AssignExpr.EmitTail left ll right rl cg = .ok (r, cg2)) : cg.labelLe cg2 := by
  unfold AssignExpr.EmitTail at h
  cases h1 : right.ReturnEmitLocD rl cg with
  | error e => simp [h1] at h
  | ok p1 =>
    obtain ⟨rightLoc, cg1⟩ := p1
    simp only [h1] at h
    have h01 := labelLe_ReturnEmitLocD _ _ _ _ _ h1
    cases rightLoc with
    | none =>
      simp only [Except.ok.injEq, Prod.mk.injEq] at h
      obtain ⟨_, h⟩ := h
      subst h
      exact h01
    | some rightLoc =>
      cases ll with
      | none =>
        simp only [Except.ok.injEq, Prod.mk.injEq] at h
        obtain ⟨_, h⟩ := h
        subst h
        exact h01
      | some leftLoc =>
        simp only at h
        refine labelLe_trans h01 (labelLe_trans ?_ (labelLe_ReturnEmitLocD _ _ _ _ _ h))
        cases leftLoc.GetBase with
        | some b => exact labelLe_push _ _
        | none =>
          cases left.AccessibleArray
          · exact labelLe_push _ _
          · exact labelLe_push _ _

theorem labelLe_EmitBounds (t : Option Ty) (t0 t3 : Option Location) (t1 t2 : Location)
    (r : Option Location) (cg cg2 : CodeGenerator)
    (h : ArrayAccess.EmitBounds t t0 t1 t2 t3 cg = .ok (r, cg2)) : cg.labelLe cg2 := by
  cases t with
  | none =>
    simp [ArrayAccess.EmitBounds, CodeGenerator.GenBuiltInCall, CodeGenerator.GenPopParams,
      BuiltIn.hasReturn, BuiltIn.numArgs, VarSize] at h
  | some ty =>
    simp only [ArrayAccess.EmitBounds, CodeGenerator.GenLoad, CodeGenerator.GenBinaryOp,
      CodeGenerator.GenTempVar, CodeGenerator.push, CodeGenerator.NewLabel, CodeGenerator.GenIfZ,
      CodeGenerator.GenLoadStringConstant, CodeGenerator.GenBuiltInCall,
      CodeGenerator.GenPopParams, CodeGenerator.GenLabel, CodeGenerator.GenLoadConstant,
      BuiltIn.hasReturn, BuiltIn.numArgs, BuiltIn.label, VarSize] at h
    simp at h
    obtain ⟨_, h⟩ := h
    subst h
    simp [CodeGenerator.labelLe]

theorem labelLe_ArrayTail (t : Option Ty) (base : Expr) (bl : Option Location) (sub : Expr)
    (sl r : Option Location) (cg cg2 : CodeGenerator)
    (h : ArrayAccess.EmitTail t base bl sub sl cg = .ok (r, cg2)) : cg.labelLe cg2 := by
  unfold ArrayAccess.EmitTail at h
  cases h1 : sub.ReturnEmitLocD sl cg with
  | error e => simp [h1] at h
  | ok p1 =>
    obtain ⟨t0, cg1⟩ := p1
    simp only [h1] at h
    cases h2 : base.ReturnEmitLocD bl
        ((cg1.GenLoadConstant 0).2.GenBinaryOp "<" t0 (some (cg1.GenLoadConstant 0).1)).2 with
    | error e => simp [h2] at h
    | ok p2 =>
      obtain ⟨t3, cg4⟩ := p2
      simp only [h2] at h
      exact labelLe_trans (labelLe_ReturnEmitLocD _ _ _ _ _ h1)
        (labelLe_trans (labelLe_GenLoadConstant _ _)
          (labelLe_trans (labelLe_GenBinaryOp _ _ _ _)
            (labelLe_trans (labelLe_ReturnEmitLocD _ _ _ _ _ h2)
              (labelLe_EmitBounds _ _ _ _ _ _ _ _ h))))

theorem labelLe_NewArrayTail (size : Expr) (sl r : Option Location) (elemType : Ty)
    (cg cg2 : CodeGenerator)
    (h : NewArrayExpr.EmitTail size sl elemType cg = .ok (r, cg2)) : cg.labelLe cg2 := by
  unfold NewArrayExpr.EmitTail at h
  cases h1 : size.ReturnEmitLocD sl cg with
  | error e => simp [h1] at h
  | ok p1 =>
    obtain ⟨t0, cg1⟩ := p1
    simp only [h1] at h
    refine labelLe_trans (labelLe_ReturnEmitLocD _ _ _ _ _ h1) ?_
    simp only [CodeGenerator.GenLoad, CodeGenerator.GenBinaryOp,
      CodeGenerator.GenTempVar, CodeGenerator.push, CodeGenerator.NewLabel, CodeGenerator.GenIfZ,
      CodeGenerator.GenLoadStringConstant, CodeGenerator.GenBuiltInCall,
      CodeGenerator.GenPopParams, CodeGenerator.GenLabel, CodeGenerator.GenLoadConstant,
      CodeGenerator.GenStore, BuiltIn.hasReturn, BuiltIn.numArgs, BuiltIn.label, VarSize] at h
    simp at h
    obtain ⟨_, h⟩ := h
    subst h
    simp [CodeGenerator.labelLe]

theorem labelLe_NewExpr (heap : Heap) (cType : NamedType) (r : Option Location)
    (cg cg2 : CodeGenerator) (h : NewExpr.Emit heap cType cg = .ok (r, cg2)) :
    cg.labelLe cg2 := by
  unfold NewExpr.Emit at h
  split at h
  · cases h
  · simp only [CodeGenerator.GenLoadConstant, CodeGenerator.GenTempVar, CodeGenerator.push,
      CodeGenerator.GenBuiltInCall, CodeGenerator.GenPopParams, CodeGenerator.GenLoadLabel,
      CodeGenerator.GenStore, BuiltIn.hasReturn, BuiltIn.numArgs, BuiltIn.label, VarSize] at h
    simp at h
    obtain ⟨_, h⟩ := h
    subst h
    simp [CodeGenerator.labelLe]



theorem labelLe_pushParams :
    ∀ (l : List (Expr × Option Location)) (cg cg2 : CodeGenerator),
      Call.pushParams l cg = .ok cg2 → cg.labelLe cg2 := by
  intro l
  induction l with
  | nil =>
    intro cg cg2 h
    simp only [Call.pushParams, Except.ok.injEq] at h
    subst h
    exact labelLe_refl _
  | cons a rest ih =>
    intro cg cg2 h
    obtain ⟨e, al⟩ := a
    rw [Call.pushParams] at h
    cases h1 : e.ReturnEmitLocD al cg with
    | error err => simp [h1] at h
    | ok p1 =>
      obtain ⟨loc, cg1⟩ := p1
      simp only [h1] at h
      exact labelLe_trans (labelLe_ReturnEmitLocD _ _ _ _ _ h1)
        (labelLe_trans (labelLe_push _ _) (ih _ _ h))

theorem labelLe_virtualTail (actuals : List (Expr × Option Location))
    (current_loc loc : Option Location) (vt : Int) (hasRet : Bool) (cg1 cg2 : CodeGenerator)
    (h : (match Call.pushParams actuals.reverse
            ((cg1.GenLoad current_loc 0).2.GenLoad (some (cg1.GenLoad current_loc 0).1) vt).2 with
          | .error e => .error e
          | .ok cg4 =>
            match (cg4.GenPushParam current_loc).GenACall
                (some ((cg1.GenLoad current_loc 0).2.GenLoad
                  (some (cg1.GenLoad current_loc 0).1) vt).1) hasRet with
            | (emit_loc, cg5) =>
              match cg5.GenPopParams ((actuals.length : Int) * 4 + 4) with
              | .error e => .error e
              | .ok cg6 => .ok (emit_loc, cg6)) = Except.ok (loc, cg2)) :
    cg1.labelLe cg2 := by
  cases hpp : Call.pushParams actuals.reverse
      ((cg1.GenLoad current_loc 0).2.GenLoad (some (cg1.GenLoad current_loc 0).1) vt).2 with
  | error e => simp [hpp] at h
  | ok cg4 =>
    simp only [hpp] at h
    cases hpop : ((cg4.GenPushParam current_loc).GenACall
        (some ((cg1.GenLoad current_loc 0).2.GenLoad
          (some (cg1.GenLoad current_loc 0).1) vt).1) hasRet).2.GenPopParams
        ((actuals.length : Int) * 4 + 4) with
    | error e => simp [hpop] at h
    | ok cg6 =>
      simp only [hpop, Except.ok.injEq, Prod.mk.injEq] at h
      obtain ⟨_, h⟩ := h
      subst h
      exact labelLe_trans (labelLe_GenLoad _ _ _)
        (labelLe_trans (labelLe_GenLoad _ _ _)
          (labelLe_trans (labelLe_pushParams _ _ _ hpp)
            (labelLe_trans (labelLe_push _ _)
              (labelLe_trans (labelLe_GenACall _ _ _) (labelLe_GenPopParams _ _ _ hpop)))))

theorem labelLe_CallTail (heap : Heap) (parents : Parents) (t : Option Ty)
    (base : Option (Expr × Option Location)) (field : Identifier)
    (actuals : List (Expr × Option Location)) (cg cg2 : CodeGenerator) (loc : Option Location)
    (h : Call.EmitTail heap parents t base field actuals cg = .ok (loc, cg2)) :
    cg.labelLe cg2 := by
  cases hlen : Call.isLength (base.map Prod.fst) field with
  | error e => simp [Call.EmitTail, hlen] at h
  | ok b =>
    cases b with
    | true =>
      simp only [Call.EmitTail, hlen] at h
      cases base with
      | none =>
        simp only [Except.ok.injEq, Prod.mk.injEq] at h
        obtain ⟨_, h⟩ := h
        subst h
        exact labelLe_refl _
      | some bb =>
        obtain ⟨b, bl⟩ := bb
        simp only at h
        cases h1 : b.ReturnEmitLocD bl cg with
        | error e => simp [h1] at h
        | ok p1 =>
          obtain ⟨t0, cg1⟩ := p1
          simp only [h1, Except.ok.injEq, Prod.mk.injEq] at h
          obtain ⟨_, h⟩ := h
          subst h
          exact labelLe_trans (labelLe_ReturnEmitLocD _ _ _ _ _ h1) (labelLe_GenLoad _ _ _)
    | false =>
      cases hp : field.cache with
      | none => simp [Call.EmitTail, hlen, hp] at h
      | some p =>
        cases hd : heap[p]? with
        | none => simp [Call.EmitTail, hlen, hp, hd] at h
        | some d =>
          cases d with
          | fn func =>
            unfold Call.EmitTail at h
            simp only [hlen, hp, hd] at h
            cases base with
            | some bb =>
              obtain ⟨b, bl⟩ := bb
              simp only [Option.isSome_some, Bool.true_or, if_true] at h
              cases h1 : b.ReturnEmitLocD bl cg with
              | error e => simp [h1] at h
              | ok p1 =>
                obtain ⟨current_loc, cg1⟩ := p1
                simp only [h1] at h
                exact labelLe_trans (labelLe_ReturnEmitLocD _ _ _ _ _ h1)
                  (labelLe_virtualTail actuals current_loc loc func.vtable_ofst _ cg1 cg2 h)
            | none =>
              simp only [Option.isSome_none, Bool.false_or] at h
              cases hm : MemberOfClass heap parents p with
              | true =>
                simp only [hm, if_true] at h
                exact labelLe_virtualTail actuals (some ptrThis) loc func.vtable_ofst _ cg cg2 h
              | false =>
                simp only [hm, Bool.false_eq_true, if_false] at h
                cases hpp : Call.pushParams actuals.reverse cg with
                | error e => simp [hpp] at h
                | ok cg4 =>
                  simp only [hpp] at h
                  cases hpop : (cg4.GenLCall (field.SetPrefix "_").name
                      (!(isType .voidType t))).2.GenPopParams ((actuals.length : Int) * 4) with
                  | error e => simp [hpop] at h
                  | ok cg6 =>
                    simp only [hpop, Except.ok.injEq, Prod.mk.injEq] at h
                    obtain ⟨_, h⟩ := h
                    subst h
                    exact labelLe_trans (labelLe_pushParams _ _ _ hpp)
                      (labelLe_trans (labelLe_GenLCall _ _ _) (labelLe_GenPopParams _ _ _ hpop))
          | var v => simp [Call.EmitTail, hlen, hp, hd] at h
          | cls c => simp [Call.EmitTail, hlen, hp, hd] at h
          | iface i => simp [Call.EmitTail, hlen, hp, hd] at h

mutual
theorem labelLe_Emit (heap : Heap) (parents : Parents) :
    ∀ (e : Expr) (cg : CodeGenerator) (r : Option Location) (cg2 : CodeGenerator),
      e.Emit heap parents cg = .ok (r, cg2) → cg.labelLe cg2
  | .EmptyExpr _, cg, r, cg2, h => by
    simp only [Expr.Emit, Except.ok.injEq, Prod.mk.injEq] at h
    obtain ⟨_, h⟩ := h
    subst h
    exact labelLe_refl _
  | .IntConstant _ v, cg, r, cg2, h => by
    simp only [Expr.Emit, Except.ok.injEq, Prod.mk.injEq] at h
    obtain ⟨_, h⟩ := h
    subst h
    exact labelLe_GenLoadConstant _ _
  | .DoubleConstant _, cg, r, cg2, h => by
    simp only [Expr.Emit] at h
    cases h
  | .BoolConstant _ v, cg, r, cg2, h => by
    simp only [Expr.Emit, Except.ok.injEq, Prod.mk.injEq] at h
    obtain ⟨_, h⟩ := h
    subst h
    exact labelLe_GenLoadConstant _ _
  | .StringConstant _ v, cg, r, cg2, h => by
    simp only [Expr.Emit, Except.ok.injEq, Prod.mk.injEq] at h
    obtain ⟨_, h⟩ := h
    subst h
    exact labelLe_GenLoadStringConstant _ _
  | .NullConstant _, cg, r, cg2, h => by
    simp only [Expr.Emit, Except.ok.injEq, Prod.mk.injEq] at h
    obtain ⟨_, h⟩ := h
    subst h
    exact labelLe_GenLoadConstant _ _
  | .ArithmeticExpr _ none op right, cg, r, cg2, h => by
    simp only [Expr.Emit] at h
    cases h1 : Expr.Emit heap parents right cg with
    | error e => simp [h1] at h
    | ok p1 =>
      obtain ⟨rl, cg1⟩ := p1
      simp only [h1] at h
      cases h2 : right.ReturnEmitLocD rl (cg1.GenLoadConstant 0).2 with
      | error e => simp [h2] at h
      | ok p2 =>
        obtain ⟨r2, cg3⟩ := p2
        simp only [h2, Except.ok.injEq, Prod.mk.injEq] at h
        obtain ⟨_, h⟩ := h
        subst h
        exact labelLe_trans (labelLe_Emit heap parents right cg rl cg1 h1)
          (labelLe_trans (labelLe_GenLoadConstant _ _)
            (labelLe_trans (labelLe_ReturnEmitLocD _ _ _ _ _ h2) (labelLe_GenBinaryOp _ _ _ _)))
  | .ArithmeticExpr _ (some left) op right, cg, r, cg2, h => by
    simp only [Expr.Emit] at h
    cases h1 : Expr.Emit heap parents left cg with
    | error e => simp [h1] at h
    | ok p1 =>
      obtain ⟨ll, cg1⟩ := p1
      simp only [h1] at h
      cases h2 : Expr.Emit heap parents right cg1 with
      | error e => simp [h2] at h
      | ok p2 =>
        obtain ⟨rl, cg3⟩ := p2
        simp only [h2] at h
        exact labelLe_trans (labelLe_Emit heap parents left cg ll cg1 h1)
          (labelLe_trans (labelLe_Emit heap parents right cg1 rl cg3 h2)
            (labelLe_ArithmeticTail _ _ _ _ _ _ _ _ h))
  | .RelationalExpr _ left op right, cg, r, cg2, h => by
    simp only [Expr.Emit] at h
    cases h1 : Expr.Emit heap parents left cg with
    | error e => simp [h1] at h
    | ok p1 =>
      obtain ⟨ll, cg1⟩ := p1
      simp only [h1] at h
      cases h2 : Expr.Emit heap parents right cg1 with
      | error e => simp [h2] at h
      | ok p2 =>
        obtain ⟨rl, cg3⟩ := p2
        simp only [h2] at h
        exact labelLe_trans (labelLe_Emit heap parents left cg ll cg1 h1)
          (labelLe_trans (labelLe_Emit heap parents right cg1 rl cg3 h2)
            (labelLe_binaryTail _ _ _ _ _ _ _ _ h))
  | .EqualityExpr _ left op right, cg, r, cg2, h => by
    simp only [Expr.Emit] at h
    cases h1 : Expr.Emit heap parents left cg with
    | error e => simp [h1] at h
    | ok p1 =>
      obtain ⟨ll, cg1⟩ := p1
      simp only [h1] at h
      cases h2 : Expr.Emit heap parents right cg1 with
      | error e => simp [h2] at h
      | ok p2 =>
        obtain ⟨rl, cg3⟩ := p2
        simp only [h2] at h
        exact labelLe_trans (labelLe_Emit heap parents left cg ll cg1 h1)
          (labelLe_trans (labelLe_Emit heap parents right cg1 rl cg3 h2)
            (labelLe_EqualityTail _ _ _ _ _ _ _ _ h))
  | .LogicalExpr _ none op right, cg, r, cg2, h => by
    simp only [Expr.Emit] at h
    cases h1 : Expr.Emit heap parents right cg with
    | error e => simp [h1] at h
    | ok p1 =>
      obtain ⟨rl, cg1⟩ := p1
      simp only [h1] at h
      cases h2 : right.ReturnEmitLocD rl cg1 with
      | error e => simp [h2] at h
      | ok p2 =>
        obtain ⟨r2, cg3⟩ := p2
        simp only [h2, Except.ok.injEq, Prod.mk.injEq] at h
        obtain ⟨_, h⟩ := h
        subst h
        exact labelLe_trans (labelLe_Emit heap parents right cg rl cg1 h1)
          (labelLe_trans (labelLe_ReturnEmitLocD _ _ _ _ _ h2)
            (labelLe_trans (labelLe_GenLoadConstant _ _) (labelLe_GenBinaryOp _ _ _ _)))
  | .LogicalExpr _ (some left) op right, cg, r, cg2, h => by
    simp only [Expr.Emit] at h
    cases h1 : Expr.Emit heap parents left cg with
    | error e => simp [h1] at h
    | ok p1 =>
      obtain ⟨ll, cg1⟩ := p1
      simp only [h1] at h
      cases h2 : Expr.Emit heap parents right cg1 with
      | error e => simp [h2] at h
      | ok p2 =>
        obtain ⟨rl, cg3⟩ := p2
        simp only [h2] at h
        exact labelLe_trans (labelLe_Emit heap parents left cg ll cg1 h1)
          (labelLe_trans (labelLe_Emit heap parents right cg1 rl cg3 h2)
            (labelLe_binaryTail _ _ _ _ _ _ _ _ h))
  | .AssignExpr _ left op right, cg, r, cg2, h => by
    simp only [Expr.Emit] at h
    cases h1 : Expr.Emit heap parents right cg with
    | error e => simp [h1] at h
    | ok p1 =>
      obtain ⟨rl, cg1⟩ := p1
      simp only [h1] at h
      cases h2 : Expr.Emit heap parents left cg1 with
      | error e => simp [h2] at h
      | ok p2 =>
        obtain ⟨ll, cg3⟩ := p2
        simp only [h2] at h
        exact labelLe_trans (labelLe_Emit heap parents right cg rl cg1 h1)
          (labelLe_trans (labelLe_Emit heap parents left cg1 ll cg3 h2)
            (labelLe_AssignTail _ _ _ _ _ _ _ h))
  | .This _, cg, r, cg2, h => by
    simp only [Expr.Emit, Except.ok.injEq, Prod.mk.injEq] at h
    obtain ⟨_, h⟩ := h
    subst h
    exact labelLe_refl _
  | .ArrayAccess t base sub, cg, r, cg2, h => by
    simp only [Expr.Emit] at h
    cases h1 : Expr.Emit heap parents base cg with
    | error e => simp [h1] at h
    | ok p1 =>
      obtain ⟨bl, cg1⟩ := p1
      simp only [h1] at h
      cases h2 : Expr.Emit heap parents sub cg1 with
      | error e => simp [h2] at h
      | ok p2 =>
        obtain ⟨sl, cg3⟩ := p2
        simp only [h2] at h
        exact labelLe_trans (labelLe_Emit heap parents base cg bl cg1 h1)
          (labelLe_trans (labelLe_Emit heap parents sub cg1 sl cg3 h2)
            (labelLe_ArrayTail _ _ _ _ _ _ _ _ h))
  | .FieldAccess _ none field, cg, r, cg2, h => by
    simp only [Expr.Emit, Except.ok.injEq, Prod.mk.injEq] at h
    obtain ⟨_, h⟩ := h
    subst h
    exact labelLe_refl _
  | .FieldAccess _ (some base) field, cg, r, cg2, h => by
    simp only [Expr.Emit] at h
    cases h1 : Expr.Emit heap parents base cg with
    | error e => simp [h1] at h
    | ok p1 =>
      obtain ⟨bl, cg1⟩ := p1
      simp only [h1] at h
      cases hf : field.Emit heap with
      | none => simp [hf] at h
      | some fl =>
        simp only [hf] at h
        cases h2 : base.ReturnEmitLocD bl cg1 with
        | error e => simp [h2] at h
        | ok p2 =>
          obtain ⟨b, cg3⟩ := p2
          simp only [h2, Except.ok.injEq, Prod.mk.injEq] at h
          obtain ⟨_, h⟩ := h
          subst h
          exact labelLe_trans (labelLe_Emit heap parents base cg bl cg1 h1)
            (labelLe_ReturnEmitLocD _ _ _ _ _ h2)
  | .Call t none field actuals, cg, r, cg2, h => by
    simp only [Expr.Emit] at h
    cases h1 : Expr.EmitAll heap parents actuals cg with
    | error e => simp [h1] at h
    | ok p1 =>
      obtain ⟨als, cg1⟩ := p1
      simp only [h1] at h
      exact labelLe_trans (labelLe_EmitAll heap parents actuals cg als cg1 h1)
        (labelLe_CallTail _ _ _ _ _ _ _ _ _ h)
  | .Call t (some base) field actuals, cg, r, cg2, h => by
    simp only [Expr.Emit] at h
    cases h0 : Expr.Emit heap parents base cg with
    | error e => simp [h0] at h
    | ok p0 =>
      obtain ⟨bl, cg0⟩ := p0
      simp only [h0] at h
      cases h1 : Expr.EmitAll heap parents actuals cg0 with
      | error e => simp [h1] at h
      | ok p1 =>
        obtain ⟨als, cg1⟩ := p1
        simp only [h1] at h
        exact labelLe_trans (labelLe_Emit heap parents base cg bl cg0 h0)
          (labelLe_trans (labelLe_EmitAll heap parents actuals cg0 als cg1 h1)
            (labelLe_CallTail _ _ _ _ _ _ _ _ _ h))
  | .NewExpr _ cType, cg, r, cg2, h => by
    simp only [Expr.Emit] at h
    exact labelLe_NewExpr _ _ _ _ _ h
  | .NewArrayExpr _ size elemType, cg, r, cg2, h => by
    simp only [Expr.Emit] at h
    cases h1 : Expr.Emit heap parents size cg with
    | error e => simp [h1] at h
    | ok p1 =>
      obtain ⟨sl, cg1⟩ := p1
      simp only [h1] at h
      exact labelLe_trans (labelLe_Emit heap parents size cg sl cg1 h1)
        (labelLe_NewArrayTail _ _ _ _ _ _ h)
  | .ReadIntegerExpr _, cg, r, cg2, h => by
    simp only [Expr.Emit] at h
    exact labelLe_GenBuiltInCall _ _ _ _ _ _ h
  | .ReadLineExpr _, cg, r, cg2, h => by
    simp only [Expr.Emit] at h
    exact labelLe_GenBuiltInCall _ _ _ _ _ _ h
theorem labelLe_EmitAll (heap : Heap) (parents : Parents) :
    ∀ (l : List Expr) (cg : CodeGenerator) (als : List (Option Location))
      (cg2 : CodeGenerator), Expr.EmitAll heap parents l cg = .ok (als, cg2) → cg.labelLe cg2
  | [], cg, als, cg2, h => by
    simp only [Expr.EmitAll, Except.ok.injEq, Prod.mk.injEq] at h
    obtain ⟨_, h⟩ := h
    subst h
    exact labelLe_refl _
  | a :: rest, cg, als, cg2, h => by
    simp only [Expr.EmitAll] at h
    cases h1 : Expr.Emit heap parents a cg with
    | error e => simp [h1] at h
    | ok p1 =>
      obtain ⟨al, cg1⟩ := p1
      simp only [h1] at h
      cases h2 : Expr.EmitAll heap parents rest cg1 with
      | error e => simp [h2] at h
      | ok p2 =>
        obtain ⟨als2, cg3⟩ := p2
        simp only [h2, Except.ok.injEq, Prod.mk.injEq] at h
        obtain ⟨_, h⟩ := h
        subst h
        exact labelLe_trans (labelLe_Emit heap parents a cg al cg1 h1)
          (labelLe_EmitAll heap parents rest cg1 als2 cg3 h2)
end

theorem labelLe_EmitDecls :
    ∀ (decls : List Ptr) (st st2 : Heap × CodeGenerator),
      StmtBlock.EmitDecls decls st = .ok st2 → st.2.labelLe st2.2 := by
  intro decls
  induction decls with
  | nil =>
    intro st st2 h
    simp only [StmtBlock.EmitDecls, Except.ok.injEq] at h
    subst h
    exact labelLe_refl _
  | cons p rest ih =>
    intro st st2 h
    obtain ⟨heap, cg⟩ := st
    simp only [StmtBlock.EmitDecls] at h
    cases hp : heap[p]? with
    | none => simp [hp] at h
    | some d =>
      cases d with
      | var v =>
        simp only [hp] at h
        cases hv : v.Emit cg with
        | error e => simp [hv] at h
        | ok r =>
          obtain ⟨v2, cg1⟩ := r
          simp only [hv] at h
          refine labelLe_trans ?_ (ih _ _ h)
          unfold VarDecl.Emit at hv
          split at hv
          · cases hv
          · split at hv
            · simp only [Except.ok.injEq, Prod.mk.injEq] at hv
              rw [← hv.2]
              exact labelLe_refl _
            · simp only [Except.ok.injEq, Prod.mk.injEq] at hv
              rw [← hv.2]
              exact Nat.le_refl _
      | fn f => simp [hp] at h
      | cls c => simp [hp] at h
      | iface i => simp [hp] at h

theorem labelLe_walk :
    ∀ (rest : List Ancestor) (node : Ancestor) (cg cg2 : CodeGenerator),
      BreakStmt.Emit.walk node rest cg = .ok cg2 → cg.labelLe cg2 := by
  intro rest
  induction rest with
  | nil =>
    intro node cg cg2 h
    simp only [BreakStmt.Emit.walk, Except.ok.injEq] at h
    subst h
    exact labelLe_refl _
  | cons parent rest ih =>
    intro node cg cg2 h
    simp only [BreakStmt.Emit.walk] at h
    split at h
    · split at h
      · simp only [Except.ok.injEq] at h
        subst h
        exact labelLe_push _ _
      · cases h
    · exact ih _ _ _ h

theorem labelLe_Print (heap : Heap) (parents : Parents) :
    ∀ (args : List Expr) (cg cg2 : CodeGenerator),
      PrintStmt.Emit heap parents args cg = .ok cg2 → cg.labelLe cg2 := by
  intro args
  induction args with
  | nil =>
    intro cg cg2 h
    simp only [PrintStmt.Emit, Except.ok.injEq] at h
    subst h
    exact labelLe_refl _
  | cons a rest ih =>
    intro cg cg2 h
    simp only [PrintStmt.Emit] at h
    cases h1 : a.Emit heap parents cg with
    | error e => simp [h1] at h
    | ok p1 =>
      obtain ⟨al, cg1⟩ := p1
      simp only [h1] at h
      cases h2 : a.ReturnEmitLocD al cg1 with
      | error e => simp [h2] at h
      | ok p2 =>
        obtain ⟨loc, cg3⟩ := p2
        simp only [h2] at h
        split at h
        · cases h
        · cases hf : PrintStmt.func a.ReturnType with
          | none => simp [hf] at h
          | some func =>
            simp only [hf] at h
            cases h3 : cg3.GenBuiltInCall func loc none with
            | error e => simp [h3] at h
            | ok p3 =>
              obtain ⟨r, cg4⟩ := p3
              simp only [h3] at h
              exact labelLe_trans (labelLe_Emit heap parents a cg al cg1 h1)
                (labelLe_trans (labelLe_ReturnEmitLocD _ _ _ _ _ h2)
                  (labelLe_trans (labelLe_GenBuiltInCall _ _ _ _ _ _ h3) (ih _ _ h)))

mutual
theorem labelLe_Stmt (parents : Parents) :
    ∀ (ancestors : List Ancestor) (s : Stmt) (st st2 : Heap × CodeGenerator),
      Stmt.Emit parents ancestors s st = .ok st2 → st.2.labelLe st2.2
  | ancestors, .StmtBlock decls stmts, st, st2, h => by
    simp only [Stmt.Emit] at h
    cases h1 : StmtBlock.EmitDecls decls st with
    | error e => simp [h1] at h
    | ok st1 =>
      simp only [h1] at h
      exact labelLe_trans (labelLe_EmitDecls _ _ _ h1)
        (labelLe_StmtAll parents _ stmts st1 st2 h)
  | ancestors, .ForStmt init test step body, (heap, cg), st2, h => by
    simp only [Stmt.Emit] at h
    cases h1 : init.Emit heap parents cg with
    | error e => simp [h1] at h
    | ok p1 =>
      obtain ⟨il, cg1⟩ := p1
      simp only [h1] at h
      cases h2 : test.Emit heap parents (cg1.NewLabel.2.GenLabel cg1.NewLabel.1) with
      | error e => simp [h2] at h
      | ok p2 =>
        obtain ⟨tl, cg3⟩ := p2
        simp only [h2] at h
        cases h3 : test.ReturnEmitLocD tl cg3 with
        | error e => simp [h3] at h
        | ok p3 =>
          obtain ⟨loc, cg4⟩ := p3
          simp only [h3] at h
          cases h4 : Stmt.Emit parents
              ({ kind := .ForStmt, LoopEndLabel := some cg4.NewLabel.1 } :: ancestors) body
              (heap, cg4.NewLabel.2.GenIfZ loc cg4.NewLabel.1) with
          | error e => simp [h4] at h
          | ok p4 =>
            obtain ⟨heap2, cg6⟩ := p4
            simp only [h4] at h
            cases h5 : step.Emit heap2 parents cg6 with
            | error e => simp [h5] at h
            | ok p5 =>
              obtain ⟨sl, cg7⟩ := p5
              simp only [h5, Except.ok.injEq] at h
              subst h
              have hb := labelLe_Stmt parents _ body _ _ h4
              exact labelLe_trans (labelLe_Emit heap parents init cg il cg1 h1)
                (labelLe_trans (labelLe_NewLabel _)
                  (labelLe_trans (labelLe_push _ _)
                    (labelLe_trans (labelLe_Emit heap parents test _ tl cg3 h2)
                      (labelLe_trans (labelLe_ReturnEmitLocD _ _ _ _ _ h3)
                        (labelLe_trans (labelLe_NewLabel _)
                          (labelLe_trans (labelLe_push _ _)
                            (labelLe_trans hb
                              (labelLe_trans (labelLe_Emit heap2 parents step cg6 sl cg7 h5)
                                (labelLe_refl _)))))))))
  | ancestors, .WhileStmt test body, (heap, cg), st2, h => by
    simp only [Stmt.Emit] at h
    cases h2 : test.Emit heap parents (cg.NewLabel.2.GenLabel cg.NewLabel.1) with
    | error e => simp [h2] at h
    | ok p2 =>
      obtain ⟨tl, cg3⟩ := p2
      simp only [h2] at h
      cases h3 : test.ReturnEmitLocD tl cg3 with
      | error e => simp [h3] at h
      | ok p3 =>
        obtain ⟨loc, cg4⟩ := p3
        simp only [h3] at h
        cases h4 : Stmt.Emit parents
            ({ kind := .WhileStmt, LoopEndLabel := some cg4.NewLabel.1 } :: ancestors) body
            (heap, cg4.NewLabel.2.GenIfZ loc cg4.NewLabel.1) with
        | error e => simp [h4] at h
        | ok p4 =>
          obtain ⟨heap2, cg6⟩ := p4
          simp only [h4, Except.ok.injEq] at h
          subst h
          have hb := labelLe_Stmt parents _ body _ _ h4
          exact labelLe_trans (labelLe_NewLabel _)
            (labelLe_trans (labelLe_push _ _)
              (labelLe_trans (labelLe_Emit heap parents test _ tl cg3 h2)
                (labelLe_trans (labelLe_ReturnEmitLocD _ _ _ _ _ h3)
                  (labelLe_trans (labelLe_NewLabel _)
                    (labelLe_trans (labelLe_push _ _) (labelLe_trans hb (labelLe_refl _)))))))
  | ancestors, .IfStmt test body none, (heap, cg), st2, h => by
    simp only [Stmt.Emit] at h
    cases h2 : test.Emit heap parents cg with
    | error e => simp [h2] at h
    | ok p2 =>
      obtain ⟨tl, cg3⟩ := p2
      simp only [h2] at h
      cases h3 : test.ReturnEmitLocD tl cg3 with
      | error e => simp [h3] at h
      | ok p3 =>
        obtain ⟨loc, cg4⟩ := p3
        simp only [h3] at h
        cases h4 : Stmt.Emit parents ({ kind := .IfStmt } :: ancestors) body
            (heap, cg4.NewLabel.2.GenIfZ loc cg4.NewLabel.1) with
        | error e => simp [h4] at h
        | ok p4 =>
          obtain ⟨heap2, cg6⟩ := p4
          simp only [h4, Except.ok.injEq] at h
          subst h
          have hb := labelLe_Stmt parents _ body _ _ h4
          exact labelLe_trans (labelLe_Emit heap parents test _ tl cg3 h2)
            (labelLe_trans (labelLe_ReturnEmitLocD _ _ _ _ _ h3)
              (labelLe_trans (labelLe_NewLabel _)
                (labelLe_trans (labelLe_push _ _)
                  (labelLe_trans hb (labelLe_NewLabel _)))))
  | ancestors, .IfStmt test body (some elseBody), (heap, cg), st2, h => by
    simp only [Stmt.Emit] at h
    cases h2 : test.Emit heap parents cg with
    | error e => simp [h2] at h
    | ok p2 =>
      obtain ⟨tl, cg3⟩ := p2
      simp only [h2] at h
      cases h3 : test.ReturnEmitLocD tl cg3 with
      | error e => simp [h3] at h
      | ok p3 =>
        obtain ⟨loc, cg4⟩ := p3
        simp only [h3] at h
        cases h4 : Stmt.Emit parents ({ kind := .IfStmt } :: ancestors) body
            (heap, cg4.NewLabel.2.GenIfZ loc cg4.NewLabel.1) with
        | error e => simp [h4] at h
        | ok p4 =>
          obtain ⟨heap2, cg6⟩ := p4
          simp only [h4] at h
          cases h5 : Stmt.Emit parents ({ kind := .IfStmt } :: ancestors) elseBody
              (heap2, (cg6.NewLabel.2.GenGoto cg6.NewLabel.1).GenLabel cg4.NewLabel.1) with
          | error e => simp [h5] at h
          | ok p5 =>
            obtain ⟨heap3, cg7⟩ := p5
            simp only [h5, Except.ok.injEq] at h
            subst h
            have hb := labelLe_Stmt parents _ body _ _ h4
            have he := labelLe_Stmt parents _ elseBody _ _ h5
            exact labelLe_trans (labelLe_Emit heap parents test _ tl cg3 h2)
              (labelLe_trans (labelLe_ReturnEmitLocD _ _ _ _ _ h3)
                (labelLe_trans (labelLe_NewLabel _)
                  (labelLe_trans (labelLe_push _ _)
                    (labelLe_trans hb
                      (labelLe_trans (labelLe_NewLabel _) (labelLe_trans he (labelLe_refl _)))))))
  | ancestors, .BreakStmt, (heap, cg), st2, h => by
    simp only [Stmt.Emit] at h
    cases h1 : BreakStmt.Emit ancestors cg with
    | error e => simp [h1] at h
    | ok cg1 =>
      simp only [h1, Except.ok.injEq] at h
      subst h
      exact labelLe_walk _ _ _ _ h1
  | ancestors, .ReturnStmt expr, (heap, cg), st2, h => by
    simp only [Stmt.Emit] at h
    split at h
    · simp only [Except.ok.injEq] at h
      subst h
      exact labelLe_push _ _
    · cases h1 : expr.Emit heap parents cg with
      | error e => simp [h1] at h
      | ok p1 =>
        obtain ⟨el, cg1⟩ := p1
        simp only [h1] at h
        cases h2 : expr.ReturnEmitLocD el cg1 with
        | error e => simp [h2] at h
        | ok p2 =>
          obtain ⟨loc, cg2⟩ := p2
          simp only [h2, Except.ok.injEq] at h
          subst h
          exact labelLe_trans (labelLe_Emit heap parents expr cg el cg1 h1)
            (labelLe_trans (labelLe_ReturnEmitLocD _ _ _ _ _ h2) (labelLe_push _ _))
  | ancestors, .PrintStmt args, (heap, cg), st2, h => by
    simp only [Stmt.Emit] at h
    cases h1 : PrintStmt.Emit heap parents args cg with
    | error e => simp [h1] at h
    | ok cg1 =>
      simp only [h1, Except.ok.injEq] at h
      subst h
      exact labelLe_Print heap parents _ _ _ h1
  | ancestors, .Expr e, (heap, cg), st2, h => by
    simp only [Stmt.Emit] at h
    cases h1 : e.Emit heap parents cg with
    | error err => simp [h1] at h
    | ok p1 =>
      obtain ⟨el, cg1⟩ := p1
      simp only [h1, Except.ok.injEq] at h
      subst h
      exact labelLe_Emit heap parents e cg el cg1 h1
theorem labelLe_StmtAll (parents : Parents) :
    ∀ (ancestors : List Ancestor) (l : List Stmt) (st st2 : Heap × CodeGenerator),
      Stmt.EmitAll parents ancestors l st = .ok st2 → st.2.labelLe st2.2
  | ancestors, [], st, st2, h => by
    simp only [Stmt.EmitAll, Except.ok.injEq] at h
    subst h
    exact labelLe_refl _
  | ancestors, s :: rest, st, st2, h => by
    simp only [Stmt.EmitAll] at h
    cases h1 : Stmt.Emit parents ancestors s st with
    | error e => simp [h1] at h
    | ok st1 =>
      simp only [h1] at h
      exact labelLe_trans (labelLe_Stmt parents ancestors s st st1 h1)
        (labelLe_StmtAll parents ancestors rest st1 st2 h)
end

/-! ## The target of `break` -/

theorem issuedBefore_mono {cg cg2 : CodeGenerator} (h : cg.labelLe cg2) (label : String)
    (hl : issuedBefore cg label) : issuedBefore cg2 label := by
  obtain ⟨j, hj, rfl⟩ := hl
  exact ⟨j, Nat.lt_of_lt_of_le hj h, rfl⟩

theorem labelsIssued_mono {cg cg2 : CodeGenerator} (h : cg.labelLe cg2)
    (ancestors : List Ancestor) (hl : labelsIssued cg ancestors) : labelsIssued cg2 ancestors :=
  fun a ha label hlab => issuedBefore_mono h label (hl a ha label hlab)

theorem walk_innermost (label : String) (L : Ancestor) (outer : List Ancestor)
    (hL : L.kind.IsLoop = true) (hlab : L.LoopEndLabel = some label) (hout : outer ≠ [])
    (cg : CodeGenerator) :
    ∀ (inner : List Ancestor) (node : Ancestor), node.kind.IsLoop = false →
      (∀ a ∈ inner, a.kind.IsLoop = false) →
      BreakStmt.Emit.walk node (inner ++ L :: outer) cg = .ok (cg.push (.Goto label)) := by
  intro inner
  induction inner with
  | nil =>
    intro node hnode _
    cases outer with
    | nil => exact absurd rfl hout
    | cons o rest =>
      simp only [List.nil_append, BreakStmt.Emit.walk, hnode, Bool.false_eq_true, if_false, hL,
        if_true, hlab]
      rfl
  | cons a rest ih =>
    intro node hnode hin
    simp only [List.cons_append, BreakStmt.Emit.walk, hnode, Bool.false_eq_true, if_false]
    exact ih a (hin a (List.mem_cons_self _ _)) (fun b hb => hin b (List.mem_cons_of_mem _ hb))

theorem fresh_label (cg cg4 : CodeGenerator) (ancestors : List Ancestor)
    (hle : cg.labelLe cg4) (hinv : labelsIssued cg ancestors) :
    (∀ a ∈ ancestors, a.LoopEndLabel ≠ some cg4.NewLabel.1) ∧
    ∀ (kind : NodeKind) (cg1 : CodeGenerator), cg4.NewLabel.2.labelLe cg1 →
      labelsIssued cg1 ({ kind := kind, LoopEndLabel := some cg4.NewLabel.1 } :: ancestors) := by
  refine ⟨?_, ?_⟩
  · intro a ha hlab
    obtain ⟨j, hj, hjl⟩ := hinv a ha _ hlab
    have : cg4.nextLabelNum = j := label_inj _ _ hjl
    have h2 : cg.nextLabelNum ≤ cg4.nextLabelNum := hle
    omega
  · intro kind cg1 h1 a ha label hlab
    rcases List.mem_cons.mp ha with rfl | ha
    · simp only [Option.some.injEq] at hlab
      subst hlab
      exact ⟨cg4.nextLabelNum, Nat.lt_of_lt_of_le (Nat.lt_succ_self _) h1, rfl⟩
    · exact issuedBefore_mono
        (labelLe_trans hle (labelLe_trans (labelLe_NewLabel _) h1)) label (hinv a ha label hlab)

/-- C35. A break statement whose chain of parents runs through nodes that
are no loops (`inner`) up to a loop `L` that has a parent emits exactly one
instruction, the `Goto` to the `LoopEndLabel` of `L`, whatever loops lie
further out.  The emission of a `while` or `for` loop makes a new label
`label1`, emits its body with the loop, carrying `label1` as `LoopEndLabel`, as
the nearest parent, and ends with the back-edge `Goto label0` followed by
`Label label1`; `label1` is the end label of no loop further out, if the end
labels of those loops were handed out before (which holds again for the body
and is kept by the emission of any statement). -/
theorem BreakStmt_Emit_spec (parents : Parents) :
    (∀ (inner outer : List Ancestor) (L : Ancestor) (label : String) (heap : Heap)
        (cg : CodeGenerator),
      (∀ a ∈ inner, a.kind.IsLoop = false) → L.kind.IsLoop = true →
      L.LoopEndLabel = some label → outer ≠ [] →
      Stmt.Emit parents (inner ++ L :: outer) .BreakStmt (heap, cg) =
        .ok (heap, cg.push (.Goto label))) ∧
    (∀ (ancestors : List Ancestor) (test : Expr) (body : Stmt) (heap : Heap)
        (cg : CodeGenerator) (st2 : Heap × CodeGenerator),
      labelsIssued cg ancestors →
      Stmt.Emit parents ancestors (.WhileStmt test body) (heap, cg) = .ok st2 →
      ∃ (label0 label1 : String) (cg1 cgB : CodeGenerator),
        Stmt.Emit parents ({ kind := .WhileStmt, LoopEndLabel := some label1 } :: ancestors)
          body (heap, cg1) = .ok (st2.1, cgB) ∧
        st2.2.code = cgB.code ++ [.Goto label0, .Label label1] ∧
        (∀ a ∈ ancestors, a.LoopEndLabel ≠ some label1) ∧
        labelsIssued cg1 ({ kind := .WhileStmt, LoopEndLabel := some label1 } :: ancestors)) ∧
    (∀ (ancestors : List Ancestor) (init test step : Expr) (body : Stmt) (heap : Heap)
        (cg : CodeGenerator) (st2 : Heap × CodeGenerator),
      labelsIssued cg ancestors →
      Stmt.Emit parents ancestors (.ForStmt init test step body) (heap, cg) = .ok st2 →
      ∃ (label0 label1 : String) (cg1 cgB : CodeGenerator) (stepCode : List Instr),
        Stmt.Emit parents ({ kind := .ForStmt, LoopEndLabel := some label1 } :: ancestors)
          body (heap, cg1) = .ok (st2.1, cgB) ∧
        st2.2.code = cgB.code ++ stepCode ++ [.Goto label0, .Label label1] ∧
        (∀ a ∈ ancestors, a.LoopEndLabel ≠ some label1) ∧
        labelsIssued cg1 ({ kind := .ForStmt, LoopEndLabel := some label1 } :: ancestors)) ∧
    (∀ (ancestors : List Ancestor) (s : Stmt) (st st2 : Heap × CodeGenerator),
      Stmt.Emit parents ancestors s st = .ok st2 →
      labelsIssued st.2 ancestors → labelsIssued st2.2 ancestors) := by
  refine ⟨?_, ?_, ?_, ?_⟩
  · intro inner outer L label heap cg hin hL hlab hout
    simp only [Stmt.Emit, BreakStmt.Emit,
      walk_innermost label L outer hL hlab hout cg inner { kind := .BreakStmt } rfl hin]
  · intro ancestors test body heap cg st2 hinv h
    simp only [Stmt.Emit] at h
    cases h2 : test.Emit heap parents (cg.NewLabel.2.GenLabel cg.NewLabel.1) with
    | error e => simp [h2] at h
    | ok p2 =>
      obtain ⟨tl, cg3⟩ := p2
      simp only [h2] at h
      cases h3 : test.ReturnEmitLocD tl cg3 with
      | error e => simp [h3] at h
      | ok p3 =>
        obtain ⟨loc, cg4⟩ := p3
        simp only [h3] at h
        cases h4 : Stmt.Emit parents
            ({ kind := .WhileStmt, LoopEndLabel := some cg4.NewLabel.1 } :: ancestors) body
            (heap, cg4.NewLabel.2.GenIfZ loc cg4.NewLabel.1) with
        | error e => simp [h4] at h
        | ok p4 =>
          obtain ⟨heap2, cg6⟩ := p4
          simp only [h4, Except.ok.injEq] at h
          subst h
          have hle : cg.labelLe cg4 :=
            labelLe_trans (labelLe_NewLabel _)
              (labelLe_trans (labelLe_push _ _)
                (labelLe_trans (labelLe_Emit heap parents test _ tl cg3 h2)
                  (labelLe_ReturnEmitLocD _ _ _ _ _ h3)))
          obtain ⟨hf1, hf2⟩ := fresh_label cg cg4 ancestors hle hinv
          exact ⟨cg.NewLabel.1, cg4.NewLabel.1, _, cg6, h4, by
            simp [CodeGenerator.GenGoto, CodeGenerator.GenLabel, CodeGenerator.push], hf1,
            hf2 .WhileStmt _ (labelLe_push _ _)⟩
  · intro ancestors init test step body heap cg st2 hinv h
    simp only [Stmt.Emit] at h
    cases h1 : init.Emit heap parents cg with
    | error e => simp [h1] at h
    | ok p1 =>
      obtain ⟨il, cg1⟩ := p1
      simp only [h1] at h
      cases h2 : test.Emit heap parents (cg1.NewLabel.2.GenLabel cg1.NewLabel.1) with
      | error e => simp [h2] at h
      | ok p2 =>
        obtain ⟨tl, cg3⟩ := p2
        simp only [h2] at h
        cases h3 : test.ReturnEmitLocD tl cg3 with
        | error e => simp [h3] at h
        | ok p3 =>
          obtain ⟨loc, cg4⟩ := p3
          simp only [h3] at h
          cases h4 : Stmt.Emit parents
              ({ kind := .ForStmt, LoopEndLabel := some cg4.NewLabel.1 } :: ancestors) body
              (heap, cg4.NewLabel.2.GenIfZ loc cg4.NewLabel.1) with
          | error e => simp [h4] at h
          | ok p4 =>
            obtain ⟨heap2, cg6⟩ := p4
            simp only [h4] at h
            cases h5 : step.Emit heap2 parents cg6 with
            | error e => simp [h5] at h
            | ok p5 =>
              obtain ⟨sl, cg7⟩ := p5
              simp only [h5, Except.ok.injEq] at h
              subst h
              have hle : cg.labelLe cg4 :=
                labelLe_trans (labelLe_Emit heap parents init cg il cg1 h1)
                  (labelLe_trans (labelLe_NewLabel _)
                    (labelLe_trans (labelLe_push _ _)
                      (labelLe_trans (labelLe_Emit heap parents test _ tl cg3 h2)
                        (labelLe_ReturnEmitLocD _ _ _ _ _ h3))))
              obtain ⟨hf1, hf2⟩ := fresh_label cg cg4 ancestors hle hinv
              obtain ⟨stepCode, hstep⟩ := growsTo_Emit heap2 parents step cg6 sl cg7 h5
              exact ⟨cg1.NewLabel.1, cg4.NewLabel.1, _, cg6, stepCode, h4, by
                simp [CodeGenerator.GenGoto, CodeGenerator.GenLabel, CodeGenerator.push, hstep],
                hf1, hf2 .ForStmt _ (labelLe_push _ _)⟩
  · intro ancestors s st st2 h hinv
    exact labelsIssued_mono (labelLe_Stmt parents ancestors s st st2 h) ancestors hinv

/-- In `while (true) { while (true) { break; } if (true) break; }` the break of
the inner loop jumps to `_L3`, the label after the back-edge `Goto _L2` of
the inner loop, and the break of the outer loop to `_L1`, the label after
the back-edge `Goto _L0`. -/
theorem BreakStmt_Emit_spec_witness :
    (Stmt.Emit [] [{ kind := .FnDecl }, { kind := .Program }] exOuterLoop
        ([], CodeGenerator.new)).map (fun r => r.2.code.drop 6) =
      .ok [.Goto "_L3", .Goto "_L2", .Label "_L3",
        .LoadConstant (.plain .fpRelative (-16) "_tmp2") 1,
        .IfZ (some (.plain .fpRelative (-16) "_tmp2")) "_L4",
        .Goto "_L1", .Goto "_L5", .Label "_L4", .Label "_L5", .Goto "_L0", .Label "_L1"] ∧
    Stmt.Emit []
        ([{ kind := .StmtBlock }] ++ { kind := .WhileStmt, LoopEndLabel := some "_L3" } ::
          [{ kind := .StmtBlock }, { kind := .WhileStmt, LoopEndLabel := some "_L1" },
            { kind := .FnDecl }, { kind := .Program }])
        .BreakStmt ([], CodeGenerator.new) =
      .ok ([], CodeGenerator.new.push (.Goto "_L3")) :=
  ⟨rfl, (BreakStmt_Emit_spec []).1 [{ kind := .StmtBlock }]
    [{ kind := .StmtBlock }, { kind := .WhileStmt, LoopEndLabel := some "_L1" },
      { kind := .FnDecl }, { kind := .Program }]
    { kind := .WhileStmt, LoopEndLabel := some "_L3" } "_L3" [] CodeGenerator.new
    (by decide) rfl rfl (by simp)⟩

/-! ## The frame size of a function -/

theorem GenBuiltInCall_local (cg cg2 : CodeGenerator) (bn : BuiltIn)
    (a1 a2 r : Option Location) (h : cg.GenBuiltInCall bn a1 a2 = .ok (r, cg2)) :
    cg2.localLocation = if bn.hasReturn then cg.localLocation - 4 else cg.localLocation := by
  unfold CodeGenerator.GenBuiltInCall at h
  simp only at h
  split at h
  · cases h
  · split at h
    · cases h
    · rename_i cg4 hpop
      simp only [Except.ok.injEq, Prod.mk.injEq] at h
      obtain ⟨_, h⟩ := h
      subst h
      have hp : ∀ (c c2 : CodeGenerator) (n : Int), c.GenPopParams n = .ok c2 →
          c2.localLocation = c.localLocation := by
        intro c c2 n hc
        unfold CodeGenerator.GenPopParams at hc
        split at hc
        · cases hc
        · split at hc
          · simp only [Except.ok.injEq] at hc; subst hc; rfl
          · simp only [Except.ok.injEq] at hc; subst hc; rfl
      rw [hp _ _ _ hpop]
      cases bn.hasReturn <;> cases a2.isSome <;> cases a1.isSome <;> rfl

theorem GenCall_run_facts (c : GenCall) (cg cg2 : CodeGenerator) (h : c.run cg = .ok cg2) :
    cg2.localLocation = cg.localLocation - 4 * ((c.slots cg).length : Int) ∧
    c.slots cg = (if c.takesSlot then [cg.localLocation] else []) ∧ cg.growsTo cg2 := by
  refine ⟨?_, rfl, ?_⟩
  · cases c with
    | GenPopParams n =>
      simp only [GenCall.run] at h
      unfold CodeGenerator.GenPopParams at h
      split at h
      · cases h
      · split at h
        · simp only [Except.ok.injEq] at h; subst h; simp [GenCall.slots, GenCall.takesSlot, CodeGenerator.push]
        · simp only [Except.ok.injEq] at h; subst h; simp [GenCall.slots, GenCall.takesSlot]
    | GenBuiltInCall bn a1 a2 =>
      simp only [GenCall.run] at h
      cases hb : cg.GenBuiltInCall bn a1 a2 with
      | error e => simp [hb] at h
      | ok p =>
        obtain ⟨r, cg1⟩ := p
        simp only [hb, Except.ok.injEq] at h
        subst h
        rw [GenBuiltInCall_local cg cg1 bn a1 a2 r hb]
        cases hr : bn.hasReturn <;> simp [GenCall.slots, GenCall.takesSlot, hr]
    | GenLCall label b =>
      simp only [GenCall.run, Except.ok.injEq] at h
      subst h
      cases b <;> simp [GenCall.slots, GenCall.takesSlot, CodeGenerator.GenLCall,
        CodeGenerator.GenTempVar, CodeGenerator.push, VarSize]
    | GenACall fnAddr b =>
      simp only [GenCall.run, Except.ok.injEq] at h
      subst h
      cases b <;> simp [GenCall.slots, GenCall.takesSlot, CodeGenerator.GenACall,
        CodeGenerator.GenTempVar, CodeGenerator.push, VarSize]
    | _ =>
      simp only [GenCall.run, Except.ok.injEq] at h
      subst h
      simp [GenCall.slots, GenCall.takesSlot, CodeGenerator.GetNextLocal, CodeGenerator.NewLabel,
        CodeGenerator.GenTempVar, CodeGenerator.GenLoadConstant,
        CodeGenerator.GenLoadStringConstant, CodeGenerator.GenLoadLabel, CodeGenerator.GenAssign,
        CodeGenerator.GenLoad, CodeGenerator.GenStore, CodeGenerator.GenBinaryOp,
        CodeGenerator.GenLabel, CodeGenerator.GenIfZ, CodeGenerator.GenGoto,
        CodeGenerator.GenReturn, CodeGenerator.GenPushParam, CodeGenerator.push, VarSize]
  · cases c with
    | GenPopParams n => exact growsTo_GenPopParams _ _ _ h
    | GenBuiltInCall bn a1 a2 =>
      simp only [GenCall.run] at h
      cases hb : cg.GenBuiltInCall bn a1 a2 with
      | error e => simp [hb] at h
      | ok p =>
        obtain ⟨r, cg1⟩ := p
        simp only [hb, Except.ok.injEq] at h
        subst h
        exact growsTo_GenBuiltInCall _ _ _ _ _ _ hb
    | GenLCall label b =>
      simp only [GenCall.run, Except.ok.injEq] at h
      subst h
      exact growsTo_GenLCall _ _ _
    | GenACall fnAddr b =>
      simp only [GenCall.run, Except.ok.injEq] at h
      subst h
      exact growsTo_GenACall _ _ _
    | GetNextLocal =>
      simp only [GenCall.run, Except.ok.injEq] at h
      subst h
      exact ⟨[], by simp [CodeGenerator.GetNextLocal]⟩
    | NewLabel =>
      simp only [GenCall.run, Except.ok.injEq] at h
      subst h
      exact growsTo_NewLabel _
    | GenTempVar =>
      simp only [GenCall.run, Except.ok.injEq] at h
      subst h
      exact ⟨[], by simp [CodeGenerator.GenTempVar]⟩
    | _ =>
      simp only [GenCall.run, Except.ok.injEq] at h
      subst h
      exact ⟨_, rfl⟩

theorem runAll_facts :
    ∀ (calls : List GenCall) (cg cg2 : CodeGenerator) (slots : List Int),
      GenCall.runAll calls cg = .ok (slots, cg2) →
      cg2.localLocation = cg.localLocation - 4 * (slots.length : Int) ∧
      slots.length = calls.countP GenCall.takesSlot ∧
      (∀ k : Nat, k < slots.length → slots[k]? = some (cg.localLocation - 4 * (k : Int))) ∧
      cg.growsTo cg2 := by
  intro calls
  induction calls with
  | nil =>
    intro cg cg2 slots h
    simp only [GenCall.runAll, Except.ok.injEq, Prod.mk.injEq] at h
    obtain ⟨h1, h2⟩ := h
    subst h1; subst h2
    exact ⟨by simp, rfl, fun k hk => by simp at hk, growsTo_refl _⟩
  | cons c rest ih =>
    intro cg cg2 slots h
    simp only [GenCall.runAll] at h
    cases h1 : c.run cg with
    | error e => simp [h1] at h
    | ok cg1 =>
      simp only [h1] at h
      cases h2 : GenCall.runAll rest cg1 with
      | error e => simp [h2] at h
      | ok p =>
        obtain ⟨slots2, cg3⟩ := p
        simp only [h2, Except.ok.injEq, Prod.mk.injEq] at h
        obtain ⟨hs, hc⟩ := h
        subst hs; subst hc
        obtain ⟨hl1, hsl, hg1⟩ := GenCall_run_facts c cg cg1 h1
        obtain ⟨hl2, hcnt, hk2, hg2⟩ := ih cg1 cg3 slots2 h2
        refine ⟨?_, ?_, ?_, growsTo_trans hg1 hg2⟩
        · rw [hl2, hl1]
          simp only [List.length_append]
          push_cast
          ring
        · rw [List.length_append, hcnt, List.countP_cons, hsl]
          cases c.takesSlot <;> simp [Nat.add_comm]
        · intro k hk
          rw [hsl] at hk ⊢
          rw [hsl] at hl1
          cases ht : c.takesSlot with
          | false =>
            simp only [ht, Bool.false_eq_true, if_false, List.nil_append, List.length_nil,
              Nat.cast_zero, mul_zero, sub_zero] at hk hl1 ⊢
            rw [hk2 k hk, hl1]
          | true =>
            simp only [ht, if_true, List.singleton_append, List.length_cons, List.length_nil,
              Nat.zero_add, Nat.cast_one, mul_one] at hk hl1 ⊢
            cases k with
            | zero => simp
            | succ j =>
              rw [List.getElem?_cons_succ, hk2 j (by omega), hl1]
              congr 1
              push_cast
              ring

theorem EmitFormals_frame :
    ∀ (fs : List VarDecl) (cg : CodeGenerator),
      (FnDecl.EmitFormals fs cg).2.code = cg.code ∧
      (FnDecl.EmitFormals fs cg).2.localLocation = cg.localLocation := by
  intro fs
  induction fs with
  | nil => intro cg; exact ⟨rfl, rfl⟩
  | cons v rest ih =>
    intro cg
    simp only [FnDecl.EmitFormals]
    exact ⟨(ih _).1, (ih _).2⟩

theorem atBody_facts (parent : Option Decl) (this : FnDecl) (cg : CodeGenerator) :
    (this.atBody parent cg).localLocation = OffsetToFirstLocal ∧
    (this.atBody parent cg).code = cg.code ++ [.Label this.id.name, .BeginFunc none] := by
  unfold FnDecl.atBody
  simp only [CodeGenerator.GenBeginFunc]
  refine ⟨?_, ?_⟩
  · rw [(EmitFormals_frame _ _).2]
    cases parentIsClass parent <;> rfl
  · rw [(EmitFormals_frame _ _).1]
    cases parentIsClass parent <;>
      simp [CodeGenerator.GetNextParam, CodeGenerator.ResetFrame, CodeGenerator.push,
        CodeGenerator.GenLabel]

theorem Emit_atBody (parent : Option Decl) (this : FnDecl) (b : BodyEmit) (cg : CodeGenerator) :
    this.Emit parent (some b) cg =
      match b (this.atBody parent cg) with
      | .error e => .error e
      | .ok cg4 =>
        .ok ({ this with formals := (FnDecl.EmitFormals this.formals
                (if parentIsClass parent then
                  (cg.GenLabel this.id.name).GenBeginFunc.2.GetNextParam.2
                 else (cg.GenLabel this.id.name).GenBeginFunc.2)).1 },
          (cg4.SetFrameSize (cg.GenLabel this.id.name).GenBeginFunc.1
            cg4.GetFrameSize).GenEndFunc) := by
  unfold FnDecl.Emit FnDecl.atBody
  rfl

/-- C34. The frame size of a function: `FnDecl::Emit` emits the body in a
generator whose next local is at `OffsetToFirstLocal = -8`, whatever earlier
functions took; when the body makes the calls `calls` of the generator and
they succeed, the function is emitted, the `BeginFunc` after its label holds
4 times the number of calls that reached `GetNextLocal`, and the k-th slot
handed out (0-based) is at offset `-8 - 4*k`; when a call of the body fails,
so does the function. -/
theorem FnDecl_Emit_frame (parent : Option Decl) (this : FnDecl) (calls : List GenCall)
    (cg : CodeGenerator) :
    (this.atBody parent cg).localLocation = OffsetToFirstLocal ∧
    (∀ e, GenCall.runAll calls (this.atBody parent cg) = .error e →
      this.Emit parent (some (GenCall.asBody calls)) cg = .error e) ∧
    (∀ slots cgB, GenCall.runAll calls (this.atBody parent cg) = .ok (slots, cgB) →
      slots.length = calls.countP GenCall.takesSlot ∧
      (∀ k : Nat, k < slots.length → slots[k]? = some (-8 - 4 * (k : Int))) ∧
      ∃ f2 cg2 bodyCode,
        this.Emit parent (some (GenCall.asBody calls)) cg = .ok (f2, cg2) ∧
        cgB.code = (this.atBody parent cg).code ++ bodyCode ∧
        cg2.code = cg.code ++ [.Label this.id.name,
          .BeginFunc (some (4 * (slots.length : Int)))] ++ bodyCode ++ [.EndFunc]) := by
  obtain ⟨hloc, hcode⟩ := atBody_facts parent this cg
  refine ⟨hloc, ?_, ?_⟩
  · intro e he
    rw [Emit_atBody]
    simp [GenCall.asBody, he]
  · intro slots cgB hrun
    obtain ⟨hl, hcnt, hk, ⟨bodyCode, hg⟩⟩ := runAll_facts calls _ cgB slots hrun
    refine ⟨hcnt, ?_, ?_⟩
    · intro k hlt
      rw [hk k hlt, hloc]
      rfl
    · rw [Emit_atBody]
      simp only [GenCall.asBody, hrun]
      refine ⟨_, _, bodyCode, rfl, hg, ?_⟩
      have hc : cgB.code = cg.code ++ [.Label this.id.name, .BeginFunc none] ++ bodyCode := by
        rw [hg, hcode]
      have hfunc : (cg.GenLabel this.id.name).GenBeginFunc.1 = cg.code.length + 1 := by
        simp [CodeGenerator.GenBeginFunc, CodeGenerator.GenLabel, CodeGenerator.push]
      rw [hfunc]
      have hget : cgB.code[cg.code.length + 1]? = some (.BeginFunc none) := by
        rw [hc, List.append_assoc, List.getElem?_append_right (by omega)]
        simp
      have hsize : cgB.GetFrameSize = 4 * (slots.length : Int) := by
        simp only [CodeGenerator.GetFrameSize, hl, hloc]
        ring
      simp only [CodeGenerator.SetFrameSize, hget]
      simp only [CodeGenerator.GenEndFunc, CodeGenerator.push, hsize, hc]
      congr 1
      simp [List.set_append]

/-- The body `{ int x; x = 1 + 2; Print(x); }` of `main`, emitted after a
function that took three slots: four slots at -8, -12, -16, -20 and the frame
size 16. -/
theorem FnDecl_Emit_frame_witness :
    exCgLater.localLocation = -20 ∧
    ∃ cgB, GenCall.runAll exCallsAdd (exFnMain.atBody none exCgLater) =
        .ok ([-8, -12, -16, -20], cgB) ∧
      ∃ f2 cg2 bodyCode,
        exFnMain.Emit none (some (GenCall.asBody exCallsAdd)) exCgLater = .ok (f2, cg2) ∧
        cg2.code = exCgLater.code ++ [.Label "main", .BeginFunc (some 16)] ++ bodyCode ++
          [.EndFunc] := by
  refine ⟨rfl, ?_⟩
  have hrun : ∃ cgB, GenCall.runAll exCallsAdd (exFnMain.atBody none exCgLater) =
      .ok ([-8, -12, -16, -20], cgB) := ⟨_, rfl⟩
  obtain ⟨cgB, hrun⟩ := hrun
  exact ⟨cgB, hrun,
    ((FnDecl_Emit_frame none exFnMain exCallsAdd exCgLater).2.2 _ cgB hrun).2.2.imp
      (fun _ h => h.imp (fun _ h2 => h2.imp (fun _ h3 => ⟨h3.1, h3.2.2⟩)))⟩

/-! ## `double` at code generation, and the label of a call -/

/-- C31. The refusal of `double` at code generation reaches variables and
constants only: the program `void f(double x) { } double g() { } void main() { }`
is emitted to the end, the formal `x` of type `double` getting the location
`fp+4`, while a global `double d`, a local `double d` and a `double` constant
stop the emission with a failed assertion. -/
theorem Program_Emit_double_formal :
    (∃ st, Program.Emit (exEmptyBodies exProgramDoubleFormal.decls) 1 exProgramDoubleFormal
        = .ok st ∧
      st.cg.code = [.Label "_f", .BeginFunc (some 0), .EndFunc,
                    .Label "_g", .BeginFunc (some 0), .EndFunc,
                    .Label "main", .BeginFunc (some 0), .EndFunc] ∧
      st.errs = [] ∧
      st.decls.head? = some (.fn { exFnDoubleFormal with
        id := { name := "_f" },
        formals := [{ id := { name := "x" }, type := .base .doubleType true,
                      emit_loc := some (.plain .fpRelative 4 "x") }] })) ∧
    Program.Emit (exEmptyBodies exProgramDoubleGlobal.decls) 1 exProgramDoubleGlobal
      = .error .assertion ∧
    Stmt.Emit [] exFnAncestors exBlockDoubleLocal ([.var exVarDouble], CodeGenerator.new)
      = .error .assertion ∧
    Expr.Emit [] [] (.DoubleConstant (some (.base .doubleType true))) CodeGenerator.new
      = .error .assertion :=
  ⟨⟨_, rfl, rfl, rfl, rfl⟩, rfl, rfl, rfl⟩

/-- C40. The label of a call of `main`: in the program
`void main() { main(); f(); } void f() { }` the call `main()` is emitted as
`LCall _main` while the function is emitted under the label `main`, so that
no label of the code is the target of the call; the call `f()` is emitted as
`LCall _f`, the label of `f`. -/
theorem Call_Emit_main_label :
    (∃ r, exCallMain.Emit exHeapMain [none, none] CodeGenerator.new = .ok r ∧
      r.2.code = [.LCall "_main" none]) ∧
    (∃ r, (exFnMain.PrefixForMember none).Emit none none CodeGenerator.new = .ok r ∧
      r.2.code = [.Label "main", .BeginFunc (some 0), .EndFunc]) ∧
    (∃ st, Program.Emit exBodiesMain 1 exProgramCallMain = .ok st ∧
      st.cg.code = [.Label "main", .BeginFunc (some 0), .LCall "_main" none, .LCall "_f" none,
                    .EndFunc, .Label "_f", .BeginFunc (some 0), .EndFunc] ∧
      definedLabels st.cg.code = ["main", "_f"] ∧
      calledLabels st.cg.code = ["_main", "_f"] ∧
      "_main" ∉ definedLabels st.cg.code) :=
  ⟨⟨_, rfl, rfl⟩, ⟨_, rfl, rfl⟩, ⟨_, rfl, rfl, rfl, rfl, by decide⟩⟩

/-! ## Transitivity of `IsCompatibleWith` -/

theorem IsChildOf_mono (heap : Heap) (other : Decl) :
    ∀ (n : Nat) (c : ClassDecl) (b : Bool), c.IsChildOf heap n other = .ok b →
      ∀ k, n ≤ k → c.IsChildOf heap k other = .ok b := by
  intro n
  induction n with
  | zero => intro c b h; simp [ClassDecl.IsChildOf] at h
  | succ n ih =>
    intro c b h k hk
    obtain ⟨j, rfl⟩ : ∃ j, k = j + 1 := ⟨k - 1, by omega⟩
    have hj : n ≤ j := by omega
    simp only [ClassDecl.IsChildOf] at h ⊢
    split
    · rename_i hcls
      simp only [hcls, if_true] at h
      split
      · rename_i heq
        simpa [heq] using h
      · rename_i heq
        simp only [heq] at h
        cases hext : c.extends_ with
        | none => simpa [hext] using h
        | some ext =>
          simp only [hext] at h ⊢
          cases hcast : castClassDecl (ext.id.ReturnCache heap) with
          | none => simp [hcast] at h
          | some d =>
            simp only [hcast] at h ⊢
            exact ih d b h j hj
    · rename_i hcls
      simp only [hcls] at h
      split
      · rename_i hif
        simp only [hif, if_true] at h
        split
        · rename_i heq
          simpa [heq] using h
        · rename_i heq
          simp only [heq] at h
          cases hext : c.extends_ with
          | none => simpa [hext] using h
          | some ext =>
            simp only [hext] at h ⊢
            cases hcast : castClassDecl (ext.id.ReturnCache heap) with
            | none => simp [hcast] at h
            | some d =>
              simp only [hcast] at h ⊢
              exact ih d b h j hj
      · rename_i hif
        simpa [hif] using h

theorem IsChildOf_true_isTypeDecl (heap : Heap) (n : Nat) (c : ClassDecl) (other : Decl)
    (h : c.IsChildOf heap n other = .ok true) : other.isTypeDecl = true := by
  cases n with
  | zero => simp [ClassDecl.IsChildOf] at h
  | succ n =>
    cases other <;> simp [ClassDecl.IsChildOf, Decl.IsClassDecl, Decl.IsInterfaceDecl,
      Decl.isTypeDecl] at h ⊢

theorem castClassDecl_mem (heap : Heap) (id : Identifier) (d : ClassDecl)
    (h : castClassDecl (id.ReturnCache heap) = some d) : Decl.cls d ∈ heap := by
  unfold Identifier.ReturnCache at h
  cases hc : id.cache with
  | none => simp [hc, castClassDecl] at h
  | some p =>
    simp only [hc] at h
    cases hp : heap[p]? with
    | none => simp [hp, castClassDecl] at h
    | some x =>
      rw [hp] at h
      cases x <;> simp [castClassDecl] at h
      subst h
      exact List.getElem?_mem hp

theorem ReturnCache_mem (heap : Heap) (id : Identifier) (d : Decl)
    (h : id.ReturnCache heap = some d) : d ∈ heap := by
  unfold Identifier.ReturnCache at h
  cases hc : id.cache with
  | none => simp [hc] at h
  | some p =>
    simp only [hc] at h
    exact List.getElem?_mem h

theorem IsChildOf_step (heap : Heap) (n : Nat) (c d : ClassDecl) (ext : NamedType)
    (other : Decl) (hext : c.extends_ = some ext)
    (hcast : castClassDecl (ext.id.ReturnCache heap) = some d)
    (h : d.IsChildOf heap n other = .ok true) :
    c.IsChildOf heap (n + 1) other = .ok true := by
  have ht := IsChildOf_true_isTypeDecl heap n d other h
  simp only [ClassDecl.IsChildOf, hext, hcast, h]
  cases other <;> simp [Decl.isTypeDecl, Decl.IsClassDecl, Decl.IsInterfaceDecl] at ht ⊢

theorem IsChildOf_trans (heap : Heap) (huniq : uniqueTypeNames heap) (cB : ClassDecl)
    (other : Decl) (m : Nat) (hB : Decl.cls cB ∈ heap)
    (h2 : cB.IsChildOf heap m other = .ok true) :
    ∀ (n : Nat) (cC : ClassDecl), Decl.cls cC ∈ heap →
      cC.IsChildOf heap n (.cls cB) = .ok true →
      cC.IsChildOf heap (n + m) other = .ok true := by
  intro n
  induction n with
  | zero => intro cC _ h; simp [ClassDecl.IsChildOf] at h
  | succ n ih =>
    intro cC hC h
    simp only [ClassDecl.IsChildOf, Decl.IsClassDecl, if_true, Decl.GetId] at h
    by_cases heq : cC.id.Equivalent cB.id = true
    · have hname : (Decl.cls cC).GetId.name = (Decl.cls cB).GetId.name := by
        simpa [Identifier.Equivalent, Decl.GetId] using heq
      have hsame := huniq _ hC _ hB rfl rfl hname
      simp only [Decl.cls.injEq] at hsame
      subst hsame
      exact IsChildOf_mono heap other m cC true h2 _ (by omega)
    · simp only [heq] at h
      cases hext : cC.extends_ with
      | none => simp [hext] at h
      | some ext =>
        simp only [hext] at h
        cases hcast : castClassDecl (ext.id.ReturnCache heap) with
        | none => simp [hcast] at h
        | some d =>
          simp only [hcast] at h
          have hd := ih d (castClassDecl_mem heap ext.id d hcast) h
          have hstep := IsChildOf_step heap (n + m) cC d ext other hext hcast hd
          have e : n + 1 + m = n + m + 1 := by omega
          rw [e]
          exact hstep

theorem cacheResolved_named (heap : Heap) (n : NamedType)
    (h : (Ty.named n).cacheResolved heap = true) :
    ∃ d, n.id.ReturnCache heap = some d ∧ d.isTypeDecl = true ∧ d.GetId.name = n.id.name ∧
      d ∈ heap := by
  simp only [Ty.cacheResolved] at h
  cases hc : n.id.ReturnCache heap with
  | none => simp [hc] at h
  | some d =>
    simp only [hc, Bool.and_eq_true, beq_iff_eq] at h
    exact ⟨d, rfl, h.1, h.2, ReturnCache_mem heap n.id d hc⟩

theorem named_compat_eq (heap : Heap) (f : Nat) (a b : NamedType)
    (ha : a.type_of_expr = true) (hb : b.type_of_expr = true) :
    Ty.IsCompatibleWith heap f (.named a) (.named b) =
      if a.id.name = b.id.name then .ok true else a.childCheck heap f b := by
  by_cases h : a.id.name = b.id.name
  · simp [Ty.IsCompatibleWith, Ty.Equivalent, Ty.ReturnType, Ty.isBuiltin, ha, hb,
      Identifier.Equivalent, h]
  · have hne : (a.id.name == b.id.name) = false := by simpa using h
    simp [Ty.IsCompatibleWith, Ty.Equivalent, Ty.ReturnType, Ty.isBuiltin, ha, hb,
      Identifier.Equivalent, h, hne]

theorem childCheck_mono (heap : Heap) (a b : NamedType) (n : Nat) (v : Bool)
    (h : a.childCheck heap n b = .ok v) : ∀ k, n ≤ k → a.childCheck heap k b = .ok v := by
  intro k hk
  unfold NamedType.childCheck at h ⊢
  cases ha : a.id.ReturnCache heap with
  | none => simp [ha] at h
  | some d1 =>
    cases hb : b.id.ReturnCache heap with
    | none => simp [ha, hb] at h
    | some d2 =>
      simp only [ha, hb] at h ⊢
      cases d2 with
      | cls c => exact IsChildOf_mono heap d1 n c v h k hk
      | var x => exact h
      | fn x => exact h
      | iface x => exact h

theorem IsCompatibleWith_mono (heap : Heap) :
    ∀ (A B : Ty) (n : Nat) (v : Bool), A.IsCompatibleWith heap n B = .ok v →
      ∀ k, n ≤ k → A.IsCompatibleWith heap k B = .ok v := by
  intro A
  induction A with
  | base b t =>
    intro B n v h k _
    simpa [Ty.IsCompatibleWith] using h
  | named a =>
    intro B n v h k hk
    simp only [Ty.IsCompatibleWith] at h ⊢
    split
    · rename_i hassert
      simp [hassert] at h
    · rename_i hassert
      simp only [hassert] at h
      split
      · rename_i hnull
        simpa [hnull] using h
      · rename_i hnull
        simp only [hnull] at h
        cases B with
        | base b t => exact h
        | array e t => exact h
        | named b =>
          simp only at h ⊢
          cases heq : (Ty.named a).Equivalent (.named b) with
          | error e => simp [heq] at h
          | ok r =>
            cases r with
            | true => simpa [heq] using h
            | false =>
              simp only [heq] at h ⊢
              exact childCheck_mono heap a b n v h k hk
  | array e t ih =>
    intro B n v h k hk
    simp only [Ty.IsCompatibleWith] at h ⊢
    split
    · rename_i hassert
      simp [hassert] at h
    · rename_i hassert
      simp only [hassert] at h
      split
      · rename_i hnull
        simp only [hnull, if_true] at h
        exact ih B n v h k hk
      · rename_i hnull
        simpa [hnull] using h

theorem named_trans (heap : Heap) (huniq : uniqueTypeNames heap) (a b c : NamedType)
    (ha : a.type_of_expr = true) (hb : b.type_of_expr = true) (hc : c.type_of_expr = true)
    (hca : (Ty.named a).cacheResolved heap = true) (hcb : (Ty.named b).cacheResolved heap = true)
    (hcc : (Ty.named c).cacheResolved heap = true) (n m : Nat)
    (h1 : Ty.IsCompatibleWith heap n (.named a) (.named b) = .ok true)
    (h2 : Ty.IsCompatibleWith heap m (.named b) (.named c) = .ok true) :
    Ty.IsCompatibleWith heap (n + m) (.named a) (.named c) = .ok true := by
  rw [named_compat_eq heap _ _ _ ha hb] at h1
  rw [named_compat_eq heap _ _ _ hb hc] at h2
  rw [named_compat_eq heap _ _ _ ha hc]
  obtain ⟨dA, hdA, htA, hnA, hmA⟩ := cacheResolved_named heap a hca
  obtain ⟨dB, hdB, htB, hnB, hmB⟩ := cacheResolved_named heap b hcb
  obtain ⟨dC, hdC, htC, hnC, hmC⟩ := cacheResolved_named heap c hcc
  by_cases hac : a.id.name = c.id.name
  · simp [hac]
  · simp only [hac, if_false]
    simp only [NamedType.childCheck, hdA, hdB, hdC] at h1 h2 ⊢
    by_cases hab : a.id.name = b.id.name
    · have hbc : ¬ b.id.name = c.id.name := fun e => hac (hab.trans e)
      simp only [hbc, if_false] at h2
      have hAB : dA = dB := huniq dA hmA dB hmB htA htB (by rw [hnA, hnB, hab])
      subst hAB
      cases dC with
      | cls cC => exact IsChildOf_mono heap dA m cC true h2 _ (by omega)
      | var x => simp at h2
      | fn x => simp at h2
      | iface x => simp at h2
    · simp only [hab, if_false] at h1
      by_cases hbc : b.id.name = c.id.name
      · have hBC : dB = dC := huniq dB hmB dC hmC htB htC (by rw [hnB, hnC, hbc])
        subst hBC
        cases dB with
        | cls cB => exact IsChildOf_mono heap dA n cB true h1 _ (by omega)
        | var x => simp at h1
        | fn x => simp at h1
        | iface x => simp at h1
      · simp only [hbc, if_false] at h2
        cases dB with
        | cls cB =>
          cases dC with
          | cls cC =>
            simp only at h1 h2 ⊢
            have := IsChildOf_trans heap huniq cB dA n hmB h1 m cC hmC h2
            rw [Nat.add_comm]
            exact this
          | var x => simp at h2
          | fn x => simp at h2
          | iface x => simp at h2
        | var x => simp at h1
        | fn x => simp at h1
        | iface x => simp at h1

theorem null_of_equiv (heap : Heap) (f : Nat) (N : Ty) (hN : N.isBuiltin .nullType = true)
    (hNr : N.ReturnType = true) :
    ∀ eA eB : Ty, eA.resolved = true → eB.resolved = true → eA.equiv eB = true →
      eB.IsCompatibleWith heap f N = .ok true → eA.IsCompatibleWith heap f N = .ok true := by
  intro eA
  induction eA with
  | base b t =>
    intro eB _ _ he h
    cases eB with
    | base b2 t2 =>
      simp only [Ty.equiv, beq_iff_eq] at he
      subst he
      simpa [Ty.IsCompatibleWith] using h
    | named x => simp [Ty.equiv] at he
    | array x y => simp [Ty.equiv] at he
  | named a =>
    intro eB hA _ _ _
    simp only [Ty.resolved] at hA
    simp [Ty.IsCompatibleWith, hA, hNr, hN]
  | array e t ih =>
    intro eB hA hB he h
    cases eB with
    | base b2 t2 => simp [Ty.equiv] at he
    | named x => simp [Ty.equiv] at he
    | array e2 t2 =>
      simp only [Ty.resolved, Bool.and_eq_true] at hA hB
      simp only [Ty.equiv] at he
      simp only [Ty.IsCompatibleWith, hA.1, hB.1, hNr, hN, Bool.and_self, Bool.not_true,
        Bool.false_eq_true, if_false, if_true] at h ⊢
      exact ih e2 hA.2 hB.2 he h

theorem isBuiltin_null_eq (T : Ty) (h : T.isBuiltin .nullType = true) (hr : T.resolved = true) :
    T = .base .nullType true := by
  cases T with
  | base b t =>
    simp only [Ty.isBuiltin, beq_iff_eq] at h
    simp only [Ty.resolved] at hr
    subst h; subst hr; rfl
  | named n => simp [Ty.isBuiltin] at h
  | array e t => simp [Ty.isBuiltin] at h

/-- C39. `IsCompatibleWith` is transitive on resolved types: in a program
whose classes and interfaces have distinct names, for types `A`, `B`, `C`
whose nodes have their type set and whose named types point to the
declaration of their name, if `A.IsCompatibleWith(B)` returns true within `n`
activations of `IsChildOf` and `B.IsCompatibleWith(C)` returns true within `m`,
then `A.IsCompatibleWith(C)` returns true within `n + m`, and within any larger
bound. -/
theorem IsCompatibleWith_trans (heap : Heap) (huniq : uniqueTypeNames heap) (A B C : Ty)
    (hA : A.resolved = true) (hB : B.resolved = true) (hC : C.resolved = true)
    (hcA : A.cacheResolved heap = true) (hcB : B.cacheResolved heap = true)
    (hcC : C.cacheResolved heap = true) (n m : Nat)
    (h1 : A.IsCompatibleWith heap n B = .ok true)
    (h2 : B.IsCompatibleWith heap m C = .ok true) :
    ∀ k, n + m ≤ k → A.IsCompatibleWith heap k C = .ok true := by
  intro k hk
  refine IsCompatibleWith_mono heap A C (n + m) true ?_ k hk
  have hCr := Ty.resolved_ReturnType C hC
  have hBr := Ty.resolved_ReturnType B hB
  cases A with
  | base b t =>
    cases B with
    | base b2 t2 =>
      simp only [Ty.IsCompatibleWith, Ty.isBuiltin, Except.ok.injEq, beq_iff_eq] at h1
      subst h1
      simpa [Ty.IsCompatibleWith] using h2
    | named x => simp [Ty.IsCompatibleWith, Ty.isBuiltin] at h1
    | array x y => simp [Ty.IsCompatibleWith, Ty.isBuiltin] at h1
  | named a =>
    have ha : a.type_of_expr = true := by simpa [Ty.resolved] using hA
    cases B with
    | base bB tB =>
      have hbn : (Ty.base bB tB).isBuiltin .nullType = true := by
        by_contra hne
        simp [Ty.IsCompatibleWith, ha, hBr, hne] at h1
      have hBe := isBuiltin_null_eq _ hbn hB
      rw [hBe] at h2
      have hcn : C.isBuiltin .nullType = true := by
        simpa [Ty.IsCompatibleWith] using h2
      simp [Ty.IsCompatibleWith, ha, hCr, hcn]
    | named b =>
      have hb : b.type_of_expr = true := by simpa [Ty.resolved] using hB
      cases C with
      | base bC tC =>
        have hcn : (Ty.base bC tC).isBuiltin .nullType = true := by
          by_contra hne
          simp [Ty.IsCompatibleWith, hb, hCr, hne] at h2
        simp [Ty.IsCompatibleWith, ha, hCr, hcn]
      | named c =>
        have hc : c.type_of_expr = true := by simpa [Ty.resolved] using hC
        exact named_trans heap huniq a b c ha hb hc hcA hcB hcC n m h1 h2
      | array e t =>
        simp [Ty.IsCompatibleWith, hb, hCr, Ty.isBuiltin] at h2
    | array e t =>
      simp [Ty.IsCompatibleWith, ha, hBr, Ty.isBuiltin] at h1
  | array eA tA =>
    have hA2 : tA = true ∧ eA.resolved = true := by
      simpa [Ty.resolved] using hA
    cases B with
    | base bB tB =>
      have hbn : (Ty.base bB tB).isBuiltin .nullType = true := by
        by_contra hne
        simp [Ty.IsCompatibleWith, hA2.1, hBr, hne, Ty.Equivalent] at h1
      have hBe := isBuiltin_null_eq _ hbn hB
      rw [hBe] at h1 h2
      have hcn : C.isBuiltin .nullType = true := by
        simpa [Ty.IsCompatibleWith] using h2
      have hCe := isBuiltin_null_eq _ hcn hC
      rw [hCe]
      exact IsCompatibleWith_mono heap _ _ n true h1 _ (by omega)
    | named b =>
      simp [Ty.IsCompatibleWith, hA2.1, hBr, Ty.isBuiltin, Ty.Equivalent] at h1
    | array eB tB =>
      have hB2 : tB = true ∧ eB.resolved = true := by
        simpa [Ty.resolved] using hB
      have hAB : (Ty.array eA tA).equiv (.array eB tB) = true := by
        have := Ty.Equivalent_eq_equiv _ _ hA hB
        simp only [Ty.IsCompatibleWith, hA2.1, hBr, Ty.isBuiltin, Bool.and_self, Bool.not_true,
          Bool.false_eq_true, if_false] at h1
        rw [hA2.1] at this
        rw [this] at h1
        simpa [hA2.1] using h1
      by_cases hcn : C.isBuiltin .nullType = true
      · have hCe := isBuiltin_null_eq _ hcn hC
        rw [hCe] at h2 ⊢
        have h2e : eB.IsCompatibleWith heap m (.base .nullType true) = .ok true := by
          simpa [Ty.IsCompatibleWith, hB2.1, Ty.ReturnType, Ty.isBuiltin] using h2
        have hAe := null_of_equiv heap m (.base .nullType true) rfl rfl eA eB hA2.2 hB2.2
          (by simpa [Ty.equiv] using hAB) h2e
        have hAe2 := IsCompatibleWith_mono heap _ _ m true hAe (n + m) (by omega)
        simpa [Ty.IsCompatibleWith, hA2.1, Ty.ReturnType, Ty.isBuiltin] using hAe2
      · have hBC : (Ty.array eB tB).equiv C = true := by
          have := Ty.Equivalent_eq_equiv _ _ hB hC
          simp only [Ty.IsCompatibleWith, hB2.1, hCr, hcn, Bool.and_self, Bool.not_true,
            Bool.false_eq_true, if_false] at h2
          rw [hB2.1] at this
          rw [this] at h2
          simpa [hB2.1] using h2
        have hAC := Ty.equiv_trans _ _ _ hAB hBC
        have := Ty.Equivalent_eq_equiv _ _ hA hC
        simp only [Ty.IsCompatibleWith, hA2.1, hCr, hcn, Bool.and_self, Bool.not_true,
          Bool.false_eq_true, if_false]
        rw [hA2.1] at this hAC
        rw [this, hAC]

theorem IsCompatibleWith_trans_witness :
    Ty.IsCompatibleWith exHeapABC 2 (.named { id := exA.id }) (.named { id := exB.id })
      = .ok true ∧
    Ty.IsCompatibleWith exHeapABC 2 (.named { id := exB.id }) (.named { id := exC.id })
      = .ok true ∧
    Ty.IsCompatibleWith exHeapABC 4 (.named { id := exA.id }) (.named { id := exC.id })
      = .ok true :=
  ⟨rfl, rfl,
    IsCompatibleWith_trans exHeapABC
      (by
        intro d1 h1 d2 h2
        simp only [exHeapABC, List.mem_cons, List.mem_singleton, List.not_mem_nil,
          or_false] at h1 h2
        rcases h1 with rfl | rfl | rfl | rfl <;> rcases h2 with rfl | rfl | rfl | rfl <;>
          simp [Decl.GetId, exA, exB, exC, exI])
      (.named { id := exA.id }) (.named { id := exB.id }) (.named { id := exC.id })
      rfl rfl rfl rfl rfl rfl 2 2 rfl rfl 4 (by decide)⟩

/-! ## `Program::Emit` -/

theorem append_left_cancel_string (s a b : String) (h : s ++ a = s ++ b) : a = b := by
  have h2 := congrArg String.data h
  simp only [String.data_append] at h2
  exact String.ext (List.append_cancel_left h2)

theorem prefixed_name (f : FnDecl) (c : ClassDecl) :
    (f.PrefixForMember (some (.cls c))).id.name = "_" ++ c.id.name ++ "." ++ f.id.name := by
  simp [FnDecl.PrefixForMember, parentIsClass, Decl.IsClassDecl, Identifier.SetPrefix,
    Decl.GetId, String.append_assoc]

theorem prefixed_name_inj (f g : FnDecl) (c : ClassDecl) :
    (g.PrefixForMember (some (.cls c))).id.name = (f.PrefixForMember (some (.cls c))).id.name ↔
      g.id.name = f.id.name := by
  rw [prefixed_name, prefixed_name]
  constructor
  · intro h
    exact append_left_cancel_string _ _ _ h
  · intro h
    rw [h]

theorem ownFns_prefixed (c : ClassDecl) : ∀ ms : List Member,
    ownFns (ms.map (Member.PrefixForMember (.cls c))) =
      (ownFns ms).map (FnDecl.PrefixForMember (some (.cls c))) := by
  intro ms
  induction ms with
  | nil => rfl
  | cons m rest ih => cases m <;> simp [ownFns, Member.PrefixForMember, ih]

theorem nodeOf_prefixed (f : FnDecl) (c : ClassDecl) :
    (f.id.name ∉ fnNames (ownFns c.members) → ClassDecl.nodeOf f c.PrefixForMember = none) ∧
    (f.id.name ∈ fnNames (ownFns c.members) →
      ∃ g, ClassDecl.nodeOf f c.PrefixForMember = some g ∧
        g.id.name = "_" ++ c.id.name ++ "." ++ f.id.name) := by
  have hid : c.PrefixForMember.id = c.id := rfl
  have hname : (f.PrefixForMember (some (.cls c.PrefixForMember))).id.name =
      (f.PrefixForMember (some (.cls c))).id.name := by
    rw [prefixed_name, prefixed_name, hid]
  constructor
  · intro h
    simp only [ClassDecl.nodeOf, ClassDecl.PrefixForMember, ownFns_prefixed,
      List.find?_eq_none, List.mem_map, beq_iff_eq]
    rintro g ⟨g0, hg0, rfl⟩ heq
    have heq2 : (g0.PrefixForMember (some (.cls c))).id.name =
        (f.PrefixForMember (some (.cls c))).id.name := by
      rw [heq]
      exact hname
    rw [prefixed_name_inj] at heq2
    exact h (by simp only [fnNames, List.mem_map]; exact ⟨g0, hg0, heq2⟩)
  · intro h
    simp only [fnNames, List.mem_map] at h
    obtain ⟨g0, hg0, hgn⟩ := h
    cases hfind : ClassDecl.nodeOf f c.PrefixForMember with
    | none =>
      simp only [ClassDecl.nodeOf, ClassDecl.PrefixForMember, ownFns_prefixed,
        List.find?_eq_none, List.mem_map, beq_iff_eq] at hfind
      have := hfind (g0.PrefixForMember (some (.cls c))) ⟨g0, hg0, rfl⟩
      exact absurd (((prefixed_name_inj f g0 c).mpr hgn).trans hname.symm) this
    | some g =>
      refine ⟨g, rfl, ?_⟩
      have hp := List.find?_some hfind
      simp only [beq_iff_eq] at hp
      rw [hp, hname, prefixed_name]

theorem nodeName_of_slotLabel (chain : List ClassDecl) (f : FnDecl) (label : String)
    (h : slotLabel chain f label) :
    ClassDecl.nodeName (chain.map ClassDecl.PrefixForMember) f = label := by
  obtain ⟨pre, D, post, hch, hpre, hD, hl⟩ := h
  subst hch
  obtain ⟨g, hg, hgn⟩ := (nodeOf_prefixed f D).2 hD
  have hnone : (pre.map ClassDecl.PrefixForMember).findSome? (ClassDecl.nodeOf f) = none := by
    rw [List.findSome?_eq_none_iff]
    intro cP hcP
    simp only [List.mem_map] at hcP
    obtain ⟨c, hc, rfl⟩ := hcP
    exact (nodeOf_prefixed f c).1 (hpre c hc)
  simp only [ClassDecl.nodeName, List.map_append, List.map_cons, List.findSome?_append, hnone,
    Option.none_or, List.findSome?_cons, hg]
  rw [hgn, hl]

theorem slotLabel_exists (chain : List ClassDecl) (f : FnDecl)
    (h : f.id.name ∈ fnNames (chainFns chain)) : ∃ label, slotLabel chain f label := by
  induction chain with
  | nil => simp [chainFns, fnNames] at h
  | cons c rest ih =>
    by_cases hc : f.id.name ∈ fnNames (ownFns c.members)
    · exact ⟨_, [], c, rest, rfl, by simp, hc, rfl⟩
    · have hr : f.id.name ∈ fnNames (chainFns rest) := by
        simp only [chainFns, fnNames, List.map_append, List.mem_append] at h
        rcases h with h | h
        · exact h
        · exact absurd h hc
      obtain ⟨label, pre, D, post, hch, hpre, hD, hl⟩ := ih hr
      refine ⟨label, c :: pre, D, post, by rw [hch]; rfl, ?_, hD, hl⟩
      intro x hx
      rcases List.mem_cons.mp hx with rfl | hx
      · exact hc
      · exact hpre x hx

theorem castClassDecl_prefixed (heap : Heap) (id : Identifier) :
    castClassDecl (id.ReturnCache (heap.map Decl.PrefixForMember)) =
      (castClassDecl (id.ReturnCache heap)).map ClassDecl.PrefixForMember := by
  simp only [Identifier.ReturnCache]
  cases id.cache with
  | none => rfl
  | some p =>
    simp only [List.getElem?_map]
    cases heap[p]? with
    | none => rfl
    | some d => cases d <;> rfl

theorem extendsChain_prefixed (heap : Heap) :
    ∀ (fuel : Nat) (c : ClassDecl),
      extendsChain (heap.map Decl.PrefixForMember) fuel c.PrefixForMember =
        match extendsChain heap fuel c with
        | .error e => .error e
        | .ok chain => .ok (chain.map ClassDecl.PrefixForMember) := by
  intro fuel
  induction fuel with
  | zero => intro c; rfl
  | succ n ih =>
    intro c
    have hext : c.PrefixForMember.extends_ = c.extends_ := rfl
    rw [extendsChain, extendsChain, hext]
    cases c.extends_ with
    | none => rfl
    | some type =>
      simp only [castClassDecl_prefixed]
      cases castClassDecl (type.id.ReturnCache heap) with
      | none => rfl
      | some next =>
        simp only [Option.map_some', ih next]
        cases extendsChain heap n next <;> rfl

theorem VarDecl_Emit_set (v v2 : VarDecl) (cg cg2 : CodeGenerator)
    (h : v.emit_loc.isSome = true) :
    v.Emit cg = .ok (v2, cg2) ↔ v.type.isBuiltin .doubleType = false ∧ v2 = v ∧ cg2 = cg := by
  unfold VarDecl.Emit
  cases hd : v.type.isBuiltin .doubleType with
  | true => simp
  | false =>
    cases hl : v.emit_loc with
    | none => simp [hl] at h
    | some l =>
      simp only [Bool.false_eq_true, if_false, Except.ok.injEq, Prod.mk.injEq, true_and]
      constructor
      · rintro ⟨h1, h2⟩
        exact ⟨h1.symm, h2.symm⟩
      · rintro ⟨h1, h2⟩
        exact ⟨h1.symm, h2.symm⟩

theorem FnDecl_Emit_parent (c1 c2 : ClassDecl) (body : Option BodyEmit) (f : FnDecl)
    (cg : CodeGenerator) :
    f.Emit (some (.cls c1)) body cg = f.Emit (some (.cls c2)) body cg := rfl

theorem EmitMembers_iff (bodies : FnDecl → Option BodyEmit) (c : ClassDecl) :
    ∀ (ms : List Member) (cg : CodeGenerator) (members2 : List Member) (cgm : CodeGenerator),
      (∀ v, Member.var v ∈ ms → v.emit_loc.isSome = true) →
      (ClassDecl.EmitMembers bodies (.cls c.PrefixForMember)
          (ms.map (Member.PrefixForMember (.cls c))) cg = .ok (members2, cgm) ↔
        inTurn (memberStep bodies c) ms cg members2 cgm) := by
  intro ms
  induction ms with
  | nil =>
    intro cg members2 cgm _
    simp only [List.map_nil, ClassDecl.EmitMembers, Except.ok.injEq, Prod.mk.injEq, inTurn]
    constructor
    · rintro ⟨h1, h2⟩; exact ⟨h1.symm, h2.symm⟩
    · rintro ⟨h1, h2⟩; exact ⟨h1.symm, h2.symm⟩
  | cons m rest ih =>
    intro cg members2 cgm hv
    have hrest : ∀ v, Member.var v ∈ rest → v.emit_loc.isSome = true :=
      fun v hvm => hv v (List.mem_cons_of_mem _ hvm)
    cases m with
    | var v =>
      have hset := hv v (List.mem_cons_self _ _)
      simp only [List.map_cons, Member.PrefixForMember, ClassDecl.EmitMembers, inTurn, memberStep]
      constructor
      · intro h
        cases h1 : v.Emit cg with
        | error e => simp [h1] at h
        | ok p1 =>
          obtain ⟨v2, cg1⟩ := p1
          simp only [h1] at h
          obtain ⟨hd, rfl, rfl⟩ := (VarDecl_Emit_set v v2 cg cg1 hset).mp h1
          cases h2 : ClassDecl.EmitMembers bodies (.cls c.PrefixForMember)
              (rest.map (Member.PrefixForMember (.cls c))) cg1 with
          | error e => simp [h2] at h
          | ok p2 =>
            obtain ⟨rest2, cg2⟩ := p2
            simp only [h2, Except.ok.injEq, Prod.mk.injEq] at h
            obtain ⟨rfl, rfl⟩ := h
            exact ⟨_, _, _, ⟨hd, rfl, rfl⟩, rfl, (ih _ _ _ hrest).mp h2⟩
      · rintro ⟨b, cg1, outs1, ⟨hd, rfl, rfl⟩, rfl, hin⟩
        have h1 := (VarDecl_Emit_set v v cg1 cg1 hset).mpr ⟨hd, rfl, rfl⟩
        simp only [h1, (ih _ _ _ hrest).mpr hin]
    | fn f =>
      simp only [List.map_cons, Member.PrefixForMember, ClassDecl.EmitMembers, inTurn, memberStep]
      rw [FnDecl_Emit_parent c.PrefixForMember c]
      constructor
      · intro h
        cases h1 : (f.PrefixForMember (some (.cls c))).Emit (some (.cls c))
            (bodies (f.PrefixForMember (some (.cls c)))) cg with
        | error e => simp [h1] at h
        | ok p1 =>
          obtain ⟨f2, cg1⟩ := p1
          simp only [h1] at h
          cases h2 : ClassDecl.EmitMembers bodies (.cls c.PrefixForMember)
              (rest.map (Member.PrefixForMember (.cls c))) cg1 with
          | error e => simp [h2] at h
          | ok p2 =>
            obtain ⟨rest2, cg2⟩ := p2
            simp only [h2, Except.ok.injEq, Prod.mk.injEq] at h
            obtain ⟨rfl, rfl⟩ := h
            exact ⟨_, _, _, ⟨f2, rfl, rfl⟩, rfl, (ih _ _ _ hrest).mp h2⟩
      · rintro ⟨b, cg1, outs1, ⟨f2, h1, rfl⟩, rfl, hin⟩
        simp only [h1, (ih _ _ _ hrest).mpr hin]
    | other id =>
      simp only [List.map_cons, Member.PrefixForMember, ClassDecl.EmitMembers, inTurn, memberStep]
      constructor
      · intro h
        cases h2 : ClassDecl.EmitMembers bodies (.cls c.PrefixForMember)
            (rest.map (Member.PrefixForMember (.cls c))) cg with
        | error e => simp [h2] at h
        | ok p2 =>
          obtain ⟨rest2, cg2⟩ := p2
          simp only [h2, Except.ok.injEq, Prod.mk.injEq] at h
          obtain ⟨rfl, rfl⟩ := h
          exact ⟨_, _, _, ⟨rfl, rfl⟩, rfl, (ih _ _ _ hrest).mp h2⟩
      · rintro ⟨b, cg1, outs1, ⟨rfl, rfl⟩, rfl, hin⟩
        simp only [(ih _ _ _ hrest).mpr hin]

theorem labels_of_slotLabels (chain : List ClassDecl) :
    ∀ (fns : List FnDecl) (labels : List String), List.Forall₂ (slotLabel chain) fns labels →
      fns.map (ClassDecl.nodeName (chain.map ClassDecl.PrefixForMember)) = labels := by
  intro fns labels h
  induction h with
  | nil => rfl
  | cons h1 _ ih => simp only [List.map_cons, nodeName_of_slotLabel chain _ _ h1, ih]

theorem slotLabels_exist (chain : List ClassDecl) :
    ∀ fns : List FnDecl, (∀ f ∈ fns, f.id.name ∈ fnNames (chainFns chain)) →
      List.Forall₂ (slotLabel chain) fns
        (fns.map (ClassDecl.nodeName (chain.map ClassDecl.PrefixForMember))) := by
  intro fns
  induction fns with
  | nil => intro _; exact List.Forall₂.nil
  | cons f rest ih =>
    intro h
    obtain ⟨label, hl⟩ := slotLabel_exists chain f (h f (List.mem_cons_self _ _))
    rw [List.map_cons, nodeName_of_slotLabel chain f label hl]
    exact List.Forall₂.cons hl (ih (fun g hg => h g (List.mem_cons_of_mem _ hg)))

theorem ClassDecl_Emit_iff (heap : Heap) (fuel : Nat) (bodies : FnDecl → Option BodyEmit)
    (c : ClassDecl) (cg : CodeGenerator) (d2 : Decl) (cg2 : CodeGenerator)
    (h1 : ∀ v, Member.var v ∈ c.members → v.emit_loc.isSome = true)
    (h2 : ∀ chain, extendsChain heap fuel c = .ok chain →
      ∀ f ∈ c.fn_members, f.id.name ∈ fnNames (chainFns chain)) :
    Decl.Emit (heap.map Decl.PrefixForMember) fuel bodies (.cls c.PrefixForMember) cg =
        .ok (d2, cg2) ↔
      emitStep heap fuel bodies (.cls c) cg d2 cg2 := by
  simp only [Decl.Emit, ClassDecl.Emit, emitStep, extendsChain_prefixed]
  have hm : c.PrefixForMember.members = c.members.map (Member.PrefixForMember (.cls c)) := rfl
  rw [hm]
  constructor
  · intro h
    cases hmem : ClassDecl.EmitMembers bodies (.cls c.PrefixForMember)
        (c.members.map (Member.PrefixForMember (.cls c))) cg with
    | error e => simp [hmem] at h
    | ok p1 =>
      obtain ⟨members2, cgm⟩ := p1
      simp only [hmem] at h
      cases hch : extendsChain heap fuel c with
      | error e => simp [hch] at h
      | ok chain =>
        simp only [hch, Except.ok.injEq, Prod.mk.injEq] at h
        obtain ⟨rfl, rfl⟩ := h
        exact ⟨members2, cgm, chain, _, (EmitMembers_iff bodies c _ _ _ _ h1).mp hmem, rfl,
          slotLabels_exist chain c.fn_members (h2 chain hch), rfl, rfl⟩
  · rintro ⟨members2, cgm, chain, labels, hin, hch, hlab, rfl, rfl⟩
    have hmem := (EmitMembers_iff bodies c _ _ _ _ h1).mpr hin
    have hlabels := labels_of_slotLabels chain c.fn_members labels hlab
    have hfn : c.PrefixForMember.fn_members = c.fn_members := rfl
    simp only [hmem, hch, hfn, hlabels, CodeGenerator.GenVTable]
    rfl

theorem EmitAll_iff (heap : Heap) (fuel : Nat) (bodies : FnDecl → Option BodyEmit) :
    ∀ (l : List Decl) (cg : CodeGenerator) (outs : List Decl) (cg2 : CodeGenerator),
      (∀ v, Decl.var v ∈ l → v.emit_loc.isSome = true) →
      (∀ c, Decl.cls c ∈ l → ∀ v, Member.var v ∈ c.members → v.emit_loc.isSome = true) →
      (∀ c, Decl.cls c ∈ l → ∀ chain, extendsChain heap fuel c = .ok chain →
        ∀ f ∈ c.fn_members, f.id.name ∈ fnNames (chainFns chain)) →
      (Program.EmitAll (heap.map Decl.PrefixForMember) fuel bodies
          (l.map Decl.PrefixForMember) cg = .ok (outs, cg2) ↔
        inTurn (emitStep heap fuel bodies) l cg outs cg2) := by
  intro l
  induction l with
  | nil =>
    intro cg outs cg2 _ _ _
    simp only [List.map_nil, Program.EmitAll, Except.ok.injEq, Prod.mk.injEq, inTurn]
    constructor
    · rintro ⟨h1, h2⟩; exact ⟨h1.symm, h2.symm⟩
    · rintro ⟨h1, h2⟩; exact ⟨h1.symm, h2.symm⟩
  | cons d rest ih =>
    intro cg outs cg2 hv hc1 hc2
    have ih2 := fun cg outs cg2 => ih cg outs cg2
      (fun v hm => hv v (List.mem_cons_of_mem _ hm))
      (fun c hm => hc1 c (List.mem_cons_of_mem _ hm))
      (fun c hm => hc2 c (List.mem_cons_of_mem _ hm))
    have hstep : ∀ d2 cg1,
        Decl.Emit (heap.map Decl.PrefixForMember) fuel bodies d.PrefixForMember cg =
            .ok (d2, cg1) ↔ emitStep heap fuel bodies d cg d2 cg1 := by
      intro d2 cg1
      cases d with
      | var v =>
        simp only [Decl.PrefixForMember, Decl.Emit, emitStep]
        have hset := hv v (List.mem_cons_self _ _)
        constructor
        · intro h
          cases h1 : v.Emit cg with
          | error e => simp [h1] at h
          | ok p1 =>
            obtain ⟨v2, cg3⟩ := p1
            simp only [h1, Except.ok.injEq, Prod.mk.injEq] at h
            obtain ⟨rfl, rfl⟩ := h
            obtain ⟨hd, rfl, rfl⟩ := (VarDecl_Emit_set v v2 cg cg3 hset).mp h1
            exact ⟨hd, rfl, rfl⟩
        · rintro ⟨hd, rfl, rfl⟩
          simp only [(VarDecl_Emit_set v v cg1 cg1 hset).mpr ⟨hd, rfl, rfl⟩]
      | fn f =>
        simp only [Decl.PrefixForMember, Decl.Emit, emitStep]
        constructor
        · intro h
          cases h1 : (f.PrefixForMember none).Emit none (bodies (f.PrefixForMember none)) cg with
          | error e => simp [h1] at h
          | ok p1 =>
            obtain ⟨f2, cg3⟩ := p1
            simp only [h1, Except.ok.injEq, Prod.mk.injEq] at h
            obtain ⟨rfl, rfl⟩ := h
            exact ⟨f2, rfl, rfl⟩
        · rintro ⟨f2, h1, rfl⟩
          simp only [h1]
      | cls c =>
        exact ClassDecl_Emit_iff heap fuel bodies c cg d2 cg1
          (hc1 c (List.mem_cons_self _ _)) (hc2 c (List.mem_cons_self _ _))
      | iface i =>
        simp [Decl.PrefixForMember, Decl.Emit, emitStep]
    simp only [List.map_cons, Program.EmitAll, inTurn]
    constructor
    · intro h
      cases h1 : Decl.Emit (heap.map Decl.PrefixForMember) fuel bodies d.PrefixForMember cg with
      | error e => simp [h1] at h
      | ok p1 =>
        obtain ⟨d2, cg1⟩ := p1
        simp only [h1] at h
        cases h2 : Program.EmitAll (heap.map Decl.PrefixForMember) fuel bodies
            (rest.map Decl.PrefixForMember) cg1 with
        | error e => simp [h2] at h
        | ok p2 =>
          obtain ⟨rest2, cg3⟩ := p2
          simp only [h2, Except.ok.injEq, Prod.mk.injEq] at h
          obtain ⟨rfl, rfl⟩ := h
          exact ⟨d2, cg1, rest2, (hstep d2 cg1).mp h1, rfl, (ih2 _ _ _).mp h2⟩
    · rintro ⟨d2, cg1, outs1, hs, rfl, hin⟩
      simp only [(hstep d2 cg1).mpr hs, (ih2 _ _ _).mpr hin]

theorem Decl_OffsetAssign_iff (heap : Heap) (fuel : Nat) (d : Decl) (cg : CodeGenerator)
    (d1 : Decl) (cg1 : CodeGenerator) :
    d.OffsetAssign heap fuel cg = .ok (d1, cg1) ↔ layoutStep heap fuel d cg d1 cg1 := by
  cases d with
  | var v =>
    simp only [Decl.OffsetAssign, VarDecl.OffsetAssign, CodeGenerator.GetNextGlobal, VarSize,
      layoutStep, Except.ok.injEq, Prod.mk.injEq]
    constructor
    · rintro ⟨h1, h2⟩; exact ⟨h1.symm, h2.symm⟩
    · rintro ⟨h1, h2⟩; exact ⟨h1.symm, h2.symm⟩
  | cls c =>
    simp only [Decl.OffsetAssign, layoutStep]
    cases c.OffsetAssign heap fuel with
    | error e => simp
    | ok c1 =>
      simp only [Except.ok.injEq, Prod.mk.injEq, exists_eq_left']
      constructor
      · rintro ⟨h1, h2⟩; exact ⟨h1.symm, h2.symm⟩
      · rintro ⟨h1, h2⟩; exact ⟨h1.symm, h2.symm⟩
  | fn f =>
    simp only [Decl.OffsetAssign, layoutStep, Except.ok.injEq, Prod.mk.injEq]
    constructor
    · rintro ⟨h1, h2⟩; exact ⟨h1.symm, h2.symm⟩
    · rintro ⟨h1, h2⟩; exact ⟨h1.symm, h2.symm⟩
  | iface i =>
    simp only [Decl.OffsetAssign, layoutStep, Except.ok.injEq, Prod.mk.injEq]
    constructor
    · rintro ⟨h1, h2⟩; exact ⟨h1.symm, h2.symm⟩
    · rintro ⟨h1, h2⟩; exact ⟨h1.symm, h2.symm⟩

theorem offsetLoop_iff (fuel : Nat) :
    ∀ (todo done : List Decl) (cg : CodeGenerator) (X : List Decl) (cg2 : CodeGenerator),
      Program.offsetLoop fuel todo.length done.length (done ++ todo) cg = .ok (X, cg2) ↔
        ∃ outs, X = done ++ outs ∧ layoutInTurn fuel done todo cg outs cg2 := by
  intro todo
  induction todo with
  | nil =>
    intro done cg X cg2
    simp only [List.length_nil, Program.offsetLoop, List.append_nil, Except.ok.injEq,
      Prod.mk.injEq, layoutInTurn]
    constructor
    · rintro ⟨h1, h2⟩; exact ⟨[], by simp [h1], rfl, h2.symm⟩
    · rintro ⟨outs, h1, rfl, h2⟩; exact ⟨by simp [h1], h2.symm⟩
  | cons d rest ih =>
    intro done cg X cg2
    have hget : (done ++ d :: rest)[done.length]? = some d := by
      rw [List.getElem?_append_right (Nat.le_refl _)]
      simp
    have hset : ∀ d1, (done ++ d :: rest).set done.length d1 = (done ++ [d1]) ++ rest := by
      intro d1
      rw [List.set_append_right _ _ (Nat.le_refl _)]
      simp
    have hlen : ∀ d1 : Decl, done.length + 1 = (done ++ [d1]).length := by
      intro d1; simp
    simp only [List.length_cons, Program.offsetLoop, hget, layoutInTurn]
    constructor
    · intro h
      cases h1 : d.OffsetAssign (done ++ d :: rest) fuel cg with
      | error e => simp [h1] at h
      | ok p1 =>
        obtain ⟨d1, cg1⟩ := p1
        simp only [h1, hset d1] at h
        rw [hlen d1] at h
        obtain ⟨outs1, hX, hin⟩ := (ih (done ++ [d1]) cg1 X cg2).mp h
        exact ⟨d1 :: outs1, by rw [hX]; simp, d1, cg1, outs1,
          (Decl_OffsetAssign_iff _ _ _ _ _ _).mp h1, rfl, hin⟩
    · rintro ⟨outs, hX, d1, cg1, outs1, hs, rfl, hin⟩
      have h1 := (Decl_OffsetAssign_iff _ _ _ _ _ _).mpr hs
      simp only [h1, hset d1]
      rw [hlen d1]
      exact (ih (done ++ [d1]) cg1 X cg2).mpr ⟨outs1, by rw [hX]; simp, hin⟩

theorem vtableLoop_erase : ∀ (l : List FnDecl) (i : Nat) (f : FnDecl),
    (vtableLoop i l f).eraseLayout = f.eraseLayout := by
  intro l
  induction l with
  | nil => intro i f; rfl
  | cons g rest ih =>
    intro i f
    simp only [vtableLoop]
    split
    · rw [ih]; rfl
    · rw [ih]

theorem assignMembers_facts (fns : List FnDecl) : ∀ (ms : List Member) (temp : Int),
    (assignMembers fns ms temp).1.map Member.eraseLayout = ms.map Member.eraseLayout ∧
    ∀ v, Member.var v ∈ (assignMembers fns ms temp).1 → v.emit_loc.isSome = true := by
  intro ms
  induction ms with
  | nil => intro temp; exact ⟨rfl, fun v hv => by simp [assignMembers] at hv⟩
  | cons m rest ih =>
    intro temp
    obtain ⟨ih1, ih2⟩ := ih temp
    cases m with
    | var v =>
      simp only [assignMembers, List.map_cons, ih1, List.mem_cons, Member.var.injEq]
      refine ⟨by simp [Member.eraseLayout, VarDecl.eraseLayout, VarDecl.OffsetForMember], ?_⟩
      rintro w (rfl | hw)
      · rfl
      · exact ih2 w hw
    | fn f =>
      simp only [assignMembers, List.map_cons, ih1, List.mem_cons]
      refine ⟨by simp [Member.eraseLayout, vtableLoop_erase], ?_⟩
      rintro w (hw | hw)
      · cases hw
      · exact ih2 w hw
    | other id =>
      simp only [assignMembers, List.map_cons, ih1, List.mem_cons]
      refine ⟨by simp [Member.eraseLayout], ?_⟩
      rintro w (hw | hw)
      · cases hw
      · exact ih2 w hw

theorem OffsetAssign_facts (heap : Heap) (fuel : Nat) (c c1 : ClassDecl)
    (h : c.OffsetAssign heap fuel = .ok c1) :
    c1.eraseLayout = c.eraseLayout ∧
    (∀ v, Member.var v ∈ c1.members → v.emit_loc.isSome = true) := by
  unfold ClassDecl.OffsetAssign at h
  cases hcm : collectMembers heap fuel c [] [] with
  | error e => simp [hcm] at h
  | ok p =>
    obtain ⟨vars, fns⟩ := p
    simp only [hcm, Except.ok.injEq] at h
    subst h
    exact ⟨by simp [ClassDecl.eraseLayout, (assignMembers_facts _ c.members _).1],
      (assignMembers_facts _ c.members _).2⟩

theorem layoutStep_erase (heap : Heap) (fuel : Nat) (d : Decl) (cg : CodeGenerator) (d1 : Decl)
    (cg1 : CodeGenerator) (h : layoutStep heap fuel d cg d1 cg1) :
    d1.eraseLayout = d.eraseLayout := by
  cases d with
  | var v =>
    obtain ⟨rfl, _⟩ := h
    rfl
  | cls c =>
    obtain ⟨c1, hc, rfl, _⟩ := h
    simp only [Decl.eraseLayout, (OffsetAssign_facts heap fuel c c1 hc).1]
  | fn f => obtain ⟨rfl, _⟩ := h; rfl
  | iface i => obtain ⟨rfl, _⟩ := h; rfl

theorem layoutInTurn_erase (fuel : Nat) :
    ∀ (todo done : List Decl) (cg : CodeGenerator) (outs : List Decl) (cg2 : CodeGenerator),
      layoutInTurn fuel done todo cg outs cg2 →
      outs.map Decl.eraseLayout = todo.map Decl.eraseLayout := by
  intro todo
  induction todo with
  | nil =>
    intro done cg outs cg2 h
    obtain ⟨rfl, _⟩ := h
    rfl
  | cons d rest ih =>
    intro done cg outs cg2 h
    obtain ⟨d1, cg1, outs1, hs, rfl, hin⟩ := h
    simp only [List.map_cons, layoutStep_erase _ _ _ _ _ _ hs, ih _ _ _ _ hin]

theorem layoutInTurn_inv (fuel : Nat) :
    ∀ (todo done : List Decl) (cg : CodeGenerator) (outs : List Decl) (cg2 : CodeGenerator),
      layoutInTurn fuel done todo cg outs cg2 →
      (∀ v, Decl.var v ∈ outs → v.emit_loc.isSome = true) ∧
      (∀ c, Decl.cls c ∈ outs → ∀ v, Member.var v ∈ c.members → v.emit_loc.isSome = true) ∧
      (∀ c, Decl.cls c ∈ outs → ∀ chain, extendsChain (done ++ outs) fuel c = .ok chain →
        ∀ f ∈ c.fn_members, f.id.name ∈ fnNames (chainFns chain)) := by
  intro todo
  induction todo with
  | nil =>
    intro done cg outs cg2 h
    have ho : outs = [] := h.1
    subst ho
    refine ⟨?_, ?_, ?_⟩
    · intro v hv; cases hv
    · intro c hc; cases hc
    · intro c hc; cases hc
  | cons d rest ih =>
    intro done cg outs cg2 h
    obtain ⟨d1, cg1, outs1, hs, rfl, hin⟩ := h
    obtain ⟨ih1, ih2, ih3⟩ := ih (done ++ [d1]) cg1 outs1 cg2 hin
    have happ : done ++ d1 :: outs1 = (done ++ [d1]) ++ outs1 := by simp
    have hheap : (done ++ d1 :: outs1).map Decl.eraseLayout =
        (done ++ d :: rest).map Decl.eraseLayout := by
      simp only [List.map_append, List.map_cons, layoutStep_erase _ _ _ _ _ _ hs,
        layoutInTurn_erase fuel rest _ _ _ _ hin]
    refine ⟨?_, ?_, ?_⟩
    · intro v hv
      rcases List.mem_cons.mp hv with hv | hv
      · cases d with
        | var w =>
          obtain ⟨hd, _⟩ := hs
          rw [hd] at hv
          simp only [Decl.var.injEq] at hv
          subst hv
          rfl
        | cls c => obtain ⟨c1, _, hd, _⟩ := hs; rw [hd] at hv; cases hv
        | fn f => obtain ⟨hd, _⟩ := hs; rw [hd] at hv; cases hv
        | iface i => obtain ⟨hd, _⟩ := hs; rw [hd] at hv; cases hv
      · exact ih1 v hv
    · intro c hc
      rcases List.mem_cons.mp hc with hc | hc
      · cases d with
        | var w => obtain ⟨hd, _⟩ := hs; rw [hd] at hc; cases hc
        | cls c0 =>
          obtain ⟨c1, hoa, hd, _⟩ := hs
          rw [hd] at hc
          simp only [Decl.cls.injEq] at hc
          subst hc
          exact (OffsetAssign_facts _ _ _ _ hoa).2
        | fn f => obtain ⟨hd, _⟩ := hs; rw [hd] at hc; cases hc
        | iface i => obtain ⟨hd, _⟩ := hs; rw [hd] at hc; cases hc
      · exact ih2 c hc
    · intro c hc chain hch f hf
      rcases List.mem_cons.mp hc with hc | hc
      · cases d with
        | var w => obtain ⟨hd, _⟩ := hs; rw [hd] at hc; cases hc
        | cls c0 =>
          obtain ⟨c1, hoa, hd, _⟩ := hs
          rw [hd] at hc
          simp only [Decl.cls.injEq] at hc
          subst hc
          obtain ⟨chain0, hch0, hmap⟩ := extendsChain_erase _ _ hheap fuel c c0 chain
            (OffsetAssign_facts _ _ _ _ hoa).1 hch
          rw [OffsetAssign_eq _ fuel c0 chain0 hch0] at hoa
          simp only [Except.ok.injEq] at hoa
          subst hoa
          simp only at hf
          have hn : f.id.name ∈ fnNames (layoutFns (chainFns chain0)) := by
            simp only [fnNames, List.mem_map]
            exact ⟨f, hf, rfl⟩
          rw [mem_fnNames_layoutFns] at hn
          rw [(chain_erase_names chain chain0 hmap).1]
          exact hn
        | fn f0 => obtain ⟨hd, _⟩ := hs; rw [hd] at hc; cases hc
        | iface i => obtain ⟨hd, _⟩ := hs; rw [hd] at hc; cases hc
      · rw [happ] at hch
        exact ih3 c hc chain hch f hf

/-- C24. `Program::Emit` finds a main iff some top-level declaration is a
function named `main`.  If there is none, the call adds `NoMainFound` to the
reports and leaves the declarations and the code generator as they were.  If
there is one, the call returns a state exactly when the three loops go
through, and then: nothing is reported; every declaration has been laid out
in its turn, in the program as the layouts before it left it (a global
variable at the next global offset, a class by `OffsetAssign`); and after
that every declaration has been prefixed and emitted in its turn, each in the
generator the one before left (a function under `_f`, or `main`; the methods
of a class under `_C.m`, followed by the table of the class, which holds for
every entry of `fn_members` the label of the nearest class up the `extends`
chain that declares the method; a global variable emits nothing). -/
theorem Program_Emit_spec (bodies : FnDecl → Option BodyEmit) (fuel : Nat) (st : EmitState) :
    (Program.main_exists st.decls = true ↔
      ∃ f : FnDecl, Decl.fn f ∈ st.decls ∧ f.id.name = "main") ∧
    ((¬ ∃ f : FnDecl, Decl.fn f ∈ st.decls ∧ f.id.name = "main") →
      Program.Emit bodies fuel st =
        .ok { decls := st.decls, cg := st.cg, errs := st.errs ++ [.NoMainFound] }) ∧
    ((∃ f : FnDecl, Decl.fn f ∈ st.decls ∧ f.id.name = "main") →
      ∀ st2 : EmitState, Program.Emit bodies fuel st = .ok st2 ↔
        st2.errs = st.errs ∧
        ∃ (decls1 : List Decl) (cg1 : CodeGenerator),
          layoutInTurn fuel [] st.decls st.cg decls1 cg1 ∧
          inTurn (emitStep decls1 fuel bodies) decls1 cg1 st2.decls st2.cg) := by
  refine ⟨main_exists_iff st.decls, ?_, ?_⟩
  · intro h
    have hm : Program.main_exists st.decls = false := by
      cases hx : Program.main_exists st.decls with
      | false => rfl
      | true => exact absurd ((main_exists_iff st.decls).mp hx) h
    simp only [Program.Emit, hm, Bool.not_false, if_true]
  · intro h st2
    have hm : Program.main_exists st.decls = true := (main_exists_iff st.decls).mpr h
    have hloop := offsetLoop_iff fuel st.decls [] st.cg
    simp only [List.length_nil, List.nil_append] at hloop
    simp only [Program.Emit, hm, Bool.not_true, Bool.false_eq_true, if_false,
      Program.EmitPhases]
    constructor
    · intro h2
      cases h1 : Program.offsetLoop fuel st.decls.length 0 st.decls st.cg with
      | error e => simp [h1] at h2
      | ok r1 =>
        obtain ⟨decls1, cg1⟩ := r1
        simp only [h1] at h2
        obtain ⟨outs, hX, hlay⟩ := (hloop decls1 cg1).mp h1
        subst hX
        obtain ⟨i1, i2, i3⟩ := layoutInTurn_inv fuel st.decls [] st.cg decls1 cg1 hlay
        simp only [List.nil_append] at i3
        cases h3 : Program.EmitAll (decls1.map Decl.PrefixForMember) fuel bodies
            (decls1.map Decl.PrefixForMember) cg1 with
        | error e => simp [h3] at h2
        | ok r2 =>
          obtain ⟨decls2, cg2⟩ := r2
          simp only [h3, Except.ok.injEq] at h2
          subst h2
          exact ⟨rfl, decls1, cg1, hlay,
            (EmitAll_iff decls1 fuel bodies decls1 cg1 decls2 cg2 i1 i2 i3).mp h3⟩
    · rintro ⟨herrs, decls1, cg1, hlay, hemit⟩
      obtain ⟨i1, i2, i3⟩ := layoutInTurn_inv fuel st.decls [] st.cg decls1 cg1 hlay
      simp only [List.nil_append] at i3
      have h1 := (hloop decls1 cg1).mpr ⟨decls1, rfl, hlay⟩
      have h3 := (EmitAll_iff decls1 fuel bodies decls1 cg1 st2.decls st2.cg i1 i2 i3).mpr hemit
      simp only [h1, h3, Except.ok.injEq]
      cases st2
      simp only at herrs
      simp only [herrs]

/-- The program `int n; class P { int x; void f(int a); void g(int a); }
class Q extends P { void g(int b); void h(int b); } void main(); int k;`: the
globals are at offsets 0 and 4, the methods are emitted under the label of
their class, the table of `Q` names `_P.f` for the inherited method and
`_Q.g` for the overriding one; the program whose only `main` is a method of a
class is refused. -/
theorem Program_Emit_spec_witness :
    (∃ st2, Program.Emit (fun _ => none) 3 exProgramClasses = .ok st2 ∧
      st2.cg.code =
        [.Label "_P.f", .BeginFunc (some 0), .EndFunc,
         .Label "_P.g", .BeginFunc (some 0), .EndFunc,
         .VTable "P" ["_P.f", "_P.g"],
         .Label "_Q.g", .BeginFunc (some 0), .EndFunc,
         .Label "_Q.h", .BeginFunc (some 0), .EndFunc,
         .VTable "Q" ["_P.f", "_Q.g", "_Q.h"],
         .Label "main", .BeginFunc (some 0), .EndFunc] ∧
      st2.cg.globalLocation = 8 ∧
      st2.decls.head? = some (.var { exV "n" with emit_loc := some (.plain .gpRelative 0 "n") }) ∧
      st2.decls.getLast? =
        some (.var { exV "k" with emit_loc := some (.plain .gpRelative 4 "k") }) ∧
      st2.errs = [] ∧
      ∃ (decls1 : List Decl) (cg1 : CodeGenerator),
        layoutInTurn 3 [] exProgramClasses.decls exProgramClasses.cg decls1 cg1 ∧
        inTurn (emitStep decls1 3 (fun _ => none)) decls1 cg1 st2.decls st2.cg) ∧
    Program.Emit (fun _ => none) 1 exProgramNoMain =
      .ok { decls := exProgramNoMain.decls, cg := exProgramNoMain.cg, errs := [.NoMainFound] } :=
  ⟨⟨_, rfl, rfl, rfl, rfl, rfl,
      (((Program_Emit_spec (fun _ => none) 3 exProgramClasses).2.2
        ⟨exFnMain, by simp [exProgramClasses], rfl⟩ _).mp rfl)⟩,
    (Program_Emit_spec (fun _ => none) 1 exProgramNoMain).2.1 (by
      rintro ⟨f, hf, _⟩
      simp [exProgramNoMain] at hf)⟩

/-! ## Checks on declarations that name an undeclared type -/

/-- C19. On `interface I { void m(Foo a); void n(); }
class C extends P implements I { } class P { void m(Foo a) { } }`, where `Foo`
is not declared, the inheritance check of `C` does not return: the loop over
the members of `C` reports nothing, and in the loop over `implements` the
comparison of `I.m` with the `m` that `LookForField` finds in `P` stops on the
assertion of `NamedType::Equivalent`, before `n`, which no class defines, is
looked at, so `InterfaceNotImplemented(C, I)` is never reported.  On
`interface I { void m(Foo a); void n(); } class C implements I { void m(Foo a) { } }`
the check stops on the same assertion already in the loop over the members,
where `m` is compared with what `FindInterface` returns.  The tables are the
ones the declaration pass builds, with the scope of `C` entered.  For
contrast, on `interface I { void m(); } class C implements I { }` the check
returns with `InterfaceNotImplemented(C, I)` as its one report. -/
theorem CheckInherit_interface_unresolved :
    (Program.GenerateST 10 [.iface exIfaceFoo, .cls exImplInherited, .cls exBaseFoo]).map
        (fun r => (r.1.scopes, r.2)) = .ok (exTableInherited.scopes, []) ∧
    (∀ fuel : Nat, exTableInherited.LookForField (fuel + 1) "C" "m" = .ok (some (.fn exFnMFoo))) ∧
    (∀ fuel : Nat, exTableInherited.LookForField (fuel + 1) "C" "n" = .ok none) ∧
    (∀ fuel : Nat,
      CheckInherit.members exTableInherited (fuel + 1) exImplInherited.members [] = .ok []) ∧
    (∀ fuel : Nat,
      CheckInherit.interfaceEntry exTableInherited exHeapInherited (fuel + 1) exImplInherited
        exTypeI [] = .error .assertion) ∧
    (∀ fuel : Nat,
      exImplInherited.CheckInherit exTableInherited exHeapInherited (fuel + 1) [] =
        .error .assertion) ∧
    (Program.GenerateST 10 [.iface exIfaceFoo, .cls exImplOwn]).map
        (fun r => (r.1.scopes, r.2)) = .ok (exTableOwn.scopes, []) ∧
    CheckInherit.fnInterface exTableOwn exFnMFoo [] = .error .assertion ∧
    (∀ fuel : Nat, exImplOwn.CheckInherit exTableOwn exHeapOwn fuel [] = .error .assertion) ∧
    exImplC.CheckInherit exTableInC exHeapImpl 1 [] =
      .ok [.InterfaceNotImplemented (.cls exImplC) exTypeI] :=
  ⟨rfl, fun _ => rfl, fun fuel => by cases fuel <;> rfl, fun _ => rfl, fun _ => rfl,
    fun _ => rfl, rfl, rfl, fun fuel => by cases fuel <;> rfl, rfl⟩

/-- C21. On `Foo x; ... x == 1`, where `Foo` is not declared, the check of
the equality does not return.  The operand `x` gets as its type the type node
of the declaration, which is not `NULL` although it is not resolved, so the
equality does not skip the operand; `int` is not compatible with it, and the
test of the type of `x` against `int` stops on the assertion that opens
`NamedType::IsCompatibleWith`: no type is given to the expression and nothing
is reported.  The same holds for `1 == x`, where the first test already stops.
For contrast, an operand whose type is `NULL` is skipped: the type is `bool`
and nothing is reported. -/
theorem EqualityExpr_ConfirmType_unresolved :
    (∀ (st : STable) (fuel : Nat) (errs : List ErrorMsg),
      (FieldAccess.ConfirmType st exHeapFoo fuel none { name := "x", cache := some 0 } errs).map
        (fun r => (r.errs, r.type_of_expr)) = .ok (errs, some exTypeFoo)) ∧
    (∀ fuel : Nat, (Ty.builtin .intType).IsCompatibleWith exHeapFoo fuel exTypeFoo = .ok false) ∧
    (∀ fuel : Nat,
      exTypeFoo.IsCompatibleWith exHeapFoo fuel (Ty.builtin .intType) = .error .assertion) ∧
    (∀ (fuel : Nat) (errs : List ErrorMsg),
      EqualityExpr.ConfirmType exHeapFoo fuel "==" (some exTypeFoo) (some (Ty.builtin .intType))
        errs = .error .assertion) ∧
    (∀ (fuel : Nat) (errs : List ErrorMsg),
      EqualityExpr.ConfirmType exHeapFoo fuel "==" (some (Ty.builtin .intType)) (some exTypeFoo)
        errs = .error .assertion) ∧
    (∀ (fuel : Nat) (errs : List ErrorMsg),
      EqualityExpr.ConfirmType exHeapFoo fuel "==" none (some (Ty.builtin .intType)) errs =
        .ok (errs, some (Ty.builtin .boolType))) :=
  ⟨fun _ _ _ => rfl, fun _ => rfl, fun _ => rfl, fun _ _ => rfl, fun _ _ => rfl,
    fun _ _ => rfl⟩

/-- C22. On `void f(Foo a) { } ... f(1)`, where `Foo` is not declared, the
check of the arguments does not return.  The numbers of actuals and formals
agree; the type of the formal is the type node of its declaration, which is
not `NULL` although it is not resolved, so the position is not skipped, and
the test of it against `int` stops on the assertion that opens
`NamedType::IsCompatibleWith`: nothing is reported.  For contrast, the call
`f(1, 2)` returns with `NumArgsMismatch(f, 1, 2)` as its one report, and an
actual whose type is `NULL` is skipped. -/
theorem CheckFuncArgs_unresolved :
    (∀ (fuel : Nat) (errs : List ErrorMsg),
      Call.CheckFuncArgs exHeapFoo fuel { name := "f", cache := some 1 }
        [.IntConstant (some (Ty.builtin .intType)) 1] errs = .error .assertion) ∧
    (∀ (fuel : Nat) (errs : List ErrorMsg),
      Call.CheckFuncArgs exHeapFoo fuel { name := "f", cache := some 1 }
        [.IntConstant (some (Ty.builtin .intType)) 1,
          .IntConstant (some (Ty.builtin .intType)) 2] errs =
        .ok (errs ++ [.NumArgsMismatch { name := "f", cache := some 1 } 1 2])) ∧
    (∀ (fuel : Nat) (errs : List ErrorMsg),
      Call.CheckFuncArgs exHeapFoo fuel { name := "f", cache := some 1 }
        [.IntConstant none 1] errs = .ok errs) :=
  ⟨fun _ _ => rfl, fun _ _ => rfl, fun _ _ => rfl⟩

end P4
